import Mathlib

/-! # Kademlia routing table of libks (`ks_dht_bucket.c`)

A shallow embedding of the routing table in `src/libs/libks/src/dht/ks_dht_bucket.c`.

* Node ids and masks are byte strings, modelled as `List Nat` of length `idlen`.
* The trie of bucket headers is an owned tree; a pointer to a header is the path
  from the root (`false` = left, `true` = right), the parent pointer is the path
  without its last step.
* Node records live in an explicit memory `nodes`; a node pointer is an index,
  `none` is the NULL pointer, a freed cell is `none`.
* Calls are sequential.  A node's `reflock` and the lock of a bucket are modelled by
  their reader counts: a write lock is taken and released inside one call, a read
  lock of a bucket can outlive the query that took it.  The lock of the table
  (`internal->lock`) is not modelled.
* Undefined behaviour, failed assertions and calls that do not return (a wait for the
  write lock of a bucket on which a read lock is held) are the result `none`.
-/

namespace KsDht

/-! ## Constants -/

/-- Compile-time constants.  `KS_DHT_NODEID_SIZE`, `KS_DHTRT_MAXQUERYSIZE` and the
enum values come from `ks_dht.h`, which is not part of the sources at hand;
`KS_DHT_BUCKETSIZE` is marked "change for testing" in the source. -/
structure Params where
  /-- Value of `KS_DHT_NODEID_SIZE`. -/
  idlen : Nat
  /-- Value of `KS_DHT_BUCKETSIZE`. -/
  bucketsize : Nat
  /-- Value of `KS_DHTRT_MAXQUERYSIZE`. -/
  maxquery : Nat
  /-- Value of `ifboth` of `enum ks_afflags_t`. -/
  ifboth : Nat
  /-- Value of `AF_INET`. -/
  af_inet : Nat
  /-- Value of `AF_INET6`. -/
  af_inet6 : Nat
  /-- Value of `KS_DHT_LOCAL` of `enum ks_dht_nodetype_t`. -/
  dht_local : Nat
deriving DecidableEq

def KS_DHTRT_INACTIVETIME : Nat := 10 * 60
def KS_DHTRT_EXPIREDTIME : Nat := 15 * 60
def KS_DHTRT_MAXPING : Nat := 3
def KS_DHTRT_PROCESSTABLE_INTERVAL : Nat := 5 * 60
def KS_DHTRT_PROCESSTABLE_SHORTINTERVAL : Nat := 120
def KS_DHTRT_RECYCLE_NODE_THRESHOLD : Nat := 0

def DHTPEER_DUBIOUS : Nat := 0
def DHTPEER_EXPIRED : Nat := 1
def DHTPEER_ACTIVE : Nat := 2

def BHF_LEFT : Nat := 0x80

inductive ks_status_t where
  | KS_STATUS_SUCCESS
  | KS_STATUS_FAIL
deriving DecidableEq

open ks_status_t

/-! ## Bit-string utilities -/

/-- Sign of `memcmp(a, b, n)`: bytes beyond the end of a list read as `0`. -/
def memcmp : Nat → List Nat → List Nat → Int
  | 0, _, _ => 0
  | n + 1, a, b =>
    if a.headD 0 < b.headD 0 then -1
    else if b.headD 0 < a.headD 0 then 1
    else memcmp n a.tail b.tail

/-- Loop of `ks_dhtrt_shiftright`, the call with second argument `k + 1` is the
iteration `i = k`; `b0` is the bit carried from the byte to the right. -/
def shiftright_loop (n : Nat) : Nat → Nat → List Nat → List Nat
  | 0, _, id => id
  | k + 1, b0, id =>
    if id.getD k 0 = 0 then id
    else
      let b1 := id.getD k 0 &&& 0x01
      let id1 := id.set k (id.getD k 0 >>> 1)
      let id2 := if k ≠ n - 1 then id1.set (k + 1) ((id1.getD (k + 1) 0 ||| (b0 <<< 7)) % 256) else id1
      shiftright_loop n k b1 id2

def ks_dhtrt_shiftright (P : Params) (id : List Nat) : List Nat :=
  shiftright_loop P.idlen P.idlen 0 id

/-- Loop of `ks_dhtrt_shiftleft`, the call with first argument `k + 1` is the
iteration `i = k`. -/
def shiftleft_loop : Nat → List Nat → List Nat
  | 0, id => id
  | k + 1, id =>
    if id.getD k 0 = 0xff then shiftleft_loop k id
    else id.set k (((id.getD k 0 <<< 1) % 256) ||| 0x01)

def ks_dhtrt_shiftleft (P : Params) (id : List Nat) : List Nat :=
  shiftleft_loop P.idlen id

/-- The function `ks_dhtrt_xor`: the first write of `0` is overwritten at once. -/
def ks_dhtrt_xor (P : Params) (id1 id2 : List Nat) : List Nat :=
  (List.range P.idlen).map (fun i => id1.getD i 0 ^^^ id2.getD i 0)

/-- Loop of `ks_dhtrt_ismasked` over the remaining `n` bytes. -/
def ismasked_loop : Nat → List Nat → List Nat → Bool
  | 0, _, _ => true
  | n + 1, id, mask =>
    if mask.headD 0 = 0 ∧ id.headD 0 ≠ 0 then false
    else if mask.headD 0 = 0xff then true
    else if mask.headD 0 < id.headD 0 then false
    else ismasked_loop n id.tail mask.tail

def ks_dhtrt_ismasked (P : Params) (id mask : List Nat) : Bool :=
  ismasked_loop P.idlen id mask

/-- The function `ks_dhtrt_isactive` ("todo" in the source): always `1`. -/
def ks_dhtrt_isactive : Nat := 1

/-! ## Data model -/

/-- Node record `ks_dht_node_t` (declared in `ks_dht.h`): the fields the routing
table reads or writes.  `reflock` is the number of read locks held. -/
structure ks_dht_node_t where
  nodeid : List Nat
  type : Nat
  family : Nat
  host : List Char
  port : Nat
  reflock : Nat
deriving DecidableEq

structure ks_dhtrt_bucket_entry_t where
  tyme : Nat
  id : List Nat
  gptr : Option Nat
  type : Nat
  family : Nat
  inuse : Nat
  outstanding_pings : Nat
  flags : Nat
  touched : Nat
deriving DecidableEq

/-- Bucket `ks_dhtrt_bucket_t`.  `lock` is the number of read locks held on `bucket->lock`
(`ks_rwl_t`): a write lock is taken and released inside one call, so between two calls
only the read locks count.  While it is not 0, `ks_rwl_write_lock` on it does not return
and `ks_rwl_try_write_lock` fails. -/
structure ks_dhtrt_bucket_t where
  entries : List ks_dhtrt_bucket_entry_t
  count : Nat
  expired_count : Nat
  lock : Nat
deriving DecidableEq

/-- Pointer to a bucket header: the path from the root of the trie. -/
abbrev HPtr := List Bool

/-- Bucket header `ks_dhtrt_bucket_header_t`; `null` is the NULL pointer.  The
`parent` pointer is implicit in the path, the field `tyme` is never used. -/
inductive ks_dhtrt_bucket_header_t where
  | null : ks_dhtrt_bucket_header_t
  | hdr (mask : List Nat) (flags : Nat) (bucket : Option ks_dhtrt_bucket_t)
      (left right : ks_dhtrt_bucket_header_t) (left1bit right1bit : Option HPtr) :
      ks_dhtrt_bucket_header_t
deriving DecidableEq

abbrev Header := ks_dhtrt_bucket_header_t

/-- Routing table: `ks_dhtrt_internal_t` together with the memory of node records. -/
structure ks_dhtrt_internal_t where
  localid : List Nat
  buckets : Header
  last_process_table : Nat
  next_process_table_delta : Nat
  deleted_node : List Nat
  free_node_ex : Nat
  deleted_count : Nat
  nodes : List (Option ks_dht_node_t)
deriving DecidableEq

abbrev Table := ks_dhtrt_internal_t

structure ks_dhtrt_xort_t where
  ix : Nat
  xor : List Nat
  nextix : Nat
deriving DecidableEq

structure ks_dhtrt_sortedxors_t where
  bheader : HPtr
  xort : List ks_dhtrt_xort_t
  hixor : List Nat
  startix : Nat
  count : Nat
deriving DecidableEq

/-- Query `ks_dhtrt_querynodes_t` (declared in `ks_dht.h`). -/
structure ks_dhtrt_querynodes_t where
  nodeid : List Nat
  family : Nat
  type : Nat
  max : Nat
  count : Nat
  nodes : List (Option Nat)
deriving DecidableEq

/-! ## Headers and paths -/

namespace ks_dhtrt_bucket_header_t

def isNull : Header → Bool
  | null => true
  | hdr _ _ _ _ _ _ _ => false

def mask : Header → List Nat
  | null => []
  | hdr m _ _ _ _ _ _ => m

def flags : Header → Nat
  | null => 0
  | hdr _ f _ _ _ _ _ => f

def bucket : Header → Option ks_dhtrt_bucket_t
  | null => none
  | hdr _ _ b _ _ _ _ => b

def left : Header → Header
  | null => null
  | hdr _ _ _ l _ _ _ => l

def right : Header → Header
  | null => null
  | hdr _ _ _ _ r _ _ => r

def left1bit : Header → Option HPtr
  | null => none
  | hdr _ _ _ _ _ l1 _ => l1

def right1bit : Header → Option HPtr
  | null => none
  | hdr _ _ _ _ _ _ r1 => r1

end ks_dhtrt_bucket_header_t

/-- Header a pointer points to; a path that leaves the tree is the NULL pointer. -/
def deref : Header → HPtr → Header
  | h, [] => h
  | .null, _ :: _ => .null
  | .hdr _ _ _ l r _ _, d :: p => if d then deref r p else deref l p

/-- Store through a pointer: the header at path `p` becomes `h'`. -/
def setAt (h' : Header) : Header → HPtr → Header
  | _, [] => h'
  | .null, _ :: _ => .null
  | .hdr m f b l r l1 r1, d :: p =>
    if d then .hdr m f b l (setAt h' r p) l1 r1 else .hdr m f b (setAt h' l p) r l1 r1

/-- Memory returned by `ks_pool_alloc` is zeroed. -/
def zero_entry (P : Params) : ks_dhtrt_bucket_entry_t :=
  { tyme := 0, id := List.replicate P.idlen 0, gptr := none, type := 0, family := 0,
    inuse := 0, outstanding_pings := 0, flags := 0, touched := 0 }

def ks_dhtrt_create_bucket (P : Params) : ks_dhtrt_bucket_t :=
  { entries := List.replicate P.bucketsize (zero_entry P), count := 0, expired_count := 0, lock := 0 }

def ks_dhtrt_create_bucketheader (mask : List Nat) : Header :=
  .hdr mask 0 none .null .null none none

/-- The function `ks_dhtrt_find_relatedbucketheader`: the descent from `header`, the
result is the path below `header`. -/
def ks_dhtrt_find_relatedbucketheader (P : Params) : Header → List Nat → Option HPtr
  | .null, _ => none
  | .hdr _ _ b l r _ _, id =>
    if b.isSome then some []
    else if !l.isNull && ks_dhtrt_ismasked P id l.mask then
      (ks_dhtrt_find_relatedbucketheader P l id).map (fun p => false :: p)
    else
      (ks_dhtrt_find_relatedbucketheader P r id).map (fun p => true :: p)

/-- The function `ks_dhtrt_find_bucketheader`: the same descent from the root. -/
def ks_dhtrt_find_bucketheader (P : Params) (root : Header) (id : List Nat) : Option HPtr :=
  ks_dhtrt_find_relatedbucketheader P root id

/-! ## Buckets -/

/-- Loop shared by `ks_dhtrt_find_bucketentry`, `ks_dhtrt_find_nodeid` and
`ks_dhtrt_delete_id`: index of the first slot in use that holds `id`. -/
def find_entry_loop (P : Params) (id : List Nat) : List ks_dhtrt_bucket_entry_t → Nat → Option Nat
  | [], _ => none
  | e :: es, ix =>
    if e.inuse = 1 ∧ memcmp P.idlen id e.id = 0 then some ix
    else find_entry_loop P id es (ix + 1)

def ks_dhtrt_find_bucketentry (P : Params) (header : Header) (id : List Nat) : Option Nat :=
  match header.bucket with
  | none => none
  | some b => find_entry_loop P id b.entries 0

def ks_dhtrt_find_nodeid (P : Params) (bucket : ks_dhtrt_bucket_t) (id : List Nat) : Option Nat :=
  match find_entry_loop P id bucket.entries 0 with
  | none => none
  | some ix => (bucket.entries.getD ix (zero_entry P)).gptr

def ks_dhtrt_delete_id (P : Params) (bucket : ks_dhtrt_bucket_t) (id : List Nat) :
    ks_status_t × ks_dhtrt_bucket_t :=
  match find_entry_loop P id bucket.entries 0 with
  | none => (KS_STATUS_FAIL, bucket)
  | some ix =>
    let e := bucket.entries.getD ix (zero_entry P)
    (KS_STATUS_SUCCESS,
      { bucket with
        entries := bucket.entries.set ix { e with inuse := 0, gptr := none, flags := 0 }
        count := (bucket.count + 255) % 256 })

/-- First loop of `ks_dhtrt_insert_id`: `Sum.inl ix` is the early return on a
duplicate at `ix`, `Sum.inr (free, expiredix)` the values after the loop. -/
def insert_id_scan (P : Params) (id : List Nat) :
    List ks_dhtrt_bucket_entry_t → Nat → Nat → Nat → Sum Nat (Nat × Nat)
  | [], _, free, expiredix => .inr (free, expiredix)
  | e :: es, ix, free, expiredix =>
    if e.inuse = 0 then
      insert_id_scan P id es (ix + 1) (if free = P.bucketsize then ix else free) expiredix
    else if free = P.bucketsize ∧ e.flags = DHTPEER_EXPIRED then
      insert_id_scan P id es (ix + 1) free ix
    else if memcmp P.idlen e.id id = 0 then .inl ix
    else insert_id_scan P id es (ix + 1) free expiredix

/-- The function `ks_dhtrt_insert_id`; `none` is the failed sanity assertion. -/
def ks_dhtrt_insert_id (P : Params) (now : Nat) (bucket : ks_dhtrt_bucket_t)
    (nptr : Nat) (node : ks_dht_node_t) : Option (ks_status_t × ks_dhtrt_bucket_t) :=
  if P.bucketsize < bucket.count then none
  else
    match insert_id_scan P node.nodeid bucket.entries 0 P.bucketsize P.bucketsize with
    | .inl ix =>
      let e := bucket.entries.getD ix (zero_entry P)
      some (KS_STATUS_SUCCESS, { bucket with entries := bucket.entries.set ix { e with tyme := now } })
    | .inr (free0, expiredix) =>
      let bump := decide (free0 = P.bucketsize ∧ expiredix < P.bucketsize)
      let free := if bump then expiredix else free0
      let expired_count := if bump then (bucket.expired_count + 255) % 256 else bucket.expired_count
      if free < P.bucketsize then
        let e := bucket.entries.getD free (zero_entry P)
        let e1 := { e with inuse := 1, gptr := some nptr, type := node.type, family := node.family,
                           tyme := now, flags := DHTPEER_DUBIOUS, id := node.nodeid }
        some (KS_STATUS_SUCCESS,
          { bucket with
            entries := bucket.entries.set free e1
            count := if free ≠ expiredix then (bucket.count + 1) % 256 else bucket.count
            expired_count := expired_count })
      else some (KS_STATUS_FAIL, { bucket with expired_count := expired_count })

/-- Loop of `ks_dhtrt_split_bucket` over the source slots from index `rix` on (the
list holds the slots not yet visited): returns the visited source slots, the
source count and the destination bucket. -/
def split_loop (P : Params) (leftmask : List Nat) :
    List ks_dhtrt_bucket_entry_t → Nat → Nat → ks_dhtrt_bucket_t →
      List ks_dhtrt_bucket_entry_t × Nat × ks_dhtrt_bucket_t
  | [], _, srccount, dest => ([], srccount, dest)
  | e :: es, lix, srccount, dest =>
    if ks_dhtrt_ismasked P e.id leftmask then
      let d := dest.entries.getD lix (zero_entry P)
      let d1 := { d with id := e.id, gptr := e.gptr, family := e.family, type := e.type, inuse := 1 }
      let dest1 := { dest with entries := dest.entries.set lix d1, count := (dest.count + 1) % 256 }
      let r := split_loop P leftmask es (lix + 1) ((srccount + 255) % 256) dest1
      ({ e with inuse := 0 } :: r.1, r.2.1, r.2.2)
    else
      let r := split_loop P leftmask es lix srccount dest
      (e :: r.1, r.2.1, r.2.2)

/-- The function `ks_dhtrt_split_bucket`: the result is the header `original` after
the call, with `left` and `right` attached; `none` is a NULL dereference. -/
def ks_dhtrt_split_bucket (P : Params) (original left right : Header) : Option Header :=
  match original, left, right with
  | .hdr m f (some source) _ _ l1 r1, .hdr lm lf (some dest) ll lr ll1 lr1, .hdr rm rf _ rl rr rl1 rr1 =>
    let r := split_loop P lm source.entries 0 source.count dest
    let source1 := { source with entries := r.1, count := r.2.1 }
    some (.hdr m f none (.hdr lm lf (some r.2.2) ll lr ll1 lr1) (.hdr rm rf (some source1) rl rr rl1 rr1) l1 r1)
  | _, _, _ => none

/-! ## Insertion -/

/-- Loop of `ks_dhtrt_insert_node` (with the final `ks_dhtrt_insert_id`), run on
the header the descent found: the result is the status and that header after
the call.  The first argument bounds the number of splits: the source asserts
`insanity < 3200` once `insanity > 3200`; `none` is the failed assertion. -/
def insert_node_loop (P : Params) (now : Nat) (nptr : Nat) (node : ks_dht_node_t) :
    Nat → Header → Option (ks_status_t × Header)
  | _, .null => none
  | _, .hdr mask flags none left right l1 r1 =>
    some (KS_STATUS_FAIL, .hdr mask flags none left right l1 r1)
  | fuel, .hdr mask flags (some bucket) left right l1 r1 =>
    if bucket.count = P.bucketsize then
      match fuel with
      | 0 => none
      | fuel + 1 =>
        -- first - seek a stale entry to eject
        match (if bucket.expired_count ≠ 0 then ks_dhtrt_insert_id P now bucket nptr node
               else some (KS_STATUS_FAIL, bucket)) with
        | none => none
        | some (KS_STATUS_SUCCESS, b1) => some (KS_STATUS_SUCCESS, .hdr mask flags (some b1) left right l1 r1)
        | some (KS_STATUS_FAIL, b1) =>
          let header := ks_dhtrt_bucket_header_t.hdr mask flags (some b1) left right l1 r1
          if flags &&& BHF_LEFT = 0 then some (KS_STATUS_FAIL, header)
          else if mask.getD (P.idlen - 1) 0 = 0 then some (KS_STATUS_FAIL, header)
          else
            let newmask := ks_dhtrt_shiftright P mask
            let newleft := ks_dhtrt_bucket_header_t.hdr newmask BHF_LEFT (some (ks_dhtrt_create_bucket P)) .null .null none none
            let newright := ks_dhtrt_create_bucketheader mask
            match ks_dhtrt_split_bucket P header newleft newright with
            | some (.hdr m f b nl nr c1 c2) =>
              if ks_dhtrt_ismasked P node.nodeid nl.mask then
                match insert_node_loop P now nptr node fuel nl with
                | none => none
                | some (s, nl1) => some (s, .hdr m f b nl1 nr c1 c2)
              else
                match insert_node_loop P now nptr node fuel nr with
                | none => none
                | some (s, nr1) => some (s, .hdr m f b nl nr1 c1 c2)
            | _ => none
    else
      match ks_dhtrt_insert_id P now bucket nptr node with
      | none => none
      | some (s, b1) => some (s, .hdr mask flags (some b1) left right l1 r1)

/-- The call `ks_rwl_write_lock` on the lock of the bucket of the header the descent for `id`
ends at does not return, because a read lock is held on that bucket.  There is nothing
to lock when the descent finds no header or a header without a bucket. -/
def write_blocked (P : Params) (root : Header) (id : List Nat) : Bool :=
  match ks_dhtrt_find_bucketheader P root id with
  | none => false
  | some p =>
    match (deref root p).bucket with
    | none => false
    | some b => decide (b.lock ≠ 0)

/-- What `ks_dhtrt_insert_node` does on the trie once `ks_rwl_write_lock(bucket->lock)` has
returned (and when the header has no bucket to lock): the descent, the loop, the
store.  In the loop the lock of a new left bucket is free, and the old bucket stays
locked by the call, so no lock there can make it wait. -/
def insert_node_locked (P : Params) (now : Nat) (root : Header) (nptr : Nat)
    (node : ks_dht_node_t) : Option (ks_status_t × Header) :=
  match ks_dhtrt_find_bucketheader P root node.nodeid with
  | none => none
  | some p =>
    match insert_node_loop P now nptr node 3201 (deref root p) with
    | none => none
    | some (s, h1) => some (s, setAt h1 root p)

/-- The function `ks_dhtrt_insert_node` on the trie.  `none` also when the call does not
return: `ks_rwl_write_lock(bucket->lock)` before the loop waits for a read lock that is
held on the bucket. -/
def ks_dhtrt_insert_node (P : Params) (now : Nat) (root : Header) (nptr : Nat)
    (node : ks_dht_node_t) : Option (ks_status_t × Header) :=
  if write_blocked P root node.nodeid then none else insert_node_locked P now root nptr node

/-! ## Node memory -/

def node_at (t : Table) (n : Nat) : Option ks_dht_node_t :=
  t.nodes.getD n none

def set_node (t : Table) (n : Nat) (v : Option ks_dht_node_t) : Table :=
  { t with nodes := t.nodes.set n v }

def zero_node (P : Params) : ks_dht_node_t :=
  { nodeid := List.replicate P.idlen 0, type := 0, family := 0, host := [], port := 0, reflock := 0 }

/-- Read lock on `node->reflock`; `none` when the record is not allocated. -/
def ks_rwl_read_lock (t : Table) (n : Nat) : Option Table :=
  match node_at t n with
  | none => none
  | some r => some (set_node t n (some { r with reflock := r.reflock + 1 }))

/-- Read unlock on `node->reflock`; `none` when the record is not allocated. -/
def ks_rwl_read_unlock (t : Table) (n : Nat) : Option Table :=
  match node_at t n with
  | none => none
  | some r => some (set_node t n (some { r with reflock := r.reflock - 1 }))

def ks_dhtrt_queue_node_fordelete (t : Table) (n : Nat) : Table :=
  { t with
    free_node_ex := t.free_node_ex - 1
    deleted_node := n :: t.deleted_node
    deleted_count := (t.deleted_count + 1) % 2 ^ 32 }

/-- The function `ks_dhtrt_make_node`: a record taken from the queue of deleted nodes
is wiped and handed out, otherwise a new zeroed record is allocated. -/
def ks_dhtrt_make_node (P : Params) (t : Table) : Option (Nat × Table) :=
  if t.deleted_count ≠ 0 then
    match t.deleted_node with
    | [] => none
    | n :: rest =>
      match node_at t n with
      | none => none
      | some _ =>
        some (n, { set_node t n (some (zero_node P)) with
                   deleted_node := rest
                   deleted_count := t.deleted_count - 1 })
  else
    some (t.nodes.length, { t with nodes := t.nodes ++ [some (zero_node P)] })

/-- Family found by the scan of the first five characters of `ip` in
`ks_dhtrt_create_node`; `0` when the record keeps its zeroed family. -/
def ip_family_loop (P : Params) : List Char → Nat
  | [] => 0
  | c :: cs => if c = ':' then P.af_inet6 else if c = '.' then P.af_inet else ip_family_loop P cs

def ip_family (P : Params) (ip : List Char) : Nat :=
  ip_family_loop P (ip.take 5)

/-! ## Public operations -/

def ks_dhtrt_initroute (P : Params) : Table :=
  { localid := List.replicate P.idlen 0
    buckets := .hdr (List.replicate P.idlen 0xff) BHF_LEFT (some (ks_dhtrt_create_bucket P)) .null .null none none
    last_process_table := 0
    next_process_table_delta := KS_DHTRT_PROCESSTABLE_INTERVAL
    deleted_node := []
    free_node_ex := 0
    deleted_count := 0
    nodes := [] }

/-- Replace the bucket of a header. -/
def set_bucket (b : ks_dhtrt_bucket_t) : Header → Header
  | .null => .null
  | .hdr m f _ l r l1 r1 => .hdr m f (some b) l r l1 r1

/-- The record `tnode` as `ks_dhtrt_create_node` fills it before the insertion: family
from the scan of `ip`, id, type, address, and a new `reflock` without readers. -/
def new_node_record (P : Params) (t1 : Table) (tnode : Nat) (nodeid : List Nat) (type : Nat)
    (ip : List Char) (port : Nat) : ks_dht_node_t :=
  { (node_at t1 tnode).getD (zero_node P) with
    family := if ip_family P ip = 0 then ((node_at t1 tnode).getD (zero_node P)).family
              else ip_family P ip
    nodeid := nodeid, type := type, host := ip, port := port, reflock := 0 }

/-- The function `ks_dhtrt_create_node`.  `now` is `ks_time_now_sec()`, `addr_ok` tells
whether `ks_addr_set` and `ks_rwl_create` succeed.  The result is the status,
the pointer stored in `*node` (`none` when nothing is stored) and the table. -/
def ks_dhtrt_create_node (P : Params) (now : Nat) (addr_ok : Bool) (t : Table)
    (nodeid : List Nat) (type : Nat) (ip : List Char) (port : Nat) :
    Option (ks_status_t × Option Nat × Table) :=
  match ks_dhtrt_find_bucketheader P t.buckets nodeid with
  | none => none
  | some p =>
    let header := deref t.buckets p
    match ks_dhtrt_find_bucketentry P header nodeid, header.bucket with
    | some ix, some b =>
      let e := b.entries.getD ix (zero_entry P)
      let e1 := { e with tyme := now, flags := if e.touched ≠ 0 then DHTPEER_ACTIVE else e.flags }
      let t1 := { t with buckets := setAt (set_bucket { b with entries := b.entries.set ix e1 } header) t.buckets p }
      match e.gptr with
      | none => none
      | some tnode =>
        match ks_rwl_read_lock t1 tnode with
        | none => none
        | some t2 => some (KS_STATUS_SUCCESS, some tnode, t2)
    | _, _ =>
      match ks_dhtrt_make_node P t with
      | none => none
      | some (tnode, t1) =>
        if !addr_ok then
          some (KS_STATUS_FAIL, none, set_node t1 tnode none)
        else
          let rec2 := new_node_record P t1 tnode nodeid type ip port
          let t2 := set_node t1 tnode (some rec2)
          match ks_dhtrt_insert_node P now t2.buckets tnode rec2 with
          | none => none
          | some (KS_STATUS_SUCCESS, root) =>
            (ks_rwl_read_lock { t2 with buckets := root } tnode).map
              (fun t3 => (KS_STATUS_SUCCESS, some tnode, t3))
          | some (KS_STATUS_FAIL, root) => some (KS_STATUS_FAIL, some tnode, { t2 with buckets := root })

/-- What `ks_dhtrt_delete_node` does once `ks_rwl_write_lock(bucket->lock)` has returned (and
when there is no bucket to lock); `none` when `node` is not an allocated record. -/
def delete_node_locked (P : Params) (t : Table) (node : Nat) : Option (ks_status_t × Table) :=
  match node_at t node with
  | none => none
  | some r =>
    match ks_dhtrt_find_bucketheader P t.buckets r.nodeid with
    | none => some (KS_STATUS_FAIL, ks_dhtrt_queue_node_fordelete t node)
    | some p =>
      match (deref t.buckets p).bucket with
      | none => some (KS_STATUS_FAIL, ks_dhtrt_queue_node_fordelete t node)
      | some b =>
        let r1 := ks_dhtrt_delete_id P b r.nodeid
        some (r1.1, ks_dhtrt_queue_node_fordelete
          { t with buckets := setAt (set_bucket r1.2 (deref t.buckets p)) t.buckets p } node)

/-- The function `ks_dhtrt_delete_node`; `none` when `node` is not an allocated record, and
when the call does not return: `ks_rwl_write_lock(bucket->lock)` waits for a read lock
that is held on the bucket. -/
def ks_dhtrt_delete_node (P : Params) (t : Table) (node : Nat) : Option (ks_status_t × Table) :=
  match node_at t node with
  | none => none
  | some r => if write_blocked P t.buckets r.nodeid then none else delete_node_locked P t node

/-- The function `ks_dhtrt_find_node`: the node found (`none` is NULL) and the table
(the node's read lock count changes).  The read lock it takes on the bucket is
released before it returns, and a read lock never waits for another read lock. -/
def ks_dhtrt_find_node (P : Params) (t : Table) (nodeid : List Nat) : Option (Option Nat × Table) :=
  match ks_dhtrt_find_bucketheader P t.buckets nodeid with
  | none => some (none, t)
  | some p =>
    match (deref t.buckets p).bucket with
    | none => some (none, t)
    | some b =>
      match ks_dhtrt_find_nodeid P b nodeid with
      | none => some (none, t)
      | some n => (ks_rwl_read_lock t n).map (fun t1 => (some n, t1))

/-- What `ks_dhtrt_touch_node` does once `ks_rwl_write_lock(header->bucket->lock)` has returned
(and when there is no bucket to lock). -/
def touch_node_locked (P : Params) (now : Nat) (t : Table) (nodeid : List Nat) : ks_status_t × Table :=
  match ks_dhtrt_find_bucketheader P t.buckets nodeid with
  | none => (KS_STATUS_FAIL, t)
  | some p =>
    let header := deref t.buckets p
    match header.bucket, ks_dhtrt_find_bucketentry P header nodeid with
    | some b, some ix =>
      let e := b.entries.getD ix (zero_entry P)
      let e1 := { e with tyme := now, outstanding_pings := 0, touched := 1, flags := DHTPEER_ACTIVE }
      let b1 := { b with
        entries := b.entries.set ix e1
        expired_count := if e.flags = DHTPEER_EXPIRED then (b.expired_count + 255) % 256 else b.expired_count }
      (KS_STATUS_SUCCESS, { t with buckets := setAt (set_bucket b1 header) t.buckets p })
    | _, _ => (KS_STATUS_FAIL, t)

/-- The function `ks_dhtrt_touch_node`; `none` when the call does not return:
`ks_rwl_write_lock(header->bucket->lock)` waits for a read lock that is held on the
bucket. -/
def ks_dhtrt_touch_node (P : Params) (now : Nat) (t : Table) (nodeid : List Nat) :
    Option (ks_status_t × Table) :=
  if write_blocked P t.buckets nodeid then none else some (touch_node_locked P now t nodeid)

/-- What `ks_dhtrt_expire_node` does once `ks_rwl_write_lock(header->bucket->lock)` has returned
(and when there is no bucket to lock). -/
def expire_node_locked (P : Params) (t : Table) (nodeid : List Nat) : ks_status_t × Table :=
  match ks_dhtrt_find_bucketheader P t.buckets nodeid with
  | none => (KS_STATUS_FAIL, t)
  | some p =>
    let header := deref t.buckets p
    match header.bucket, ks_dhtrt_find_bucketentry P header nodeid with
    | some b, some ix =>
      let e := b.entries.getD ix (zero_entry P)
      let b1 := { b with entries := b.entries.set ix { e with flags := DHTPEER_EXPIRED } }
      (KS_STATUS_SUCCESS, { t with buckets := setAt (set_bucket b1 header) t.buckets p })
    | _, _ => (KS_STATUS_FAIL, t)

/-- The function `ks_dhtrt_expire_node`; `none` when the call does not return:
`ks_rwl_write_lock(header->bucket->lock)` waits for a read lock that is held on the
bucket. -/
def ks_dhtrt_expire_node (P : Params) (t : Table) (nodeid : List Nat) :
    Option (ks_status_t × Table) :=
  if write_blocked P t.buckets nodeid then none else some (expire_node_locked P t nodeid)

def ks_dhtrt_release_node (t : Table) (node : Nat) : Option Table :=
  ks_rwl_read_unlock t node

def ks_dhtrt_sharelock_node (t : Table) (node : Nat) : Option Table :=
  ks_rwl_read_lock t node

/-! ## Closest-node query -/

def zero_xort (P : Params) : ks_dhtrt_xort_t :=
  { ix := 0, xor := List.replicate P.idlen 0, nextix := 0 }

/-- A `ks_dhtrt_sortedxors_t` after `memset(.., 0, ..)` or a zeroed allocation. -/
def zero_sortedxors (P : Params) : ks_dhtrt_sortedxors_t :=
  { bheader := [], xort := List.replicate P.bucketsize (zero_xort P),
    hixor := List.replicate P.idlen 0, startix := 0, count := 0 }

/-- Inner loop of `ks_dhtrt_findclosest_bucketnodes` (the walk along the chain): the
first argument is the number of iterations left, the result is `(xorix, prev_xorix)`. -/
def xort_walk (P : Params) (xorvalue : List Nat) (xort : List ks_dhtrt_xort_t) :
    Nat → Nat → Nat → Nat × Nat
  | 0, xorix, prev_xorix => (xorix, prev_xorix)
  | n + 1, xorix, prev_xorix =>
    if 0 < memcmp P.idlen xorvalue (xort.getD xorix (zero_xort P)).xor then (xorix, prev_xorix)
    else xort_walk P xorvalue xort n (xort.getD xorix (zero_xort P)).nextix xorix

/-- Outer loop of `ks_dhtrt_findclosest_bucketnodes` over the slots from index `ix`
on: returns `count` and the chain. -/
def closest_bucket_loop (P : Params) (id : List Nat) (type family : Nat) (hixor : List Nat)
    (max : Nat) : List ks_dhtrt_bucket_entry_t → Nat → Nat → ks_dhtrt_sortedxors_t →
      Nat × ks_dhtrt_sortedxors_t
  | [], _, count, xors => (count, xors)
  | e :: es, ix, count, xors =>
    if e.inuse = 1 ∧ e.flags = DHTPEER_ACTIVE ∧ (family = P.ifboth ∨ e.family = family) ∧
        e.type &&& type ≠ 0 ∧ ks_dhtrt_isactive ≠ 0 then
      let xorvalue := ks_dhtrt_xor P e.id id
      if count < max ∨ memcmp P.idlen xorvalue hixor < 0 then
        let w := xort_walk P xorvalue xors.xort count xors.startix P.bucketsize
        let xort1 := xors.xort.set count { ix := ix, xor := xorvalue, nextix := w.1 }
        let xors1 :=
          if w.2 < P.bucketsize then
            { xors with xort := xort1.set w.2 { xort1.getD w.2 (zero_xort P) with nextix := count } }
          else { xors with xort := xort1, startix := count }
        closest_bucket_loop P id type family hixor max es (ix + 1) ((count + 1) % 256) xors1
      else closest_bucket_loop P id type family hixor max es (ix + 1) count xors
    else closest_bucket_loop P id type family hixor max es (ix + 1) count xors

/-- The function `ks_dhtrt_findclosest_bucketnodes`; `max` is an `unsigned int`.  It returns
the count, the chain and the trie: `ks_rwl_read_lock(bucket->lock)` takes a read lock on
the bucket, which `ks_dhtrt_load_query` is to release.  `none` when the header has no
bucket (NULL dereference). -/
def ks_dhtrt_findclosest_bucketnodes (P : Params) (id : List Nat) (type family : Nat)
    (root : Header) (header : HPtr) (xors : ks_dhtrt_sortedxors_t) (hixor : List Nat) (max : Nat) :
    Option (Nat × ks_dhtrt_sortedxors_t × Header) :=
  match (deref root header).bucket with
  | none => none
  | some bucket =>
    let r := closest_bucket_loop P id type family hixor max bucket.entries 0 0
      { xors with startix := P.bucketsize, count := 0, bheader := header }
    some (r.1, { r.2 with count := r.1 },
      setAt (set_bucket { bucket with lock := bucket.lock + 1 } (deref root header)) root header)

/-- Inner loop of `ks_dhtrt_load_query`: the first argument is `current->count - ix`;
returns `loaded` and the array `query->nodes`. -/
def load_query_loop (P : Params) (bucket : ks_dhtrt_bucket_t) (current : ks_dhtrt_sortedxors_t)
    (qmax : Nat) : Nat → Nat → Nat → Nat → List (Option Nat) → Nat × List (Option Nat)
  | 0, _, _, loaded, nodes => (loaded, nodes)
  | n + 1, ix, xorix, loaded, nodes =>
    if loaded < qmax ∧ xorix ≠ P.bucketsize then
      let z := (current.xort.getD xorix (zero_xort P)).ix
      load_query_loop P bucket current qmax n (ix + 1) (current.xort.getD xorix (zero_xort P)).nextix
        ((loaded + 1) % 256) (nodes.set ix (bucket.entries.getD z (zero_entry P)).gptr)
    else (loaded, nodes)

/-- Outer loop of `ks_dhtrt_load_query` along the list of `ks_dhtrt_sortedxors_t`: returns
`loaded`, the array `query->nodes` and the trie.  After the slots of a list are copied,
`ks_rwl_read_unlock` releases the read lock of its bucket; the `break` on
`loaded >= query->max` leaves the lists that follow, so their buckets keep the read
lock `ks_dhtrt_findclosest_bucketnodes` took. -/
def load_query_list (P : Params) (qmax : Nat) :
    List ks_dhtrt_sortedxors_t → Nat → List (Option Nat) → Header →
      Option (Nat × List (Option Nat) × Header)
  | [], loaded, nodes, root => some (loaded, nodes, root)
  | current :: next, loaded, nodes, root =>
    match (deref root current.bheader).bucket with
    | none => none
    | some bucket =>
      let r := load_query_loop P bucket current qmax current.count 0 current.startix loaded nodes
      let root1 := setAt (set_bucket { bucket with lock := bucket.lock - 1 }
        (deref root current.bheader)) root current.bheader
      if qmax ≤ r.1 then some (r.1, r.2, root1) else load_query_list P qmax next r.1 r.2 root1

/-- The function `ks_dhtrt_load_query`: returns `loaded`, the query and the trie (the read
locks of buckets are released). -/
def ks_dhtrt_load_query (P : Params) (root : Header) (query : ks_dhtrt_querynodes_t)
    (xort : List ks_dhtrt_sortedxors_t) : Option (Nat × ks_dhtrt_querynodes_t × Header) :=
  match load_query_list P query.max xort 0 query.nodes root with
  | none => none
  | some r => some (r.1, { query with nodes := r.2.1, count := r.1 }, r.2.2)

def set_left1bit (v : Option HPtr) : Header → Header
  | .null => .null
  | .hdr m f b l r _ r1 => .hdr m f b l r v r1

def set_right1bit (v : Option HPtr) : Header → Header
  | .null => .null
  | .hdr m f b l r l1 _ => .hdr m f b l r l1 v

/-- Variables of the loop "step3 and beyond" of `ks_dhtrt_findclosest_locked_nodes`. -/
structure walk_state where
  root : Header
  leftid : List Nat
  rightid : List Nat
  lheader : Option HPtr
  rheader : Option HPtr
  total : Nat
  xors : List ks_dhtrt_sortedxors_t
  insanity : Nat
deriving DecidableEq

/-- Lookup of `lheader` in the loop "step3 and beyond": through the shortcut
`last_lheader->left1bit` when it is set, else from the root; the shortcut of
`last_lheader` is written.  Returns `lheader` and the trie. -/
def walk_left_find (P : Params) (root : Header) (last_lheader : Option HPtr) (leftid : List Nat) :
    Option HPtr × Header :=
  match last_lheader with
  | none => (ks_dhtrt_find_bucketheader P root leftid, root)
  | some lp =>
    match (deref root lp).left1bit with
    | some c =>
      let found := (ks_dhtrt_find_relatedbucketheader P (deref root c) leftid).map (fun q => c ++ q)
      (found, setAt (set_left1bit found (deref root lp)) root lp)
    | none =>
      let found := ks_dhtrt_find_bucketheader P root leftid
      (found, setAt (set_left1bit found (deref root lp)) root lp)

/-- Left half of one iteration of the loop "step3 and beyond". -/
def walk_left (P : Params) (query : ks_dhtrt_querynodes_t) (last_lheader : Option HPtr)
    (st : walk_state) : Option walk_state :=
  if st.leftid.getD 0 0 ≠ 0xff then
    let leftid := ks_dhtrt_shiftleft P st.leftid
    let r := walk_left_find P st.root last_lheader leftid
    match r.1 with
    | none => some { st with leftid := leftid, root := r.2, lheader := none }
    | some lheader =>
      match ks_dhtrt_findclosest_bucketnodes P query.nodeid query.type query.family r.2 lheader
          (zero_sortedxors P) leftid ((2 ^ 32 + query.max - st.total) % 2 ^ 32) with
      | none => none
      | some (cnt, xortn, root1) =>
        some { st with leftid := leftid, root := root1, lheader := some lheader,
                       total := (st.total + cnt) % 256, xors := st.xors ++ [xortn] }
  else some { st with lheader := none }

/-- Lookup of `rheader` in the loop "step3 and beyond": through the shortcut
`last_rheader->right1bit` when it is set, else from the root (the source then
writes `last_rheader->left1bit`).  Returns `rheader` and the trie. -/
def walk_right_find (P : Params) (root : Header) (last_rheader : Option HPtr) (rightid : List Nat) :
    Option HPtr × Header :=
  match last_rheader, last_rheader.bind (fun rp => (deref root rp).right1bit) with
  | some rp, some c =>
    let found := (ks_dhtrt_find_relatedbucketheader P (deref root c) rightid).map (fun q => c ++ q)
    (found, setAt (set_right1bit found (deref root rp)) root rp)
  | _, _ =>
    let found := ks_dhtrt_find_bucketheader P root rightid
    if found = last_rheader then (none, root)
    else
      match last_rheader with
      | some rp => (found, setAt (set_left1bit found (deref root rp)) root rp)
      | none => (found, root)

/-- Right half of one iteration of the loop "step3 and beyond". -/
def walk_right (P : Params) (query : ks_dhtrt_querynodes_t) (last_rheader : Option HPtr)
    (st : walk_state) : Option walk_state :=
  if st.rightid.getD (P.idlen - 1) 0 ≠ 0x00 then
    let rightid := ks_dhtrt_shiftright P st.rightid
    let r := walk_right_find P st.root last_rheader rightid
    match r.1 with
    | none => some { st with rightid := rightid, root := r.2, rheader := none }
    | some rheader =>
      match ks_dhtrt_findclosest_bucketnodes P query.nodeid query.type query.family r.2 rheader
          (zero_sortedxors P) rightid ((2 ^ 32 + query.max - st.total) % 2 ^ 32) with
      | none => none
      | some (cnt, xortn1, root1) =>
        some { st with rightid := rightid, root := root1, rheader := some rheader,
                       total := (st.total + cnt) % 256, xors := st.xors ++ [xortn1] }
  else some { st with rheader := none }

/-- The loop "step3 and beyond" of `ks_dhtrt_findclosest_locked_nodes`; the first
argument bounds the iterations (the source asserts `insanity <= 159`), `none`
is a failed assertion or a NULL dereference. -/
def closest_walk (P : Params) (query : ks_dhtrt_querynodes_t) : Nat → walk_state → Option walk_state
  | 0, _ => none
  | fuel + 1, st =>
    match walk_left P query st.lheader st with
    | none => none
    | some st1 =>
      match walk_right P query st.rheader st1 with
      | none => none
      | some st2 =>
        if st2.lheader = none ∧ st2.rheader = none then some st2
        else if 159 < st2.insanity + 1 then none
        else if st2.total < query.max then
          closest_walk P query fuel { st2 with insanity := st2.insanity + 1 }
        else some { st2 with insanity := st2.insanity + 1 }

/-- Part "step3 and beyond" of `ks_dhtrt_findclosest_locked_nodes`. -/
def findclosest_step3 (P : Params) (root : Header) (query : ks_dhtrt_querynodes_t) (total : Nat)
    (xort0 xort1 : ks_dhtrt_sortedxors_t) : Option (Nat × ks_dhtrt_querynodes_t × Header) :=
  match closest_walk P query 160
      { root := root, leftid := (deref root xort0.bheader).mask,
        rightid := (deref root xort1.bheader).mask, lheader := none, rheader := none,
        total := total, xors := [xort0, xort1], insanity := 0 } with
  | none => none
  | some st =>
    (ks_dhtrt_load_query P st.root query st.xors).map (fun r => (r.2.1.count, r.2.1, r.2.2))

/-- The sibling of `header` visited in "step2" of `ks_dhtrt_findclosest_locked_nodes`. -/
def sibling_header (root : Header) (header : HPtr) : HPtr :=
  if header.getLast? = some false then header.dropLast ++ [true]
  else if (deref root (header.dropLast ++ [false])).bucket.isNone then header.dropLast ++ [false, true]
  else header.dropLast ++ [false]

/-- Part "step2 - look at sibling" of `ks_dhtrt_findclosest_locked_nodes`, and what
follows it; `total` is the count of step 1. -/
def findclosest_step2 (P : Params) (root : Header) (query : ks_dhtrt_querynodes_t) (header : HPtr)
    (total : Nat) (xort0 : ks_dhtrt_sortedxors_t) : Option (Nat × ks_dhtrt_querynodes_t × Header) :=
  match ks_dhtrt_findclosest_bucketnodes P query.nodeid query.type query.family root
      (sibling_header root header) (zero_sortedxors P) xort0.hixor
      ((2 ^ 32 + query.count - total) % 2 ^ 32) with
  | none => none
  | some (cnt1, xort1, root1) =>
    if query.max ≤ (total + cnt1) % 256 then ks_dhtrt_load_query P root1 query [xort0, xort1]
    else findclosest_step3 P root1 query ((total + cnt1) % 256) xort0 xort1

/-- Body of `ks_dhtrt_findclosest_locked_nodes` after the sanity checks, from
"step 1 - look at immediate bucket" on. -/
def findclosest_step1 (P : Params) (root : Header) (query : ks_dhtrt_querynodes_t) :
    Option (Nat × ks_dhtrt_querynodes_t × Header) :=
  match ks_dhtrt_find_bucketheader P root query.nodeid with
  | none => none
  | some header =>
    match ks_dhtrt_findclosest_bucketnodes P query.nodeid query.type query.family root header
        (zero_sortedxors P) (List.replicate P.idlen 0xff) query.max with
    | none => none
    | some (cnt, xort0, root1) =>
      if query.max ≤ cnt % 256 ∨ header = [] then ks_dhtrt_load_query P root1 query [xort0]
      else findclosest_step2 P root1 query header (cnt % 256) xort0

/-- The function `ks_dhtrt_findclosest_locked_nodes`: returns the count, the query and the
trie (the shortcut pointers of headers and the read locks of buckets change).
`none` is a NULL dereference or a failed assertion. -/
def ks_dhtrt_findclosest_locked_nodes (P : Params) (root : Header) (query : ks_dhtrt_querynodes_t) :
    Option (Nat × ks_dhtrt_querynodes_t × Header) :=
  if query.max = 0 then some (0, query, root)
  else
    findclosest_step1 P root
      { query with max := if P.maxquery < query.max then P.maxquery else query.max, count := 0 }

def ks_dhtrt_findclosest_nodes (P : Params) (t : Table) (query : ks_dhtrt_querynodes_t) :
    Option (Nat × ks_dhtrt_querynodes_t × Table) :=
  (ks_dhtrt_findclosest_locked_nodes P t.buckets query).map
    (fun r => (r.1, r.2.1, { t with buckets := r.2.2 }))

/-- Loop of `ks_dhtrt_release_querynodes` over `query->nodes[ix]`, `ix < count`. -/
def release_querynodes_loop : List (Option Nat) → Table → Option Table
  | [], t => some t
  | none :: _, _ => none
  | some n :: ns, t =>
    match ks_rwl_read_unlock t n with
    | none => none
    | some t1 => release_querynodes_loop ns t1

def ks_dhtrt_release_querynodes (t : Table) (query : ks_dhtrt_querynodes_t) : Option Table :=
  release_querynodes_loop (query.nodes.take query.count) t

/-! ## Maintenance sweep -/

/-- What the body of the slot loop of `ks_dhtrt_process_table` does to one slot:
the slot, the bucket's `expired_count`, the increment of `ping_count` and the
node pinged, if any.  `none` when `e->gptr` is not an allocated record. -/
def process_entry (P : Params) (t0 : Nat) (nodes : List (Option ks_dht_node_t))
    (e : ks_dhtrt_bucket_entry_t) (expired_count : Nat) :
    Option (ks_dhtrt_bucket_entry_t × Nat × Nat × Option Nat) :=
  if e.inuse = 1 then
    match e.gptr with
    | none => none
    | some g =>
      match nodes.getD g none with
      | none => none
      | some node =>
        if node.type ≠ P.dht_local then
          let pinged := { e with outstanding_pings := (e.outstanding_pings + 1) % 256 }
          if e.flags = DHTPEER_DUBIOUS then some (e, expired_count, 0, none)
          else if e.flags ≠ DHTPEER_EXPIRED ∧ KS_DHTRT_MAXPING ≤ e.outstanding_pings then
            some ({ e with flags := DHTPEER_EXPIRED, outstanding_pings := 0 },
              (expired_count + 1) % 256, 0, none)
          else if 0 < e.outstanding_pings then some (pinged, expired_count, 1, some g)
          else if KS_DHTRT_EXPIREDTIME < t0 - e.tyme then
            some ({ pinged with flags := DHTPEER_DUBIOUS }, expired_count, 0, some g)
          else if KS_DHTRT_INACTIVETIME < t0 - e.tyme then some (pinged, expired_count, 1, some g)
          else some (e, expired_count, 0, none)
        else some (e, expired_count, 0, none)
  else some (e, expired_count, 0, none)

/-- Slot loop of `ks_dhtrt_process_table` on one bucket: the slots, `expired_count`,
`ping_count` and the pings sent (latest first). -/
def process_entries (P : Params) (t0 : Nat) (nodes : List (Option ks_dht_node_t)) :
    List ks_dhtrt_bucket_entry_t → Nat → Nat → List Nat →
      Option (List ks_dhtrt_bucket_entry_t × Nat × Nat × List Nat)
  | [], expired_count, ping_count, pings => some ([], expired_count, ping_count, pings)
  | e :: es, expired_count, ping_count, pings =>
    match process_entry P t0 nodes e expired_count with
    | none => none
    | some (e1, ec1, inc, pinged) =>
      match process_entries P t0 nodes es ec1 (ping_count + inc)
          (match pinged with | none => pings | some g => g :: pings) with
      | none => none
      | some (es1, ec2, pc2, pings2) => some (e1 :: es1, ec2, pc2, pings2)

/-- Variables of the trie walk of `ks_dhtrt_process_table`. -/
structure sweep_state where
  root : Header
  header : Option HPtr
  stack : List HPtr
  stackix : Nat
  ping_count : Nat
  pings : List Nat
deriving DecidableEq

/-- Non-NULL test of a child pointer. -/
def child_ptr (root : Header) (p : HPtr) : Option HPtr :=
  if (deref root p).isNull then none else some p

/-- Body of `if (header->bucket)` in the trie walk of `ks_dhtrt_process_table`: the
trie, `ping_count` and the pings sent.  When `ks_rwl_try_write_lock(b->lock)` fails,
which it does while a read lock is held on the bucket, the bucket is skipped. -/
def process_bucket (P : Params) (t0 : Nat) (nodes : List (Option ks_dht_node_t))
    (root : Header) (header : HPtr) (ping_count : Nat) (pings : List Nat) :
    Option (Header × Nat × List Nat) :=
  match (deref root header).bucket with
  | none => some (root, ping_count, pings)
  | some b =>
    if b.lock ≠ 0 then some (root, ping_count, pings)
    else
      match process_entries P t0 nodes b.entries b.expired_count ping_count pings with
      | none => none
      | some (es, ec, pc, pings1) =>
        some (setAt (set_bucket { b with entries := es, expired_count := ec } (deref root header))
          root header, pc, pings1)

/-- The `while (header)` loop of `ks_dhtrt_process_table`.  The first argument bounds
the number of iterations; `none` when it does not suffice, on a write beyond
`stack[KS_DHT_NODEID_SIZE * 8]`, or on a dereference of an unallocated node. -/
def process_walk (P : Params) (t0 : Nat) (nodes : List (Option ks_dht_node_t)) :
    Nat → sweep_state → Option sweep_state
  | 0, st => if st.header = none then some st else none
  | fuel + 1, st =>
    match st.header with
    | none => some st
    | some header =>
      if P.idlen * 8 ≤ st.stackix then none
      else
        let stack := st.stack.set st.stackix header
        let stackix := st.stackix + 1
        match process_bucket P t0 nodes st.root header st.ping_count st.pings with
        | none => none
        | some (root, pc, pings) =>
          let next := child_ptr root (header ++ [false])
          if next = none ∧ 1 < stackix then
            process_walk P t0 nodes fuel
              { root := root, header := child_ptr root (stack.getD (stackix - 2) [] ++ [true]),
                stack := stack, stackix := stackix - 2, ping_count := pc, pings := pings }
          else
            process_walk P t0 nodes fuel
              { root := root, header := next, stack := stack, stackix := stackix,
                ping_count := pc, pings := pings }

/-- Loop of `ks_dhtrt_process_deleted` along the queue of deleted nodes: the queue,
`deleted_count` and the node memory.  `none` when a queued record is not
allocated any more. -/
def process_deleted_loop : List Nat → Nat → List (Option ks_dht_node_t) →
    Option (List Nat × Nat × List (Option ks_dht_node_t))
  | [], count, nodes => some ([], count, nodes)
  | n :: rest, count, nodes =>
    if KS_DHTRT_RECYCLE_NODE_THRESHOLD < count then
      match nodes.getD n none with
      | none => none
      | some r =>
        if r.reflock = 0 then process_deleted_loop rest (count - 1) (nodes.set n none)
        else
          match process_deleted_loop rest count nodes with
          | none => none
          | some (q, c, ns) => some (n :: q, c, ns)
    else some (n :: rest, count, nodes)

def ks_dhtrt_process_deleted (t : Table) : Option Table :=
  match process_deleted_loop t.deleted_node t.deleted_count t.nodes with
  | none => none
  | some (q, c, ns) => some { t with deleted_node := q, deleted_count := c, nodes := ns }

/-- The function `ks_dhtrt_process_table` at clock reading `t0`: the table and the pings
sent (latest first).  `fuel` bounds the iterations of the trie walk. -/
def ks_dhtrt_process_table (P : Params) (fuel : Nat) (t0 : Nat) (t : Table) :
    Option (Table × List Nat) :=
  if t0 - t.last_process_table < t.next_process_table_delta then some (t, [])
  else
    let t1 := { t with last_process_table := t0 }
    match process_walk P t0 t1.nodes fuel
        { root := t1.buckets, header := child_ptr t1.buckets [],
          stack := List.replicate (P.idlen * 8) [], stackix := 0, ping_count := 0, pings := [] } with
    | none => none
    | some st =>
      match ks_dhtrt_process_deleted { t1 with buckets := st.root } with
      | none => none
      | some t2 =>
        some ({ t2 with next_process_table_delta :=
                  if st.ping_count = 0 then KS_DHTRT_PROCESSTABLE_INTERVAL
                  else KS_DHTRT_PROCESSTABLE_SHORTINTERVAL }, st.pings)

/-! ## Reachable states -/

/-- Well-formed node id: `idlen` bytes. -/
def wf_id (P : Params) (id : List Nat) : Prop :=
  id.length = P.idlen ∧ ∀ b ∈ id, b < 256

instance (P : Params) (id : List Nat) : Decidable (wf_id P id) := by
  unfold wf_id; infer_instance

/-- Tables reachable from `ks_dhtrt_initroute` by sequential calls of the public
operations (`ks_dhtrt_dump` changes nothing and is left out). -/
inductive Reachable (P : Params) : Table → Prop where
  | init : Reachable P (ks_dhtrt_initroute P)
  | create_node {t t1 : Table} {now : Nat} {addr_ok : Bool} {nodeid : List Nat} {type : Nat}
      {ip : List Char} {port : Nat} {s : ks_status_t} {node : Option Nat} :
      Reachable P t → wf_id P nodeid →
      ks_dhtrt_create_node P now addr_ok t nodeid type ip port = some (s, node, t1) →
      Reachable P t1
  | delete_node {t t1 : Table} {node : Nat} {s : ks_status_t} :
      Reachable P t → ks_dhtrt_delete_node P t node = some (s, t1) → Reachable P t1
  | find_node {t t1 : Table} {nodeid : List Nat} {node : Option Nat} :
      Reachable P t → wf_id P nodeid → ks_dhtrt_find_node P t nodeid = some (node, t1) →
      Reachable P t1
  | touch_node {t t1 : Table} {now : Nat} {nodeid : List Nat} {s : ks_status_t} :
      Reachable P t → wf_id P nodeid → ks_dhtrt_touch_node P now t nodeid = some (s, t1) →
      Reachable P t1
  | expire_node {t t1 : Table} {nodeid : List Nat} {s : ks_status_t} :
      Reachable P t → wf_id P nodeid → ks_dhtrt_expire_node P t nodeid = some (s, t1) →
      Reachable P t1
  | findclosest_nodes {t t1 : Table} {query query1 : ks_dhtrt_querynodes_t} {count : Nat} :
      Reachable P t → wf_id P query.nodeid →
      ks_dhtrt_findclosest_nodes P t query = some (count, query1, t1) → Reachable P t1
  | release_node {t t1 : Table} {node : Nat} :
      Reachable P t → ks_dhtrt_release_node t node = some t1 → Reachable P t1
  | sharelock_node {t t1 : Table} {node : Nat} :
      Reachable P t → ks_dhtrt_sharelock_node t node = some t1 → Reachable P t1
  | release_querynodes {t t1 : Table} {query : ks_dhtrt_querynodes_t} :
      Reachable P t → ks_dhtrt_release_querynodes t query = some t1 → Reachable P t1
  | process_table {t t1 : Table} {fuel t0 : Nat} {pings : List Nat} :
      Reachable P t → ks_dhtrt_process_table P fuel t0 t = some (t1, pings) → Reachable P t1

/-! ## Parameter sets used in the examples -/

/-- Values of the constants in libks: ids of 20 bytes, buckets of 20 slots. -/
def stdParams : Params :=
  { idlen := 20, bucketsize := 20, maxquery := 20, ifboth := 12, af_inet := 2, af_inet6 := 10,
    dht_local := 2 }

/-- The small table of the scenarios: ids of 2 bytes, buckets of 2 slots. -/
def testParams : Params :=
  { idlen := 2, bucketsize := 2, maxquery := 8, ifboth := 12, af_inet := 2, af_inet6 := 10,
    dht_local := 2 }

/-! ## Invariants, call sequences and example tables -/

/-- Ids held by the slots in use of a bucket. -/
def inuse_ids (b : ks_dhtrt_bucket_t) : List (List Nat) :=
  (b.entries.filter (fun e => e.inuse = 1)).map (fun e => e.id)

/-- Ids held by the slots in use below a header. -/
def ids : Header → List (List Nat)
  | .null => []
  | .hdr _ _ b l r _ _ => (match b with | some b => inuse_ids b | none => []) ++ (ids l ++ ids r)

/-- The slot `i` of the bucket of the header at path `q` is `e`. -/
def SlotAt (root : Header) (q : HPtr) (i : Nat) (e : ks_dhtrt_bucket_entry_t) : Prop :=
  ∃ b, (deref root q).bucket = some b ∧ b.entries.get? i = some e

/-- Requirements on the constants: the counters of a bucket are `uint8_t`. -/
def Params.ok (P : Params) : Prop := P.bucketsize < 256

structure BucketInv (P : Params) (b : ks_dhtrt_bucket_t) : Prop where
  len : b.entries.length = P.bucketsize
  count : b.count = (b.entries.filter (fun e => e.inuse = 1)).length
  bool : ∀ e ∈ b.entries, e.inuse = 0 ∨ e.inuse = 1
  wf : ∀ e ∈ b.entries, e.inuse = 1 → e.id.length = P.idlen ∧ e.gptr ≠ none
  nodup : (inuse_ids b).Nodup

/-- Invariant of the trie below a header. -/
def TrieInv (P : Params) : Header → Prop
  | .null => False
  | .hdr mask flags (some b) l r _ _ =>
    l = .null ∧ r = .null ∧ BucketInv P b ∧
    (∀ x ∈ inuse_ids b, ks_dhtrt_ismasked P x mask = true) ∧ (flags = 0 ∨ flags = BHF_LEFT)
  | .hdr mask flags none l r _ _ =>
    TrieInv P l ∧ TrieInv P r ∧ flags = BHF_LEFT ∧ l.flags = BHF_LEFT ∧ r.flags = 0 ∧
    r.mask = mask ∧ r.bucket.isSome = true ∧
    (∀ x ∈ ids l, ks_dhtrt_ismasked P x l.mask = true) ∧
    (∀ x ∈ ids r, ks_dhtrt_ismasked P x l.mask = false)

/-- The slot written by `ks_dhtrt_insert_id`. -/
def new_entry (now nptr : Nat) (node : ks_dht_node_t) (e : ks_dhtrt_bucket_entry_t) :
    ks_dhtrt_bucket_entry_t :=
  { e with inuse := 1, gptr := some nptr, type := node.type, family := node.family,
           tyme := now, flags := DHTPEER_DUBIOUS, id := node.nodeid }

/-- Ids of the slots in use of a list of slots. -/
def inuse_ids_of (l : List ks_dhtrt_bucket_entry_t) : List (List Nat) :=
  (l.filter (fun e => e.inuse = 1)).map (fun e => e.id)

/-- The destination slot `ks_dhtrt_split_bucket` writes for the source slot `e`. -/
def moved_entry (P : Params) (e : ks_dhtrt_bucket_entry_t) : ks_dhtrt_bucket_entry_t :=
  { zero_entry P with id := e.id, gptr := e.gptr, family := e.family, type := e.type, inuse := 1 }

/-- The source slot `e` after `ks_dhtrt_split_bucket`. -/
def kept_entry (P : Params) (leftmask : List Nat) (e : ks_dhtrt_bucket_entry_t) :
    ks_dhtrt_bucket_entry_t :=
  if ks_dhtrt_ismasked P e.id leftmask then { e with inuse := 0 } else e

/-- Buckets of the two new headers after the split of a full bucket `b` with the
mask `lm` for the left header. -/
def split_left (P : Params) (lm : List Nat) (b : ks_dhtrt_bucket_t) : ks_dhtrt_bucket_t :=
  (split_loop P lm b.entries 0 b.count (ks_dhtrt_create_bucket P)).2.2

def split_right (P : Params) (lm : List Nat) (b : ks_dhtrt_bucket_t) : ks_dhtrt_bucket_t :=
  { b with entries := (split_loop P lm b.entries 0 b.count (ks_dhtrt_create_bucket P)).1,
           count := (split_loop P lm b.entries 0 b.count (ks_dhtrt_create_bucket P)).2.1 }

/-- The id `y` is on the side of the path `p` at every header the path passes. -/
def Compat (P : Params) : Header → HPtr → List Nat → Prop
  | _, [], _ => True
  | .null, _ :: _, _ => True
  | .hdr _ _ _ l r _ _, d :: p, y =>
    if d then ks_dhtrt_ismasked P y l.mask = false ∧ Compat P r p y
    else ks_dhtrt_ismasked P y l.mask = true ∧ Compat P l p y

/-- The header `h` is replaced by `h1`: the invariant holds below `h1`, mask and flags
are kept, a header that may not be split keeps its bucket, and every id below
`h1` was below `h` or is one of the new ids `N`. -/
structure LocalStep (P : Params) (N : List Nat → Prop) (h h1 : Header) : Prop where
  inv : TrieInv P h1
  mask : h1.mask = h.mask
  flags : h1.flags = h.flags
  leaf : h.flags = 0 → h1.bucket.isSome = true
  ids : ∀ y ∈ ids h1, y ∈ ids h ∨ N y

/-- What `ks_dhtrt_insert_node` does below the header the descent ended at. -/
structure InsertOK (P : Params) (nptr : Nat) (x : List Nat) (s : ks_status_t) (h h1 : Header) :
    Prop where
  step : LocalStep P (fun y => y = x) h h1
  slot : s = KS_STATUS_SUCCESS →
    ∃ q i e, SlotAt h1 q i e ∧ e.inuse = 1 ∧ e.id = x ∧ e.gptr = some nptr
  fail : s = KS_STATUS_FAIL → ∀ y, y ∈ ids h1 ↔ y ∈ ids h

/-- Invariant of the whole trie: the invariant below the root, and the root keeps
the all-ones mask and the flag `BHF_LEFT` it got from `ks_dhtrt_initroute`. -/
structure RootInv (P : Params) (root : Header) : Prop where
  inv : TrieInv P root
  mask : root.mask = List.replicate P.idlen 0xff
  flags : root.flags = BHF_LEFT

/-- Fields of a slot the invariant depends on. -/
def entry_skel (e : ks_dhtrt_bucket_entry_t) : Nat × List Nat × Option Nat :=
  (e.inuse, e.id, e.gptr)

/-- A call of a public operation with its arguments. -/
inductive Call where
  | create (now : Nat) (addr_ok : Bool) (nodeid : List Nat) (type : Nat) (ip : List Char) (port : Nat)
  | delete (node : Nat)
  | find (nodeid : List Nat)
  | touch (now : Nat) (nodeid : List Nat)
  | expire (nodeid : List Nat)
  | closest (query : ks_dhtrt_querynodes_t)
  | release (node : Nat)
  | sharelock (node : Nat)
  | release_query (query : ks_dhtrt_querynodes_t)
  | sweep (fuel t0 : Nat)
deriving DecidableEq

/-- Table after one call; `none` when the call is not defined, does not return, or an id
is malformed. -/
def exec (P : Params) (t : Table) : Call → Option Table
  | .create now addr_ok nodeid type ip port =>
    if wf_id P nodeid then (ks_dhtrt_create_node P now addr_ok t nodeid type ip port).map (fun r => r.2.2)
    else none
  | .delete node => (ks_dhtrt_delete_node P t node).map (fun r => r.2)
  | .find nodeid =>
    if wf_id P nodeid then (ks_dhtrt_find_node P t nodeid).map (fun r => r.2) else none
  | .touch now nodeid =>
    if wf_id P nodeid then (ks_dhtrt_touch_node P now t nodeid).map (fun r => r.2) else none
  | .expire nodeid =>
    if wf_id P nodeid then (ks_dhtrt_expire_node P t nodeid).map (fun r => r.2) else none
  | .closest query =>
    if wf_id P query.nodeid then (ks_dhtrt_findclosest_nodes P t query).map (fun r => r.2.2) else none
  | .release node => ks_dhtrt_release_node t node
  | .sharelock node => ks_dhtrt_sharelock_node t node
  | .release_query query => ks_dhtrt_release_querynodes t query
  | .sweep fuel t0 => (ks_dhtrt_process_table P fuel t0 t).map (fun r => r.1)

/-- Table after a sequence of calls. -/
def run (P : Params) : List Call → Table → Option Table
  | [], t => some t
  | c :: cs, t =>
    match exec P t c with
    | none => none
    | some t1 => run P cs t1

/-- Table after a sequence of calls on a fresh table (the fresh table itself when a
call is not defined). -/
def table_after (P : Params) (cs : List Call) : Table :=
  (run P cs (ks_dhtrt_initroute P)).getD (ks_dhtrt_initroute P)

/-- XOR distance of two ids, read as a big-endian unsigned integer. -/
def xor_distance (P : Params) (a b : List Nat) : Nat :=
  (ks_dhtrt_xor P a b).foldl (fun acc x => acc * 256 + x) 0

/-- All slots of the table that are in use with flags `active`. -/
def active_slots : Header → List ks_dhtrt_bucket_entry_t
  | .null => []
  | .hdr _ _ b l r _ _ =>
    (match b with
      | some b => b.entries.filter (fun e => e.inuse = 1 ∧ e.flags = DHTPEER_ACTIVE)
      | none => []) ++ (active_slots l ++ active_slots r)

/-- Result the specification asks of `closest(id, N, all types, either family)`: the
ids of the first `N` active slots of the whole table in ascending order of XOR
distance to `id`. -/
def closest_spec (P : Params) (root : Header) (id : List Nat) (n : Nat) : List (List Nat) :=
  (((active_slots root).insertionSort
    (fun a c => xor_distance P a.id id ≤ xor_distance P c.id id)).take n).map (fun e => e.id)

/-- Entries `nodes[0..count)` of the result of `ks_dhtrt_findclosest_nodes`, each with the id
of the record it points to (`none` for a NULL entry). -/
def closest_result (P : Params) (t : Table) (query : ks_dhtrt_querynodes_t) :
    Option (List (Option (List Nat))) :=
  (ks_dhtrt_findclosest_nodes P t query).map
    (fun r => (r.2.1.nodes.take r.1).map
      (fun n => n.bind (fun k => (node_at r.2.2 k).map (fun rec => rec.nodeid))))

/-- Id of 20 bytes with first byte `k` and second byte `j`. -/
def id20 (k j : Nat) : List Nat := k :: j :: List.replicate 18 0

/-- Query for the `max` nodes closest to `id`, all types, either family, with a
zeroed result array. -/
def query_all (P : Params) (id : List Nat) (max : Nat) : ks_dhtrt_querynodes_t :=
  { nodeid := id, family := P.ifboth, type := 3, max := max, count := 0,
    nodes := List.replicate P.maxquery none }

/-- Three nodes 01.., 02.., 03.. are created and touched. -/
def c1_calls : List Call :=
  [.create 0 true (id20 1 0) 1 ['1', '.', '1'] 1, .create 0 true (id20 2 0) 1 ['1', '.', '1'] 2,
   .create 0 true (id20 3 0) 1 ['1', '.', '1'] 3,
   .touch 1 (id20 1 0), .touch 1 (id20 2 0), .touch 1 (id20 3 0)]

/-- Twenty nodes 80.., 81.., .. fill the root bucket, the node 01.. splits it; the
nodes 01.. and 80.. are touched. -/
def c2_calls : List Call :=
  (List.range 20).map (fun i => Call.create 0 true (id20 (0x80 + i) 0) 1 ['1', '.', '1'] i) ++
  [.create 0 true (id20 1 0) 1 ['1', '.', '1'] 20, .touch 1 (id20 1 0), .touch 1 (id20 0x80 0)]

instance (P : Params) : Decidable P.ok := by
  unfold Params.ok; infer_instance

/-- The slot `i` of the bucket of the header at `q` (a zeroed slot when there is none). -/
def slot_of (P : Params) (root : Header) (q : HPtr) (i : Nat) : ks_dhtrt_bucket_entry_t :=
  ((deref root q).bucket.bind (fun b => b.entries.get? i)).getD (zero_entry P)

/-- Scenario S1 (ids of 2 bytes, buckets of 2): the ids 0x0100, 0x0200, 0x4000. -/
def s1_calls : List Call :=
  [.create 0 true [0x01, 0x00] 1 ['1', '.', '1'] 1, .create 0 true [0x02, 0x00] 1 ['1', '.', '1'] 2,
   .create 0 true [0x40, 0x00] 1 ['1', '.', '1'] 3]

/-- Scenario S2: after S1 the ids 0xFF00 and 0xFE00 fill the right bucket. -/
def s2_calls : List Call :=
  s1_calls ++
  [.create 0 true [0xff, 0x00] 1 ['1', '.', '1'] 4, .create 0 true [0xfe, 0x00] 1 ['1', '.', '1'] 5]

/-- Twenty nodes 80.., 81.., .. fill the root bucket (20-byte ids, buckets of 20). -/
def full_root_calls : List Call :=
  (List.range 20).map (fun i => Call.create 0 true (id20 (0x80 + i) 0) 1 ['1', '.', '1'] i)

/-- Table of scenario S1. -/
def s1_table : Table := table_after testParams s1_calls

/-- Table of scenario S2. -/
def s2_table : Table := table_after testParams s2_calls

/-- Table of scenario S1 after `expire(0x4000)`. -/
def s1_expired_table : Table := table_after testParams (s1_calls ++ [.expire [0x40, 0x00]])

/-- Table with the full root bucket of `full_root_calls`. -/
def full_root_table : Table := table_after stdParams full_root_calls

/-- Table after the node 01.. is created on `full_root_table`: the root is split. -/
def split_root_table : Table :=
  table_after stdParams (full_root_calls ++ [.create 0 true (id20 1 0) 1 ['1', '.', '1'] 20])

/-- Bucket of the right leaf of scenario S2. -/
def s2_right_bucket : ks_dhtrt_bucket_t :=
  (deref s2_table.buckets [true]).bucket.getD (ks_dhtrt_create_bucket testParams)

/-- A header that has been split: it exists and has no bucket. -/
def is_split (h : Header) : Prop := h ≠ .null ∧ h.bucket = none

/-- The splits of the trie are toward the side that contains the id `L`: every header
that has been split lies on the descent path of `L`. -/
def splits_toward (P : Params) (root : Header) (L : List Nat) : Prop :=
  ∀ p : HPtr, is_split (deref root p) →
    ∃ q, ks_dhtrt_find_bucketheader P root L = some q ∧ p <+: q

/-- Ids 0x0100, 0x0200, 0x0300 (ids of 2 bytes, buckets of 2): their top bit is 0. -/
def low_calls : List Call :=
  [.create 0 true [0x01, 0x00] 1 ['1', '.', '1'] 1, .create 0 true [0x02, 0x00] 1 ['1', '.', '1'] 2,
   .create 0 true [0x03, 0x00] 1 ['1', '.', '1'] 3]

/-- Table after `low_calls`. -/
def low_table : Table := table_after testParams low_calls

/-- Ids 0x8100, 0x8200 (ids of 2 bytes, buckets of 2): their top bit is 1. -/
def high_calls : List Call :=
  [.create 0 true [0x81, 0x00] 1 ['1', '.', '1'] 1, .create 0 true [0x82, 0x00] 1 ['1', '.', '1'] 2]

/-- Table after `high_calls`. -/
def high_table : Table := table_after testParams high_calls

/-- Table after the call for 0x8300 on `high_table`. -/
def high_table3 : Table :=
  table_after testParams (high_calls ++ [.create 0 true [0x83, 0x00] 1 ['1', '.', '1'] 3])

/-- One node 0x0100 is created and deleted while the creator still holds its borrow. -/
def reuse_calls : List Call :=
  [.create 0 true [0x01, 0x00] 1 ['1', '.', '1'] 1, .delete 0]

/-- Table after `reuse_calls`. -/
def reuse_table : Table := table_after testParams reuse_calls

/-- One node 0x0100 is created and touched. -/
def one_active_calls : List Call :=
  [.create 0 true [0x01, 0x00] 1 ['1', '.', '1'] 1, .touch 1 [0x01, 0x00]]

/-- Table after `one_active_calls`. -/
def one_active_table : Table := table_after testParams one_active_calls

/-- Number of read locks held on the record `n` (`none` when it is not allocated). -/
def borrow_count (t : Table) (n : Nat) : Option Nat :=
  (node_at t n).map (fun r => r.reflock)

/-- One node 0x0100 is created, touched and deleted. -/
def touched_deleted_calls : List Call :=
  [.create 0 true [0x01, 0x00] 1 ['1', '.', '1'] 1, .touch 5 [0x01, 0x00], .delete 0]

/-- Table after `touched_deleted_calls`. -/
def touched_deleted_table : Table := table_after testParams touched_deleted_calls

/-- Bucket of the header at `q` (an empty bucket when there is none). -/
def bucket_of (P : Params) (root : Header) (q : HPtr) : ks_dhtrt_bucket_t :=
  (deref root q).bucket.getD (ks_dhtrt_create_bucket P)

/-- Table after the call for the fresh id 0x0200 at clock reading 9 on
`touched_deleted_table`. -/
def reused_slot_table : Table :=
  table_after testParams
    (touched_deleted_calls ++ [.create 9 true [0x02, 0x00] 1 ['1', '.', '1'] 1])

/-- What the walk of `ks_dhtrt_process_table` does to one bucket: a bucket on which a
read lock is held is skipped (`ks_rwl_try_write_lock` fails), on any other the slot
loop runs. -/
def sweep_bucket (P : Params) (t0 : Nat) (nodes : List (Option ks_dht_node_t))
    (b : ks_dhtrt_bucket_t) (pc : Nat) (pings : List Nat) :
    Option (ks_dhtrt_bucket_t × Nat × List Nat) :=
  if b.lock ≠ 0 then some (b, pc, pings)
  else
    match process_entries P t0 nodes b.entries b.expired_count pc pings with
    | none => none
    | some (es, ec, pc1, pings1) => some ({ b with entries := es, expired_count := ec }, pc1, pings1)

/-- The function `sweep_bucket` applied to every bucket of a trie, in the order in which the
walk of `ks_dhtrt_process_table` comes to them: the leaves of the left child, then
those of the right child. -/
def sweep_trie (P : Params) (t0 : Nat) (nodes : List (Option ks_dht_node_t)) :
    Header → Nat → List Nat → Option (Header × Nat × List Nat)
  | .null, pc, pings => some (.null, pc, pings)
  | .hdr m f (some b) l r l1 r1, pc, pings =>
    match sweep_bucket P t0 nodes b pc pings with
    | none => none
    | some (b1, pc1, pings1) => some (.hdr m f (some b1) l r l1 r1, pc1, pings1)
  | .hdr m f none l r l1 r1, pc, pings =>
    match sweep_trie P t0 nodes l pc pings with
    | none => none
    | some (l', pc1, pings1) =>
      match sweep_trie P t0 nodes r pc1 pings1 with
      | none => none
      | some (r', pc2, pings2) => some (.hdr m f none l' r' l1 r1, pc2, pings2)

/-- Number of headers that have a left child on the path of left children. -/
def spine_depth : Header → Nat
  | .null => 0
  | .hdr _ _ _ l _ _ _ => if l.isNull then 0 else spine_depth l + 1

/-- A slot is sound for the sweep: when it is in use it points to an allocated record
that is not on the queue of deleted nodes. -/
def slot_sound (nodes : List (Option ks_dht_node_t)) (queue : List Nat)
    (e : ks_dhtrt_bucket_entry_t) : Bool :=
  decide (e.inuse ≠ 1) ||
    (match e.gptr with
      | none => false
      | some g => (nodes.getD g none).isSome && !queue.contains g)

/-- Every slot of every bucket of the trie is sound. -/
def slots_sound (nodes : List (Option ks_dht_node_t)) (queue : List Nat) : Header → Bool
  | .null => true
  | .hdr _ _ b l r _ _ =>
    (match b with
      | none => true
      | some b => b.entries.all (slot_sound nodes queue)) &&
    slots_sound nodes queue l && slots_sound nodes queue r

/-- The slot loop of the sweep sets this slot to expired: it is in use, its node is
allocated and not local, its flags are neither dubious nor expired and
`KS_DHTRT_MAXPING` pings are outstanding. -/
def expires (P : Params) (nodes : List (Option ks_dht_node_t)) (e : ks_dhtrt_bucket_entry_t) :
    Bool :=
  decide (e.inuse = 1) &&
    (match e.gptr with
      | none => false
      | some g =>
        match nodes.getD g none with
        | none => false
        | some r => decide (r.type ≠ P.dht_local)) &&
    decide (e.flags ≠ DHTPEER_DUBIOUS) && decide (e.flags ≠ DHTPEER_EXPIRED) &&
    decide (KS_DHTRT_MAXPING ≤ e.outstanding_pings)

/-- Preconditions of a sweep: the node memory is sound (the slots in use point to
allocated records that are not queued, the queued records are allocated and
pairwise distinct) and the trie is less deep than the stack of the walk. -/
structure SweepReady (P : Params) (t : Table) : Prop where
  slots : slots_sound t.nodes t.deleted_node t.buckets = true
  nodup : t.deleted_node.Nodup
  alloc : ∀ n ∈ t.deleted_node, (t.nodes.getD n none).isSome = true
  depth : spine_depth t.buckets < P.idlen * 8

/-- The node 0x0100 is created and touched at clock reading 0, the node 0x0200 is
created at clock reading 0 and never touched. -/
def aging_calls : List Call :=
  [.create 0 true [0x01, 0x00] 1 ['1', '.', '1'] 1, .touch 0 [0x01, 0x00],
   .create 0 true [0x02, 0x00] 1 ['1', '.', '1'] 1]

/-- Number of slots in use of a bucket whose flags are expired. -/
def expired_slots (b : ks_dhtrt_bucket_t) : Nat :=
  (b.entries.filter (fun e => e.inuse = 1 ∧ e.flags = DHTPEER_EXPIRED)).length

/-- The ids 0x8100, 0x8200 fill the root bucket, the call for 0x8300 splits the root and
fails, then `expire(0x8100)`: the right leaf is full and holds an expired slot. -/
def hint_expired_calls : List Call :=
  high_calls ++ [.create 0 true [0x83, 0x00] 1 ['1', '.', '1'] 3, .expire [0x81, 0x00]]

/-- Table after `hint_expired_calls`. -/
def hint_expired_table : Table := table_after testParams hint_expired_calls

/-- The ids 0x8100, 0x8200 fill the root bucket, then `expire(0x8100)`. -/
def hint_expired_root_calls : List Call := high_calls ++ [.expire [0x81, 0x00]]

/-- Table after `hint_expired_root_calls`. -/
def hint_expired_root_table : Table := table_after testParams hint_expired_root_calls

/-- Table after the call for 0x8300 on `hint_expired_root_table`. -/
def hint_expired_split_table : Table :=
  table_after testParams (hint_expired_root_calls ++ [.create 9 true [0x83, 0x00] 1 ['1', '.', '1'] 3])

/-- Table `aging_table` after four sweeps: the slot of 0x0100 was expired by the sweep. -/
def sweep_expired_table : Table :=
  table_after testParams (aging_calls ++ [.sweep 40 700, .sweep 40 820, .sweep 40 940,
    .sweep 40 1060])

/-- Table after the call for the fresh id 0x0300 at clock reading 1100 on
`sweep_expired_table`. -/
def sweep_expired_replaced : Table :=
  table_after testParams (aging_calls ++ [.sweep 40 700, .sweep 40 820, .sweep 40 940,
    .sweep 40 1060, .create 1100 true [0x03, 0x00] 1 ['1', '.', '1'] 3])

/-- One node 0x0100 is created and expired by `ks_dhtrt_expire_node`. -/
def expire_only_calls : List Call :=
  [.create 0 true [0x01, 0x00] 1 ['1', '.', '1'] 1, .expire [0x01, 0x00]]

/-- Table after `expire_only_calls`. -/
def expire_only_table : Table := table_after testParams expire_only_calls

/-- Table after `expire_only_calls` and `touch(0x0100)`. -/
def expire_touch_table : Table :=
  table_after testParams (expire_only_calls ++ [.touch 5 [0x01, 0x00]])

/-- The node 0x0100 is created and deleted twice, then the node 0x0200 is created. -/
def double_delete_calls : List Call :=
  [.create 0 true [0x01, 0x00] 1 ['1', '.', '1'] 1, .delete 0, .delete 0,
   .create 0 true [0x02, 0x00] 1 ['1', '.', '1'] 1]

/-- Table after `double_delete_calls`. -/
def double_delete_table : Table := table_after testParams double_delete_calls

/-- Table after `double_delete_calls` and the creation of the node 0x0300. -/
def shared_record_table : Table :=
  table_after testParams (double_delete_calls ++ [.create 0 true [0x03, 0x00] 1 ['1', '.', '1'] 1])

/-- One node 0x0100 of type 3 (the local bit 2 together with the bit 1) is created and
touched at clock reading 0. -/
def mixed_type_calls : List Call :=
  [.create 0 true [0x01, 0x00] 3 ['1', '.', '1'] 1, .touch 0 [0x01, 0x00]]

/-- Table after `mixed_type_calls`. -/
def mixed_type_table : Table := table_after testParams mixed_type_calls

/-- Table after `mixed_type_calls` and the sweeps at 700, 820, 940 and 1060. -/
def mixed_type_swept : Table :=
  table_after testParams (mixed_type_calls ++ [.sweep 40 700, .sweep 40 820, .sweep 40 940,
    .sweep 40 1060])

/-- One node 0x0100 of type `KS_DHT_LOCAL` is created and touched at clock reading 0. -/
def local_calls : List Call :=
  [.create 0 true [0x01, 0x00] 2 ['1', '.', '1'] 1, .touch 0 [0x01, 0x00]]

/-- Table after `local_calls`. -/
def local_table : Table := table_after testParams local_calls

/-- Slot of `local_table` that holds the local node 0x0100. -/
def local_slot : ks_dhtrt_bucket_entry_t := slot_of testParams local_table.buckets [] 0

/-- Record of the local node 0x0100 in `local_table`. -/
def local_node : ks_dht_node_t := (node_at local_table 0).getD (zero_node testParams)

/-- Query returned by `ks_dhtrt_findclosest_nodes` for the 200 nodes closest to 0x0000 on
`one_active_table`. -/
def clamped_query : ks_dhtrt_querynodes_t :=
  ((ks_dhtrt_findclosest_nodes testParams one_active_table
    (query_all testParams [0x00, 0x00] 200)).map (fun r => r.2.1)).getD
    (query_all testParams [0x00, 0x00] 200)

/-- Table after that query. -/
def clamped_table : Table :=
  ((ks_dhtrt_findclosest_nodes testParams one_active_table
    (query_all testParams [0x00, 0x00] 200)).map (fun r => r.2.2)).getD one_active_table

/-! ## Masks, the shape of the trie and splits: definitions and example tables -/

/-- Value of a byte string read as a big-endian unsigned integer. -/
def be_value : List Nat → Nat
  | [] => 0
  | x :: xs => x * 256 ^ xs.length + be_value xs

/-- Byte string made of `j` bytes 0x00, then the byte `2^m - 1` when `m` is not 0, then
`r` bytes 0xff. -/
def mask_bytes (j m r : Nat) : List Nat :=
  List.replicate j 0 ++ ((if m = 0 then [] else [2 ^ m - 1]) ++ List.replicate r 0xff)

/-- The trie mask of `n` bytes with `k` one-bits: a run of `k` one-bits that fills the
low-order end, big-endian value `2^k - 1`. -/
def trie_mask (n k : Nat) : List Nat :=
  mask_bytes (n - (k + 7) / 8) (k % 8) (k / 8)

/-- The masks of the trie below a header whose mask has `k` one-bits: every mask is a run
of one-bits at the low-order end, a right child has the mask of its parent, a left child
has one bit less, and a header without a bucket has at least `j` one-bits. -/
def ShapeInv (P : Params) (j : Nat) : Header → Nat → Prop
  | .null, _ => True
  | .hdr m _ b l r _ _, k =>
    m = trie_mask P.idlen k ∧ k ≤ 8 * P.idlen ∧ (b = none → j ≤ k) ∧
      ShapeInv P j l (k - 1) ∧ ShapeInv P j r k

/-- Number of headers without a bucket, which is the number of splits that made the trie. -/
def internal_count : Header → Nat
  | .null => 0
  | .hdr _ _ b l r _ _ => (if b.isSome then 0 else 1) + internal_count l + internal_count r

/-- The ids 0x0100 and 0x0200 fill the root bucket of a fresh table. -/
def pair_calls : List Call :=
  [.create 0 true [0x01, 0x00] 1 ['1', '.', '1'] 1, .create 0 true [0x02, 0x00] 1 ['1', '.', '1'] 2]

/-- Table after `pair_calls`. -/
def pair_table : Table := table_after testParams pair_calls

/-- A node record with the id 0x4000. -/
def third_node : ks_dht_node_t :=
  { nodeid := [0x40, 0x00], type := 1, family := 2, host := ['1', '.', '1'], port := 3, reflock := 0 }

/-- Scenario S1 followed by a touch of each of its three nodes. -/
def s1_touched_calls : List Call :=
  s1_calls ++ [.touch 1 [0x01, 0x00], .touch 1 [0x02, 0x00], .touch 1 [0x40, 0x00]]

/-- Table after `s1_touched_calls`. -/
def s1_touched_table : Table := table_after testParams s1_touched_calls

/-- The ids 0x0100 and 0x0200 fill the root bucket and are touched at clock reading 7. -/
def pair_touched_calls : List Call :=
  pair_calls ++ [.touch 7 [0x01, 0x00], .touch 7 [0x02, 0x00]]

/-- Table after `pair_touched_calls`. -/
def pair_touched_table : Table := table_after testParams pair_touched_calls

/-- The calls of `pair_touched_calls`, then the call for 0x4000 at clock reading 9. -/
def pair_split_calls : List Call :=
  pair_touched_calls ++ [.create 9 true [0x40, 0x00] 1 ['1', '.', '1'] 3]

/-- Table after `pair_split_calls`. -/
def pair_split_table : Table := table_after testParams pair_split_calls

/-! ## Read locks of the buckets: definitions and example tables -/

/-- Scenario S1 with its three nodes touched, then the query for the 4 nodes closest to
0x0300.  The query collects the lists of the leaves `[false, false]`, `[false, true]`,
`[false, true]` and `[false, false]`, each with a read lock on the bucket;
`ks_dhtrt_load_query` has copied 4 nodes after the third list and leaves its loop at the
`break`, so the read lock of the fourth list, on the bucket of `[false, false]`, is
never released. -/
def leak_calls : List Call :=
  s1_touched_calls ++ [.closest (query_all testParams [0x03, 0x00] 4)]

/-- Table after `leak_calls`. -/
def leak_table : Table := table_after testParams leak_calls

/-- Twenty nodes 76.., 77.., .., 89.. fill the root bucket (20-byte ids, buckets of 20):
ten ids below 80.. and ten ids from 80.. on. -/
def mixed_root_calls : List Call :=
  (List.range 20).map (fun i => Call.create 0 true (id20 (0x76 + i) 0) 1 ['1', '.', '1'] i)

/-- Table with the full root bucket of `mixed_root_calls`. -/
def mixed_root_table : Table := table_after stdParams mixed_root_calls

/-- Bucket of the root of `mixed_root_table`. -/
def mixed_root_bucket : ks_dhtrt_bucket_t :=
  mixed_root_table.buckets.bucket.getD (ks_dhtrt_create_bucket stdParams)

/-- The mask 7f ff .. ff of 20 bytes: the mask of the root after `ks_dhtrt_shiftright`. -/
def half_mask : List Nat := 0x7f :: List.replicate 19 0xff

/-- The ids in use of the buckets of the two children of a header. -/
def child_ids (h : Header) : List (List Nat) × List (List Nat) :=
  (((deref h [false]).bucket.map inuse_ids).getD [], ((deref h [true]).bucket.map inuse_ids).getD [])

/-! # Theorems -/

/-! ## Calls that wait for the lock of a bucket -/

theorem touch_node_some {P : Params} {now : Nat} {t t1 : Table} {x : List Nat} {s : ks_status_t}
    (h : ks_dhtrt_touch_node P now t x = some (s, t1)) :
    write_blocked P t.buckets x = false ∧ touch_node_locked P now t x = (s, t1) := by
  unfold ks_dhtrt_touch_node at h
  cases hw : write_blocked P t.buckets x with
  | true => rw [hw] at h; simp at h
  | false =>
    rw [hw] at h
    simp only [Bool.false_eq_true, if_false, Option.some.injEq] at h
    exact ⟨rfl, h⟩

theorem touch_node_snd {P : Params} {now : Nat} {t t1 : Table} {x : List Nat} {s : ks_status_t}
    (h : ks_dhtrt_touch_node P now t x = some (s, t1)) : t1 = (touch_node_locked P now t x).2 := by
  rw [(touch_node_some h).2]

theorem touch_node_free {P : Params} (now : Nat) {t : Table} {x : List Nat}
    (h : write_blocked P t.buckets x = false) :
    ks_dhtrt_touch_node P now t x = some (touch_node_locked P now t x) := by
  unfold ks_dhtrt_touch_node
  rw [h]
  rfl

theorem expire_node_some {P : Params} {t t1 : Table} {x : List Nat} {s : ks_status_t}
    (h : ks_dhtrt_expire_node P t x = some (s, t1)) :
    write_blocked P t.buckets x = false ∧ expire_node_locked P t x = (s, t1) := by
  unfold ks_dhtrt_expire_node at h
  cases hw : write_blocked P t.buckets x with
  | true => rw [hw] at h; simp at h
  | false =>
    rw [hw] at h
    simp only [Bool.false_eq_true, if_false, Option.some.injEq] at h
    exact ⟨rfl, h⟩

theorem expire_node_snd {P : Params} {t t1 : Table} {x : List Nat} {s : ks_status_t}
    (h : ks_dhtrt_expire_node P t x = some (s, t1)) : t1 = (expire_node_locked P t x).2 := by
  rw [(expire_node_some h).2]

theorem expire_node_free {P : Params} {t : Table} {x : List Nat}
    (h : write_blocked P t.buckets x = false) :
    ks_dhtrt_expire_node P t x = some (expire_node_locked P t x) := by
  unfold ks_dhtrt_expire_node
  rw [h]
  rfl

theorem delete_node_some {P : Params} {t t1 : Table} {n : Nat} {s : ks_status_t}
    (h : ks_dhtrt_delete_node P t n = some (s, t1)) :
    delete_node_locked P t n = some (s, t1) ∧
    ∃ r, node_at t n = some r ∧ write_blocked P t.buckets r.nodeid = false := by
  unfold ks_dhtrt_delete_node at h
  cases hn : node_at t n with
  | none => rw [hn] at h; simp at h
  | some r =>
    rw [hn] at h
    simp only at h
    cases hw : write_blocked P t.buckets r.nodeid with
    | true => rw [hw] at h; simp at h
    | false =>
      rw [hw] at h
      simp only [Bool.false_eq_true, if_false] at h
      exact ⟨h, r, rfl, hw⟩

theorem delete_node_free {P : Params} {t : Table} {n : Nat} {r : ks_dht_node_t}
    (hn : node_at t n = some r) (h : write_blocked P t.buckets r.nodeid = false) :
    ks_dhtrt_delete_node P t n = delete_node_locked P t n := by
  unfold ks_dhtrt_delete_node
  rw [hn]
  simp only
  rw [h]
  rfl

theorem insert_node_some {P : Params} {now nptr : Nat} {root : Header} {node : ks_dht_node_t}
    {r : ks_status_t × Header} (h : ks_dhtrt_insert_node P now root nptr node = some r) :
    write_blocked P root node.nodeid = false ∧ insert_node_locked P now root nptr node = some r := by
  unfold ks_dhtrt_insert_node at h
  cases hw : write_blocked P root node.nodeid with
  | true => rw [hw] at h; simp at h
  | false =>
    rw [hw] at h
    simp only [Bool.false_eq_true, if_false] at h
    exact ⟨rfl, h⟩

theorem insert_node_free {P : Params} (now nptr : Nat) {root : Header} {node : ks_dht_node_t}
    (h : write_blocked P root node.nodeid = false) :
    ks_dhtrt_insert_node P now root nptr node = insert_node_locked P now root nptr node := by
  unfold ks_dhtrt_insert_node
  rw [h]
  rfl

theorem touch_node_blocked {P : Params} (now : Nat) {t : Table} {x : List Nat}
    (h : write_blocked P t.buckets x = true) : ks_dhtrt_touch_node P now t x = none := by
  unfold ks_dhtrt_touch_node
  rw [h]
  rfl

/-- The lock of the bucket at `p` is free when the descent for `x` ends there and the call
does not wait. -/
theorem write_blocked_false {P : Params} {root : Header} {x : List Nat} {p : HPtr}
    {b : ks_dhtrt_bucket_t} (hf : ks_dhtrt_find_bucketheader P root x = some p)
    (hb : (deref root p).bucket = some b) :
    write_blocked P root x = false ↔ b.lock = 0 := by
  unfold write_blocked
  rw [hf]
  simp only
  rw [hb]
  simp

theorem memcmp_eq_zero_iff : ∀ (n : Nat) (a b : List Nat), a.length = n → b.length = n →
    (memcmp n a b = 0 ↔ a = b) := by
  intro n
  induction n with
  | zero =>
    intro a b ha hb
    rw [List.length_eq_zero] at ha hb
    simp [memcmp, ha, hb]
  | succ n ih =>
    intro a b ha hb
    match a, b, ha, hb with
    | x :: as, y :: bs, ha, hb =>
      simp only [List.length_cons, Nat.add_right_cancel_iff] at ha hb
      simp only [memcmp, List.headD_cons, List.tail_cons]
      by_cases h1 : x < y
      · simp [h1]; omega
      · by_cases h2 : y < x
        · simp [h1, h2]; omega
        · have : x = y := by omega
          simp [h1, h2, ih as bs ha hb, this]

/-! ## Lists -/

theorem getD_append_length {α : Type} (l1 l2 : List α) (e d : α) :
    (l1 ++ e :: l2).getD l1.length d = e := by
  induction l1 with
  | nil => rfl
  | cons a l1 ih => simpa using ih

theorem set_append_length {α : Type} (l1 l2 : List α) (e e1 : α) :
    (l1 ++ e :: l2).set l1.length e1 = l1 ++ e1 :: l2 := by
  induction l1 with
  | nil => rfl
  | cons a l1 ih => simp [ih]

theorem get?_append_length {α : Type} (l1 l2 : List α) (e : α) :
    (l1 ++ e :: l2).get? l1.length = some e := by
  induction l1 with
  | nil => rfl
  | cons a l1 ih => simpa using ih

theorem get?_split {α : Type} : ∀ (l : List α) (i : Nat) (e : α), l.get? i = some e →
    ∃ l1 l2, l = l1 ++ e :: l2 ∧ l1.length = i := by
  intro l
  induction l with
  | nil => intro i e h; simp at h
  | cons a l ih =>
    intro i e h
    cases i with
    | zero =>
      simp at h
      exact ⟨[], l, by simp [h], rfl⟩
    | succ i =>
      simp at h
      obtain ⟨l1, l2, h1, h2⟩ := ih i e (by simpa using h)
      exact ⟨a :: l1, l2, by simp [h1], by simp [h2]⟩

/-! ## Lookup in a bucket -/

theorem find_entry_loop_some (P : Params) (id : List Nat) :
    ∀ (es : List ks_dhtrt_bucket_entry_t) (ix j : Nat), find_entry_loop P id es ix = some j →
      ∃ l1 e l2, es = l1 ++ e :: l2 ∧ j = ix + l1.length ∧ e.inuse = 1 ∧
        memcmp P.idlen id e.id = 0 ∧ ∀ a ∈ l1, ¬(a.inuse = 1 ∧ memcmp P.idlen id a.id = 0) := by
  intro es
  induction es with
  | nil => intro ix j h; simp [find_entry_loop] at h
  | cons e es ih =>
    intro ix j h
    unfold find_entry_loop at h
    by_cases hc : e.inuse = 1 ∧ memcmp P.idlen id e.id = 0
    · rw [if_pos hc] at h
      refine ⟨[], e, es, rfl, ?_, hc.1, hc.2, by simp⟩
      simp at h; simp [h]
    · rw [if_neg hc] at h
      obtain ⟨l1, e1, l2, h1, h2, h3, h4, h5⟩ := ih (ix + 1) j h
      refine ⟨e :: l1, e1, l2, by simp [h1], by simp [h2]; omega, h3, h4, ?_⟩
      intro a ha
      rcases List.mem_cons.1 ha with rfl | ha
      · exact hc
      · exact h5 a ha

theorem find_entry_loop_none (P : Params) (id : List Nat) :
    ∀ (es : List ks_dhtrt_bucket_entry_t) (ix : Nat), find_entry_loop P id es ix = none ↔
      ∀ a ∈ es, ¬(a.inuse = 1 ∧ memcmp P.idlen id a.id = 0) := by
  intro es
  induction es with
  | nil => intro ix; simp [find_entry_loop]
  | cons e es ih =>
    intro ix
    unfold find_entry_loop
    by_cases hc : e.inuse = 1 ∧ memcmp P.idlen id e.id = 0
    · rw [if_pos hc]
      simp only [reduceCtorEq, List.mem_cons, forall_eq_or_imp, false_iff, not_and]
      intro h; exact absurd hc.2 (h hc.1)
    · rw [if_neg hc, ih (ix + 1)]
      simp only [List.mem_cons, forall_eq_or_imp]
      exact ⟨fun h => ⟨hc, h⟩, fun h => h.2⟩

theorem mem_inuse_ids {b : ks_dhtrt_bucket_t} {x : List Nat} :
    x ∈ inuse_ids b ↔ ∃ e ∈ b.entries, e.inuse = 1 ∧ e.id = x := by
  simp [inuse_ids, and_assoc]

/-- Two slots in use with the same id are the same slot. -/
theorem nodup_index_unique : ∀ (l : List ks_dhtrt_bucket_entry_t) (i j : Nat)
    (a c : ks_dhtrt_bucket_entry_t),
    ((l.filter (fun e => e.inuse = 1)).map (fun e => e.id)).Nodup →
    l.get? i = some a → l.get? j = some c → a.inuse = 1 → c.inuse = 1 → a.id = c.id → i = j := by
  intro l
  induction l with
  | nil => intro i j a c _ h; simp at h
  | cons h t ih =>
    intro i j a c hnd hi hj ha hc hid
    have hnd' : ((t.filter (fun e => e.inuse = 1)).map (fun e => e.id)).Nodup := by
      by_cases hh : h.inuse = 1
      · simp [List.filter_cons, hh] at hnd; exact hnd.2
      · simpa [List.filter_cons, hh] using hnd
    cases i with
    | zero =>
      cases j with
      | zero => rfl
      | succ j =>
        exfalso
        simp at hi hj
        subst hi
        have hmem : c ∈ t := List.get?_mem (by simpa using hj)
        simp [List.filter_cons, ha] at hnd
        exact hnd.1 c hmem hc hid.symm
    | succ i =>
      cases j with
      | zero =>
        exfalso
        simp at hi hj
        subst hj
        have hmem : a ∈ t := List.get?_mem (by simpa using hi)
        simp [List.filter_cons, hc] at hnd
        exact hnd.1 a hmem ha hid
      | succ j =>
        have := ih i j a c hnd' (by simpa using hi) (by simpa using hj) ha hc hid
        omega

/-! ## Insertion into a bucket -/

theorem filter_length_eq_length {l : List ks_dhtrt_bucket_entry_t}
    (h : (l.filter (fun e => e.inuse = 1)).length = l.length) : ∀ e ∈ l, e.inuse = 1 := by
  intro e he
  have := (List.filter_length_eq_length (p := fun e : ks_dhtrt_bucket_entry_t => decide (e.inuse = 1))).1 h e he
  simpa using this

/-- A full bucket has every slot in use. -/
theorem BucketInv.all_inuse {P : Params} {b : ks_dhtrt_bucket_t} (hb : BucketInv P b)
    (hfull : b.count = P.bucketsize) : ∀ e ∈ b.entries, e.inuse = 1 :=
  filter_length_eq_length (by rw [← hb.count, hfull, hb.len])

theorem insert_id_scan_spec (P : Params) (x : List Nat) :
    ∀ (es : List ks_dhtrt_bucket_entry_t) (ix free exp : Nat),
      (∀ a ∈ es, a.inuse ≠ 0 → memcmp P.idlen a.id x ≠ 0) →
      ix + es.length ≤ P.bucketsize →
      ∃ f1 e1, insert_id_scan P x es ix free exp = .inr (f1, e1) ∧
        (free ≠ P.bucketsize → f1 = free ∧ e1 = exp) ∧
        (free = P.bucketsize →
          (f1 < P.bucketsize ∧ (∃ l1 e l2, es = l1 ++ e :: l2 ∧ f1 = ix + l1.length ∧ e.inuse = 0) ∧
            (e1 = exp ∨ e1 < f1)) ∨
          (f1 = P.bucketsize ∧ (∀ a ∈ es, a.inuse ≠ 0) ∧
            ((e1 = exp ∧ ∀ a ∈ es, a.flags ≠ DHTPEER_EXPIRED) ∨
              ∃ l1 e l2, es = l1 ++ e :: l2 ∧ e1 = ix + l1.length ∧ e.inuse ≠ 0 ∧
                e.flags = DHTPEER_EXPIRED))) := by
  intro es
  induction es with
  | nil =>
    intro ix free exp _ _
    refine ⟨free, exp, rfl, fun _ => ⟨rfl, rfl⟩, fun h => Or.inr ⟨h, by simp, Or.inl ⟨rfl, by simp⟩⟩⟩
  | cons e es ih =>
    intro ix free exp hdup hlen
    have hdup1 : ∀ a ∈ es, a.inuse ≠ 0 → memcmp P.idlen a.id x ≠ 0 :=
      fun a ha => hdup a (List.mem_cons_of_mem _ ha)
    have hlen1 : ix + 1 + es.length ≤ P.bucketsize := by simp at hlen; omega
    have hix : ix < P.bucketsize := by simp at hlen; omega
    unfold insert_id_scan
    by_cases h0 : e.inuse = 0
    · rw [if_pos h0]
      by_cases hf : free = P.bucketsize
      · rw [if_pos hf]
        obtain ⟨f1, e1, hr, hne, _⟩ := ih (ix + 1) ix exp hdup1 hlen1
        obtain ⟨rfl, rfl⟩ := hne (by omega)
        refine ⟨f1, e1, hr, fun h => absurd hf h, fun _ => Or.inl ⟨hix, ⟨[], e, es, rfl, by simp, h0⟩, Or.inl rfl⟩⟩
      · rw [if_neg hf]
        obtain ⟨f1, e1, hr, hne, _⟩ := ih (ix + 1) free exp hdup1 hlen1
        exact ⟨f1, e1, hr, hne, fun h => absurd h hf⟩
    · rw [if_neg h0]
      by_cases hexp : free = P.bucketsize ∧ e.flags = DHTPEER_EXPIRED
      · rw [if_pos hexp]
        obtain ⟨f1, e1, hr, _, heq⟩ := ih (ix + 1) free ix hdup1 hlen1
        refine ⟨f1, e1, hr, fun h => absurd hexp.1 h, fun _ => ?_⟩
        rcases heq hexp.1 with ⟨h1, ⟨l1, e0, l2, h2, h3, h4⟩, h5⟩ | ⟨h1, h2, h5⟩
        · refine Or.inl ⟨h1, ⟨e :: l1, e0, l2, by simp [h2], by simp [h3]; omega, h4⟩, Or.inr ?_⟩
          rcases h5 with h5 | h5 <;> omega
        · refine Or.inr ⟨h1, ?_, Or.inr ?_⟩
          · intro a ha
            rcases List.mem_cons.1 ha with rfl | ha
            · exact h0
            · exact h2 a ha
          · rcases h5 with ⟨h5, _⟩ | ⟨l1, e0, l2, h6, h7, h8, h9⟩
            · exact ⟨[], e, es, rfl, by simp [h5], h0, hexp.2⟩
            · exact ⟨e :: l1, e0, l2, by simp [h6], by simp [h7]; omega, h8, h9⟩
      · rw [if_neg hexp, if_neg (hdup e (List.mem_cons_self _ _) h0)]
        obtain ⟨f1, e1, hr, hne, heq⟩ := ih (ix + 1) free exp hdup1 hlen1
        refine ⟨f1, e1, hr, hne, fun hf => ?_⟩
        rcases heq hf with ⟨h1, ⟨l1, e0, l2, h2, h3, h4⟩, h5⟩ | ⟨h1, h2, h5⟩
        · exact Or.inl ⟨h1, ⟨e :: l1, e0, l2, by simp [h2], by simp [h3]; omega, h4⟩, h5⟩
        · refine Or.inr ⟨h1, ?_, ?_⟩
          · intro a ha
            rcases List.mem_cons.1 ha with rfl | ha
            · exact h0
            · exact h2 a ha
          · rcases h5 with ⟨h5, h10⟩ | ⟨l1, e0, l2, h6, h7, h8, h9⟩
            · refine Or.inl ⟨h5, ?_⟩
              intro a ha
              rcases List.mem_cons.1 ha with rfl | ha
              · exact fun h => hexp ⟨hf, h⟩
              · exact h10 a ha
            · exact Or.inr ⟨e :: l1, e0, l2, by simp [h6], by simp [h7]; omega, h8, h9⟩

theorem filter_inuse_length_lt (l1 l2 : List ks_dhtrt_bucket_entry_t) (e : ks_dhtrt_bucket_entry_t)
    (h : e.inuse = 0) :
    ((l1 ++ e :: l2).filter (fun e => e.inuse = 1)).length < (l1 ++ e :: l2).length := by
  have h1 := List.length_filter_le (fun e : ks_dhtrt_bucket_entry_t => decide (e.inuse = 1)) l1
  have h2 := List.length_filter_le (fun e : ks_dhtrt_bucket_entry_t => decide (e.inuse = 1)) l2
  simp [List.filter_append, List.filter_cons, h]
  omega

/-- What `ks_dhtrt_insert_id` does with an id the bucket does not hold: it takes a
free slot, else an expired slot, else it fails and changes nothing. -/
theorem insert_id_spec {P : Params} (hP : P.ok) (now nptr : Nat) (node : ks_dht_node_t)
    {b : ks_dhtrt_bucket_t} (hb : BucketInv P b) (hx : node.nodeid ∉ inuse_ids b)
    (hlen : node.nodeid.length = P.idlen) :
    (∃ l1 e l2, b.entries = l1 ++ e :: l2 ∧
      ((e.inuse = 0 ∧ b.count < P.bucketsize ∧
        ks_dhtrt_insert_id P now b nptr node = some (KS_STATUS_SUCCESS,
          { entries := l1 ++ new_entry now nptr node e :: l2, count := b.count + 1,
            expired_count := b.expired_count, lock := b.lock })) ∨
       (e.inuse = 1 ∧ e.flags = DHTPEER_EXPIRED ∧ b.count = P.bucketsize ∧
        ks_dhtrt_insert_id P now b nptr node = some (KS_STATUS_SUCCESS,
          { entries := l1 ++ new_entry now nptr node e :: l2, count := b.count,
            expired_count := (b.expired_count + 255) % 256, lock := b.lock })))) ∨
    (ks_dhtrt_insert_id P now b nptr node = some (KS_STATUS_FAIL, b) ∧ b.count = P.bucketsize ∧
      ∀ e ∈ b.entries, e.inuse = 1 ∧ e.flags ≠ DHTPEER_EXPIRED) := by
  have hcount : b.count ≤ P.bucketsize := by
    rw [hb.count, ← hb.len]; exact List.length_filter_le _ _
  have hdup : ∀ a ∈ b.entries, a.inuse ≠ 0 → memcmp P.idlen a.id node.nodeid ≠ 0 := by
    intro a ha h0 hm
    have h1 : a.inuse = 1 := by rcases hb.bool a ha with h | h; exact absurd h h0; exact h
    have := (memcmp_eq_zero_iff P.idlen a.id node.nodeid (hb.wf a ha h1).1 hlen).1 hm
    exact hx (mem_inuse_ids.2 ⟨a, ha, h1, this⟩)
  obtain ⟨f1, e1, hr, _, heq⟩ :=
    insert_id_scan_spec P node.nodeid b.entries 0 P.bucketsize P.bucketsize hdup (by simp [hb.len])
  unfold ks_dhtrt_insert_id
  rw [if_neg (by omega), hr]
  rcases heq rfl with ⟨h1, ⟨l1, e, l2, h2, h3, h4⟩, h5⟩ | ⟨h1, h2, h5⟩
  · -- a free slot
    left
    have hlt : b.count < P.bucketsize := by
      rw [hb.count, ← hb.len, h2]; exact filter_inuse_length_lt l1 l2 e h4
    refine ⟨l1, e, l2, h2, Or.inl ⟨h4, hlt, ?_⟩⟩
    have hne : f1 ≠ e1 := by rcases h5 with h5 | h5 <;> omega
    have hf : f1 = l1.length := by omega
    have hcnt : (b.count + 1) % 256 = b.count + 1 := Nat.mod_eq_of_lt (by unfold Params.ok at hP; omega)
    subst hf
    simp [h2, new_entry, hcnt, show ¬ (l1.length = P.bucketsize) by omega, h1, hne,
      List.getElem_append_right]
  · have hall : ∀ a ∈ b.entries, a.inuse = 1 := by
      intro a ha
      rcases hb.bool a ha with h | h
      · exact absurd h (h2 a ha)
      · exact h
    have hfull : b.count = P.bucketsize := by
      rw [hb.count, ← hb.len]
      exact (List.filter_length_eq_length).2 (by intro a ha; simpa using hall a ha)
    rcases h5 with ⟨h5, h10⟩ | ⟨l1, e, l2, h6, h7, h8, h9⟩
    · -- no slot at all
      right
      subst h1 h5
      exact ⟨by cases b; simp, hfull, fun a ha => ⟨hall a ha, h10 a ha⟩⟩
    · left
      have hi : e.inuse = 1 := hall e (by simp [h6])
      have hlt : l1.length < P.bucketsize := by
        have := hb.len; rw [h6] at this; simp at this; omega
      refine ⟨l1, e, l2, h6, Or.inr ⟨hi, h9, hfull, ?_⟩⟩
      have hf : e1 = l1.length := by omega
      subst h1 hf
      simp [h6, new_entry, hlt, List.getElem_append_right]

theorem inuse_ids_eq (b : ks_dhtrt_bucket_t) : inuse_ids b = inuse_ids_of b.entries := rfl

theorem inuse_ids_of_middle (l1 l2 : List ks_dhtrt_bucket_entry_t) (a : ks_dhtrt_bucket_entry_t) :
    inuse_ids_of (l1 ++ a :: l2) =
      inuse_ids_of l1 ++ ((if a.inuse = 1 then [a.id] else []) ++ inuse_ids_of l2) := by
  by_cases h : a.inuse = 1 <;> simp [inuse_ids_of, List.filter_append, List.filter_cons, h]

theorem mem_inuse_ids_of {l : List ks_dhtrt_bucket_entry_t} {x : List Nat} :
    x ∈ inuse_ids_of l ↔ ∃ e ∈ l, e.inuse = 1 ∧ e.id = x := by
  simp [inuse_ids_of, and_assoc]

theorem filter_inuse_middle (l1 l2 : List ks_dhtrt_bucket_entry_t) (a : ks_dhtrt_bucket_entry_t) :
    ((l1 ++ a :: l2).filter (fun e => e.inuse = 1)).length =
      (l1.filter (fun e => e.inuse = 1)).length + (if a.inuse = 1 then 1 else 0) +
        (l2.filter (fun e => e.inuse = 1)).length := by
  by_cases h : a.inuse = 1 <;> simp [List.filter_append, List.filter_cons, h]; omega

/-- A slot of the bucket is overwritten by a slot in use that holds a new id. -/
theorem BucketInv.replace {P : Params} {b : ks_dhtrt_bucket_t} (hb : BucketInv P b)
    {l1 l2 : List ks_dhtrt_bucket_entry_t} {e e1 : ks_dhtrt_bucket_entry_t}
    (h : b.entries = l1 ++ e :: l2) (h1 : e1.inuse = 1) (hlen : e1.id.length = P.idlen)
    (hg : e1.gptr ≠ none) (hfresh : e1.id ∉ inuse_ids b) (c ec : Nat)
    (hc : c = if e.inuse = 1 then b.count else b.count + 1) :
    BucketInv P { entries := l1 ++ e1 :: l2, count := c, expired_count := ec, lock := b.lock } := by
  have hbool := hb.bool
  have hwf := hb.wf
  have hnd := hb.nodup
  have hcount := hb.count
  have hl := hb.len
  rw [inuse_ids_eq, h, inuse_ids_of_middle] at hnd hfresh
  rw [h] at hbool hwf hcount hl
  rw [filter_inuse_middle] at hcount
  refine ⟨by simpa using hl, ?_, ?_, ?_, ?_⟩
  · show c = _
    rw [filter_inuse_middle, hc, hcount]
    rcases hbool e (by simp) with h0 | h0 <;> simp [h0, h1] <;> omega
  · intro a ha
    simp only [List.mem_append, List.mem_cons] at ha
    rcases ha with ha | rfl | ha
    · exact hbool a (by simp [ha])
    · exact Or.inr h1
    · exact hbool a (by simp [ha])
  · intro a ha hi
    simp only [List.mem_append, List.mem_cons] at ha
    rcases ha with ha | rfl | ha
    · exact hwf a (by simp [ha]) hi
    · exact ⟨hlen, hg⟩
    · exact hwf a (by simp [ha]) hi
  · show (inuse_ids_of (l1 ++ e1 :: l2)).Nodup
    rw [inuse_ids_of_middle, if_pos h1]
    simp only [List.singleton_append]
    rw [List.nodup_middle, List.nodup_cons]
    by_cases h0 : e.inuse = 1
    · simp only [h0, if_true, List.singleton_append] at hnd hfresh
      rw [List.nodup_middle, List.nodup_cons] at hnd
      refine ⟨?_, hnd.2⟩
      intro hm
      apply hfresh
      simp only [List.mem_append, List.mem_cons] at hm ⊢
      tauto
    · simp only [h0, if_false, List.nil_append] at hnd hfresh
      exact ⟨hfresh, hnd⟩

theorem inuse_ids_replace {l1 l2 : List ks_dhtrt_bucket_entry_t} {e e1 : ks_dhtrt_bucket_entry_t}
    (h1 : e1.inuse = 1) (y : List Nat) (hy : y ∈ inuse_ids_of (l1 ++ e1 :: l2)) :
    y ∈ inuse_ids_of (l1 ++ e :: l2) ∨ y = e1.id := by
  rw [inuse_ids_of_middle, if_pos h1] at hy
  rw [inuse_ids_of_middle]
  simp only [List.mem_append, List.mem_cons, List.mem_singleton, List.not_mem_nil, or_false] at hy ⊢
  tauto

/-- A slot of the bucket changes in fields other than `inuse`, `id` and `gptr`. -/
theorem BucketInv.modify {P : Params} {b : ks_dhtrt_bucket_t} (hb : BucketInv P b)
    {l1 l2 : List ks_dhtrt_bucket_entry_t} {e e1 : ks_dhtrt_bucket_entry_t}
    (h : b.entries = l1 ++ e :: l2) (h1 : e1.inuse = e.inuse) (h2 : e1.id = e.id)
    (h3 : e1.gptr = e.gptr) (ec : Nat) :
    BucketInv P { entries := l1 ++ e1 :: l2, count := b.count, expired_count := ec, lock := b.lock } ∧
      inuse_ids_of (l1 ++ e1 :: l2) = inuse_ids b := by
  have hids : inuse_ids_of (l1 ++ e1 :: l2) = inuse_ids b := by
    rw [inuse_ids_eq, h, inuse_ids_of_middle, inuse_ids_of_middle, h1, h2]
  have hbool := hb.bool
  have hwf := hb.wf
  have hcount := hb.count
  have hl := hb.len
  rw [h] at hbool hwf hcount hl
  refine ⟨⟨by simpa using hl, ?_, ?_, ?_, ?_⟩, hids⟩
  · show b.count = _
    rw [hcount, filter_inuse_middle, filter_inuse_middle, h1]
  · intro a ha
    simp only [List.mem_append, List.mem_cons] at ha
    rcases ha with ha | rfl | ha
    · exact hbool a (by simp [ha])
    · rw [h1]; exact hbool e (by simp)
    · exact hbool a (by simp [ha])
  · intro a ha hi
    simp only [List.mem_append, List.mem_cons] at ha
    rcases ha with ha | rfl | ha
    · exact hwf a (by simp [ha]) hi
    · rw [h2, h3]; exact hwf e (by simp) (by rw [← h1]; exact hi)
    · exact hwf a (by simp [ha]) hi
  · show (inuse_ids_of (l1 ++ e1 :: l2)).Nodup
    rw [hids]; exact hb.nodup

/-- A slot in use of the bucket is cleared. -/
theorem BucketInv.clear {P : Params} (hP : P.ok) {b : ks_dhtrt_bucket_t} (hb : BucketInv P b)
    {l1 l2 : List ks_dhtrt_bucket_entry_t} {e e1 : ks_dhtrt_bucket_entry_t}
    (h : b.entries = l1 ++ e :: l2) (h0 : e.inuse = 1) (h1 : e1.inuse = 0) (ec : Nat) :
    BucketInv P { entries := l1 ++ e1 :: l2, count := (b.count + 255) % 256, expired_count := ec, lock := b.lock } ∧
      (b.count + 255) % 256 = b.count - 1 ∧ 0 < b.count ∧
      inuse_ids_of (l1 ++ e1 :: l2) = inuse_ids_of l1 ++ inuse_ids_of l2 ∧
      inuse_ids b = inuse_ids_of l1 ++ e.id :: inuse_ids_of l2 := by
  have hbool := hb.bool
  have hwf := hb.wf
  have hnd := hb.nodup
  have hcount := hb.count
  have hl := hb.len
  have hids : inuse_ids b = inuse_ids_of l1 ++ e.id :: inuse_ids_of l2 := by
    rw [inuse_ids_eq, h, inuse_ids_of_middle, if_pos h0]; simp
  have hids1 : inuse_ids_of (l1 ++ e1 :: l2) = inuse_ids_of l1 ++ inuse_ids_of l2 := by
    rw [inuse_ids_of_middle, if_neg (by omega)]; simp
  have hle : b.count ≤ P.bucketsize := by
    rw [hb.count, ← hb.len]; exact List.length_filter_le _ _
  rw [h] at hbool hwf hcount hl
  rw [filter_inuse_middle, if_pos h0] at hcount
  have hpos : 0 < b.count := by omega
  have hmod : (b.count + 255) % 256 = b.count - 1 := by
    unfold Params.ok at hP; omega
  refine ⟨⟨by simpa using hl, ?_, ?_, ?_, ?_⟩, hmod, hpos, hids1, hids⟩
  · show (b.count + 255) % 256 = _
    rw [hmod, filter_inuse_middle, if_neg (by omega), hcount]; omega
  · intro a ha
    simp only [List.mem_append, List.mem_cons] at ha
    rcases ha with ha | rfl | ha
    · exact hbool a (by simp [ha])
    · exact Or.inl h1
    · exact hbool a (by simp [ha])
  · intro a ha hi
    simp only [List.mem_append, List.mem_cons] at ha
    rcases ha with ha | rfl | ha
    · exact hwf a (by simp [ha]) hi
    · omega
    · exact hwf a (by simp [ha]) hi
  · show (inuse_ids_of (l1 ++ e1 :: l2)).Nodup
    rw [hids1]
    rw [hids, List.nodup_middle, List.nodup_cons] at hnd
    exact hnd.2

theorem split_loop_spec (P : Params) (lm : List Nat) :
    ∀ (es pre : List ks_dhtrt_bucket_entry_t) (k c : Nat) (dest : ks_dhtrt_bucket_t),
      dest.entries = pre ++ List.replicate k (zero_entry P) → es.length ≤ k →
      (es.filter (fun e => ks_dhtrt_ismasked P e.id lm)).length ≤ c → c < 256 →
      dest.count + (es.filter (fun e => ks_dhtrt_ismasked P e.id lm)).length < 256 →
      split_loop P lm es pre.length c dest =
        (es.map (kept_entry P lm),
         c - (es.filter (fun e => ks_dhtrt_ismasked P e.id lm)).length,
         { entries := pre ++ (es.filter (fun e => ks_dhtrt_ismasked P e.id lm)).map (moved_entry P) ++
             List.replicate (k - (es.filter (fun e => ks_dhtrt_ismasked P e.id lm)).length) (zero_entry P),
           count := dest.count + (es.filter (fun e => ks_dhtrt_ismasked P e.id lm)).length,
           expired_count := dest.expired_count, lock := dest.lock }) := by
  intro es
  induction es with
  | nil =>
    intro pre k c dest hd _ _ _ _
    cases dest
    simp at hd
    simp [split_loop, hd]
  | cons e es ih =>
    intro pre k c dest hd hk hc hc2 hdc
    unfold split_loop
    by_cases hm : ks_dhtrt_ismasked P e.id lm = true
    · rw [if_pos hm]
      simp only [List.filter_cons, hm, if_true, List.length_cons] at hc hdc ⊢
      obtain ⟨k1, rfl⟩ : ∃ k1, k = k1 + 1 := ⟨k - 1, by simp at hk; omega⟩
      have hd1 : dest.entries = pre ++ zero_entry P :: List.replicate k1 (zero_entry P) := by
        rw [hd, List.replicate_succ]
      have hmod1 : (dest.count + 1) % 256 = dest.count + 1 := Nat.mod_eq_of_lt (by omega)
      have hmod2 : (c + 255) % 256 = c - 1 := by omega
      have hpre : (pre ++ [moved_entry P e]).length = pre.length + 1 := by simp
      have := ih (pre ++ [moved_entry P e]) k1 (c - 1)
        { dest with entries := pre ++ moved_entry P e :: List.replicate k1 (zero_entry P),
                    count := dest.count + 1 }
        (by simp) (by simp at hk; omega) (by omega) (by omega) (by simp; omega)
      rw [hpre] at this
      simp only [hd1, getD_append_length, set_append_length, hmod1, hmod2]
      simp only [moved_entry] at this ⊢
      rw [this]
      simp [kept_entry, hm, moved_entry, Nat.sub_sub, Nat.add_comm 1, Nat.add_assoc]
    · rw [if_neg hm]
      simp only [List.filter_cons, hm, if_false] at hc hdc ⊢
      have := ih pre k c dest hd (by simp at hk; omega) hc hc2 hdc
      rw [this]
      simp [kept_entry, hm]

theorem filter_moved (P : Params) (M : List ks_dhtrt_bucket_entry_t) (k : Nat) :
    (M.map (moved_entry P) ++ List.replicate k (zero_entry P)).filter (fun e => e.inuse = 1) =
      M.map (moved_entry P) := by
  rw [List.filter_append]
  have h1 : (M.map (moved_entry P)).filter (fun e => e.inuse = 1) = M.map (moved_entry P) := by
    rw [List.filter_eq_self]
    intro a ha
    obtain ⟨e, _, rfl⟩ := List.mem_map.1 ha
    simp [moved_entry]
  have h2 : (List.replicate k (zero_entry P)).filter (fun e => e.inuse = 1) = [] := by
    rw [List.filter_eq_nil_iff]
    intro a ha
    rw [List.eq_of_mem_replicate ha]
    simp [zero_entry]
  rw [h1, h2, List.append_nil]

theorem filter_kept (P : Params) (lm : List Nat) :
    ∀ (es : List ks_dhtrt_bucket_entry_t), (∀ e ∈ es, e.inuse = 1) →
      (es.map (kept_entry P lm)).filter (fun e => e.inuse = 1) =
        es.filter (fun e => !ks_dhtrt_ismasked P e.id lm) := by
  intro es
  induction es with
  | nil => intro _; rfl
  | cons e es ih =>
    intro h
    have he : e.inuse = 1 := h e (by simp)
    have ih1 := ih (fun a ha => h a (by simp [ha]))
    by_cases hm : ks_dhtrt_ismasked P e.id lm = true
    · simp [List.filter_cons, kept_entry, hm] at ih1 ⊢
      exact ih1
    · simp [List.filter_cons, kept_entry, hm, he] at ih1 ⊢
      exact ih1

theorem filter_length_add (lm : List Nat) (P : Params) (es : List ks_dhtrt_bucket_entry_t) :
    (es.filter (fun e => ks_dhtrt_ismasked P e.id lm)).length +
      (es.filter (fun e => !ks_dhtrt_ismasked P e.id lm)).length = es.length := by
  induction es with
  | nil => rfl
  | cons e es ih =>
    by_cases hm : ks_dhtrt_ismasked P e.id lm = true <;> simp [List.filter_cons, hm] <;> omega

theorem split_full {P : Params} (hP : P.ok) (lm : List Nat) {b : ks_dhtrt_bucket_t}
    (hb : BucketInv P b) (hfull : b.count = P.bucketsize) :
    split_loop P lm b.entries 0 b.count (ks_dhtrt_create_bucket P) =
      (b.entries.map (kept_entry P lm),
       b.count - (b.entries.filter (fun e => ks_dhtrt_ismasked P e.id lm)).length,
       { entries := (b.entries.filter (fun e => ks_dhtrt_ismasked P e.id lm)).map (moved_entry P) ++
           List.replicate (P.bucketsize - (b.entries.filter (fun e => ks_dhtrt_ismasked P e.id lm)).length)
             (zero_entry P),
         count := (b.entries.filter (fun e => ks_dhtrt_ismasked P e.id lm)).length,
         expired_count := 0, lock := 0 }) := by
  have hle := List.length_filter_le (fun e : ks_dhtrt_bucket_entry_t => ks_dhtrt_ismasked P e.id lm) b.entries
  rw [hb.len] at hle
  unfold Params.ok at hP
  have := split_loop_spec P lm b.entries [] P.bucketsize b.count (ks_dhtrt_create_bucket P)
    (by simp [ks_dhtrt_create_bucket]) (by rw [hb.len]) (by omega) (by omega)
    (by simp [ks_dhtrt_create_bucket]; omega)
  simpa [ks_dhtrt_create_bucket] using this

theorem split_left_inv {P : Params} (hP : P.ok) (lm : List Nat) {b : ks_dhtrt_bucket_t}
    (hb : BucketInv P b) (hfull : b.count = P.bucketsize) :
    BucketInv P (split_left P lm b) ∧
      inuse_ids (split_left P lm b) =
        (b.entries.filter (fun e => ks_dhtrt_ismasked P e.id lm)).map (fun e => e.id) := by
  have hall := hb.all_inuse hfull
  have hle := List.length_filter_le (fun e : ks_dhtrt_bucket_entry_t => ks_dhtrt_ismasked P e.id lm) b.entries
  rw [hb.len] at hle
  have hids : inuse_ids (split_left P lm b) =
      (b.entries.filter (fun e => ks_dhtrt_ismasked P e.id lm)).map (fun e => e.id) := by
    unfold split_left inuse_ids
    rw [split_full hP lm hb hfull]
    simp only [filter_moved, List.map_map]
    rfl
  refine ⟨⟨?_, ?_, ?_, ?_, ?_⟩, hids⟩
  · unfold split_left; rw [split_full hP lm hb hfull]; simp; omega
  · unfold split_left; rw [split_full hP lm hb hfull]; simp only [filter_moved]; simp
  · unfold split_left; rw [split_full hP lm hb hfull]
    intro a ha
    simp only [List.mem_append, List.mem_map] at ha
    rcases ha with ⟨e, _, rfl⟩ | ha
    · right; rfl
    · left; rw [List.eq_of_mem_replicate ha]; rfl
  · unfold split_left; rw [split_full hP lm hb hfull]
    intro a ha hi
    simp only [List.mem_append, List.mem_map] at ha
    rcases ha with ⟨e, he, rfl⟩ | ha
    · exact hb.wf e (List.mem_of_mem_filter he) (hall e (List.mem_of_mem_filter he))
    · rw [List.eq_of_mem_replicate ha] at hi; simp [zero_entry] at hi
  · rw [hids]
    have hnd := hb.nodup
    unfold inuse_ids at hnd
    rw [List.filter_eq_self.2 (by intro a ha; simpa using hall a ha)] at hnd
    exact (List.filter_sublist b.entries).map _ |>.nodup hnd

theorem split_right_inv {P : Params} (hP : P.ok) (lm : List Nat) {b : ks_dhtrt_bucket_t}
    (hb : BucketInv P b) (hfull : b.count = P.bucketsize) :
    BucketInv P (split_right P lm b) ∧
      inuse_ids (split_right P lm b) =
        (b.entries.filter (fun e => !ks_dhtrt_ismasked P e.id lm)).map (fun e => e.id) := by
  have hall := hb.all_inuse hfull
  have hadd := filter_length_add lm P b.entries
  rw [hb.len] at hadd
  have hids : inuse_ids (split_right P lm b) =
      (b.entries.filter (fun e => !ks_dhtrt_ismasked P e.id lm)).map (fun e => e.id) := by
    unfold split_right inuse_ids
    rw [split_full hP lm hb hfull]
    simp only [filter_kept P lm b.entries hall]
  refine ⟨⟨?_, ?_, ?_, ?_, ?_⟩, hids⟩
  · unfold split_right; rw [split_full hP lm hb hfull]; simp [hb.len]
  · unfold split_right; rw [split_full hP lm hb hfull]
    simp only [filter_kept P lm b.entries hall]
    omega
  · unfold split_right; rw [split_full hP lm hb hfull]
    intro a ha
    simp only [List.mem_map] at ha
    obtain ⟨e, he, rfl⟩ := ha
    unfold kept_entry
    split
    · left; rfl
    · exact hb.bool e he
  · unfold split_right; rw [split_full hP lm hb hfull]
    intro a ha hi
    simp only [List.mem_map] at ha
    obtain ⟨e, he, rfl⟩ := ha
    unfold kept_entry at hi ⊢
    split at hi
    · simp at hi
    · rename_i hm
      rw [if_neg hm]
      exact hb.wf e he hi
  · rw [hids]
    have hnd := hb.nodup
    unfold inuse_ids at hnd
    rw [List.filter_eq_self.2 (by intro a ha; simpa using hall a ha)] at hnd
    exact (List.filter_sublist b.entries).map _ |>.nodup hnd

/-! ## Paths in the trie -/

theorem deref_null : ∀ (p : HPtr), deref .null p = .null := by
  intro p; cases p <;> rfl

@[simp] theorem deref_nil (root : Header) : deref root [] = root := by
  cases root <;> rfl

@[simp] theorem setAt_nil (h1 root : Header) : setAt h1 root [] = h1 := by
  cases root <;> rfl

theorem deref_append : ∀ (p q : HPtr) (root : Header), deref root (p ++ q) = deref (deref root p) q := by
  intro p
  induction p with
  | nil => intro q root; simp
  | cons d p ih =>
    intro q root
    cases root with
    | null => simp [deref, deref_null]
    | hdr m f b l r l1 r1 =>
      cases d <;> simp [deref, ih]

theorem setAt_deref : ∀ (p : HPtr) (root : Header), setAt (deref root p) root p = root := by
  intro p
  induction p with
  | nil => intro root; cases root <;> rfl
  | cons d p ih =>
    intro root
    cases root with
    | null => rfl
    | hdr m f b l r l1 r1 => cases d <;> simp [deref, setAt, ih]

theorem deref_setAt : ∀ (p q : HPtr) (root h1 : Header), deref root p ≠ .null →
    deref (setAt h1 root p) (p ++ q) = deref h1 q := by
  intro p
  induction p with
  | nil => intro q root h1 _; simp
  | cons d p ih =>
    intro q root h1 hne
    cases root with
    | null => exact absurd rfl hne
    | hdr m f b l r l1 r1 =>
      cases d
      · simpa [deref, setAt] using ih q l h1 (by simpa [deref] using hne)
      · simpa [deref, setAt] using ih q r h1 (by simpa [deref] using hne)

theorem deref_setAt_self (p : HPtr) (root h1 : Header) (hne : deref root p ≠ .null) :
    deref (setAt h1 root p) p = h1 := by
  simpa using deref_setAt p [] root h1 hne

theorem TrieInv_leaf {P : Params} {m : List Nat} {f : Nat} {b : ks_dhtrt_bucket_t} {l r : Header}
    {l1 r1 : Option HPtr} :
    TrieInv P (.hdr m f (some b) l r l1 r1) ↔
      l = .null ∧ r = .null ∧ BucketInv P b ∧
      (∀ x ∈ inuse_ids b, ks_dhtrt_ismasked P x m = true) ∧ (f = 0 ∨ f = BHF_LEFT) :=
  Iff.rfl

theorem TrieInv_node {P : Params} {m : List Nat} {f : Nat} {l r : Header} {l1 r1 : Option HPtr} :
    TrieInv P (.hdr m f none l r l1 r1) ↔
      TrieInv P l ∧ TrieInv P r ∧ f = BHF_LEFT ∧ l.flags = BHF_LEFT ∧ r.flags = 0 ∧
      r.mask = m ∧ r.bucket.isSome = true ∧
      (∀ x ∈ ids l, ks_dhtrt_ismasked P x l.mask = true) ∧
      (∀ x ∈ ids r, ks_dhtrt_ismasked P x l.mask = false) :=
  Iff.rfl

theorem TrieInv.ne_null {P : Params} {h : Header} (hi : TrieInv P h) : h ≠ .null := by
  intro hn; subst hn; exact hi

theorem TrieInv.isNull {P : Params} {h : Header} (hi : TrieInv P h) : h.isNull = false := by
  cases h with
  | null => exact absurd hi id
  | hdr m f b l r l1 r1 => rfl

/-- The invariant holds below every header of the trie. -/
theorem TrieInv.deref {P : Params} : ∀ (p : HPtr) (root : Header), TrieInv P root →
    deref root p ≠ .null → TrieInv P (deref root p) := by
  intro p
  induction p with
  | nil => intro root h _; simpa using h
  | cons d p ih =>
    intro root h hne
    cases root with
    | null => exact absurd h id
    | hdr m f b l r l1 r1 =>
      cases b with
      | some b =>
        obtain ⟨hl, hr, _, _⟩ := TrieInv_leaf.1 h
        subst hl hr
        cases d <;> simp [KsDht.deref, deref_null] at hne
      | none =>
        obtain ⟨hl, hr, _⟩ := TrieInv_node.1 h
        cases d
        · exact ih l hl (by simpa [KsDht.deref] using hne)
        · exact ih r hr (by simpa [KsDht.deref] using hne)

/-- The descent for `x` ends at a header with a bucket, along a path `x` is compatible with. -/
theorem find_spec {P : Params} {x : List Nat} : ∀ (root : Header) (p : HPtr), TrieInv P root →
    ks_dhtrt_find_relatedbucketheader P root x = some p →
      (deref root p).bucket.isSome = true ∧ Compat P root p x := by
  intro root
  induction root with
  | null => intro p h; exact absurd h id
  | hdr m f b l r l1 r1 ihl ihr =>
    intro p h hf
    cases b with
    | some b =>
      simp [ks_dhtrt_find_relatedbucketheader] at hf
      subst hf
      exact ⟨rfl, trivial⟩
    | none =>
      obtain ⟨hl, hr, _⟩ := TrieInv_node.1 h
      simp only [ks_dhtrt_find_relatedbucketheader, Option.isSome_none, Bool.false_eq_true, if_false,
        hl.isNull, Bool.not_false, Bool.true_and] at hf
      by_cases hm : ks_dhtrt_ismasked P x l.mask = true
      · rw [if_pos hm] at hf
        obtain ⟨p1, hp1, rfl⟩ := Option.map_eq_some'.1 hf
        obtain ⟨h1, h2⟩ := ihl p1 hl hp1
        exact ⟨by simpa [deref] using h1, by simp [Compat, hm, h2]⟩
      · rw [if_neg hm] at hf
        obtain ⟨p1, hp1, rfl⟩ := Option.map_eq_some'.1 hf
        obtain ⟨h1, h2⟩ := ihr p1 hr hp1
        exact ⟨by simpa [deref] using h1, by simp [Compat, hm, h2]⟩

/-- The descent always ends at a header. -/
theorem find_total {P : Params} (x : List Nat) : ∀ (root : Header), TrieInv P root →
    ∃ p, ks_dhtrt_find_relatedbucketheader P root x = some p := by
  intro root
  induction root with
  | null => intro h; exact absurd h id
  | hdr m f b l r l1 r1 ihl ihr =>
    intro h
    cases b with
    | some b => exact ⟨[], by simp [ks_dhtrt_find_relatedbucketheader]⟩
    | none =>
      obtain ⟨hl, hr, _⟩ := TrieInv_node.1 h
      obtain ⟨pl, hpl⟩ := ihl hl
      obtain ⟨pr, hpr⟩ := ihr hr
      simp only [ks_dhtrt_find_relatedbucketheader, Option.isSome_none, Bool.false_eq_true, if_false]
      split
      · exact ⟨false :: pl, by simp [hpl]⟩
      · exact ⟨true :: pr, by simp [hpr]⟩

theorem bucket_isSome_ne_null {h : Header} (hb : h.bucket.isSome = true) : h ≠ .null := by
  intro hn; subst hn; simp [ks_dhtrt_bucket_header_t.bucket] at hb

/-- The id the descent is made for satisfies the mask of the header it ends at. -/
theorem find_mask {P : Params} {x : List Nat} : ∀ (root : Header) (p : HPtr), TrieInv P root →
    ks_dhtrt_ismasked P x root.mask = true →
    ks_dhtrt_find_relatedbucketheader P root x = some p →
      ks_dhtrt_ismasked P x (deref root p).mask = true := by
  intro root
  induction root with
  | null => intro p h; exact absurd h id
  | hdr m f b l r l1 r1 ihl ihr =>
    intro p h hx hf
    cases b with
    | some b =>
      simp [ks_dhtrt_find_relatedbucketheader] at hf
      subst hf
      exact hx
    | none =>
      obtain ⟨hl, hr, _, _, _, hrm, _⟩ := TrieInv_node.1 h
      simp only [ks_dhtrt_find_relatedbucketheader, Option.isSome_none, Bool.false_eq_true, if_false,
        hl.isNull, Bool.not_false, Bool.true_and] at hf
      by_cases hm : ks_dhtrt_ismasked P x l.mask = true
      · rw [if_pos hm] at hf
        obtain ⟨p1, hp1, rfl⟩ := Option.map_eq_some'.1 hf
        simpa [deref] using ihl p1 hl hm hp1
      · rw [if_neg hm] at hf
        obtain ⟨p1, hp1, rfl⟩ := Option.map_eq_some'.1 hf
        simpa [deref] using ihr p1 hr (by rw [hrm]; exact hx) hp1

theorem ids_node (m : List Nat) (f : Nat) (l r : Header) (l1 r1 : Option HPtr) :
    ids (.hdr m f none l r l1 r1) = ids l ++ ids r := by
  simp [ids]

theorem ids_leaf (m : List Nat) (f : Nat) (b : ks_dhtrt_bucket_t) (l1 r1 : Option HPtr) :
    ids (.hdr m f (some b) .null .null l1 r1) = inuse_ids b := by
  simp [ids]

theorem LocalStep.lift {P : Params} {N : List Nat → Prop} : ∀ (p : HPtr) (root h1 : Header),
    TrieInv P root → deref root p ≠ .null → (∀ y, N y → Compat P root p y) →
    LocalStep P N (deref root p) h1 → LocalStep P N root (setAt h1 root p) := by
  intro p
  induction p with
  | nil => intro root h1 _ _ _ hs; simpa using hs
  | cons d p ih =>
    intro root h1 hinv hne hN hs
    cases root with
    | null => exact absurd hinv id
    | hdr m f b l r l1 r1 =>
      cases b with
      | some b =>
        obtain ⟨hl, hr, _, _⟩ := TrieInv_leaf.1 hinv
        subst hl hr
        cases d <;> simp [deref, deref_null] at hne
      | none =>
        obtain ⟨hl, hr, hf, hlf, hrf, hrm, hrb, hli, hri⟩ := TrieInv_node.1 hinv
        cases d
        · -- the left child changes
          have hs1 := ih l h1 hl (by simpa [deref] using hne)
            (fun y hy => by have := hN y hy; simp [Compat] at this; exact this.2)
            (by simpa [deref] using hs)
          simp only [setAt, Bool.false_eq_true, if_false]
          refine ⟨TrieInv_node.2 ⟨hs1.inv, hr, hf, by rw [hs1.flags, hlf], hrf, hrm, hrb, ?_, ?_⟩,
            rfl, rfl, ?_, ?_⟩
          · intro y hy
            rw [hs1.mask]
            rcases hs1.ids y hy with h | h
            · exact hli y h
            · have := hN y h; simp [Compat] at this; exact this.1
          · intro y hy
            rw [hs1.mask]; exact hri y hy
          · intro h0
            simp [ks_dhtrt_bucket_header_t.flags, hf, BHF_LEFT] at h0
          · intro y hy
            rw [ids_node] at hy ⊢
            rcases List.mem_append.1 hy with h | h
            · rcases hs1.ids y h with h | h
              · exact Or.inl (List.mem_append_left _ h)
              · exact Or.inr h
            · exact Or.inl (List.mem_append_right _ h)
        · -- the right child changes
          have hs1 := ih r h1 hr (by simpa [deref] using hne)
            (fun y hy => by have := hN y hy; simp [Compat] at this; exact this.2)
            (by simpa [deref] using hs)
          simp only [setAt, if_true]
          refine ⟨TrieInv_node.2 ⟨hl, hs1.inv, hf, hlf, by rw [hs1.flags, hrf], by rw [hs1.mask, hrm],
            hs1.leaf hrf, hli, ?_⟩, rfl, rfl, ?_, ?_⟩
          · intro y hy
            rcases hs1.ids y hy with h | h
            · exact hri y h
            · have := hN y h; simp [Compat] at this; exact this.1
          · intro h0
            simp [ks_dhtrt_bucket_header_t.flags, hf, BHF_LEFT] at h0
          · intro y hy
            rw [ids_node] at hy ⊢
            rcases List.mem_append.1 hy with h | h
            · exact Or.inl (List.mem_append_left _ h)
            · rcases hs1.ids y h with h | h
              · exact Or.inl (List.mem_append_right _ h)
              · exact Or.inr h

/-! ## Slots -/

theorem SlotAt.mem_ids {P : Params} : ∀ (q : HPtr) (root : Header) (i : Nat)
    (e : ks_dhtrt_bucket_entry_t), TrieInv P root → SlotAt root q i e → e.inuse = 1 →
    e.id ∈ ids root := by
  intro q
  induction q with
  | nil =>
    intro root i e hinv ⟨b, hb, he⟩ hi
    cases root with
    | null => exact absurd hinv id
    | hdr m f b0 l r l1 r1 =>
      simp [ks_dhtrt_bucket_header_t.bucket] at hb
      subst hb
      simp only [ids]
      exact List.mem_append_left _ (mem_inuse_ids.2 ⟨e, List.get?_mem he, hi, rfl⟩)
  | cons d q ih =>
    intro root i e hinv ⟨b, hb, he⟩ hi
    cases root with
    | null => exact absurd hinv id
    | hdr m f b0 l r l1 r1 =>
      cases b0 with
      | some b0 =>
        obtain ⟨hl, hr, _, _⟩ := TrieInv_leaf.1 hinv
        subst hl hr
        cases d <;> simp [deref, deref_null, ks_dhtrt_bucket_header_t.bucket] at hb
      | none =>
        obtain ⟨hl, hr, _⟩ := TrieInv_node.1 hinv
        rw [ids_node]
        cases d
        · exact List.mem_append_left _ (ih l i e hl ⟨b, by simpa [deref] using hb, he⟩ hi)
        · exact List.mem_append_right _ (ih r i e hr ⟨b, by simpa [deref] using hb, he⟩ hi)

/-- The descent for the id of a slot in use ends at the header that holds the slot. -/
theorem SlotAt.find {P : Params} : ∀ (root : Header) (q : HPtr) (i : Nat)
    (e : ks_dhtrt_bucket_entry_t), TrieInv P root → SlotAt root q i e → e.inuse = 1 →
    ks_dhtrt_find_relatedbucketheader P root e.id = some q := by
  intro root
  induction root with
  | null => intro q i e hinv; exact absurd hinv id
  | hdr m f b0 l r l1 r1 ihl ihr =>
    intro q i e hinv hs hi
    cases b0 with
    | some b0 =>
      obtain ⟨hl, hr, _, _⟩ := TrieInv_leaf.1 hinv
      subst hl hr
      cases q with
      | nil => simp [ks_dhtrt_find_relatedbucketheader]
      | cons d q =>
        obtain ⟨b, hb, _⟩ := hs
        cases d <;> simp [deref, deref_null, ks_dhtrt_bucket_header_t.bucket] at hb
    | none =>
      obtain ⟨hl, hr, _, _, _, _, _, hli, hri⟩ := TrieInv_node.1 hinv
      cases q with
      | nil =>
        obtain ⟨b, hb, _⟩ := hs
        simp [ks_dhtrt_bucket_header_t.bucket] at hb
      | cons d q =>
        obtain ⟨b, hb, he⟩ := hs
        simp only [ks_dhtrt_find_relatedbucketheader, Option.isSome_none, Bool.false_eq_true, if_false,
          hl.isNull, Bool.not_false, Bool.true_and]
        cases d
        · have hs1 : SlotAt l q i e := ⟨b, by simpa [deref] using hb, he⟩
          rw [if_pos (hli _ (hs1.mem_ids q l i e hl hi)), ihl q i e hl hs1 hi]
          rfl
        · have hs1 : SlotAt r q i e := ⟨b, by simpa [deref] using hb, he⟩
          rw [if_neg (by rw [hri _ (hs1.mem_ids q r i e hr hi)]; simp), ihr q i e hr hs1 hi]
          rfl

theorem LocalStep.refl {P : Params} {N : List Nat → Prop} {h : Header} (hinv : TrieInv P h) :
    LocalStep P N h h :=
  ⟨hinv, rfl, rfl, fun h0 => by
    cases h with
    | null => exact absurd hinv id
    | hdr m f b l r l1 r1 =>
      cases b with
      | some b => rfl
      | none =>
        obtain ⟨_, _, hf, _⟩ := TrieInv_node.1 hinv
        simp [ks_dhtrt_bucket_header_t.flags, hf, BHF_LEFT] at h0,
   fun y hy => Or.inl hy⟩

/-- The header after `ks_dhtrt_split_bucket` on a header with the full bucket `b`. -/
theorem split_bucket_eq (P : Params) (m : List Nat) (f : Nat) (b : ks_dhtrt_bucket_t)
    (l r : Header) (l1 r1 : Option HPtr) (newmask : List Nat) :
    ks_dhtrt_split_bucket P (.hdr m f (some b) l r l1 r1)
        (.hdr newmask BHF_LEFT (some (ks_dhtrt_create_bucket P)) .null .null none none)
        (ks_dhtrt_create_bucketheader m) =
      some (.hdr m f none
        (.hdr newmask BHF_LEFT (some (split_left P newmask b)) .null .null none none)
        (.hdr m 0 (some (split_right P newmask b)) .null .null none none) l1 r1) := by
  rfl

theorem mem_split_ids {P : Params} (hP : P.ok) (lm : List Nat) {b : ks_dhtrt_bucket_t}
    (hb : BucketInv P b) (hfull : b.count = P.bucketsize) (y : List Nat) :
    (y ∈ inuse_ids (split_left P lm b) ↔ y ∈ inuse_ids b ∧ ks_dhtrt_ismasked P y lm = true) ∧
    (y ∈ inuse_ids (split_right P lm b) ↔ y ∈ inuse_ids b ∧ ks_dhtrt_ismasked P y lm = false) := by
  have hall := hb.all_inuse hfull
  rw [(split_left_inv hP lm hb hfull).2, (split_right_inv hP lm hb hfull).2]
  constructor
  · simp only [List.mem_map, List.mem_filter, mem_inuse_ids]
    constructor
    · rintro ⟨e, ⟨he, hm⟩, rfl⟩
      exact ⟨⟨e, he, hall e he, rfl⟩, hm⟩
    · rintro ⟨⟨e, he, _, rfl⟩, hm⟩
      exact ⟨e, ⟨he, hm⟩, rfl⟩
  · simp only [List.mem_map, List.mem_filter, mem_inuse_ids]
    constructor
    · rintro ⟨e, ⟨he, hm⟩, rfl⟩
      exact ⟨⟨e, he, hall e he, rfl⟩, by simpa using hm⟩
    · rintro ⟨⟨e, he, _, rfl⟩, hm⟩
      exact ⟨e, ⟨he, by simpa using hm⟩, rfl⟩

/-- The split of a leaf with a full bucket keeps the invariant and the ids. -/
theorem split_inv {P : Params} (hP : P.ok) {m : List Nat} {f : Nat} {b : ks_dhtrt_bucket_t}
    {l1 r1 : Option HPtr} (newmask : List Nat)
    (hinv : TrieInv P (.hdr m f (some b) .null .null l1 r1)) (hfull : b.count = P.bucketsize)
    (hf : f = BHF_LEFT) :
    TrieInv P (.hdr newmask BHF_LEFT (some (split_left P newmask b)) .null .null none none) ∧
    TrieInv P (.hdr m 0 (some (split_right P newmask b)) .null .null none none) ∧
    TrieInv P (.hdr m f none
        (.hdr newmask BHF_LEFT (some (split_left P newmask b)) .null .null none none)
        (.hdr m 0 (some (split_right P newmask b)) .null .null none none) l1 r1) := by
  obtain ⟨_, _, hb, hmask, _⟩ := TrieInv_leaf.1 hinv
  have hL : TrieInv P (.hdr newmask BHF_LEFT (some (split_left P newmask b)) .null .null none none) :=
    TrieInv_leaf.2 ⟨rfl, rfl, (split_left_inv hP newmask hb hfull).1,
      fun y hy => ((mem_split_ids hP newmask hb hfull y).1.1 hy).2, Or.inr rfl⟩
  have hR : TrieInv P (.hdr m 0 (some (split_right P newmask b)) .null .null none none) :=
    TrieInv_leaf.2 ⟨rfl, rfl, (split_right_inv hP newmask hb hfull).1,
      fun y hy => hmask y ((mem_split_ids hP newmask hb hfull y).2.1 hy).1, Or.inl rfl⟩
  refine ⟨hL, hR, TrieInv_node.2 ⟨hL, hR, hf, rfl, rfl, rfl, rfl, ?_, ?_⟩⟩
  · intro y hy
    rw [ids_leaf] at hy
    exact ((mem_split_ids hP newmask hb hfull y).1.1 hy).2
  · intro y hy
    rw [ids_leaf] at hy
    exact ((mem_split_ids hP newmask hb hfull y).2.1 hy).2

/-- A leaf whose bucket takes the new node in a slot. -/
theorem leaf_insert_ok {P : Params} (now nptr : Nat) (node : ks_dht_node_t)
    {m : List Nat} {f : Nat} {b : ks_dhtrt_bucket_t} {l1 r1 : Option HPtr}
    (hinv : TrieInv P (.hdr m f (some b) .null .null l1 r1))
    (hx : node.nodeid ∉ inuse_ids b) (hlen : node.nodeid.length = P.idlen)
    (hm : ks_dhtrt_ismasked P node.nodeid m = true)
    {k1 k2 : List ks_dhtrt_bucket_entry_t} {e : ks_dhtrt_bucket_entry_t}
    (he : b.entries = k1 ++ e :: k2) (c ec : Nat)
    (hc : c = if e.inuse = 1 then b.count else b.count + 1) :
    InsertOK P nptr node.nodeid KS_STATUS_SUCCESS (.hdr m f (some b) .null .null l1 r1)
      (.hdr m f (some { entries := k1 ++ new_entry now nptr node e :: k2, count := c,
                        expired_count := ec, lock := b.lock }) .null .null l1 r1) := by
  obtain ⟨_, _, hb, hmask, hfl⟩ := TrieInv_leaf.1 hinv
  have hb1 := @BucketInv.replace _ _ hb _ _ _ (new_entry now nptr node e) he rfl hlen (by simp [new_entry]) hx c ec hc
  have hids : ∀ y ∈ inuse_ids (ks_dhtrt_bucket_t.mk (k1 ++ new_entry now nptr node e :: k2) c ec b.lock),
      y ∈ inuse_ids b ∨ y = node.nodeid := by
    intro y hy
    rw [inuse_ids_eq] at hy ⊢
    rw [he]
    exact @inuse_ids_replace _ _ e (new_entry now nptr node e) rfl y hy
  refine ⟨⟨TrieInv_leaf.2 ⟨rfl, rfl, hb1, ?_, hfl⟩, rfl, rfl, fun _ => rfl, ?_⟩, ?_, ?_⟩
  · intro y hy
    rcases hids y hy with h | h
    · exact hmask y h
    · rw [h]; exact hm
  · intro y hy
    rw [ids_leaf] at hy ⊢
    exact hids y hy
  · intro _
    exact ⟨[], k1.length, new_entry now nptr node e,
      ⟨ks_dhtrt_bucket_t.mk (k1 ++ new_entry now nptr node e :: k2) c ec b.lock,
        by simp [ks_dhtrt_bucket_header_t.bucket], get?_append_length _ _ _⟩, rfl, rfl, rfl⟩
  · intro h; cases h

theorem insert_loop_ok {P : Params} (hP : P.ok) (now nptr : Nat) (node : ks_dht_node_t)
    (hlen : node.nodeid.length = P.idlen) :
    ∀ (fuel : Nat) (h h1 : Header) (s : ks_status_t), TrieInv P h → h.bucket.isSome = true →
      node.nodeid ∉ ids h → ks_dhtrt_ismasked P node.nodeid h.mask = true →
      insert_node_loop P now nptr node fuel h = some (s, h1) →
      InsertOK P nptr node.nodeid s h h1 := by
  intro fuel
  induction fuel with
  | zero =>
    intro h h1 s hinv hbk hx hm hr
    cases h with
    | null => exact absurd hinv id
    | hdr m f b l r l1 r1 =>
      cases b with
      | none => simp [ks_dhtrt_bucket_header_t.bucket] at hbk
      | some b =>
        obtain ⟨hl, hr0, hb, hmask, hfl⟩ := TrieInv_leaf.1 hinv
        subst hl hr0
        rw [ids_leaf] at hx
        simp only [ks_dhtrt_bucket_header_t.mask] at hm
        simp only [insert_node_loop] at hr
        by_cases hfull : b.count = P.bucketsize
        · simp [hfull] at hr
        · rw [if_neg hfull] at hr
          rcases insert_id_spec hP now nptr node hb hx hlen with
            ⟨k1, e, k2, he, ⟨h0, _, hins⟩ | ⟨_, _, hc, _⟩⟩ | ⟨_, hc, _⟩
          · rw [hins] at hr
            simp only [Option.some.injEq, Prod.mk.injEq] at hr
            obtain ⟨rfl, rfl⟩ := hr
            exact leaf_insert_ok now nptr node hinv hx hlen hm he _ _ (by simp [h0])
          · exact absurd hc hfull
          · exact absurd hc hfull
  | succ fuel ih =>
    intro h h1 s hinv hbk hx hm hr
    cases h with
    | null => exact absurd hinv id
    | hdr m f b l r l1 r1 =>
      cases b with
      | none => simp [ks_dhtrt_bucket_header_t.bucket] at hbk
      | some b =>
        obtain ⟨hl, hr0, hb, hmask, hfl⟩ := TrieInv_leaf.1 hinv
        subst hl hr0
        rw [ids_leaf] at hx
        simp only [ks_dhtrt_bucket_header_t.mask] at hm
        simp only [insert_node_loop] at hr
        by_cases hfull : b.count = P.bucketsize
        · rw [if_pos hfull] at hr
          -- the bucket is full: eject an expired slot, or split
          have hcase : (∃ k1 e k2, b.entries = k1 ++ e :: k2 ∧ e.inuse = 1 ∧
                (if b.expired_count ≠ 0 then ks_dhtrt_insert_id P now b nptr node
                  else some (KS_STATUS_FAIL, b)) = some (KS_STATUS_SUCCESS,
                  { entries := k1 ++ new_entry now nptr node e :: k2, count := b.count,
                    expired_count := (b.expired_count + 255) % 256, lock := b.lock })) ∨
              (if b.expired_count ≠ 0 then ks_dhtrt_insert_id P now b nptr node
                  else some (KS_STATUS_FAIL, b)) = some (KS_STATUS_FAIL, b) := by
            by_cases hec : b.expired_count ≠ 0
            · rw [if_pos hec]
              rcases insert_id_spec hP now nptr node hb hx hlen with
                ⟨k1, e, k2, he, ⟨_, hc, _⟩ | ⟨h0, _, _, hins⟩⟩ | ⟨hins, _, _⟩
              · omega
              · exact Or.inl ⟨k1, e, k2, he, h0, hins⟩
              · exact Or.inr hins
            · rw [if_neg hec]; exact Or.inr rfl
          rcases hcase with ⟨k1, e, k2, he, h0, hins⟩ | hins
          · rw [hins] at hr
            simp only [Option.some.injEq, Prod.mk.injEq] at hr
            obtain ⟨rfl, rfl⟩ := hr
            exact leaf_insert_ok now nptr node hinv hx hlen hm he _ _ (by simp [h0])
          · rw [hins] at hr
            simp only at hr
            by_cases hleft : f &&& BHF_LEFT = 0
            · rw [if_pos hleft] at hr
              simp only [Option.some.injEq, Prod.mk.injEq] at hr
              obtain ⟨rfl, rfl⟩ := hr
              exact ⟨LocalStep.refl hinv, (fun h => by cases h), fun _ _ => Iff.rfl⟩
            · rw [if_neg hleft] at hr
              by_cases hex : m.getD (P.idlen - 1) 0 = 0
              · rw [if_pos hex] at hr
                simp only [Option.some.injEq, Prod.mk.injEq] at hr
                obtain ⟨rfl, rfl⟩ := hr
                exact ⟨LocalStep.refl hinv, (fun h => by cases h), fun _ _ => Iff.rfl⟩
              · rw [if_neg hex, split_bucket_eq] at hr
                simp only [ks_dhtrt_bucket_header_t.mask] at hr
                have hf : f = BHF_LEFT := by
                  rcases hfl with h | h
                  · subst h; simp at hleft
                  · exact h
                obtain ⟨hL, hR, hN⟩ := split_inv hP (ks_dhtrt_shiftright P m) hinv hfull hf
                obtain ⟨_, _, _, _, _, _, _, hli, hri⟩ := TrieInv_node.1 hN
                have hsplit := mem_split_ids hP (ks_dhtrt_shiftright P m) hb hfull
                by_cases hgo : ks_dhtrt_ismasked P node.nodeid (ks_dhtrt_shiftright P m) = true
                · rw [if_pos hgo] at hr
                  cases hrec : insert_node_loop P now nptr node fuel
                      (.hdr (ks_dhtrt_shiftright P m) BHF_LEFT
                        (some (split_left P (ks_dhtrt_shiftright P m) b)) .null .null none none) with
                  | none => rw [hrec] at hr; simp at hr
                  | some res =>
                    obtain ⟨s1, nl1⟩ := res
                    rw [hrec] at hr
                    simp only [Option.some.injEq, Prod.mk.injEq] at hr
                    obtain ⟨rfl, rfl⟩ := hr
                    have hok := ih _ nl1 s1 hL rfl
                      (by rw [ids_leaf]; exact fun hc => hx ((hsplit _).1.1 hc).1) hgo hrec
                    refine ⟨⟨TrieInv_node.2 ⟨hok.step.inv, hR, hf, hok.step.flags, rfl, rfl, rfl, ?_,
                        (by rw [hok.step.mask]; exact hri)⟩,
                      rfl, rfl, ?_, ?_⟩, ?_, ?_⟩
                    · intro y hy
                      rw [hok.step.mask]
                      rcases hok.step.ids y hy with h | h
                      · exact hli y h
                      · rw [h]; exact hgo
                    · intro h0; simp [ks_dhtrt_bucket_header_t.flags, hf, BHF_LEFT] at h0
                    · intro y hy
                      rw [ids_node] at hy
                      rw [ids_leaf]
                      rcases List.mem_append.1 hy with h | h
                      · rcases hok.step.ids y h with h | h
                        · rw [ids_leaf] at h; exact Or.inl ((hsplit y).1.1 h).1
                        · exact Or.inr h
                      · rw [ids_leaf] at h; exact Or.inl ((hsplit y).2.1 h).1
                    · intro hs
                      obtain ⟨q, i, e, ⟨b1, hb1, he1⟩, h1, h2, h3⟩ := hok.slot hs
                      exact ⟨false :: q, i, e, ⟨b1, by simpa [deref] using hb1, he1⟩, h1, h2, h3⟩
                    · intro hs y
                      rw [ids_node, ids_leaf, List.mem_append, hok.fail hs y, ids_leaf, ids_leaf,
                        (hsplit y).1, (hsplit y).2]
                      constructor
                      · rintro (h | h) <;> exact h.1
                      · intro h
                        cases hc : ks_dhtrt_ismasked P y (ks_dhtrt_shiftright P m)
                        · exact Or.inr ⟨h, rfl⟩
                        · exact Or.inl ⟨h, rfl⟩
                · rw [if_neg hgo] at hr
                  cases hrec : insert_node_loop P now nptr node fuel
                      (.hdr m 0 (some (split_right P (ks_dhtrt_shiftright P m) b)) .null .null none none) with
                  | none => rw [hrec] at hr; simp at hr
                  | some res =>
                    obtain ⟨s1, nr1⟩ := res
                    rw [hrec] at hr
                    simp only [Option.some.injEq, Prod.mk.injEq] at hr
                    obtain ⟨rfl, rfl⟩ := hr
                    have hok := ih _ nr1 s1 hR rfl
                      (by rw [ids_leaf]; exact fun hc => hx ((hsplit _).2.1 hc).1) hm hrec
                    refine ⟨⟨TrieInv_node.2 ⟨hL, hok.step.inv, hf, rfl, hok.step.flags, hok.step.mask,
                      hok.step.leaf rfl, hli, ?_⟩, rfl, rfl, ?_, ?_⟩, ?_, ?_⟩
                    · intro y hy
                      rcases hok.step.ids y hy with h | h
                      · exact hri y h
                      · rw [h]; simpa using hgo
                    · intro h0; simp [ks_dhtrt_bucket_header_t.flags, hf, BHF_LEFT] at h0
                    · intro y hy
                      rw [ids_node] at hy
                      rw [ids_leaf]
                      rcases List.mem_append.1 hy with h | h
                      · rw [ids_leaf] at h; exact Or.inl ((hsplit y).1.1 h).1
                      · rcases hok.step.ids y h with h | h
                        · rw [ids_leaf] at h; exact Or.inl ((hsplit y).2.1 h).1
                        · exact Or.inr h
                    · intro hs
                      obtain ⟨q, i, e, ⟨b1, hb1, he1⟩, h1, h2, h3⟩ := hok.slot hs
                      exact ⟨true :: q, i, e, ⟨b1, by simpa [deref] using hb1, he1⟩, h1, h2, h3⟩
                    · intro hs y
                      rw [ids_node, ids_leaf, List.mem_append, hok.fail hs y, ids_leaf, ids_leaf,
                        (hsplit y).1, (hsplit y).2]
                      constructor
                      · rintro (h | h) <;> exact h.1
                      · intro h
                        cases hc : ks_dhtrt_ismasked P y (ks_dhtrt_shiftright P m)
                        · exact Or.inr ⟨h, rfl⟩
                        · exact Or.inl ⟨h, rfl⟩
        · rw [if_neg hfull] at hr
          rcases insert_id_spec hP now nptr node hb hx hlen with
            ⟨k1, e, k2, he, ⟨h0, _, hins⟩ | ⟨_, _, hc, _⟩⟩ | ⟨_, hc, _⟩
          · rw [hins] at hr
            simp only [Option.some.injEq, Prod.mk.injEq] at hr
            obtain ⟨rfl, rfl⟩ := hr
            exact leaf_insert_ok now nptr node hinv hx hlen hm he _ _ (by simp [h0])
          · exact absurd hc hfull
          · exact absurd hc hfull

theorem ismasked_ones (P : Params) (x : List Nat) :
    ks_dhtrt_ismasked P x (List.replicate P.idlen 0xff) = true := by
  unfold ks_dhtrt_ismasked
  cases P.idlen with
  | zero => rfl
  | succ n => simp [ismasked_loop, List.replicate_succ]

theorem RootInv.update {P : Params} {N : List Nat → Prop} {root : Header} (hinv : RootInv P root)
    (p : HPtr) (h1 : Header) (hne : deref root p ≠ .null) (hN : ∀ y, N y → Compat P root p y)
    (hs : LocalStep P N (deref root p) h1) : RootInv P (setAt h1 root p) := by
  have := LocalStep.lift p root h1 hinv.inv hne hN hs
  exact ⟨this.inv, by rw [this.mask, hinv.mask], by rw [this.flags, hinv.flags]⟩

theorem skel_filter_length : ∀ (es es1 : List ks_dhtrt_bucket_entry_t),
    es1.map entry_skel = es.map entry_skel →
    (es1.filter (fun e => e.inuse = 1)).length = (es.filter (fun e => e.inuse = 1)).length ∧
    inuse_ids_of es1 = inuse_ids_of es := by
  intro es
  induction es with
  | nil => intro es1 h; simp at h; subst h; exact ⟨rfl, rfl⟩
  | cons e es ih =>
    intro es1 h
    cases es1 with
    | nil => simp at h
    | cons e1 es1 =>
      simp only [List.map_cons, List.cons.injEq] at h
      obtain ⟨h1, h2⟩ := ih es1 h.2
      have hs := h.1
      simp only [entry_skel, Prod.mk.injEq] at hs
      by_cases hi : e.inuse = 1
      · simp [inuse_ids_of, List.filter_cons, hs.1, hi, hs.2.1] at h1 h2 ⊢
        exact ⟨h1, h2⟩
      · simp [inuse_ids_of, List.filter_cons, hs.1, hi] at h1 h2 ⊢
        exact ⟨h1, h2⟩

theorem skel_mem {es es1 : List ks_dhtrt_bucket_entry_t} (h : es1.map entry_skel = es.map entry_skel)
    {a : ks_dhtrt_bucket_entry_t} (ha : a ∈ es1) : ∃ c ∈ es, entry_skel c = entry_skel a := by
  have : entry_skel a ∈ es.map entry_skel := by rw [← h]; exact List.mem_map_of_mem _ ha
  obtain ⟨c, hc, hcs⟩ := List.mem_map.1 this
  exact ⟨c, hc, hcs⟩

/-- A bucket whose slots keep `inuse`, `id` and `gptr` keeps the invariant. -/
theorem BucketInv.of_skel {P : Params} {b b1 : ks_dhtrt_bucket_t} (hb : BucketInv P b)
    (h : b1.entries.map entry_skel = b.entries.map entry_skel) (hc : b1.count = b.count) :
    BucketInv P b1 ∧ inuse_ids b1 = inuse_ids b := by
  obtain ⟨h1, h2⟩ := skel_filter_length b.entries b1.entries h
  refine ⟨⟨?_, by rw [hc, hb.count, h1], ?_, ?_, by rw [inuse_ids_eq, h2]; exact hb.nodup⟩, h2⟩
  · have := congrArg List.length h
    simp only [List.length_map] at this
    rw [this, hb.len]
  · intro a ha
    obtain ⟨c, hc1, hc2⟩ := skel_mem h ha
    simp only [entry_skel, Prod.mk.injEq] at hc2
    rw [← hc2.1]; exact hb.bool c hc1
  · intro a ha hi
    obtain ⟨c, hc1, hc2⟩ := skel_mem h ha
    simp only [entry_skel, Prod.mk.injEq] at hc2
    rw [← hc2.2.1, ← hc2.2.2]
    exact hb.wf c hc1 (by rw [hc2.1]; exact hi)

/-- The bucket of a leaf is replaced by a bucket with the same slots in use. -/
theorem leaf_bucket_step {P : Params} {h : Header} {b b1 : ks_dhtrt_bucket_t}
    (hinv : TrieInv P h) (hb : h.bucket = some b) (hb1 : BucketInv P b1)
    (hids : ∀ y ∈ inuse_ids b1, y ∈ inuse_ids b) :
    LocalStep P (fun _ => False) h (set_bucket b1 h) := by
  cases h with
  | null => exact absurd hinv id
  | hdr m f b0 l r l1 r1 =>
    simp only [ks_dhtrt_bucket_header_t.bucket] at hb
    subst hb
    obtain ⟨hl, hr, _, hmask, hfl⟩ := TrieInv_leaf.1 hinv
    subst hl hr
    refine ⟨TrieInv_leaf.2 ⟨rfl, rfl, hb1, fun y hy => hmask y (hids y hy), hfl⟩, rfl, rfl,
      fun _ => rfl, ?_⟩
    intro y hy
    simp only [set_bucket, ids_leaf] at hy ⊢
    exact Or.inl (hids y hy)

theorem RootInv.set_bucket {P : Params} {root : Header} (hinv : RootInv P root) (p : HPtr)
    {b b1 : ks_dhtrt_bucket_t} (hb : (deref root p).bucket = some b) (hb1 : BucketInv P b1)
    (hids : ∀ y ∈ inuse_ids b1, y ∈ inuse_ids b) :
    RootInv P (setAt (KsDht.set_bucket b1 (deref root p)) root p) := by
  have hne : deref root p ≠ .null := bucket_isSome_ne_null (by rw [hb]; rfl)
  exact hinv.update p _ hne (fun _ h => absurd h id)
    (leaf_bucket_step (hinv.inv.deref p root hne) hb hb1 hids)

theorem RootInv.bucket {P : Params} {root : Header} (hinv : RootInv P root) (p : HPtr)
    {b : ks_dhtrt_bucket_t} (hb : (deref root p).bucket = some b) :
    BucketInv P b ∧ ∀ x ∈ inuse_ids b, ks_dhtrt_ismasked P x (deref root p).mask = true := by
  have hne : deref root p ≠ .null := bucket_isSome_ne_null (by rw [hb]; rfl)
  have := hinv.inv.deref p root hne
  cases hd : deref root p with
  | null => exact absurd hd hne
  | hdr m f b0 l r l1 r1 =>
    rw [hd] at this hb
    simp only [ks_dhtrt_bucket_header_t.bucket] at hb
    subst hb
    obtain ⟨_, _, h1, h2, _⟩ := TrieInv_leaf.1 this
    exact ⟨h1, h2⟩

/-- The slot found by `ks_dhtrt_find_bucketentry` changes in fields other than `inuse`,
`id` and `gptr`. -/
theorem RootInv.set_entry {P : Params} {root : Header} (hinv : RootInv P root) (p : HPtr)
    {b : ks_dhtrt_bucket_t} (hb : (deref root p).bucket = some b) (ix : Nat)
    (e1 : ks_dhtrt_bucket_entry_t) (ec : Nat)
    (h1 : entry_skel e1 = entry_skel (b.entries.getD ix (zero_entry P)))
    (hix : ix < b.entries.length) :
    RootInv P (setAt (KsDht.set_bucket { b with entries := b.entries.set ix e1, expired_count := ec }
      (deref root p)) root p) := by
  obtain ⟨hbi, _⟩ := hinv.bucket p hb
  have hsk : (b.entries.set ix e1).map entry_skel = b.entries.map entry_skel := by
    rw [List.map_set, h1]
    apply List.ext_getElem
    · simp
    · intro i hi1 hi2
      by_cases hi : ix = i
      · subst hi
        simp [List.getD_eq_getElem?_getD, List.getElem?_eq_getElem hix]
      · simp [List.getElem_set_ne hi]
  obtain ⟨h2, h3⟩ := @BucketInv.of_skel _ _ { b with entries := b.entries.set ix e1, expired_count := ec } hbi
    hsk rfl
  exact hinv.set_bucket p hb h2 (fun y hy => by rw [← h3]; exact hy)

/-! ## The public operations keep the invariant -/

theorem find_entry_lt {P : Params} {id : List Nat} {es : List ks_dhtrt_bucket_entry_t} {ix : Nat}
    (h : find_entry_loop P id es 0 = some ix) : ix < es.length := by
  obtain ⟨l1, e, l2, h1, h2, _⟩ := find_entry_loop_some P id es 0 ix h
  rw [h1, h2]; simp

theorem touch_node_inv {P : Params} (now : Nat) (t : Table) (x : List Nat)
    (hinv : RootInv P t.buckets) : RootInv P (touch_node_locked P now t x).2.buckets := by
  unfold touch_node_locked
  cases hf : ks_dhtrt_find_bucketheader P t.buckets x with
  | none => exact hinv
  | some p =>
    simp only
    cases hb : (deref t.buckets p).bucket with
    | none => exact hinv
    | some b =>
      cases he : ks_dhtrt_find_bucketentry P (deref t.buckets p) x with
      | none => exact hinv
      | some ix =>
        simp only
        have hix : ix < b.entries.length := by
          unfold ks_dhtrt_find_bucketentry at he
          rw [hb] at he
          exact find_entry_lt he
        exact hinv.set_entry p hb ix _ _ rfl hix

theorem expire_node_inv {P : Params} (t : Table) (x : List Nat)
    (hinv : RootInv P t.buckets) : RootInv P (expire_node_locked P t x).2.buckets := by
  unfold expire_node_locked
  cases hf : ks_dhtrt_find_bucketheader P t.buckets x with
  | none => exact hinv
  | some p =>
    simp only
    cases hb : (deref t.buckets p).bucket with
    | none => exact hinv
    | some b =>
      cases he : ks_dhtrt_find_bucketentry P (deref t.buckets p) x with
      | none => exact hinv
      | some ix =>
        simp only
        have hix : ix < b.entries.length := by
          unfold ks_dhtrt_find_bucketentry at he
          rw [hb] at he
          exact find_entry_lt he
        have := hinv.set_entry p hb ix { b.entries.getD ix (zero_entry P) with flags := DHTPEER_EXPIRED }
          b.expired_count rfl hix
        exact this

/-- What `ks_dhtrt_delete_id` does: it clears the first slot in use that holds the id. -/
theorem delete_id_spec {P : Params} (hP : P.ok) {b : ks_dhtrt_bucket_t} (hb : BucketInv P b)
    (x : List Nat) :
    (ks_dhtrt_delete_id P b x = (KS_STATUS_FAIL, b) ∧
      ∀ a ∈ b.entries, ¬(a.inuse = 1 ∧ memcmp P.idlen x a.id = 0)) ∨
    (∃ l1 e l2, b.entries = l1 ++ e :: l2 ∧ e.inuse = 1 ∧ memcmp P.idlen x e.id = 0 ∧
      0 < b.count ∧
      ks_dhtrt_delete_id P b x = (KS_STATUS_SUCCESS,
        { b with entries := l1 ++ { e with inuse := 0, gptr := none, flags := 0 } :: l2,
                 count := b.count - 1 }) ∧
      BucketInv P { b with entries := l1 ++ { e with inuse := 0, gptr := none, flags := 0 } :: l2,
                           count := b.count - 1 } ∧
      inuse_ids { b with entries := l1 ++ { e with inuse := 0, gptr := none, flags := 0 } :: l2,
                         count := b.count - 1 } = inuse_ids_of l1 ++ inuse_ids_of l2 ∧
      inuse_ids b = inuse_ids_of l1 ++ e.id :: inuse_ids_of l2) := by
  unfold ks_dhtrt_delete_id
  cases hf : find_entry_loop P x b.entries 0 with
  | none => exact Or.inl ⟨rfl, (find_entry_loop_none P x b.entries 0).1 hf⟩
  | some ix =>
    right
    obtain ⟨l1, e, l2, h1, h2, h3, h4, _⟩ := find_entry_loop_some P x b.entries 0 ix hf
    have hix : ix = l1.length := by omega
    subst hix
    obtain ⟨h5, h6, h7, h8, h9⟩ := @BucketInv.clear _ hP _ hb _ _ _ { e with inuse := 0, gptr := none, flags := 0 }
      h1 h3 rfl b.expired_count
    refine ⟨l1, e, l2, h1, h3, h4, h7, ?_, ?_, h8, h9⟩
    · simp only [h1, getD_append_length, set_append_length, h6]
    · rw [← h6]; exact h5

theorem queue_buckets (t : Table) (n : Nat) :
    (ks_dhtrt_queue_node_fordelete t n).buckets = t.buckets := rfl

theorem delete_node_inv {P : Params} (hP : P.ok) {t t1 : Table} {n : Nat} {s : ks_status_t}
    (hinv : RootInv P t.buckets) (h : delete_node_locked P t n = some (s, t1)) :
    RootInv P t1.buckets := by
  unfold delete_node_locked at h
  cases hn : node_at t n with
  | none => rw [hn] at h; simp at h
  | some r =>
    rw [hn] at h
    simp only at h
    cases hf : ks_dhtrt_find_bucketheader P t.buckets r.nodeid with
    | none =>
      rw [hf] at h
      simp only [Option.some.injEq, Prod.mk.injEq] at h
      rw [← h.2]; exact hinv
    | some p =>
      rw [hf] at h
      simp only at h
      cases hb : (deref t.buckets p).bucket with
      | none =>
        rw [hb] at h
        simp only [Option.some.injEq, Prod.mk.injEq] at h
        rw [← h.2]; exact hinv
      | some b =>
        rw [hb] at h
        simp only [Option.some.injEq, Prod.mk.injEq] at h
        rw [← h.2, queue_buckets]
        simp only
        obtain ⟨hbi, _⟩ := hinv.bucket p hb
        rcases delete_id_spec hP hbi r.nodeid with ⟨h1, _⟩ | ⟨l1, e, l2, h1, _, _, _, h2, h3, h4, h5⟩
        · rw [h1]
          simp only
          exact hinv.set_bucket p hb hbi (fun y hy => hy)
        · rw [h2]
          simp only
          refine hinv.set_bucket p hb h3 (fun y hy => ?_)
          rw [h4] at hy
          rw [h5]
          simp only [List.mem_append, List.mem_cons] at hy ⊢
          tauto

theorem read_lock_buckets {t t1 : Table} {n : Nat} (h : ks_rwl_read_lock t n = some t1) :
    t1.buckets = t.buckets := by
  unfold ks_rwl_read_lock at h
  cases hn : node_at t n with
  | none => rw [hn] at h; simp at h
  | some r => rw [hn] at h; simp at h; rw [← h]; rfl

theorem read_unlock_buckets {t t1 : Table} {n : Nat} (h : ks_rwl_read_unlock t n = some t1) :
    t1.buckets = t.buckets := by
  unfold ks_rwl_read_unlock at h
  cases hn : node_at t n with
  | none => rw [hn] at h; simp at h
  | some r => rw [hn] at h; simp at h; rw [← h]; rfl

theorem make_node_buckets {P : Params} {t t1 : Table} {n : Nat}
    (h : ks_dhtrt_make_node P t = some (n, t1)) : t1.buckets = t.buckets := by
  unfold ks_dhtrt_make_node at h
  split at h
  · split at h
    · simp at h
    · split at h
      · simp at h
      · simp only [Option.some.injEq, Prod.mk.injEq] at h
        rw [← h.2]; rfl
  · simp only [Option.some.injEq, Prod.mk.injEq] at h
    rw [← h.2]

theorem find_node_buckets {P : Params} {t t1 : Table} {x : List Nat} {n : Option Nat}
    (h : ks_dhtrt_find_node P t x = some (n, t1)) : t1.buckets = t.buckets := by
  unfold ks_dhtrt_find_node at h
  split at h
  · simp at h; rw [← h.2]
  · split at h
    · simp at h; rw [← h.2]
    · split at h
      · simp at h; rw [← h.2]
      · obtain ⟨t2, h1, h2⟩ := Option.map_eq_some'.1 h
        simp only [Prod.mk.injEq] at h2
        rw [← h2.2]; exact read_lock_buckets h1

theorem release_querynodes_buckets : ∀ (ns : List (Option Nat)) (t t1 : Table),
    release_querynodes_loop ns t = some t1 → t1.buckets = t.buckets := by
  intro ns
  induction ns with
  | nil => intro t t1 h; simp [release_querynodes_loop] at h; rw [h]
  | cons n ns ih =>
    intro t t1 h
    cases n with
    | none => simp [release_querynodes_loop] at h
    | some n =>
      simp only [release_querynodes_loop] at h
      cases hu : ks_rwl_read_unlock t n with
      | none => rw [hu] at h; simp at h
      | some t2 =>
        rw [hu] at h
        rw [ih t2 t1 h, read_unlock_buckets hu]

theorem node_at_lt {t : Table} {n : Nat} {r : ks_dht_node_t} (h : node_at t n = some r) :
    n < t.nodes.length := by
  unfold node_at at h
  by_contra hc
  rw [List.getD_eq_default _ _ (by omega)] at h
  cases h

theorem node_at_set_node (t : Table) (n : Nat) (v : Option ks_dht_node_t) (h : n < t.nodes.length) :
    node_at (set_node t n v) n = v := by
  simp [node_at, set_node, List.getD_eq_getElem?_getD, List.getElem?_set_self, h]

theorem read_lock_node {t t1 : Table} {n : Nat} (h : ks_rwl_read_lock t n = some t1) :
    ∃ r, node_at t1 n = some r := by
  unfold ks_rwl_read_lock at h
  cases hn : node_at t n with
  | none => rw [hn] at h; simp at h
  | some r =>
    rw [hn] at h
    simp only [Option.some.injEq] at h
    rw [← h, node_at_set_node t n _ (node_at_lt hn)]
    exact ⟨_, rfl⟩

theorem SlotAt.setAt {root : Header} {p : HPtr} {h1 : Header} (hne : deref root p ≠ .null)
    {q : HPtr} {i : Nat} {e : ks_dhtrt_bucket_entry_t} (hs : SlotAt h1 q i e) :
    SlotAt (setAt h1 root p) (p ++ q) i e := by
  obtain ⟨b, hb, he⟩ := hs
  exact ⟨b, by rw [deref_setAt p q root h1 hne]; exact hb, he⟩

/-- The id is not in the bucket when `ks_dhtrt_find_bucketentry` finds nothing. -/
theorem not_mem_of_find_none {P : Params} {b : ks_dhtrt_bucket_t} (hb : BucketInv P b)
    {x : List Nat} (hx : x.length = P.idlen) (h : find_entry_loop P x b.entries 0 = none) :
    x ∉ inuse_ids b := by
  intro hm
  obtain ⟨e, he, hi, hid⟩ := mem_inuse_ids.1 hm
  have := (find_entry_loop_none P x b.entries 0).1 h e he
  apply this
  exact ⟨hi, (memcmp_eq_zero_iff P.idlen x e.id hx (hb.wf e he hi).1).2 hid.symm⟩

theorem ids_setAt_congr : ∀ (p : HPtr) (root h1 : Header),
    (∀ y, y ∈ ids h1 ↔ y ∈ ids (deref root p)) → ∀ y, y ∈ ids (setAt h1 root p) ↔ y ∈ ids root := by
  intro p
  induction p with
  | nil => intro root h1 h y; simpa using h y
  | cons d p ih =>
    intro root h1 h y
    cases root with
    | null => rfl
    | hdr m f b l r l1 r1 =>
      cases d
      · have := ih l h1 (by simpa [deref] using h) y
        simp only [setAt, Bool.false_eq_true, if_false, ids, List.mem_append, this]
      · have := ih r h1 (by simpa [deref] using h) y
        simp only [setAt, if_true, ids, List.mem_append, this]

theorem ids_leaf_bucket {P : Params} {h : Header} {b : ks_dhtrt_bucket_t} (hinv : TrieInv P h)
    (hb : h.bucket = some b) : ids h = inuse_ids b := by
  cases h with
  | null => exact absurd hinv id
  | hdr m f b0 l r l1 r1 =>
    simp only [ks_dhtrt_bucket_header_t.bucket] at hb
    subst hb
    obtain ⟨hl, hr, _⟩ := TrieInv_leaf.1 hinv
    subst hl hr
    exact ids_leaf _ _ _ _ _

/-- What `ks_dhtrt_insert_node` does to the trie. -/
theorem insert_node_spec {P : Params} (hP : P.ok) (now nptr : Nat) (node : ks_dht_node_t)
    (hlen : node.nodeid.length = P.idlen) {root root1 : Header} {s : ks_status_t}
    (hinv : RootInv P root)
    (hx : ∀ p, ks_dhtrt_find_bucketheader P root node.nodeid = some p →
      node.nodeid ∉ ids (deref root p))
    (h : insert_node_locked P now root nptr node = some (s, root1)) :
    RootInv P root1 ∧
    (s = KS_STATUS_SUCCESS →
      ∃ q i e, SlotAt root1 q i e ∧ e.inuse = 1 ∧ e.id = node.nodeid ∧ e.gptr = some nptr) ∧
    (s = KS_STATUS_FAIL → ∀ y, y ∈ ids root1 ↔ y ∈ ids root) := by
  unfold insert_node_locked at h
  cases hf : ks_dhtrt_find_bucketheader P root node.nodeid with
  | none => rw [hf] at h; simp at h
  | some p =>
    rw [hf] at h
    simp only at h
    cases hl : insert_node_loop P now nptr node 3201 (deref root p) with
    | none => rw [hl] at h; simp at h
    | some res =>
      obtain ⟨s1, h1⟩ := res
      rw [hl] at h
      simp only [Option.some.injEq, Prod.mk.injEq] at h
      obtain ⟨rfl, rfl⟩ := h
      obtain ⟨hbk, hcompat⟩ := find_spec root p hinv.inv hf
      have hne := bucket_isSome_ne_null hbk
      have hmask := find_mask root p hinv.inv (by rw [hinv.mask]; exact ismasked_ones P _) hf
      have hok := insert_loop_ok hP now nptr node hlen 3201 (deref root p) h1 s1
        (hinv.inv.deref p root hne) hbk (hx p hf) hmask hl
      refine ⟨hinv.update p h1 hne (fun y hy => by rw [hy]; exact hcompat) hok.step, ?_, ?_⟩
      · intro hs
        obtain ⟨q, i, e, hsl, h2, h3, h4⟩ := hok.slot hs
        exact ⟨p ++ q, i, e, hsl.setAt hne, h2, h3, h4⟩
      · intro hs
        exact ids_setAt_congr p root h1 (hok.fail hs)

theorem bucket_set_bucket {h : Header} (hne : h ≠ .null) (b1 : ks_dhtrt_bucket_t) :
    (set_bucket b1 h).bucket = some b1 := by
  cases h with
  | null => exact absurd rfl hne
  | hdr m f b l r l1 r1 => rfl

theorem slot_set_bucket {root : Header} {p : HPtr} (hne : deref root p ≠ .null)
    (b1 : ks_dhtrt_bucket_t) {i : Nat} {e : ks_dhtrt_bucket_entry_t}
    (h : b1.entries.get? i = some e) :
    SlotAt (setAt (set_bucket b1 (deref root p)) root p) p i e :=
  ⟨b1, by rw [deref_setAt_self p _ _ hne]; exact bucket_set_bucket hne b1, h⟩

theorem set_node_buckets (t : Table) (n : Nat) (v : Option ks_dht_node_t) :
    (set_node t n v).buckets = t.buckets := rfl

/-- What `ks_dhtrt_create_node` does to the trie, and the node it returns. -/
theorem create_node_spec {P : Params} (hP : P.ok) {now : Nat} {addr_ok : Bool} {t t1 : Table}
    {x : List Nat} {type : Nat} {ip : List Char} {port : Nat} {s : ks_status_t} {node : Option Nat}
    (hinv : RootInv P t.buckets) (hx : x.length = P.idlen)
    (h : ks_dhtrt_create_node P now addr_ok t x type ip port = some (s, node, t1)) :
    RootInv P t1.buckets ∧
    (s = KS_STATUS_SUCCESS → ∃ n, node = some n ∧ (∃ r, node_at t1 n = some r) ∧
      ∃ q i e, SlotAt t1.buckets q i e ∧ e.inuse = 1 ∧ e.id = x ∧ e.gptr = some n) := by
  unfold ks_dhtrt_create_node at h
  cases hf : ks_dhtrt_find_bucketheader P t.buckets x with
  | none => rw [hf] at h; simp at h
  | some p =>
    rw [hf] at h
    simp only at h
    obtain ⟨hbk, _⟩ := find_spec t.buckets p hinv.inv hf
    have hne := bucket_isSome_ne_null hbk
    obtain ⟨b, hb⟩ := Option.isSome_iff_exists.1 hbk
    obtain ⟨hbi, _⟩ := hinv.bucket p hb
    rw [hb] at h
    cases he : ks_dhtrt_find_bucketentry P (deref t.buckets p) x with
    | some ix =>
      rw [he] at h
      simp only at h
      unfold ks_dhtrt_find_bucketentry at he
      rw [hb] at he
      simp only at he
      obtain ⟨l1, e, l2, h1, h2, h3, h4, _⟩ := find_entry_loop_some P x b.entries 0 ix he
      have hix : ix = l1.length := by omega
      subst hix
      have hid : e.id = x :=
        ((memcmp_eq_zero_iff P.idlen x e.id hx (hbi.wf e (by simp [h1]) h3).1).1 h4).symm
      have hget : b.entries.getD l1.length (zero_entry P) = e := by rw [h1, getD_append_length]
      rw [hget] at h
      cases hg : e.gptr with
      | none => rw [hg] at h; simp at h
      | some tnode =>
        rw [hg] at h
        simp only at h
        split at h
        · simp at h
        · rename_i t2 hlock
          simp only [Option.some.injEq, Prod.mk.injEq] at h
          obtain ⟨rfl, rfl, rfl⟩ := h
          have hb2 := read_lock_buckets hlock
          simp only at hb2
          rw [hb2]
          refine ⟨?_, fun _ => ⟨tnode, rfl, read_lock_node hlock, p, l1.length,
            { e with tyme := now, gptr := some tnode,
                     flags := if e.touched ≠ 0 then DHTPEER_ACTIVE else e.flags },
            ?_, h3, hid, rfl⟩⟩
          · have := hinv.set_entry p hb l1.length
              { e with tyme := now, gptr := some tnode,
                       flags := if e.touched ≠ 0 then DHTPEER_ACTIVE else e.flags }
              b.expired_count (by rw [hget]; simp [entry_skel, hg]) (by rw [h1]; simp)
            exact this
          · apply slot_set_bucket hne
            simp only [h1, set_append_length, get?_append_length]
    | none =>
      rw [he] at h
      simp only at h
      unfold ks_dhtrt_find_bucketentry at he
      rw [hb] at he
      simp only at he
      have hfresh : x ∉ inuse_ids b := not_mem_of_find_none hbi hx he
      cases hmk : ks_dhtrt_make_node P t with
      | none => rw [hmk] at h; simp at h
      | some res =>
        obtain ⟨tnode, t2⟩ := res
        rw [hmk] at h
        simp only at h
        have hb2 := make_node_buckets hmk
        cases addr_ok with
        | false =>
          simp only [Bool.not_false, if_true, Option.some.injEq, Prod.mk.injEq] at h
          obtain ⟨rfl, rfl, rfl⟩ := h
          rw [set_node_buckets, hb2]
          exact ⟨hinv, fun h => by cases h⟩
        | true =>
          simp only [Bool.not_true, Bool.false_eq_true, if_false, set_node_buckets] at h
          rw [hb2] at h
          split at h
          · simp at h
          · rename_i root1 hins
            obtain ⟨t3, hlock, h3⟩ := Option.map_eq_some'.1 h
            simp only [Prod.mk.injEq] at h3
            obtain ⟨rfl, rfl, rfl⟩ := h3
            rw [read_lock_buckets hlock]
            simp only
            obtain ⟨h5, h6, _⟩ := insert_node_spec hP now tnode _ hx hinv
              (fun p1 hp1 => by
                have hp2 : ks_dhtrt_find_bucketheader P t.buckets x = some p1 := hp1
                rw [hf] at hp2
                simp only [Option.some.injEq] at hp2
                subst hp2
                show x ∉ ids (deref t.buckets p)
                rw [ids_leaf_bucket (hinv.inv.deref p _ hne) hb]
                exact hfresh) (insert_node_some hins).2
            exact ⟨h5, fun _ => ⟨tnode, rfl, read_lock_node hlock, h6 rfl⟩⟩
          · rename_i root1 hins
            simp only [Option.some.injEq, Prod.mk.injEq] at h
            obtain ⟨rfl, rfl, rfl⟩ := h
            simp only
            obtain ⟨h5, _, _⟩ := insert_node_spec hP now tnode _ hx hinv
              (fun p1 hp1 => by
                have hp2 : ks_dhtrt_find_bucketheader P t.buckets x = some p1 := hp1
                rw [hf] at hp2
                simp only [Option.some.injEq] at hp2
                subst hp2
                show x ∉ ids (deref t.buckets p)
                rw [ids_leaf_bucket (hinv.inv.deref p _ hne) hb]
                exact hfresh) (insert_node_some hins).2
            exact ⟨h5, fun h => by cases h⟩

/-! ## The query and the sweep keep the invariant -/

theorem TrieInv_cache {P : Params} {m : List Nat} {f : Nat} {b : Option ks_dhtrt_bucket_t}
    {l r : Header} (l1 r1 c1 c2 : Option HPtr) (h : TrieInv P (.hdr m f b l r l1 r1)) :
    TrieInv P (.hdr m f b l r c1 c2) := by
  cases b with
  | some b => exact h
  | none => exact h

theorem RootInv.set_cache {P : Params} {root : Header} (hinv : RootInv P root) (lp : HPtr)
    (g : Header → Header) (hg : g .null = .null)
    (hg1 : ∀ m f b l r l1 r1, ∃ c1 c2, g (.hdr m f b l r l1 r1) = .hdr m f b l r c1 c2) :
    RootInv P (setAt (g (deref root lp)) root lp) := by
  cases hd : deref root lp with
  | null =>
    rw [hg, ← hd, setAt_deref]; exact hinv
  | hdr m f b l r l1 r1 =>
    obtain ⟨c1, c2, hc⟩ := hg1 m f b l r l1 r1
    have hne : deref root lp ≠ .null := by rw [hd]; exact fun h => by cases h
    have hsub := hinv.inv.deref lp root hne
    rw [hd] at hsub
    refine hinv.update (N := fun _ => False) lp _ hne (fun _ h => absurd h id) ?_
    rw [hd, hc]
    refine ⟨TrieInv_cache l1 r1 c1 c2 hsub, rfl, rfl, ?_, ?_⟩
    · intro h0
      have := (LocalStep.refl (N := fun _ => False) hsub).leaf h0
      exact this
    · intro y hy
      left
      simpa [ids] using hy

theorem RootInv.set_left1bit {P : Params} {root : Header} (hinv : RootInv P root) (lp : HPtr)
    (v : Option HPtr) : RootInv P (setAt (KsDht.set_left1bit v (deref root lp)) root lp) :=
  hinv.set_cache lp (KsDht.set_left1bit v) rfl (fun _ _ _ _ _ _ r1 => ⟨v, r1, rfl⟩)

theorem RootInv.set_right1bit {P : Params} {root : Header} (hinv : RootInv P root) (lp : HPtr)
    (v : Option HPtr) : RootInv P (setAt (KsDht.set_right1bit v (deref root lp)) root lp) :=
  hinv.set_cache lp (KsDht.set_right1bit v) rfl (fun _ _ _ _ _ l1 _ => ⟨l1, v, rfl⟩)

theorem RootInv.set_lock {P : Params} {root : Header} (hinv : RootInv P root) (p : HPtr)
    {b : ks_dhtrt_bucket_t} (hb : (deref root p).bucket = some b) (n : Nat) :
    RootInv P (setAt (KsDht.set_bucket { b with lock := n } (deref root p)) root p) := by
  obtain ⟨hbi, _⟩ := hinv.bucket p hb
  exact hinv.set_bucket p hb ⟨hbi.len, hbi.count, hbi.bool, hbi.wf, hbi.nodup⟩ (fun y hy => hy)

theorem walk_left_find_keeps {Q : Header → Prop}
    (hL : ∀ root p v, Q root → Q (setAt (set_left1bit v (deref root p)) root p))
    {P : Params} {root : Header} (hq : Q root)
    (last : Option HPtr) (leftid : List Nat) : Q (walk_left_find P root last leftid).2 := by
  unfold walk_left_find
  cases last with
  | none => exact hq
  | some lp =>
    simp only
    cases (deref root lp).left1bit with
    | none => exact hL _ lp _ hq
    | some c => exact hL _ lp _ hq

theorem walk_right_find_keeps {Q : Header → Prop}
    (hL : ∀ root p v, Q root → Q (setAt (set_left1bit v (deref root p)) root p))
    (hR : ∀ root p v, Q root → Q (setAt (set_right1bit v (deref root p)) root p))
    {P : Params} {root : Header} (hq : Q root)
    (last : Option HPtr) (rightid : List Nat) : Q (walk_right_find P root last rightid).2 := by
  unfold walk_right_find
  cases last with
  | none =>
    simp only [Option.bind]
    split <;> exact hq
  | some rp =>
    simp only [Option.bind]
    cases (deref root rp).right1bit with
    | none =>
      simp only
      split
      · exact hq
      · exact hL _ rp _ hq
    | some c => exact hR _ rp _ hq

/-- The function `ks_dhtrt_findclosest_bucketnodes` writes the read lock of one bucket only. -/
theorem findclosest_bucketnodes_keeps {Q : Header → Prop}
    (hK : ∀ root p b n, (deref root p).bucket = some b → Q root →
      Q (setAt (set_bucket { b with lock := n } (deref root p)) root p))
    {P : Params} {id : List Nat} {type family : Nat} {root : Header} {header : HPtr}
    {xors : ks_dhtrt_sortedxors_t} {hixor : List Nat} {max : Nat}
    {r : Nat × ks_dhtrt_sortedxors_t × Header} (hq : Q root)
    (h : ks_dhtrt_findclosest_bucketnodes P id type family root header xors hixor max = some r) :
    Q r.2.2 := by
  unfold ks_dhtrt_findclosest_bucketnodes at h
  cases hb : (deref root header).bucket with
  | none => rw [hb] at h; simp at h
  | some b =>
    rw [hb] at h
    simp only [Option.some.injEq] at h
    rw [← h]
    exact hK root header b _ hb hq

theorem load_query_list_keeps {Q : Header → Prop}
    (hK : ∀ root p b n, (deref root p).bucket = some b → Q root →
      Q (setAt (set_bucket { b with lock := n } (deref root p)) root p))
    {P : Params} {qmax : Nat} :
    ∀ (xs : List ks_dhtrt_sortedxors_t) (loaded : Nat) (nodes : List (Option Nat)) (root : Header)
      (r : Nat × List (Option Nat) × Header), Q root →
      load_query_list P qmax xs loaded nodes root = some r → Q r.2.2 := by
  intro xs
  induction xs with
  | nil =>
    intro loaded nodes root r hq h
    simp only [load_query_list, Option.some.injEq] at h
    rw [← h]; exact hq
  | cons current next ih =>
    intro loaded nodes root r hq h
    simp only [load_query_list] at h
    cases hb : (deref root current.bheader).bucket with
    | none => rw [hb] at h; simp at h
    | some b =>
      rw [hb] at h
      simp only at h
      have h1 := hK root current.bheader b (b.lock - 1) hb hq
      split at h
      · simp only [Option.some.injEq] at h
        rw [← h]; exact h1
      · exact ih _ _ _ r h1 h

theorem load_query_keeps {Q : Header → Prop}
    (hK : ∀ root p b n, (deref root p).bucket = some b → Q root →
      Q (setAt (set_bucket { b with lock := n } (deref root p)) root p))
    {P : Params} {root : Header} {query : ks_dhtrt_querynodes_t}
    {xs : List ks_dhtrt_sortedxors_t} {r : Nat × ks_dhtrt_querynodes_t × Header} (hq : Q root)
    (h : ks_dhtrt_load_query P root query xs = some r) : Q r.2.2 := by
  unfold ks_dhtrt_load_query at h
  split at h
  · simp at h
  · rename_i r0 hr0
    simp only [Option.some.injEq] at h
    rw [← h]
    exact load_query_list_keeps hK xs 0 query.nodes root r0 hq hr0

theorem walk_left_keeps {Q : Header → Prop}
    (hL : ∀ root p v, Q root → Q (setAt (set_left1bit v (deref root p)) root p))
    (hK : ∀ root p b n, (deref root p).bucket = some b → Q root →
      Q (setAt (set_bucket { b with lock := n } (deref root p)) root p))
    {P : Params} {query : ks_dhtrt_querynodes_t} {last : Option HPtr}
    {st st1 : walk_state} (hq : Q st.root) (h : walk_left P query last st = some st1) :
    Q st1.root := by
  unfold walk_left at h
  split at h
  · simp only at h
    have hr := @walk_left_find_keeps Q hL P _ hq last (ks_dhtrt_shiftleft P st.leftid)
    split at h
    · simp only [Option.some.injEq] at h; rw [← h]; exact hr
    · split at h
      · simp at h
      · rename_i hbn
        simp only [Option.some.injEq] at h; rw [← h]
        exact findclosest_bucketnodes_keeps hK hr hbn
  · simp only [Option.some.injEq] at h; rw [← h]; exact hq

theorem walk_right_keeps {Q : Header → Prop}
    (hL : ∀ root p v, Q root → Q (setAt (set_left1bit v (deref root p)) root p))
    (hR : ∀ root p v, Q root → Q (setAt (set_right1bit v (deref root p)) root p))
    (hK : ∀ root p b n, (deref root p).bucket = some b → Q root →
      Q (setAt (set_bucket { b with lock := n } (deref root p)) root p))
    {P : Params} {query : ks_dhtrt_querynodes_t} {last : Option HPtr}
    {st st1 : walk_state} (hq : Q st.root) (h : walk_right P query last st = some st1) :
    Q st1.root := by
  unfold walk_right at h
  split at h
  · simp only at h
    have hr := @walk_right_find_keeps Q hL hR P _ hq last (ks_dhtrt_shiftright P st.rightid)
    split at h
    · simp only [Option.some.injEq] at h; rw [← h]; exact hr
    · split at h
      · simp at h
      · rename_i hbn
        simp only [Option.some.injEq] at h; rw [← h]
        exact findclosest_bucketnodes_keeps hK hr hbn
  · simp only [Option.some.injEq] at h; rw [← h]; exact hq

theorem closest_walk_keeps {Q : Header → Prop}
    (hL : ∀ root p v, Q root → Q (setAt (set_left1bit v (deref root p)) root p))
    (hR : ∀ root p v, Q root → Q (setAt (set_right1bit v (deref root p)) root p))
    (hK : ∀ root p b n, (deref root p).bucket = some b → Q root →
      Q (setAt (set_bucket { b with lock := n } (deref root p)) root p))
    {P : Params} {query : ks_dhtrt_querynodes_t} :
    ∀ (fuel : Nat) (st st1 : walk_state), Q st.root →
      closest_walk P query fuel st = some st1 → Q st1.root := by
  intro fuel
  induction fuel with
  | zero => intro st st1 _ h; simp [closest_walk] at h
  | succ fuel ih =>
    intro st st1 hq h
    simp only [closest_walk] at h
    cases hl : walk_left P query st.lheader st with
    | none => rw [hl] at h; simp at h
    | some s1 =>
      rw [hl] at h
      simp only at h
      cases hr : walk_right P query st.rheader s1 with
      | none => rw [hr] at h; simp at h
      | some s2 =>
        rw [hr] at h
        simp only at h
        have h2 := walk_right_keeps hL hR hK (walk_left_keeps hL hK hq hl) hr
        split at h
        · simp only [Option.some.injEq] at h; rw [← h]; exact h2
        · split at h
          · simp at h
          · split at h
            · exact ih { s2 with insanity := s2.insanity + 1 } st1 h2 h
            · simp only [Option.some.injEq] at h; rw [← h]; exact h2

theorem findclosest_step3_keeps {Q : Header → Prop}
    (hL : ∀ root p v, Q root → Q (setAt (set_left1bit v (deref root p)) root p))
    (hR : ∀ root p v, Q root → Q (setAt (set_right1bit v (deref root p)) root p))
    (hK : ∀ root p b n, (deref root p).bucket = some b → Q root →
      Q (setAt (set_bucket { b with lock := n } (deref root p)) root p))
    {P : Params} {root : Header} {query : ks_dhtrt_querynodes_t}
    {total : Nat} {xort0 xort1 : ks_dhtrt_sortedxors_t}
    {r : Nat × ks_dhtrt_querynodes_t × Header} (hq : Q root)
    (h : findclosest_step3 P root query total xort0 xort1 = some r) : Q r.2.2 := by
  unfold findclosest_step3 at h
  split at h
  · simp at h
  · rename_i st hst
    have hst1 := closest_walk_keeps hL hR hK 160 _ st hq hst
    obtain ⟨r0, hr0, rfl⟩ := Option.map_eq_some'.1 h
    have h2 : Q r0.2.2 := load_query_keeps hK hst1 hr0
    exact h2

theorem findclosest_step2_keeps {Q : Header → Prop}
    (hL : ∀ root p v, Q root → Q (setAt (set_left1bit v (deref root p)) root p))
    (hR : ∀ root p v, Q root → Q (setAt (set_right1bit v (deref root p)) root p))
    (hK : ∀ root p b n, (deref root p).bucket = some b → Q root →
      Q (setAt (set_bucket { b with lock := n } (deref root p)) root p))
    {P : Params} {root : Header} {query : ks_dhtrt_querynodes_t}
    {header : HPtr} {total : Nat} {xort0 : ks_dhtrt_sortedxors_t}
    {r : Nat × ks_dhtrt_querynodes_t × Header} (hq : Q root)
    (h : findclosest_step2 P root query header total xort0 = some r) : Q r.2.2 := by
  unfold findclosest_step2 at h
  split at h
  · simp at h
  · rename_i hbn
    have h1 := findclosest_bucketnodes_keeps hK hq hbn
    split at h
    · exact load_query_keeps hK h1 h
    · exact findclosest_step3_keeps hL hR hK h1 h

theorem findclosest_step1_keeps {Q : Header → Prop}
    (hL : ∀ root p v, Q root → Q (setAt (set_left1bit v (deref root p)) root p))
    (hR : ∀ root p v, Q root → Q (setAt (set_right1bit v (deref root p)) root p))
    (hK : ∀ root p b n, (deref root p).bucket = some b → Q root →
      Q (setAt (set_bucket { b with lock := n } (deref root p)) root p))
    {P : Params} {root : Header} {query : ks_dhtrt_querynodes_t}
    {r : Nat × ks_dhtrt_querynodes_t × Header} (hq : Q root)
    (h : findclosest_step1 P root query = some r) : Q r.2.2 := by
  unfold findclosest_step1 at h
  split at h
  · simp at h
  · split at h
    · simp at h
    · rename_i hbn
      have h1 := findclosest_bucketnodes_keeps hK hq hbn
      split at h
      · exact load_query_keeps hK h1 h
      · exact findclosest_step2_keeps hL hR hK h1 h

/-- A closest-node query writes only the cached pointers of the headers and the read
locks of the buckets. -/
theorem findclosest_nodes_keeps {Q : Header → Prop}
    (hL : ∀ root p v, Q root → Q (setAt (set_left1bit v (deref root p)) root p))
    (hR : ∀ root p v, Q root → Q (setAt (set_right1bit v (deref root p)) root p))
    (hK : ∀ root p b n, (deref root p).bucket = some b → Q root →
      Q (setAt (set_bucket { b with lock := n } (deref root p)) root p))
    {P : Params} {t t1 : Table}
    {query query1 : ks_dhtrt_querynodes_t} {count : Nat} (hq : Q t.buckets)
    (h : ks_dhtrt_findclosest_nodes P t query = some (count, query1, t1)) :
    Q t1.buckets := by
  unfold ks_dhtrt_findclosest_nodes at h
  obtain ⟨⟨c, q, r⟩, h1, h2⟩ := Option.map_eq_some'.1 h
  simp only [Prod.mk.injEq] at h2
  rw [← h2.2.2]
  unfold ks_dhtrt_findclosest_locked_nodes at h1
  by_cases h0 : query.max = 0
  · rw [if_pos h0] at h1
    simp only [Option.some.injEq, Prod.mk.injEq] at h1; rw [← h1.2.2]; exact hq
  · rw [if_neg h0] at h1
    exact findclosest_step1_keeps hL hR hK hq h1

theorem findclosest_nodes_inv {P : Params} {t t1 : Table}
    {query query1 : ks_dhtrt_querynodes_t} {count : Nat} (hinv : RootInv P t.buckets)
    (h : ks_dhtrt_findclosest_nodes P t query = some (count, query1, t1)) :
    RootInv P t1.buckets := by
  have hL : ∀ (root : Header) (p : HPtr) (v : Option HPtr), RootInv P root →
      RootInv P (setAt (set_left1bit v (deref root p)) root p) :=
    fun _ p v hq => hq.set_left1bit p v
  have hR : ∀ (root : Header) (p : HPtr) (v : Option HPtr), RootInv P root →
      RootInv P (setAt (set_right1bit v (deref root p)) root p) :=
    fun _ p v hq => hq.set_right1bit p v
  have hK : ∀ (root : Header) (p : HPtr) (b : ks_dhtrt_bucket_t) (n : Nat),
      (deref root p).bucket = some b → RootInv P root →
      RootInv P (setAt (set_bucket { b with lock := n } (deref root p)) root p) :=
    fun _ p _ n hb hq => hq.set_lock p hb n
  exact findclosest_nodes_keeps hL hR hK hinv h

theorem process_entry_skel {P : Params} {t0 : Nat} {nodes : List (Option ks_dht_node_t)}
    {e e1 : ks_dhtrt_bucket_entry_t} {ec ec1 inc : Nat} {pinged : Option Nat}
    (h : process_entry P t0 nodes e ec = some (e1, ec1, inc, pinged)) :
    entry_skel e1 = entry_skel e := by
  unfold process_entry at h
  split at h
  · split at h
    · simp at h
    · split at h
      · simp at h
      · split at h
        · simp only at h
          split at h
          · simp only [Option.some.injEq, Prod.mk.injEq] at h; rw [← h.1]
          · split at h
            · simp only [Option.some.injEq, Prod.mk.injEq] at h; rw [← h.1]; rfl
            · split at h
              · simp only [Option.some.injEq, Prod.mk.injEq] at h; rw [← h.1]; rfl
              · split at h
                · simp only [Option.some.injEq, Prod.mk.injEq] at h; rw [← h.1]; rfl
                · split at h
                  · simp only [Option.some.injEq, Prod.mk.injEq] at h; rw [← h.1]; rfl
                  · simp only [Option.some.injEq, Prod.mk.injEq] at h; rw [← h.1]
        · simp only [Option.some.injEq, Prod.mk.injEq] at h; rw [← h.1]
  · simp only [Option.some.injEq, Prod.mk.injEq] at h; rw [← h.1]

theorem process_entries_skel {P : Params} {t0 : Nat} {nodes : List (Option ks_dht_node_t)} :
    ∀ (es es1 : List ks_dhtrt_bucket_entry_t) (ec pc ec1 pc1 : Nat) (pings pings1 : List Nat),
      process_entries P t0 nodes es ec pc pings = some (es1, ec1, pc1, pings1) →
      es1.map entry_skel = es.map entry_skel := by
  intro es
  induction es with
  | nil =>
    intro es1 ec pc ec1 pc1 pings pings1 h
    simp only [process_entries, Option.some.injEq, Prod.mk.injEq] at h
    rw [← h.1]
  | cons e es ih =>
    intro es1 ec pc ec1 pc1 pings pings1 h
    simp only [process_entries] at h
    cases h1 : process_entry P t0 nodes e ec with
    | none => rw [h1] at h; simp at h
    | some r1 =>
      obtain ⟨e1, ec2, inc, pinged⟩ := r1
      rw [h1] at h
      simp only at h
      split at h
      · simp at h
      · rename_i es2 ec3 pc3 pings3 h2
        simp only [Option.some.injEq, Prod.mk.injEq] at h
        rw [← h.1]
        simp only [List.map_cons, process_entry_skel h1, ih _ _ _ _ _ _ _ h2]

theorem process_bucket_inv {P : Params} {t0 : Nat} {nodes : List (Option ks_dht_node_t)}
    {root root1 : Header} {header : HPtr} {pc pc1 : Nat} {pings pings1 : List Nat}
    (hinv : RootInv P root)
    (h : process_bucket P t0 nodes root header pc pings = some (root1, pc1, pings1)) :
    RootInv P root1 := by
  unfold process_bucket at h
  cases hb : (deref root header).bucket with
  | none =>
    rw [hb] at h
    simp only [Option.some.injEq, Prod.mk.injEq] at h
    rw [← h.1]; exact hinv
  | some b =>
    rw [hb] at h
    simp only at h
    split at h
    · simp only [Option.some.injEq, Prod.mk.injEq] at h
      rw [← h.1]; exact hinv
    · split at h
      · simp at h
      · rename_i es ec pc2 pings2 hp
        simp only [Option.some.injEq, Prod.mk.injEq] at h
        rw [← h.1]
        obtain ⟨hbi, _⟩ := hinv.bucket header hb
        obtain ⟨h2, h3⟩ := @BucketInv.of_skel _ _ { b with entries := es, expired_count := ec } hbi
          (process_entries_skel _ _ _ _ _ _ _ _ hp) rfl
        exact hinv.set_bucket header hb h2 (fun y hy => by rw [← h3]; exact hy)

theorem process_walk_inv {P : Params} {t0 : Nat} {nodes : List (Option ks_dht_node_t)} :
    ∀ (fuel : Nat) (st st1 : sweep_state), RootInv P st.root →
      process_walk P t0 nodes fuel st = some st1 → RootInv P st1.root := by
  intro fuel
  induction fuel with
  | zero =>
    intro st st1 hinv h
    simp only [process_walk] at h
    split at h
    · simp only [Option.some.injEq] at h; rw [← h]; exact hinv
    · simp at h
  | succ fuel ih =>
    intro st st1 hinv h
    simp only [process_walk] at h
    cases hh : st.header with
    | none => rw [hh] at h; simp only [Option.some.injEq] at h; rw [← h]; exact hinv
    | some header =>
      rw [hh] at h
      simp only at h
      split at h
      · simp at h
      · cases hb : process_bucket P t0 nodes st.root header st.ping_count st.pings with
        | none => rw [hb] at h; simp at h
        | some r =>
          obtain ⟨root1, pc1, pings1⟩ := r
          rw [hb] at h
          simp only at h
          have h1 := process_bucket_inv hinv hb
          split at h
          · exact ih _ st1 h1 h
          · exact ih _ st1 h1 h

theorem process_table_inv {P : Params} {fuel t0 : Nat} {t t1 : Table} {pings : List Nat}
    (hinv : RootInv P t.buckets) (h : ks_dhtrt_process_table P fuel t0 t = some (t1, pings)) :
    RootInv P t1.buckets := by
  unfold ks_dhtrt_process_table at h
  split at h
  · simp only [Option.some.injEq, Prod.mk.injEq] at h; rw [← h.1]; exact hinv
  · simp only at h
    split at h
    · simp at h
    · rename_i st hst
      have h1 := process_walk_inv fuel _ st hinv hst
      unfold ks_dhtrt_process_deleted at h
      simp only at h
      split at h
      · simp at h
      · rename_i t2 ht2
        split at ht2
        · simp at ht2
        · simp only [Option.some.injEq] at ht2
          simp only [Option.some.injEq, Prod.mk.injEq] at h
          rw [← h.1, ← ht2]
          exact h1

/-- Every table reachable by the public operations satisfies the invariant. -/
theorem reachable_inv {P : Params} (hP : P.ok) {t : Table} (h : Reachable P t) :
    RootInv P t.buckets := by
  induction h with
  | init =>
    refine ⟨TrieInv_leaf.2 ⟨rfl, rfl, ⟨?_, ?_, ?_, ?_, ?_⟩, ?_, Or.inr rfl⟩, rfl, rfl⟩
    · simp [ks_dhtrt_create_bucket]
    · simp [ks_dhtrt_create_bucket, zero_entry]
    · intro e he
      simp only [ks_dhtrt_create_bucket] at he
      rw [List.eq_of_mem_replicate he]; left; rfl
    · intro e he hi
      simp only [ks_dhtrt_create_bucket] at he
      rw [List.eq_of_mem_replicate he] at hi
      simp [zero_entry] at hi
    · simp [inuse_ids, ks_dhtrt_create_bucket, zero_entry]
    · simp [inuse_ids, ks_dhtrt_create_bucket, zero_entry]
  | create_node _ hx h ih => exact (create_node_spec hP ih hx.1 h).1
  | delete_node _ h ih => exact delete_node_inv hP ih (delete_node_some h).1
  | find_node _ _ h ih => rw [find_node_buckets h]; exact ih
  | touch_node _ _ h ih => rw [touch_node_snd h]; exact touch_node_inv _ _ _ ih
  | expire_node _ _ h ih => rw [expire_node_snd h]; exact expire_node_inv _ _ ih
  | findclosest_nodes _ _ h ih => exact findclosest_nodes_inv ih h
  | release_node _ h ih =>
    rw [read_unlock_buckets (by simpa [ks_dhtrt_release_node] using h)]; exact ih
  | sharelock_node _ h ih =>
    rw [read_lock_buckets (by simpa [ks_dhtrt_sharelock_node] using h)]; exact ih
  | release_querynodes _ h ih =>
    rw [release_querynodes_buckets _ _ _ (by simpa [ks_dhtrt_release_querynodes] using h)]; exact ih
  | process_table _ h ih => exact process_table_inv ih h

theorem reachable_exec {P : Params} {t t1 : Table} {c : Call} (h : Reachable P t)
    (he : exec P t c = some t1) : Reachable P t1 := by
  cases c with
  | create now addr_ok nodeid type ip port =>
    simp only [exec] at he
    split at he
    · rename_i hw
      obtain ⟨⟨s, n, t2⟩, h1, h2⟩ := Option.map_eq_some'.1 he
      simp only at h2; subst h2
      exact Reachable.create_node h hw h1
    · simp at he
  | delete node =>
    simp only [exec] at he
    obtain ⟨⟨s, t2⟩, h1, h2⟩ := Option.map_eq_some'.1 he
    simp only at h2; subst h2
    exact Reachable.delete_node h h1
  | find nodeid =>
    simp only [exec] at he
    split at he
    · rename_i hw
      obtain ⟨⟨n, t2⟩, h1, h2⟩ := Option.map_eq_some'.1 he
      simp only at h2; subst h2
      exact Reachable.find_node h hw h1
    · simp at he
  | touch now nodeid =>
    simp only [exec] at he
    split at he
    · rename_i hw
      obtain ⟨⟨s, t2⟩, h1, h2⟩ := Option.map_eq_some'.1 he
      simp only at h2; subst h2
      exact Reachable.touch_node h hw h1
    · simp at he
  | expire nodeid =>
    simp only [exec] at he
    split at he
    · rename_i hw
      obtain ⟨⟨s, t2⟩, h1, h2⟩ := Option.map_eq_some'.1 he
      simp only at h2; subst h2
      exact Reachable.expire_node h hw h1
    · simp at he
  | closest query =>
    simp only [exec] at he
    split at he
    · rename_i hw
      obtain ⟨⟨c, q, t2⟩, h1, h2⟩ := Option.map_eq_some'.1 he
      simp only at h2; subst h2
      exact Reachable.findclosest_nodes h hw h1
    · simp at he
  | release node => exact Reachable.release_node h he
  | sharelock node => exact Reachable.sharelock_node h he
  | release_query query => exact Reachable.release_querynodes h he
  | sweep fuel t0 =>
    simp only [exec] at he
    obtain ⟨⟨t2, pings⟩, h1, h2⟩ := Option.map_eq_some'.1 he
    simp only at h2; subst h2
    exact Reachable.process_table h h1

theorem reachable_run {P : Params} : ∀ (cs : List Call) (t t1 : Table), Reachable P t →
    run P cs t = some t1 → Reachable P t1 := by
  intro cs
  induction cs with
  | nil => intro t t1 h hr; simp only [run, Option.some.injEq] at hr; subst hr; exact h
  | cons c cs ih =>
    intro t t1 h hr
    simp only [run] at hr
    cases he : exec P t c with
    | none => rw [he] at hr; simp at hr
    | some t2 => rw [he] at hr; exact ih t2 t1 (reachable_exec h he) hr

/-- The table after a sequence of calls that are all defined is reachable. -/
theorem reachable_table_after {P : Params} (cs : List Call)
    (h : (run P cs (ks_dhtrt_initroute P)).isSome = true) : Reachable P (table_after P cs) := by
  obtain ⟨t1, h1⟩ := Option.isSome_iff_exists.1 h
  unfold table_after
  rw [h1]
  exact reachable_run cs _ t1 Reachable.init h1

/-- C1 (code defect): on the reachable table with the active nodes 01.., 02.., 03..
(20-byte ids, buckets of 20) the query for the 2 nodes closest to 00..00, all
types, either family, returns the nodes 03.. and 02.. in this order, the two
farthest, farthest first; the specification asks for 01.. then 02... -/
theorem C1_closest_returns_farthest_first :
    Reachable stdParams (table_after stdParams c1_calls) ∧
    closest_result stdParams (table_after stdParams c1_calls) (query_all stdParams (id20 0 0) 2) =
      some [some (id20 3 0), some (id20 2 0)] ∧
    closest_spec stdParams (table_after stdParams c1_calls).buckets (id20 0 0) 2 =
      [id20 1 0, id20 2 0] :=
  ⟨reachable_table_after c1_calls (by decide!), by decide!, by decide!⟩

/-- C2 (code defect): on the reachable table with two leaves, the active node 01.. in
the left one and the active node 80.. in the right one (20-byte ids, buckets of
20), the query for the 2 nodes closest to 00..00 with a zeroed result array
returns count 2 with `nodes[0]` the node 80.. and `nodes[1]` still NULL: the
second leaf overwrote `nodes[0]`, and `nodes[1]` is no node of any slot. -/
theorem C2_closest_returns_unset_entry :
    Reachable stdParams (table_after stdParams c2_calls) ∧
    ks_dhtrt_find_bucketheader stdParams (table_after stdParams c2_calls).buckets (id20 1 0) =
      some [false] ∧
    ks_dhtrt_find_bucketheader stdParams (table_after stdParams c2_calls).buckets (id20 0x80 0) =
      some [true] ∧
    (ks_dhtrt_findclosest_nodes stdParams (table_after stdParams c2_calls)
        (query_all stdParams (id20 0 0) 2)).map (fun r => (r.1, r.2.1.count, r.2.1.nodes.take 2)) =
      some (2, 2, [some 0, none]) ∧
    closest_result stdParams (table_after stdParams c2_calls) (query_all stdParams (id20 0 0) 2) =
      some [some (id20 0x80 0), none] :=
  ⟨reachable_table_after c2_calls (by decide!), by decide!, by decide!, by decide!, by decide!⟩

/-! ## Slots and lookup -/

theorem slotAt_of_eval {root : Header} {q : HPtr} {i : Nat} {e : ks_dhtrt_bucket_entry_t}
    (h : (deref root q).bucket.bind (fun b => b.entries.get? i) = some e) : SlotAt root q i e := by
  cases hb : (deref root q).bucket with
  | none => rw [hb] at h; simp at h
  | some b => rw [hb] at h; exact ⟨b, hb, by simpa using h⟩

/-- The lookup in a bucket returns the node of the slot in use that holds the id. -/
theorem find_nodeid_of_slot {P : Params} {b : ks_dhtrt_bucket_t} (hb : BucketInv P b)
    {x : List Nat} (hx : x.length = P.idlen) {i : Nat} {e : ks_dhtrt_bucket_entry_t}
    (he : b.entries.get? i = some e) (hi : e.inuse = 1) (hid : e.id = x) :
    find_entry_loop P x b.entries 0 = some i ∧ ks_dhtrt_find_nodeid P b x = e.gptr := by
  have hsome : find_entry_loop P x b.entries 0 = some i := by
    cases hf : find_entry_loop P x b.entries 0 with
    | none =>
      exfalso
      exact (find_entry_loop_none P x b.entries 0).1 hf e (List.get?_mem he)
        ⟨hi, (memcmp_eq_zero_iff P.idlen x e.id hx (by rw [hid]; exact hx)).2 hid.symm⟩
    | some j =>
      obtain ⟨l1, e1, l2, h1, h2, h3, h4, _⟩ := find_entry_loop_some P x b.entries 0 j hf
      have hj : b.entries.get? j = some e1 := by
        rw [h1, h2, Nat.zero_add]; exact get?_append_length _ _ _
      have hid1 : e1.id = x :=
        ((memcmp_eq_zero_iff P.idlen x e1.id hx (hb.wf e1 (List.get?_mem hj) h3).1).1 h4).symm
      rw [nodup_index_unique b.entries j i e1 e hb.nodup hj he h3 hi (by rw [hid1, hid])]
  refine ⟨hsome, ?_⟩
  unfold ks_dhtrt_find_nodeid
  rw [hsome]
  simp only
  rw [List.getD_eq_getElem?_getD, ← List.get?_eq_getElem?, he]
  rfl

/-- The lookup of `ks_dhtrt_find_node` when a slot in use holds the id. -/
theorem find_node_of_slot {P : Params} {t : Table} (hinv : RootInv P t.buckets) {x : List Nat}
    (hx : x.length = P.idlen) {q : HPtr} {i : Nat} {e : ks_dhtrt_bucket_entry_t}
    (hs : SlotAt t.buckets q i e) (hi : e.inuse = 1) (hid : e.id = x) :
    ∃ n, e.gptr = some n ∧
      ks_dhtrt_find_node P t x = (ks_rwl_read_lock t n).map (fun t1 => (some n, t1)) := by
  have hf := SlotAt.find t.buckets q i e hinv.inv hs hi
  rw [hid] at hf
  obtain ⟨b, hb, he⟩ := hs
  obtain ⟨hbi, _⟩ := hinv.bucket q hb
  obtain ⟨n, hn⟩ := Option.ne_none_iff_exists'.1 (hbi.wf e (List.get?_mem he) hi).2
  refine ⟨n, hn, ?_⟩
  unfold ks_dhtrt_find_node ks_dhtrt_find_bucketheader
  rw [hf]
  simp only
  rw [hb]
  simp only
  rw [(find_nodeid_of_slot hbi hx he hi hid).2, hn]

/-- The lookup of `ks_dhtrt_find_node` when no slot in use holds the id. -/
theorem find_node_of_no_slot {P : Params} {t : Table} (hinv : RootInv P t.buckets) {x : List Nat}
    (hx : x.length = P.idlen)
    (hno : ∀ q i e, SlotAt t.buckets q i e → e.inuse = 1 → e.id ≠ x) :
    ks_dhtrt_find_node P t x = some (none, t) := by
  unfold ks_dhtrt_find_node
  cases hf : ks_dhtrt_find_bucketheader P t.buckets x with
  | none => rfl
  | some p =>
    simp only
    cases hb : (deref t.buckets p).bucket with
    | none => rfl
    | some b =>
      simp only
      unfold ks_dhtrt_find_nodeid
      cases hl : find_entry_loop P x b.entries 0 with
      | none => rfl
      | some j =>
        exfalso
        obtain ⟨hbi, _⟩ := hinv.bucket p hb
        obtain ⟨l1, e1, l2, h1, h2, h3, h4, _⟩ := find_entry_loop_some P x b.entries 0 j hl
        have hj : b.entries.get? j = some e1 := by
          rw [h1, h2, Nat.zero_add]; exact get?_append_length _ _ _
        have hid1 : e1.id = x :=
          ((memcmp_eq_zero_iff P.idlen x e1.id hx (hbi.wf e1 (List.get?_mem hj) h3).1).1 h4).symm
        exact hno p j e1 ⟨b, hb, hj⟩ h3 hid1

/-! ## Claims -/

/-- C3: in every table reachable by the public operations (so after every sequence of
create_or_touch, touch, expire and delete calls on a fresh table), the id of
every slot in use satisfies `ks_dhtrt_ismasked` against the mask of the header
whose bucket holds the slot. -/
theorem C3_inuse_id_satisfies_leaf_mask (P : Params) (hP : P.ok) (t : Table) (h : Reachable P t)
    (q : HPtr) (i : Nat) (e : ks_dhtrt_bucket_entry_t) (hs : SlotAt t.buckets q i e)
    (hi : e.inuse = 1) : ks_dhtrt_ismasked P e.id (deref t.buckets q).mask = true := by
  obtain ⟨b, hb, he⟩ := hs
  exact ((reachable_inv hP h).bucket q hb).2 e.id (mem_inuse_ids.2 ⟨e, List.get?_mem he, hi, rfl⟩)

theorem C3_witness :
    testParams.ok ∧ Reachable testParams s1_table ∧
    SlotAt s1_table.buckets [false, true] 0 (slot_of testParams s1_table.buckets [false, true] 0) ∧
    (slot_of testParams s1_table.buckets [false, true] 0).inuse = 1 ∧
    (slot_of testParams s1_table.buckets [false, true] 0).id = [0x40, 0x00] ∧
    (deref s1_table.buckets [false, true]).mask = [0x7f, 0xff] ∧
    ks_dhtrt_ismasked testParams (slot_of testParams s1_table.buckets [false, true] 0).id
      (deref s1_table.buckets [false, true]).mask = true :=
  ⟨by decide, reachable_table_after s1_calls (by decide!), slotAt_of_eval (by decide!), by decide!,
    by decide!, by decide!,
    C3_inuse_id_satisfies_leaf_mask testParams (by decide) s1_table
      (reachable_table_after s1_calls (by decide!)) [false, true] 0
      (slot_of testParams s1_table.buckets [false, true] 0) (slotAt_of_eval (by decide!))
      (by decide!)⟩

/-- C4: in every table reachable by the public operations, two slots in use that
carry the same id are the same slot of the same bucket. -/
theorem C4_no_two_inuse_slots_share_id (P : Params) (hP : P.ok) (t : Table) (h : Reachable P t)
    (q1 q2 : HPtr) (i1 i2 : Nat) (e1 e2 : ks_dhtrt_bucket_entry_t)
    (hs1 : SlotAt t.buckets q1 i1 e1) (hs2 : SlotAt t.buckets q2 i2 e2)
    (hi1 : e1.inuse = 1) (hi2 : e2.inuse = 1) (hid : e1.id = e2.id) : q1 = q2 ∧ i1 = i2 := by
  have hinv := reachable_inv hP h
  have hf1 := SlotAt.find t.buckets q1 i1 e1 hinv.inv hs1 hi1
  have hf2 := SlotAt.find t.buckets q2 i2 e2 hinv.inv hs2 hi2
  rw [hid, hf2] at hf1
  simp only [Option.some.injEq] at hf1
  subst hf1
  obtain ⟨b1, hb1, he1⟩ := hs1
  obtain ⟨b2, hb2, he2⟩ := hs2
  rw [hb1] at hb2
  simp only [Option.some.injEq] at hb2
  subst hb2
  exact ⟨rfl, nodup_index_unique b1.entries i1 i2 e1 e2 (hinv.bucket q2 hb1).1.nodup he1 he2 hi1 hi2 hid⟩

theorem C4_witness :
    testParams.ok ∧ Reachable testParams s1_table ∧
    SlotAt s1_table.buckets [false, false] 1 (slot_of testParams s1_table.buckets [false, false] 1) ∧
    (slot_of testParams s1_table.buckets [false, false] 1).inuse = 1 ∧
    (slot_of testParams s1_table.buckets [false, false] 1).id = [0x02, 0x00] ∧
    (([false, false] : HPtr) = [false, false] ∧ 1 = 1) :=
  ⟨by decide, reachable_table_after s1_calls (by decide!), slotAt_of_eval (by decide!), by decide!,
    by decide!,
    C4_no_two_inuse_slots_share_id testParams (by decide) s1_table
      (reachable_table_after s1_calls (by decide!)) [false, false] [false, false] 1 1
      (slot_of testParams s1_table.buckets [false, false] 1)
      (slot_of testParams s1_table.buckets [false, false] 1)
      (slotAt_of_eval (by decide!)) (slotAt_of_eval (by decide!)) (by decide!) (by decide!) rfl⟩

/-- C5: in every table reachable by the public operations each header of the trie is
either a leaf (a bucket and no children) or internal (no bucket and both
children); the root of a fresh table is a leaf with the all-ones mask; and
`ks_dhtrt_split_bucket`, as `ks_dhtrt_insert_node` calls it on a leaf, turns that leaf
into an internal header with two leaf children. -/
theorem C5_leaf_or_internal (P : Params) (hP : P.ok) (t : Table) (h : Reachable P t) (p : HPtr)
    (hne : deref t.buckets p ≠ .null) :
    (((deref t.buckets p).bucket.isSome = true ∧ (deref t.buckets p).left = .null ∧
        (deref t.buckets p).right = .null) ∨
      ((deref t.buckets p).bucket = none ∧ (deref t.buckets p).left ≠ .null ∧
        (deref t.buckets p).right ≠ .null)) ∧
    (ks_dhtrt_initroute P).buckets =
      .hdr (List.replicate P.idlen 0xff) BHF_LEFT (some (ks_dhtrt_create_bucket P)) .null .null
        none none ∧
    (∀ (m : List Nat) (f : Nat) (b : ks_dhtrt_bucket_t) (c1 c2 : Option HPtr) (newmask : List Nat),
      ∃ lb rb, ks_dhtrt_split_bucket P (.hdr m f (some b) .null .null c1 c2)
          (.hdr newmask BHF_LEFT (some (ks_dhtrt_create_bucket P)) .null .null none none)
          (ks_dhtrt_create_bucketheader m) =
        some (.hdr m f none (.hdr newmask BHF_LEFT (some lb) .null .null none none)
          (.hdr m 0 (some rb) .null .null none none) c1 c2)) := by
  refine ⟨?_, rfl, fun m f b c1 c2 newmask => ⟨_, _, split_bucket_eq P m f b .null .null c1 c2 newmask⟩⟩
  have hsub := (reachable_inv hP h).inv.deref p t.buckets hne
  cases hd : deref t.buckets p with
  | null => exact absurd hd hne
  | hdr m f b l r l1 r1 =>
    rw [hd] at hsub
    cases b with
    | some b =>
      obtain ⟨hl, hr, _⟩ := TrieInv_leaf.1 hsub
      exact Or.inl ⟨rfl, hl, hr⟩
    | none =>
      obtain ⟨hl, hr, _⟩ := TrieInv_node.1 hsub
      exact Or.inr ⟨rfl, hl.ne_null, hr.ne_null⟩

theorem C5_witness :
    testParams.ok ∧ Reachable testParams s1_table ∧ deref s1_table.buckets [false] ≠ .null ∧
    ((((deref s1_table.buckets [false]).bucket.isSome = true ∧
        (deref s1_table.buckets [false]).left = .null ∧
        (deref s1_table.buckets [false]).right = .null) ∨
      ((deref s1_table.buckets [false]).bucket = none ∧
        (deref s1_table.buckets [false]).left ≠ .null ∧
        (deref s1_table.buckets [false]).right ≠ .null)) ∧
    (ks_dhtrt_initroute testParams).buckets =
      .hdr (List.replicate testParams.idlen 0xff) BHF_LEFT
        (some (ks_dhtrt_create_bucket testParams)) .null .null none none ∧
    (∀ (m : List Nat) (f : Nat) (b : ks_dhtrt_bucket_t) (c1 c2 : Option HPtr) (newmask : List Nat),
      ∃ lb rb, ks_dhtrt_split_bucket testParams (.hdr m f (some b) .null .null c1 c2)
          (.hdr newmask BHF_LEFT (some (ks_dhtrt_create_bucket testParams)) .null .null none none)
          (ks_dhtrt_create_bucketheader m) =
        some (.hdr m f none (.hdr newmask BHF_LEFT (some lb) .null .null none none)
          (.hdr m 0 (some rb) .null .null none none) c1 c2))) :=
  ⟨by decide, reachable_table_after s1_calls (by decide!), by decide!,
    C5_leaf_or_internal testParams (by decide) s1_table
      (reachable_table_after s1_calls (by decide!)) [false] (by decide!)⟩

/-- C7: in every table reachable by the public operations, when `ks_dhtrt_create_node`
returns success with the node `n`, a `ks_dhtrt_find_node` for the same id right
after it returns `n`, also when the insertion split buckets. -/
theorem C7_find_after_create (P : Params) (hP : P.ok) (t : Table) (h : Reachable P t)
    (x : List Nat) (hx : wf_id P x) (now : Nat) (addr_ok : Bool) (type : Nat) (ip : List Char)
    (port : Nat) (n : Nat) (t1 : Table)
    (hc : ks_dhtrt_create_node P now addr_ok t x type ip port = some (KS_STATUS_SUCCESS, some n, t1)) :
    ∃ t2, ks_dhtrt_find_node P t1 x = some (some n, t2) := by
  obtain ⟨hinv1, hslot⟩ := create_node_spec hP (reachable_inv hP h) hx.1 hc
  obtain ⟨n1, hn1, ⟨r, hr⟩, q, i, e, hs, hi, hid, hg⟩ := hslot rfl
  simp only [Option.some.injEq] at hn1
  subst hn1
  obtain ⟨n2, hn2, hfind⟩ := find_node_of_slot hinv1 hx.1 hs hi hid
  rw [hg] at hn2
  simp only [Option.some.injEq] at hn2
  subst hn2
  rw [hfind]
  unfold ks_rwl_read_lock
  rw [hr]
  exact ⟨_, rfl⟩

theorem C7_witness :
    stdParams.ok ∧ Reachable stdParams full_root_table ∧ wf_id stdParams (id20 1 0) ∧
    full_root_table.buckets.bucket.isSome = true ∧ split_root_table.buckets.bucket = none ∧
    ks_dhtrt_create_node stdParams 0 true full_root_table (id20 1 0) 1 ['1', '.', '1'] 20 =
      some (KS_STATUS_SUCCESS, some 20, split_root_table) ∧
    ∃ t2, ks_dhtrt_find_node stdParams split_root_table (id20 1 0) = some (some 20, t2) :=
  ⟨by decide, reachable_table_after _ (by decide!), by decide, by decide!, by decide!, by decide!,
    C7_find_after_create stdParams (by decide) full_root_table
      (reachable_table_after _ (by decide!)) (id20 1 0) (by decide) 0 true 1 ['1', '.', '1'] 20 20
      split_root_table (by decide!)⟩

/-! ## Replacing a bucket -/

theorem setAt_set_bucket_shape (b1 : ks_dhtrt_bucket_t) (q : HPtr) (root : Header) :
    (setAt (set_bucket b1 (deref root q)) root q).mask = root.mask ∧
    (setAt (set_bucket b1 (deref root q)) root q).isNull = root.isNull := by
  cases q with
  | nil => cases root <;> simp [set_bucket, ks_dhtrt_bucket_header_t.mask, ks_dhtrt_bucket_header_t.isNull]
  | cons d q =>
    cases root with
    | null => simp [setAt, ks_dhtrt_bucket_header_t.mask, ks_dhtrt_bucket_header_t.isNull]
    | hdr m f b l r l1 r1 =>
      cases d <;> simp [setAt, ks_dhtrt_bucket_header_t.mask, ks_dhtrt_bucket_header_t.isNull]

/-- The descent does not depend on the content of the buckets. -/
theorem find_setAt_set_bucket (P : Params) (x : List Nat) (b1 : ks_dhtrt_bucket_t) :
    ∀ (q : HPtr) (root : Header), (deref root q).bucket.isSome = true →
      ks_dhtrt_find_relatedbucketheader P (setAt (set_bucket b1 (deref root q)) root q) x =
        ks_dhtrt_find_relatedbucketheader P root x := by
  intro q
  induction q with
  | nil =>
    intro root hb
    cases root with
    | null => simp [ks_dhtrt_bucket_header_t.bucket] at hb
    | hdr m f b l r l1 r1 =>
      simp only [deref_nil, ks_dhtrt_bucket_header_t.bucket] at hb
      simp [set_bucket, ks_dhtrt_find_relatedbucketheader, hb]
  | cons d q ih =>
    intro root hb
    cases root with
    | null => simp [deref, ks_dhtrt_bucket_header_t.bucket] at hb
    | hdr m f b l r l1 r1 =>
      cases d
      · have h1 := ih l (by simpa [deref] using hb)
        have h2 := setAt_set_bucket_shape b1 q l
        simp only [deref, setAt, Bool.false_eq_true, if_false, ks_dhtrt_find_relatedbucketheader,
          h1, h2.1, h2.2]
      · have h1 := ih r (by simpa [deref] using hb)
        simp only [deref, setAt, if_true, ks_dhtrt_find_relatedbucketheader, h1]

/-- The function `ks_dhtrt_delete_node` on an allocated node record `n` that is present in
the table (a slot in use holds the id of the record and points to it), when no read
lock is held on the bucket of that slot: the call returns success; the table after
it is the old one with that slot cleared (`inuse`, `gptr`, `flags`), the count
of that bucket one less, every other slot and the trie as before, and `n`
put on the queue of deleted nodes; a `ks_dhtrt_find_node` for the id then returns
NULL. -/
theorem delete_node_returns (P : Params) (hP : P.ok) (t : Table) (h : Reachable P t) (n : Nat)
    (r : ks_dht_node_t) (hn : node_at t n = some r) (q : HPtr) (i : Nat)
    (e : ks_dhtrt_bucket_entry_t) (hs : SlotAt t.buckets q i e) (hi : e.inuse = 1)
    (hid : e.id = r.nodeid) (_hg : e.gptr = some n)
    (hlock : (bucket_of P t.buckets q).lock = 0) :
    ∃ b l1 l2 t1, (deref t.buckets q).bucket = some b ∧ b.entries = l1 ++ e :: l2 ∧ l1.length = i ∧
      0 < b.count ∧
      t1 = { t with
        buckets := setAt (set_bucket
          { b with entries := l1 ++ { e with inuse := 0, gptr := none, flags := 0 } :: l2,
                   count := b.count - 1 } (deref t.buckets q)) t.buckets q
        free_node_ex := t.free_node_ex - 1
        deleted_node := n :: t.deleted_node
        deleted_count := (t.deleted_count + 1) % 2 ^ 32 } ∧
      ks_dhtrt_delete_node P t n = some (KS_STATUS_SUCCESS, t1) ∧
      ks_dhtrt_find_node P t1 r.nodeid = some (none, t1) := by
  have hinv := reachable_inv hP h
  have hf := SlotAt.find t.buckets q i e hinv.inv hs hi
  rw [hid] at hf
  obtain ⟨b, hb, he⟩ := hs
  obtain ⟨hbi, _⟩ := hinv.bucket q hb
  have hx : r.nodeid.length = P.idlen := by rw [← hid]; exact (hbi.wf e (List.get?_mem he) hi).1
  have hne : deref t.buckets q ≠ .null := bucket_isSome_ne_null (by rw [hb]; rfl)
  rcases delete_id_spec hP hbi r.nodeid with ⟨_, hnone⟩ | ⟨l1, e1, l2, h1, h2, h3, h4, h5, h6, h7, h8⟩
  · exact absurd ⟨hi, (memcmp_eq_zero_iff P.idlen r.nodeid e.id hx (by rw [hid]; exact hx)).2 hid.symm⟩
      (hnone e (List.get?_mem he))
  · have hj : b.entries.get? l1.length = some e1 := by rw [h1]; exact get?_append_length _ _ _
    have hid1 : e1.id = r.nodeid :=
      ((memcmp_eq_zero_iff P.idlen r.nodeid e1.id hx (hbi.wf e1 (List.get?_mem hj) h2).1).1 h3).symm
    have hij := nodup_index_unique b.entries l1.length i e1 e hbi.nodup hj he h2 hi (by rw [hid1, hid])
    have hee : e1 = e := by
      rw [hij, he] at hj
      simp only [Option.some.injEq] at hj
      exact hj.symm
    subst hee
    refine ⟨b, l1, l2, _, hb, h1, hij, h4, rfl, ?_, ?_⟩
    · have hl0 : b.lock = 0 := by
        unfold bucket_of at hlock
        rw [hb] at hlock
        exact hlock
      rw [delete_node_free hn ((write_blocked_false (x := r.nodeid) hf hb).2 hl0)]
      unfold delete_node_locked ks_dhtrt_find_bucketheader
      rw [hn]
      simp only
      rw [hf]
      simp only
      rw [hb]
      simp only
      rw [h5]
      rfl
    · have hinv1 : RootInv P (setAt (set_bucket
          { b with entries := l1 ++ { e1 with inuse := 0, gptr := none, flags := 0 } :: l2,
                   count := b.count - 1 } (deref t.buckets q)) t.buckets q) := by
        refine hinv.set_bucket q hb h6 (fun y hy => ?_)
        rw [h7] at hy
        rw [h8]
        simp only [List.mem_append, List.mem_cons] at hy ⊢
        tauto
      apply find_node_of_no_slot hinv1 hx
      intro q1 i1 e2 hs2 hi2 hid2
      have hf2 := SlotAt.find _ q1 i1 e2 hinv1.inv hs2 hi2
      rw [hid2, find_setAt_set_bucket P _ _ q t.buckets (by rw [hb]; rfl), hf] at hf2
      simp only [Option.some.injEq] at hf2
      subst hf2
      obtain ⟨b2, hb2, he2⟩ := hs2
      simp only at hb2
      rw [deref_setAt_self q _ _ hne, bucket_set_bucket hne] at hb2
      simp only [Option.some.injEq] at hb2
      subst hb2
      have hmem : r.nodeid ∈ inuse_ids_of l1 ++ inuse_ids_of l2 := by
        rw [← h7]
        exact mem_inuse_ids.2 ⟨e2, List.get?_mem he2, hi2, hid2⟩
      have hnd := hbi.nodup
      rw [h8, List.nodup_middle, List.nodup_cons, hid1] at hnd
      exact hnd.1 hmem

/-! ## Creation of a node that is not in the table -/

/-- A bucket with a free slot: the loop of `ks_dhtrt_insert_node` succeeds at once. -/
theorem insert_loop_room {P : Params} (hP : P.ok) (now nptr : Nat) (node : ks_dht_node_t)
    (hlen : node.nodeid.length = P.idlen) {m : List Nat} {f : Nat} {b : ks_dhtrt_bucket_t}
    {l r : Header} {l1 r1 : Option HPtr} (hb : BucketInv P b) (hx : node.nodeid ∉ inuse_ids b)
    (hroom : b.count < P.bucketsize) (fuel : Nat) :
    ∃ b1, insert_node_loop P now nptr node fuel (.hdr m f (some b) l r l1 r1) =
      some (KS_STATUS_SUCCESS, .hdr m f (some b1) l r l1 r1) := by
  rcases insert_id_spec hP now nptr node hb hx hlen with
    ⟨k1, e, k2, he, ⟨_, _, hins⟩ | ⟨_, _, hc, _⟩⟩ | ⟨_, hc, _⟩
  · refine ⟨⟨k1 ++ new_entry now nptr node e :: k2, b.count + 1, b.expired_count, b.lock⟩, ?_⟩
    cases fuel <;> simp only [insert_node_loop] <;> rw [if_neg (by omega), hins]
  · omega
  · omega

/-- C8 (code defect): `ks_dhtrt_delete_node` does not return for a node that is present in
the table once a query has left a read lock on the bucket of its slot.  With ids of
2 bytes and buckets of 2: in scenario S1 with its three nodes touched, the query for
the 4 nodes closest to 0x0300 returns and leaves one read lock on the bucket of the
leaf `[false, false]` (`ks_dhtrt_load_query` leaves its loop at the `break` before it
has released the locks of all its lists).  The node record 0 with the id 0x0100 is
allocated and held by slot 0 of that bucket, and `ks_dhtrt_delete_node` for it waits
for the write lock of the bucket and never returns; before the query the same call
returns success. -/
theorem C8_delete_waits_for_leaked_lock :
    Reachable testParams s1_touched_table ∧ Reachable testParams leak_table ∧
    (bucket_of testParams s1_touched_table.buckets [false, false]).lock = 0 ∧
    (ks_dhtrt_findclosest_nodes testParams s1_touched_table
        (query_all testParams [0x03, 0x00] 4)).map (fun r => (r.1, r.2.2)) =
      some (4, leak_table) ∧
    (bucket_of testParams leak_table.buckets [false, false]).lock = 1 ∧
    (node_at leak_table 0).map (fun r => r.nodeid) = some [0x01, 0x00] ∧
    ks_dhtrt_find_bucketheader testParams leak_table.buckets [0x01, 0x00] = some [false, false] ∧
    ((slot_of testParams leak_table.buckets [false, false] 0).inuse = 1 ∧
      (slot_of testParams leak_table.buckets [false, false] 0).id = [0x01, 0x00] ∧
      (slot_of testParams leak_table.buckets [false, false] 0).gptr = some 0) ∧
    ks_dhtrt_delete_node testParams leak_table 0 = none ∧
    (ks_dhtrt_delete_node testParams s1_touched_table 0).map (fun r => r.1) =
      some KS_STATUS_SUCCESS :=
  ⟨reachable_table_after s1_touched_calls (by decide!), reachable_table_after leak_calls (by decide!),
    by decide!, by decide!, by decide!, by decide!, by decide!,
    ⟨by decide!, by decide!, by decide!⟩, by decide!, by decide!⟩

/-- C9: in every table reachable by the public operations, when the full bucket `b` of a
header is split by `ks_dhtrt_split_bucket` with the mask `newmask` for the new left
header (as `ks_dhtrt_insert_node` calls it), the header becomes internal with two
leaves whose buckets `lb` and `rb` satisfy: an id is in use in `lb` or in `rb`
exactly when it was in use in `b`; no id is in use in both; the ids in use in
`lb` are exactly those of `b` that `ks_dhtrt_ismasked` accepts against `newmask`; the
two counts add up to the count of `b`, and each is the number of slots in use. -/
theorem C9_split_preserves_membership (P : Params) (hP : P.ok) (t : Table) (h : Reachable P t)
    (p : HPtr) (b : ks_dhtrt_bucket_t) (hb : (deref t.buckets p).bucket = some b)
    (hfull : b.count = P.bucketsize) (newmask : List Nat) :
    ∃ lb rb,
      ks_dhtrt_split_bucket P (deref t.buckets p)
          (.hdr newmask BHF_LEFT (some (ks_dhtrt_create_bucket P)) .null .null none none)
          (ks_dhtrt_create_bucketheader (deref t.buckets p).mask) =
        some (.hdr (deref t.buckets p).mask (deref t.buckets p).flags none
          (.hdr newmask BHF_LEFT (some lb) .null .null none none)
          (.hdr (deref t.buckets p).mask 0 (some rb) .null .null none none)
          (deref t.buckets p).left1bit (deref t.buckets p).right1bit) ∧
      (∀ y, (y ∈ inuse_ids lb ∨ y ∈ inuse_ids rb) ↔ y ∈ inuse_ids b) ∧
      (∀ y, ¬ (y ∈ inuse_ids lb ∧ y ∈ inuse_ids rb)) ∧
      (∀ y, y ∈ inuse_ids lb ↔ (y ∈ inuse_ids b ∧ ks_dhtrt_ismasked P y newmask = true)) ∧
      lb.count + rb.count = b.count ∧
      lb.count = (inuse_ids lb).length ∧ rb.count = (inuse_ids rb).length := by
  have hinv := reachable_inv hP h
  obtain ⟨hbi, _⟩ := hinv.bucket p hb
  have hmem := mem_split_ids hP newmask hbi hfull
  have hL := (split_left_inv hP newmask hbi hfull).1
  have hR := (split_right_inv hP newmask hbi hfull).1
  refine ⟨split_left P newmask b, split_right P newmask b, ?_, ?_, ?_, ?_, ?_, ?_, ?_⟩
  · cases hd : deref t.buckets p with
    | null => rw [hd] at hb; simp [ks_dhtrt_bucket_header_t.bucket] at hb
    | hdr m f b0 l r l1 r1 =>
      rw [hd] at hb
      simp only [ks_dhtrt_bucket_header_t.bucket] at hb
      subst hb
      exact split_bucket_eq P m f _ l r l1 r1 newmask
  · intro y
    rw [(hmem y).1, (hmem y).2]
    cases ks_dhtrt_ismasked P y newmask <;> simp
  · intro y ⟨h1, h2⟩
    rw [(hmem y).1] at h1
    rw [(hmem y).2] at h2
    rw [h1.2] at h2
    exact absurd h2.2 (by simp)
  · exact fun y => (hmem y).1
  · have hle := List.length_filter_le
      (fun e : ks_dhtrt_bucket_entry_t => ks_dhtrt_ismasked P e.id newmask) b.entries
    rw [hbi.len] at hle
    unfold split_left split_right
    rw [split_full hP newmask hbi hfull]
    simp only
    omega
  · rw [hL.count]; simp [inuse_ids]
  · rw [hR.count]; simp [inuse_ids]

theorem C9_witness :
    stdParams.ok ∧ Reachable stdParams mixed_root_table ∧
    (deref mixed_root_table.buckets []).bucket = some mixed_root_bucket ∧
    mixed_root_bucket.count = stdParams.bucketsize ∧
    half_mask = ks_dhtrt_shiftright stdParams (deref mixed_root_table.buckets []).mask ∧
    inuse_ids mixed_root_bucket = (List.range 20).map (fun i => id20 (0x76 + i) 0) ∧
    (ks_dhtrt_split_bucket stdParams (deref mixed_root_table.buckets [])
        (.hdr half_mask BHF_LEFT (some (ks_dhtrt_create_bucket stdParams)) .null .null none none)
        (ks_dhtrt_create_bucketheader (deref mixed_root_table.buckets []).mask)).map child_ids =
      some ((List.range 10).map (fun i => id20 (0x76 + i) 0),
        (List.range 10).map (fun i => id20 (0x80 + i) 0)) ∧
    ∃ lb rb,
      ks_dhtrt_split_bucket stdParams (deref mixed_root_table.buckets [])
          (.hdr half_mask BHF_LEFT (some (ks_dhtrt_create_bucket stdParams)) .null .null
            none none)
          (ks_dhtrt_create_bucketheader (deref mixed_root_table.buckets []).mask) =
        some (.hdr (deref mixed_root_table.buckets []).mask (deref mixed_root_table.buckets []).flags
          none
          (.hdr half_mask BHF_LEFT (some lb) .null .null none none)
          (.hdr (deref mixed_root_table.buckets []).mask 0 (some rb) .null .null none none)
          (deref mixed_root_table.buckets []).left1bit
          (deref mixed_root_table.buckets []).right1bit) ∧
      (∀ y, (y ∈ inuse_ids lb ∨ y ∈ inuse_ids rb) ↔ y ∈ inuse_ids mixed_root_bucket) ∧
      (∀ y, ¬ (y ∈ inuse_ids lb ∧ y ∈ inuse_ids rb)) ∧
      (∀ y, y ∈ inuse_ids lb ↔
        (y ∈ inuse_ids mixed_root_bucket ∧ ks_dhtrt_ismasked stdParams y half_mask = true)) ∧
      lb.count + rb.count = mixed_root_bucket.count ∧
      lb.count = (inuse_ids lb).length ∧ rb.count = (inuse_ids rb).length :=
  ⟨by decide, reachable_table_after _ (by decide!), by decide!, by decide!, by decide!, by decide!,
    by decide!,
    C9_split_preserves_membership stdParams (by decide) mixed_root_table
      (reachable_table_after _ (by decide!)) [] mixed_root_bucket (by decide!) (by decide!)
      half_mask⟩

/-! ## Right children -/

theorem ismasked_loop_zero : ∀ (n : Nat) (id mask : List Nat), (∀ x ∈ id, x = 0) →
    ismasked_loop n id mask = true := by
  intro n
  induction n with
  | zero => intro id mask _; rfl
  | succ n ih =>
    intro id mask h
    have h0 : id.headD 0 = 0 := by
      cases id with
      | nil => rfl
      | cons a as => exact h a (by simp)
    have ht : ∀ x ∈ id.tail, x = 0 := fun x hx => h x (List.mem_of_mem_tail hx)
    simp only [ismasked_loop, h0, ne_eq, not_true_eq_false, and_false, if_false, Nat.not_lt_zero,
      ih id.tail mask.tail ht]
    split <;> rfl

theorem ismasked_zero (P : Params) (mask : List Nat) :
    ks_dhtrt_ismasked P (List.replicate P.idlen 0) mask = true :=
  ismasked_loop_zero _ _ _ (fun _ hx => List.eq_of_mem_replicate hx)

/-- The descent for the all-zero id takes left children only, and every header that
has been split lies on it. -/
theorem zero_descent (P : Params) : ∀ (root : Header), TrieInv P root →
    ∃ n, ks_dhtrt_find_relatedbucketheader P root (List.replicate P.idlen 0) =
        some (List.replicate n false) ∧
      ∀ p : HPtr, is_split (deref root p) → p = List.replicate p.length false ∧ p.length < n := by
  intro root
  induction root with
  | null => intro h; exact absurd h id
  | hdr m f b l r l1 r1 ihl ihr =>
    intro h
    cases b with
    | some b =>
      obtain ⟨hl, hr, _⟩ := TrieInv_leaf.1 h
      subst hl hr
      refine ⟨0, by simp [ks_dhtrt_find_relatedbucketheader], ?_⟩
      intro p hp
      cases p with
      | nil => simp [is_split, ks_dhtrt_bucket_header_t.bucket] at hp
      | cons d p => cases d <;> simp [is_split, deref, deref_null] at hp
    | none =>
      obtain ⟨hl, hr, _, _, _, _, hrb, _⟩ := TrieInv_node.1 h
      obtain ⟨nl, hfl, hsl⟩ := ihl hl
      obtain ⟨nr, hfr, hsr⟩ := ihr hr
      refine ⟨nl + 1, ?_, ?_⟩
      · simp [ks_dhtrt_find_relatedbucketheader, hl.isNull, ismasked_zero, hfl, List.replicate_succ]
      · intro p hp
        cases p with
        | nil => exact ⟨rfl, Nat.succ_pos _⟩
        | cons d p =>
          cases d
          · have := hsl p (by simpa [deref] using hp)
            refine ⟨?_, by simpa using this.2⟩
            simp only [List.length_cons, List.replicate_succ]
            rw [← this.1]
          · have h0 : nr = 0 := by
              cases r with
              | null => exact absurd hr id
              | hdr m2 f2 b2 l2 r2 c1 c2 =>
                cases b2 with
                | none => simp [ks_dhtrt_bucket_header_t.bucket] at hrb
                | some b2 =>
                  simp only [ks_dhtrt_find_relatedbucketheader, Option.isSome_some, if_true,
                    Option.some.injEq] at hfr
                  cases nr with
                  | zero => rfl
                  | succ k => simp [List.replicate_succ] at hfr
            have := (hsr p (by simpa [deref] using hp)).2
            omega

theorem replicate_false_prefix {k n : Nat} (h : k ≤ n) :
    List.replicate k false <+: List.replicate n false := by
  refine ⟨List.replicate (n - k) false, ?_⟩
  rw [List.append_replicate_replicate]
  congr 1
  omega

/-- C11 (as stated, refuted): the splits do not follow the local id.  With ids of 2 bytes
and buckets of 2, take `L = 0x4000`: the ids 0x0100, 0x0200, 0x0300 share the top
bit of `L`, the descent for `L` ends in the leaf `[false, true]`, and the
insertions split the header `[false, false]`, which is not on the side of `L`.
Take `L = 0x8000`: after 0x8100 and 0x8200 the call for 0x8300, which shares the
top bit of `L`, splits the root once and fails; the leaf `[true]` that contains
`L` is a right child, holds both nodes and is never split. -/
theorem C11_splits_ignore_local_id :
    (Reachable testParams low_table ∧
      ks_dhtrt_find_bucketheader testParams low_table.buckets [0x40, 0x00] = some [false, true] ∧
      is_split (deref low_table.buckets [false, false]) ∧
      ¬ splits_toward testParams low_table.buckets [0x40, 0x00]) ∧
    (Reachable testParams high_table ∧
      (ks_dhtrt_create_node testParams 0 true high_table [0x83, 0x00] 1 ['1', '.', '1'] 3).map
        (fun r => (r.1, r.2.2)) = some (KS_STATUS_FAIL, high_table3) ∧
      ks_dhtrt_find_bucketheader testParams high_table3.buckets [0x80, 0x00] = some [true] ∧
      (deref high_table3.buckets [true]).flags = 0 ∧
      ((deref high_table3.buckets [true]).bucket.map (fun b => b.count)) = some 2) := by
  have hsplit : is_split (deref low_table.buckets [false, false]) := ⟨by decide!, by decide!⟩
  have hfind : ks_dhtrt_find_bucketheader testParams low_table.buckets [0x40, 0x00] =
      some [false, true] := by decide!
  refine ⟨⟨reachable_table_after low_calls (by decide!), hfind, hsplit, ?_⟩,
    ⟨reachable_table_after high_calls (by decide!), by decide!, by decide!, by decide!, by decide!⟩⟩
  intro h
  obtain ⟨q, hq, hpre⟩ := h [false, false] hsplit
  rw [hfind] at hq
  simp only [Option.some.injEq] at hq
  subst hq
  revert hpre
  decide

/-- C11 (amended): the code takes no local id; in every table reachable by the public
operations the splits are toward the side of the all-zero id, which is the local id
of a fresh table: every header that has been split lies on the descent path of
00..00, which takes left children only, and no header off that path (no right
child) is ever split. -/
theorem C11_splits_toward_zero_id (P : Params) (hP : P.ok) (t : Table) (h : Reachable P t) :
    (ks_dhtrt_initroute P).localid = List.replicate P.idlen 0 ∧
    splits_toward P t.buckets (List.replicate P.idlen 0) ∧
    (∃ n, ks_dhtrt_find_bucketheader P t.buckets (List.replicate P.idlen 0) =
      some (List.replicate n false)) ∧
    (∀ p : HPtr, is_split (deref t.buckets p) → p = List.replicate p.length false) := by
  obtain ⟨n, hf, hs⟩ := zero_descent P t.buckets (reachable_inv hP h).inv
  refine ⟨rfl, ?_, ⟨n, hf⟩, fun p hp => (hs p hp).1⟩
  intro p hp
  obtain ⟨h1, h2⟩ := hs p hp
  refine ⟨_, hf, ?_⟩
  rw [h1]
  exact replicate_false_prefix (Nat.le_of_lt h2)

theorem C11_witness :
    testParams.ok ∧ Reachable testParams low_table ∧
    ((ks_dhtrt_initroute testParams).localid = List.replicate testParams.idlen 0 ∧
      splits_toward testParams low_table.buckets (List.replicate testParams.idlen 0) ∧
      (∃ n, ks_dhtrt_find_bucketheader testParams low_table.buckets
        (List.replicate testParams.idlen 0) = some (List.replicate n false)) ∧
      (∀ p : HPtr, is_split (deref low_table.buckets p) → p = List.replicate p.length false)) :=
  ⟨by decide, reachable_table_after low_calls (by decide!),
    C11_splits_toward_zero_id testParams (by decide) low_table
      (reachable_table_after low_calls (by decide!))⟩

/-- C12 (code defect): `ks_dhtrt_make_node` wipes a queued record and hands it out again
while its borrow count is positive.  With ids of 2 bytes: the node 0x0100 is
created (its creator holds one borrow) and deleted; the record is on the queue
with borrow count 1; the following `ks_dhtrt_create_node` for 0x0200 takes the
same record from the queue, zeroes it (`memset`) and returns it as the node
0x0200. -/
theorem C12_make_node_reuses_borrowed_record :
    Reachable testParams reuse_table ∧
    (node_at reuse_table 0).map (fun r => r.nodeid) = some [0x01, 0x00] ∧
    borrow_count reuse_table 0 = some 1 ∧
    reuse_table.deleted_node = [0] ∧
    (ks_dhtrt_make_node testParams reuse_table).map (fun r => (r.1, node_at r.2 r.1)) =
      some (0, some (zero_node testParams)) ∧
    (ks_dhtrt_create_node testParams 0 true reuse_table [0x02, 0x00] 1 ['2', '.', '2'] 2).map
      (fun r => (r.1, r.2.1, (node_at r.2.2 0).map (fun n => n.nodeid))) =
      some (KS_STATUS_SUCCESS, some 0, some [0x02, 0x00]) :=
  ⟨reachable_table_after reuse_calls (by decide!), by decide!, by decide!, by decide!, by decide!,
    by decide!⟩

/-- C13 (code defect): `ks_dhtrt_findclosest_nodes` takes no read lock on the nodes it
returns.  With ids of 2 bytes: the node 0x0100 is created and touched, its borrow
count is 1 (the creator's); the query for the node closest to 0x0000 returns it
and leaves the borrow count at 1; `ks_dhtrt_release_querynodes` on the result then
drops it to 0, below its value before the query. -/
theorem C13_closest_takes_no_borrow :
    Reachable testParams one_active_table ∧
    borrow_count one_active_table 0 = some 1 ∧
    (ks_dhtrt_findclosest_nodes testParams one_active_table (query_all testParams [0x00, 0x00] 1)).map
      (fun r => (r.1, r.2.1.nodes.take r.2.1.count, borrow_count r.2.2 0)) =
      some (1, [some 0], some 1) ∧
    ((ks_dhtrt_findclosest_nodes testParams one_active_table
        (query_all testParams [0x00, 0x00] 1)).bind
      (fun r => ks_dhtrt_release_querynodes r.2.2 r.2.1)).map (fun t => borrow_count t 0) =
      some (some 0) :=
  ⟨reachable_table_after one_active_calls (by decide!), by decide!, by decide!, by decide!⟩

/-- The descent and the scan of the bucket find the slot in use that holds `x`. -/
theorem lookup_slot {P : Params} {root : Header} (hinv : RootInv P root) {x : List Nat}
    (hx : x.length = P.idlen) {q : HPtr} {i : Nat} {e : ks_dhtrt_bucket_entry_t}
    (hs : SlotAt root q i e) (hi : e.inuse = 1) (hid : e.id = x) :
    ∃ b l1 l2, ks_dhtrt_find_bucketheader P root x = some q ∧ (deref root q).bucket = some b ∧
      b.entries = l1 ++ e :: l2 ∧ l1.length = i ∧
      ks_dhtrt_find_bucketentry P (deref root q) x = some i ∧
      b.entries.getD i (zero_entry P) = e ∧
      ∀ e1, b.entries.set i e1 = l1 ++ e1 :: l2 := by
  have hf := SlotAt.find root q i e hinv.inv hs hi
  rw [hid] at hf
  obtain ⟨b, hb, he⟩ := hs
  obtain ⟨hbi, _⟩ := hinv.bucket q hb
  obtain ⟨l1, l2, h1, h2⟩ := get?_split b.entries i e he
  refine ⟨b, l1, l2, hf, hb, h1, h2, ?_, ?_, ?_⟩
  · unfold ks_dhtrt_find_bucketentry
    rw [hb]
    exact (find_nodeid_of_slot hbi hx he hi hid).1
  · rw [h1, ← h2]; exact getD_append_length _ _ _ _
  · intro e1; rw [h1, ← h2]; exact set_append_length _ _ _ _

/-- The scan of the bucket finds nothing when no slot in use holds `x`. -/
theorem lookup_none {P : Params} {root : Header} (hinv : RootInv P root) {x : List Nat}
    (hx : x.length = P.idlen)
    (hno : ∀ q i e, SlotAt root q i e → e.inuse = 1 → e.id ≠ x) {p : HPtr}
    (_hf : ks_dhtrt_find_bucketheader P root x = some p) :
    ks_dhtrt_find_bucketentry P (deref root p) x = none := by
  unfold ks_dhtrt_find_bucketentry
  cases hb : (deref root p).bucket with
  | none => rfl
  | some b =>
    simp only
    obtain ⟨hbi, _⟩ := hinv.bucket p hb
    rw [find_entry_loop_none]
    intro a ha ⟨hai, ham⟩
    obtain ⟨j, hj⟩ := List.mem_iff_get?.1 ha
    exact hno p j a ⟨b, hb, hj⟩ hai
      ((memcmp_eq_zero_iff P.idlen x a.id hx (hbi.wf a ha hai).1).1 ham).symm

/-- The function `ks_dhtrt_touch_node` on an id that a slot in use holds. -/
theorem touch_spec {P : Params} {t : Table} (hinv : RootInv P t.buckets) (now : Nat)
    {x : List Nat} (hx : x.length = P.idlen) {q : HPtr} {i : Nat} {e : ks_dhtrt_bucket_entry_t}
    (hs : SlotAt t.buckets q i e) (hi : e.inuse = 1) (hid : e.id = x) :
    ∃ b l1 l2, (deref t.buckets q).bucket = some b ∧ b.entries = l1 ++ e :: l2 ∧ l1.length = i ∧
      touch_node_locked P now t x = (KS_STATUS_SUCCESS, { t with
        buckets := setAt (set_bucket
          { b with
            entries := l1 ++ { e with tyme := now, outstanding_pings := 0, touched := 1,
                                      flags := DHTPEER_ACTIVE } :: l2
            expired_count := if e.flags = DHTPEER_EXPIRED then (b.expired_count + 255) % 256
                             else b.expired_count }
          (deref t.buckets q)) t.buckets q }) := by
  obtain ⟨b, l1, l2, hf, hb, h1, h2, hfe, hget, hset⟩ := lookup_slot hinv hx hs hi hid
  refine ⟨b, l1, l2, hb, h1, h2, ?_⟩
  unfold touch_node_locked
  rw [hf]
  simp only
  rw [hb, hfe]
  simp only
  rw [hget, hset]

/-- The function `ks_dhtrt_touch_node` on an id that no slot in use holds. -/
theorem touch_absent {P : Params} {t : Table} (hinv : RootInv P t.buckets) (now : Nat)
    {x : List Nat} (hx : x.length = P.idlen)
    (hno : ∀ q i e, SlotAt t.buckets q i e → e.inuse = 1 → e.id ≠ x) :
    touch_node_locked P now t x = (KS_STATUS_FAIL, t) := by
  unfold touch_node_locked
  cases hf : ks_dhtrt_find_bucketheader P t.buckets x with
  | none => rfl
  | some p =>
    simp only
    rw [lookup_none hinv hx hno hf]
    cases (deref t.buckets p).bucket <;> rfl

/-- The function `ks_dhtrt_expire_node` on an id that a slot in use holds. -/
theorem expire_spec {P : Params} {t : Table} (hinv : RootInv P t.buckets)
    {x : List Nat} (hx : x.length = P.idlen) {q : HPtr} {i : Nat} {e : ks_dhtrt_bucket_entry_t}
    (hs : SlotAt t.buckets q i e) (hi : e.inuse = 1) (hid : e.id = x) :
    ∃ b l1 l2, (deref t.buckets q).bucket = some b ∧ b.entries = l1 ++ e :: l2 ∧ l1.length = i ∧
      expire_node_locked P t x = (KS_STATUS_SUCCESS, { t with
        buckets := setAt (set_bucket
          { b with entries := l1 ++ { e with flags := DHTPEER_EXPIRED } :: l2 }
          (deref t.buckets q)) t.buckets q }) := by
  obtain ⟨b, l1, l2, hf, hb, h1, h2, hfe, hget, hset⟩ := lookup_slot hinv hx hs hi hid
  refine ⟨b, l1, l2, hb, h1, h2, ?_⟩
  unfold expire_node_locked
  rw [hf]
  simp only
  rw [hb, hfe]
  simp only
  rw [hget, hset]

/-- The function `ks_dhtrt_expire_node` on an id that no slot in use holds. -/
theorem expire_absent {P : Params} {t : Table} (hinv : RootInv P t.buckets)
    {x : List Nat} (hx : x.length = P.idlen)
    (hno : ∀ q i e, SlotAt t.buckets q i e → e.inuse = 1 → e.id ≠ x) :
    expire_node_locked P t x = (KS_STATUS_FAIL, t) := by
  unfold expire_node_locked
  cases hf : ks_dhtrt_find_bucketheader P t.buckets x with
  | none => rfl
  | some p =>
    simp only
    rw [lookup_none hinv hx hno hf]
    cases (deref t.buckets p).bucket <;> rfl

/-- Storing the bucket a header already has changes nothing. -/
theorem setAt_set_bucket_self {root : Header} {q : HPtr} {b : ks_dhtrt_bucket_t}
    (hb : (deref root q).bucket = some b) : setAt (set_bucket b (deref root q)) root q = root := by
  have h1 : set_bucket b (deref root q) = deref root q := by
    cases hd : deref root q with
    | null => rfl
    | hdr m f b0 l r l1 r1 =>
      rw [hd] at hb
      simp only [ks_dhtrt_bucket_header_t.bucket] at hb
      subst hb
      rfl
  rw [h1, setAt_deref]

/-- The lock of the bucket of a slot that holds `x` decides whether a call for `x` waits. -/
theorem write_blocked_slot {P : Params} {root : Header} (hinv : RootInv P root) {x : List Nat}
    (hx : x.length = P.idlen) {q : HPtr} {i : Nat} {e : ks_dhtrt_bucket_entry_t}
    (hs : SlotAt root q i e) (hi : e.inuse = 1) (hid : e.id = x) :
    write_blocked P root x = decide ((bucket_of P root q).lock ≠ 0) := by
  obtain ⟨b, l1, l2, hf, hb, _⟩ := lookup_slot hinv hx hs hi hid
  unfold write_blocked bucket_of
  rw [hf]
  simp only
  rw [hb]
  rfl

/-- The function `ks_dhtrt_touch_node` when no read lock is held on the bucket of the leaf
the descent for `x` ends in: when a slot in use holds `x`, it returns success and the
table after it is the old one with `tyme = now`, `outstanding_pings = 0`, `touched = 1`
and `flags = DHTPEER_ACTIVE` in that slot, and with the `expired_count` of its bucket
decremented as a `uint8_t` (255 after 0) exactly when the flags of the slot were
`DHTPEER_EXPIRED`; every other slot, bucket and field is as before.  When no slot in
use holds `x` it returns fail and the table is unchanged. -/
theorem touch_node_returns (P : Params) (hP : P.ok) (t : Table) (h : Reachable P t) (now : Nat)
    (x : List Nat) (hx : wf_id P x) (hfree : write_blocked P t.buckets x = false) :
    (∀ q i e, SlotAt t.buckets q i e → e.inuse = 1 → e.id = x →
      ∃ b l1 l2, (deref t.buckets q).bucket = some b ∧ b.entries = l1 ++ e :: l2 ∧
        l1.length = i ∧
        ks_dhtrt_touch_node P now t x = some (KS_STATUS_SUCCESS, { t with
          buckets := setAt (set_bucket
            { b with
              entries := l1 ++ { e with tyme := now, outstanding_pings := 0, touched := 1,
                                        flags := DHTPEER_ACTIVE } :: l2
              expired_count := if e.flags = DHTPEER_EXPIRED then (b.expired_count + 255) % 256
                               else b.expired_count }
            (deref t.buckets q)) t.buckets q })) ∧
    ((∀ q i e, SlotAt t.buckets q i e → e.inuse = 1 → e.id ≠ x) →
      ks_dhtrt_touch_node P now t x = some (KS_STATUS_FAIL, t)) := by
  refine ⟨fun q i e hs hi hid => ?_, fun hno => ?_⟩
  · obtain ⟨b, l1, l2, hb, h1, h2, ht⟩ := touch_spec (reachable_inv hP h) now hx.1 hs hi hid
    exact ⟨b, l1, l2, hb, h1, h2, by rw [touch_node_free now hfree, ht]⟩
  · rw [touch_node_free now hfree, touch_absent (reachable_inv hP h) now hx.1 hno]

/-- C16 (code defect): `ks_dhtrt_touch_node` does not always return, and its decrement of
`expired_count` is not always by one.  With ids of 2 bytes and buckets of 2:
(1) in scenario S1 with its three nodes touched, the query for the 4 nodes closest to
0x0300 leaves one read lock on the bucket of the leaf `[false, false]`
(`ks_dhtrt_load_query` leaves its loop at the `break` before it has released the locks of
all its lists); the id 0x0100 is held by slot 0 of that bucket, and `ks_dhtrt_touch_node`
for it waits for the write lock and never returns; (2) after the node 0x0100 is
created and `ks_dhtrt_expire_node` is called for it, its slot has flags expired and the
`expired_count` of the bucket is 0, since `ks_dhtrt_expire_node` does not count; the call
`ks_dhtrt_touch_node` returns success and decrements the `uint8_t` counter from 0 to 255. -/
theorem C16_touch_waits_or_wraps :
    (Reachable testParams leak_table ∧
      (bucket_of testParams leak_table.buckets [false, false]).lock = 1 ∧
      ks_dhtrt_find_bucketheader testParams leak_table.buckets [0x01, 0x00] =
        some [false, false] ∧
      (slot_of testParams leak_table.buckets [false, false] 0).inuse = 1 ∧
      (slot_of testParams leak_table.buckets [false, false] 0).id = [0x01, 0x00] ∧
      ks_dhtrt_touch_node testParams 5 leak_table [0x01, 0x00] = none) ∧
    (Reachable testParams expire_only_table ∧
      (slot_of testParams expire_only_table.buckets [] 0).inuse = 1 ∧
      (slot_of testParams expire_only_table.buckets [] 0).id = [0x01, 0x00] ∧
      (slot_of testParams expire_only_table.buckets [] 0).flags = DHTPEER_EXPIRED ∧
      (bucket_of testParams expire_only_table.buckets []).lock = 0 ∧
      (bucket_of testParams expire_only_table.buckets []).expired_count = 0 ∧
      (ks_dhtrt_touch_node testParams 5 expire_only_table [0x01, 0x00]).map
        (fun r => (r.1, (slot_of testParams r.2.buckets [] 0).flags,
          (bucket_of testParams r.2.buckets []).expired_count)) =
        some (KS_STATUS_SUCCESS, DHTPEER_ACTIVE, 255)) :=
  ⟨⟨reachable_table_after leak_calls (by decide!), by decide!, by decide!, by decide!, by decide!,
      by decide!⟩,
    ⟨reachable_table_after expire_only_calls (by decide!), by decide!, by decide!, by decide!,
      by decide!, by decide!, by decide!⟩⟩

/-- After the body of `ks_dhtrt_touch_node` a second one at the same clock reading returns the
status and the table of the first one. -/
theorem touch_locked_idempotent {P : Params} {t : Table} (hinv : RootInv P t.buckets) (now : Nat)
    {x : List Nat} (hx : x.length = P.idlen) :
    touch_node_locked P now (touch_node_locked P now t x).2 x = touch_node_locked P now t x ∧
    write_blocked P (touch_node_locked P now t x).2.buckets x = write_blocked P t.buckets x := by
  by_cases hex : ∃ q i e, SlotAt t.buckets q i e ∧ e.inuse = 1 ∧ e.id = x
  · obtain ⟨q, i, e, hs, hi, hid⟩ := hex
    obtain ⟨b, l1, l2, hb, h1, h2, ht⟩ := touch_spec hinv now hx hs hi hid
    have hne : deref t.buckets q ≠ .null := bucket_isSome_ne_null (by rw [hb]; rfl)
    have hinv1 : RootInv P (touch_node_locked P now t x).2.buckets := touch_node_inv now t x hinv
    have hwb := write_blocked_slot hinv hx hs hi hid
    rw [ht] at hinv1 ⊢
    simp only at hinv1 ⊢
    have hs1 : SlotAt (setAt (set_bucket
          { b with
            entries := l1 ++ { e with tyme := now, outstanding_pings := 0, touched := 1,
                                      flags := DHTPEER_ACTIVE } :: l2
            expired_count := if e.flags = DHTPEER_EXPIRED then (b.expired_count + 255) % 256
                             else b.expired_count }
          (deref t.buckets q)) t.buckets q) q i
        { e with tyme := now, outstanding_pings := 0, touched := 1, flags := DHTPEER_ACTIVE } :=
      slot_set_bucket hne _ (by rw [← h2]; exact get?_append_length _ _ _)
    have hwb1 := write_blocked_slot hinv1 hx hs1 hi hid
    refine ⟨?_, ?_⟩
    · obtain ⟨b', k1, k2, hb', hk, hk2, ht'⟩ := touch_spec
        (t := { t with buckets := setAt (set_bucket
            { b with
              entries := l1 ++ { e with tyme := now, outstanding_pings := 0, touched := 1,
                                        flags := DHTPEER_ACTIVE } :: l2
              expired_count := if e.flags = DHTPEER_EXPIRED then (b.expired_count + 255) % 256
                               else b.expired_count }
            (deref t.buckets q)) t.buckets q })
        (e := { e with tyme := now, outstanding_pings := 0, touched := 1, flags := DHTPEER_ACTIVE })
        hinv1 now hx hs1 hi hid
      rw [ht']
      simp only [Prod.mk.injEq, true_and]
      rw [deref_setAt_self q _ _ hne, bucket_set_bucket hne] at hb'
      simp only [Option.some.injEq] at hb'
      subst hb'
      simp only at hk
      obtain ⟨hl1, hl2⟩ := List.append_inj hk (by rw [h2, hk2])
      simp only [List.cons.injEq, true_and] at hl2
      subst hl1 hl2
      have hfl : ¬ (DHTPEER_ACTIVE = DHTPEER_EXPIRED) := by decide
      simp only [hfl, if_false]
      congr 1
      exact setAt_set_bucket_self (by rw [deref_setAt_self q _ _ hne, bucket_set_bucket hne])
    · rw [hwb1, hwb]
      unfold bucket_of
      rw [deref_setAt_self q _ _ hne, bucket_set_bucket hne, hb]
      rfl
  · have hno : ∀ q i e, SlotAt t.buckets q i e → e.inuse = 1 → e.id ≠ x :=
      fun q i e hs hi hid => hex ⟨q, i, e, hs, hi, hid⟩
    rw [touch_absent hinv now hx hno]
    exact ⟨touch_absent hinv now hx hno, rfl⟩

/-- C17: in every table reachable by the public operations and for every id `x`, two
calls of `ks_dhtrt_touch_node` at the same clock reading do what one call does: the
second call returns the status and the table of the first one (the whole table:
every slot and every `expired_count`), and when the first call waits for the lock of
the bucket, so does the sequence of two.  When no read lock is held on the bucket
of the leaf the descent for `x` ends in, both calls return, with status success for
an id that a slot in use holds. -/
theorem C17_touch_idempotent (P : Params) (hP : P.ok) (t : Table) (h : Reachable P t) (now : Nat)
    (x : List Nat) (hx : wf_id P x) :
    ((ks_dhtrt_touch_node P now t x).bind (fun r => ks_dhtrt_touch_node P now r.2 x) =
      ks_dhtrt_touch_node P now t x) ∧
    run P [.touch now x, .touch now x] t = run P [.touch now x] t ∧
    (write_blocked P t.buckets x = false →
      ∃ s t1, ks_dhtrt_touch_node P now t x = some (s, t1) ∧
        ks_dhtrt_touch_node P now t1 x = some (s, t1) ∧
        ((∃ q i e, SlotAt t.buckets q i e ∧ e.inuse = 1 ∧ e.id = x) → s = KS_STATUS_SUCCESS)) := by
  have hinv := reachable_inv hP h
  obtain ⟨hid, hwb⟩ := touch_locked_idempotent hinv now hx.1 (t := t)
  have hfree : write_blocked P t.buckets x = false →
      ks_dhtrt_touch_node P now t x = some (touch_node_locked P now t x) ∧
      ks_dhtrt_touch_node P now (touch_node_locked P now t x).2 x =
        some (touch_node_locked P now t x) := by
    intro hw
    refine ⟨touch_node_free now hw, ?_⟩
    rw [touch_node_free now (hwb.trans hw), hid]
  have hbind : (ks_dhtrt_touch_node P now t x).bind (fun r => ks_dhtrt_touch_node P now r.2 x) =
      ks_dhtrt_touch_node P now t x := by
    cases hw : write_blocked P t.buckets x with
    | true => rw [touch_node_blocked now hw]; rfl
    | false =>
      obtain ⟨h1, h2⟩ := hfree hw
      rw [h1]
      exact h2
  refine ⟨hbind, ?_, ?_⟩
  · cases hw : write_blocked P t.buckets x with
    | true => simp only [run, exec, touch_node_blocked now hw, if_pos hx, Option.map_none']
    | false =>
      obtain ⟨h1, h2⟩ := hfree hw
      simp only [run, exec, h1, h2, if_pos hx, Option.map_some']
  · intro hw
    obtain ⟨h1, h2⟩ := hfree hw
    refine ⟨(touch_node_locked P now t x).1, (touch_node_locked P now t x).2, h1, h2, ?_⟩
    rintro ⟨q, i, e, hs, hi, hid⟩
    obtain ⟨b, l1, l2, _, _, _, ht⟩ := touch_spec hinv now hx.1 hs hi hid
    rw [ht]

theorem C17_witness :
    testParams.ok ∧ Reachable testParams s1_expired_table ∧ wf_id testParams [0x40, 0x00] ∧
    write_blocked testParams s1_expired_table.buckets [0x40, 0x00] = false ∧
    (∃ q i e, SlotAt s1_expired_table.buckets q i e ∧ e.inuse = 1 ∧ e.id = [0x40, 0x00]) ∧
    (((ks_dhtrt_touch_node testParams 7 s1_expired_table [0x40, 0x00]).bind
        (fun r => ks_dhtrt_touch_node testParams 7 r.2 [0x40, 0x00]) =
      ks_dhtrt_touch_node testParams 7 s1_expired_table [0x40, 0x00]) ∧
    run testParams [.touch 7 [0x40, 0x00], .touch 7 [0x40, 0x00]] s1_expired_table =
      run testParams [.touch 7 [0x40, 0x00]] s1_expired_table ∧
    (write_blocked testParams s1_expired_table.buckets [0x40, 0x00] = false →
      ∃ s t1, ks_dhtrt_touch_node testParams 7 s1_expired_table [0x40, 0x00] = some (s, t1) ∧
        ks_dhtrt_touch_node testParams 7 t1 [0x40, 0x00] = some (s, t1) ∧
        ((∃ q i e, SlotAt s1_expired_table.buckets q i e ∧ e.inuse = 1 ∧ e.id = [0x40, 0x00]) →
          s = KS_STATUS_SUCCESS))) ∧
    (ks_dhtrt_touch_node testParams 7 s1_expired_table [0x40, 0x00]).map (fun r => r.1) =
      some KS_STATUS_SUCCESS :=
  ⟨by decide, reachable_table_after _ (by decide!), by decide, by decide!,
    ⟨[false, true], 0, slot_of testParams s1_expired_table.buckets [false, true] 0,
      slotAt_of_eval (by decide!), by decide!, by decide!⟩,
    C17_touch_idempotent testParams (by decide) s1_expired_table
      (reachable_table_after _ (by decide!)) 7 [0x40, 0x00] (by decide), by decide!⟩

/-- The function `ks_dhtrt_expire_node` when no read lock is held on the bucket of the leaf
the descent for `x` ends in: when a slot in use holds `x`, it returns success and the
table after it is the old one with `flags = DHTPEER_EXPIRED` in that slot and nothing
else changed (`expired_count`, `tyme`, `outstanding_pings`, `touched` and every other
slot are as before); when no slot in use holds `x` it returns fail and the table is
unchanged. -/
theorem expire_node_returns (P : Params) (hP : P.ok) (t : Table) (h : Reachable P t)
    (x : List Nat) (hx : wf_id P x) (hfree : write_blocked P t.buckets x = false) :
    (∀ q i e, SlotAt t.buckets q i e → e.inuse = 1 → e.id = x →
      ∃ b l1 l2, (deref t.buckets q).bucket = some b ∧ b.entries = l1 ++ e :: l2 ∧
        l1.length = i ∧
        ks_dhtrt_expire_node P t x = some (KS_STATUS_SUCCESS, { t with
          buckets := setAt (set_bucket
            { entries := l1 ++ { e with flags := DHTPEER_EXPIRED } :: l2, count := b.count,
              expired_count := b.expired_count, lock := b.lock }
            (deref t.buckets q)) t.buckets q })) ∧
    ((∀ q i e, SlotAt t.buckets q i e → e.inuse = 1 → e.id ≠ x) →
      ks_dhtrt_expire_node P t x = some (KS_STATUS_FAIL, t)) := by
  refine ⟨fun q i e hs hi hid => ?_, fun hno => ?_⟩
  · obtain ⟨b, l1, l2, hb, h1, h2, ht⟩ := expire_spec (reachable_inv hP h) hx.1 hs hi hid
    exact ⟨b, l1, l2, hb, h1, h2, by rw [expire_node_free hfree, ht]⟩
  · rw [expire_node_free hfree, expire_absent (reachable_inv hP h) hx.1 hno]

/-- C18 (code defect): `ks_dhtrt_expire_node` does not return for an id that is present in
the table once a query has left a read lock on the bucket of its slot.  With ids of
2 bytes and buckets of 2: in scenario S1 with its three nodes touched, the query for
the 4 nodes closest to 0x0300 leaves one read lock on the bucket of the leaf
`[false, false]` (`ks_dhtrt_load_query` leaves its loop at the `break` before it has
released the locks of all its lists); the id 0x0200 is held by slot 1 of that bucket,
and `ks_dhtrt_expire_node` for it waits for the write lock and never returns; before
the query the same call returns success and sets the flags of the slot to expired. -/
theorem C18_expire_waits_for_leaked_lock :
    Reachable testParams s1_touched_table ∧ Reachable testParams leak_table ∧
    leak_table = table_after testParams
      (s1_touched_calls ++ [.closest (query_all testParams [0x03, 0x00] 4)]) ∧
    (bucket_of testParams leak_table.buckets [false, false]).lock = 1 ∧
    ks_dhtrt_find_bucketheader testParams leak_table.buckets [0x02, 0x00] = some [false, false] ∧
    ((slot_of testParams leak_table.buckets [false, false] 1).inuse = 1 ∧
      (slot_of testParams leak_table.buckets [false, false] 1).id = [0x02, 0x00]) ∧
    ks_dhtrt_expire_node testParams leak_table [0x02, 0x00] = none ∧
    (ks_dhtrt_expire_node testParams s1_touched_table [0x02, 0x00]).map
      (fun r => (r.1, (slot_of testParams r.2.buckets [false, false] 1).flags)) =
      some (KS_STATUS_SUCCESS, DHTPEER_EXPIRED) :=
  ⟨reachable_table_after s1_touched_calls (by decide!), reachable_table_after leak_calls (by decide!),
    rfl, by decide!, by decide!, ⟨by decide!, by decide!⟩, by decide!, by decide!⟩

/-- C20 (code defect): `ks_dhtrt_insert_id` does not reset `touched` (nor `outstanding_pings`)
of the slot it takes.  With ids of 2 bytes: the node 0x0100 is created, touched and
deleted, which leaves `touched = 1` in its freed slot; the fresh id 0x0200 is
then created with success and holds that slot with `flags = DHTPEER_DUBIOUS`,
`tyme = now`, `outstanding_pings = 0`, but with `touched = 1` although it was never
touched. -/
theorem C20_new_slot_keeps_touched :
    Reachable testParams touched_deleted_table ∧
    [0x02, 0x00] ∉ ids touched_deleted_table.buckets ∧
    (slot_of testParams touched_deleted_table.buckets [] 0).inuse = 0 ∧
    (slot_of testParams touched_deleted_table.buckets [] 0).touched = 1 ∧
    (ks_dhtrt_create_node testParams 9 true touched_deleted_table [0x02, 0x00] 1 ['1', '.', '1']
        1).map (fun r => (r.1, r.2.2)) = some (KS_STATUS_SUCCESS, reused_slot_table) ∧
    (slot_of testParams reused_slot_table.buckets [] 0).inuse = 1 ∧
    (slot_of testParams reused_slot_table.buckets [] 0).id = [0x02, 0x00] ∧
    (slot_of testParams reused_slot_table.buckets [] 0).flags = DHTPEER_DUBIOUS ∧
    (slot_of testParams reused_slot_table.buckets [] 0).tyme = 9 ∧
    (slot_of testParams reused_slot_table.buckets [] 0).outstanding_pings = 0 ∧
    (slot_of testParams reused_slot_table.buckets [] 0).touched = 1 :=
  ⟨reachable_table_after touched_deleted_calls (by decide!), by decide!, by decide!, by decide!,
    by decide!, by decide!, by decide!, by decide!, by decide!, by decide!, by decide!⟩

theorem deref_setAt_spine_right (h : Header) : ∀ (j k : Nat) (root : Header), j < k →
    deref (setAt h root (List.replicate k false)) (List.replicate j false ++ [true]) =
      deref root (List.replicate j false ++ [true]) := by
  intro j
  induction j with
  | zero =>
    intro k root hk
    obtain ⟨k', rfl⟩ : ∃ k', k = k' + 1 := ⟨k - 1, by omega⟩
    cases root with
    | null => simp [List.replicate_succ, setAt, deref]
    | hdr m f b l r l1 r1 => simp [List.replicate_succ, setAt, deref]
  | succ j ih =>
    intro k root hk
    obtain ⟨k', rfl⟩ : ∃ k', k = k' + 1 := ⟨k - 1, by omega⟩
    cases root with
    | null => simp [List.replicate_succ, setAt, deref]
    | hdr m f b l r l1 r1 =>
      simp only [List.replicate_succ, setAt, deref, List.cons_append, Bool.false_eq_true, if_false]
      exact ih k' l (by omega)

theorem setAt_children : ∀ (p : HPtr) (root : Header) (m : List Nat) (f : Nat)
    (b : Option ks_dhtrt_bucket_t) (l r : Header) (l1 r1 : Option HPtr) (l' r' : Header),
    deref root p = .hdr m f b l r l1 r1 →
    setAt r' (setAt l' root (p ++ [false])) (p ++ [true]) = setAt (.hdr m f b l' r' l1 r1) root p := by
  intro p
  induction p with
  | nil =>
    intro root m f b l r l1 r1 l' r' h
    simp only [deref_nil] at h
    subst h
    simp [setAt]
  | cons d p ih =>
    intro root m f b l r l1 r1 l' r' h
    cases root with
    | null => simp [deref] at h
    | hdr m0 f0 b0 l0 r0 c1 c2 =>
      cases d
      · simp only [deref, Bool.false_eq_true, if_false] at h
        simp only [List.cons_append, setAt, Bool.false_eq_true, if_false]
        exact congrArg (fun x => ks_dhtrt_bucket_header_t.hdr m0 f0 b0 x r0 c1 c2)
          (ih l0 m f b l r l1 r1 l' r' h)
      · simp only [deref, if_true] at h
        simp only [List.cons_append, setAt, if_true]
        exact congrArg (fun x => ks_dhtrt_bucket_header_t.hdr m0 f0 b0 l0 x c1 c2)
          (ih r0 m f b l r l1 r1 l' r' h)

/-- The two cases of `sweep_bucket`: a bucket with a read lock held is left as it is, on
any other the slot loop runs. -/
theorem sweep_bucket_cases {P : Params} {t0 : Nat} {nodes : List (Option ks_dht_node_t)}
    {b b1 : ks_dhtrt_bucket_t} {pc pc1 : Nat} {pings pings1 : List Nat}
    (h : sweep_bucket P t0 nodes b pc pings = some (b1, pc1, pings1)) :
    (b.lock ≠ 0 ∧ b1 = b ∧ pc1 = pc ∧ pings1 = pings) ∨
    (b.lock = 0 ∧ ∃ es ec,
      process_entries P t0 nodes b.entries b.expired_count pc pings = some (es, ec, pc1, pings1) ∧
      b1 = { b with entries := es, expired_count := ec }) := by
  unfold sweep_bucket at h
  by_cases hl : b.lock ≠ 0
  · rw [if_pos hl] at h
    simp only [Option.some.injEq, Prod.mk.injEq] at h
    exact Or.inl ⟨hl, h.1.symm, h.2.1.symm, h.2.2.symm⟩
  · rw [if_neg hl] at h
    split at h
    · simp at h
    · rename_i es ec pc2 pings2 hpe
      simp only [Option.some.injEq, Prod.mk.injEq] at h
      obtain ⟨rfl, rfl, rfl⟩ := h
      exact Or.inr ⟨by simpa using hl, es, ec, hpe, rfl⟩

theorem sweep_bucket_locked {P : Params} {t0 : Nat} {nodes : List (Option ks_dht_node_t)}
    {b : ks_dhtrt_bucket_t} (hl : b.lock ≠ 0) (pc : Nat) (pings : List Nat) :
    sweep_bucket P t0 nodes b pc pings = some (b, pc, pings) := by
  unfold sweep_bucket
  rw [if_pos hl]

theorem sweep_bucket_free {P : Params} {t0 : Nat} {nodes : List (Option ks_dht_node_t)}
    {b : ks_dhtrt_bucket_t} (hl : b.lock = 0) {pc pc1 ec : Nat} {pings pings1 : List Nat}
    {es : List ks_dhtrt_bucket_entry_t}
    (he : process_entries P t0 nodes b.entries b.expired_count pc pings = some (es, ec, pc1, pings1)) :
    sweep_bucket P t0 nodes b pc pings =
      some ({ b with entries := es, expired_count := ec }, pc1, pings1) := by
  unfold sweep_bucket
  rw [if_neg (by simpa using hl), he]

theorem set_bucket_same {h : Header} {b : ks_dhtrt_bucket_t} (hb : h.bucket = some b) :
    set_bucket b h = h := by
  cases h with
  | null => rfl
  | hdr m f b0 l r l1 r1 =>
    simp only [ks_dhtrt_bucket_header_t.bucket] at hb
    subst hb
    rfl

theorem process_bucket_leaf {P : Params} {t0 : Nat} {nodes : List (Option ks_dht_node_t)}
    {root : Header} {p : HPtr} {b b1 : ks_dhtrt_bucket_t} {pc pc1 : Nat} {pings pings1 : List Nat}
    (hb : (deref root p).bucket = some b)
    (he : sweep_bucket P t0 nodes b pc pings = some (b1, pc1, pings1)) :
    process_bucket P t0 nodes root p pc pings =
      some (setAt (set_bucket b1 (deref root p)) root p, pc1, pings1) := by
  unfold process_bucket
  rw [hb]
  simp only
  rcases sweep_bucket_cases he with ⟨hl, rfl, rfl, rfl⟩ | ⟨hl, es, ec, hpe, rfl⟩
  · rw [if_pos hl, set_bucket_same hb, setAt_deref]
  · rw [if_neg (by simpa using hl), hpe]

theorem process_bucket_internal {P : Params} {t0 : Nat} {nodes : List (Option ks_dht_node_t)}
    {root : Header} {p : HPtr} (pc : Nat) (pings : List Nat)
    (hb : (deref root p).bucket = none) :
    process_bucket P t0 nodes root p pc pings = some (root, pc, pings) := by
  unfold process_bucket
  rw [hb]

theorem spine_depth_leaf (m : List Nat) (f : Nat) (b : Option ks_dhtrt_bucket_t) (r : Header)
    (l1 r1 : Option HPtr) : spine_depth (.hdr m f b .null r l1 r1) = 0 := by
  simp [spine_depth, ks_dhtrt_bucket_header_t.isNull]

theorem spine_depth_node {P : Params} {l : Header} (hl : TrieInv P l) (m : List Nat) (f : Nat)
    (b : Option ks_dhtrt_bucket_t) (r : Header) (l1 r1 : Option HPtr) :
    spine_depth (.hdr m f b l r l1 r1) = spine_depth l + 1 := by
  simp [spine_depth, hl.isNull]

/-- One iteration of the walk on a leaf at `p`: its bucket is processed, or skipped when
a read lock is held on it, and the walk goes on with the right child of the header
two places down the stack. -/
theorem walk_leaf_step {P : Params} {t0 : Nat} {nodes : List (Option ks_dht_node_t)}
    {root : Header} {p : HPtr} {m : List Nat} {f : Nat} {b b1 : ks_dhtrt_bucket_t}
    {l1 r1 : Option HPtr} (stack : List HPtr) {k pc pc1 : Nat} {pings pings1 : List Nat}
    (fuel : Nat)
    (hd : deref root p = .hdr m f (some b) .null .null l1 r1)
    (hk : k < P.idlen * 8)
    (he : sweep_bucket P t0 nodes b pc pings = some (b1, pc1, pings1)) :
    process_walk P t0 nodes (fuel + 1)
        { root := root, header := some p, stack := stack, stackix := k, ping_count := pc,
          pings := pings } =
      process_walk P t0 nodes fuel
        { root := setAt (.hdr m f (some b1) .null .null l1 r1) root p,
          header := if 1 < k + 1 then
              child_ptr (setAt (.hdr m f (some b1) .null .null l1 r1) root p)
                ((stack.set k p).getD (k + 1 - 2) [] ++ [true])
            else none,
          stack := stack.set k p,
          stackix := if 1 < k + 1 then k + 1 - 2 else k + 1,
          ping_count := pc1, pings := pings1 } := by
  have hb : (deref root p).bucket = some b := by rw [hd]; rfl
  have hne : deref root p ≠ .null := by rw [hd]; simp
  have hpb := process_bucket_leaf hb he
  rw [hd] at hpb
  simp only [set_bucket] at hpb
  have hnext : child_ptr (setAt (.hdr m f (some b1) .null .null l1 r1) root p) (p ++ [false]) =
      none := by
    unfold child_ptr
    rw [deref_setAt p [false] root _ hne]
    simp [deref, ks_dhtrt_bucket_header_t.isNull]
  simp only [process_walk]
  rw [if_neg (by omega), hpb]
  simp only
  rw [hnext]
  by_cases h1 : 1 < k + 1
  · simp only [h1, and_self, if_true]
  · simp only [h1, and_false, if_false]

theorem getD_set_ne {α : Type} (l : List α) {i j : Nat} (a d : α) (h : i ≠ j) :
    (l.set i a).getD j d = l.getD j d := by
  simp [List.getD_eq_getElem?_getD, List.getElem?_set_ne h]

theorem getD_set_self {α : Type} (l : List α) {i : Nat} (a d : α) (h : i < l.length) :
    (l.set i a).getD i d = a := by
  simp [List.getD_eq_getElem?_getD, List.getElem?_set_self, h]

theorem child_ptr_some {root : Header} {p : HPtr} (h : deref root p ≠ .null) :
    child_ptr root p = some p := by
  unfold child_ptr
  cases hd : deref root p with
  | null => exact absurd hd h
  | hdr m f b l r l1 r1 => rfl

/-- The walk of `ks_dhtrt_process_table` from a header on the path of left children: it
processes the buckets below that header as `sweep_trie` does and goes on with the
right child of the parent. -/
theorem walk_spine {P : Params} {t0 : Nat} {nodes : List (Option ks_dht_node_t)} :
    ∀ (sub : Header), TrieInv P sub →
    ∀ (k : Nat) (root : Header) (stack : List HPtr) (pc : Nat) (pings : List Nat) (fuel : Nat)
      (sub' : Header) (pc' : Nat) (pings' : List Nat),
      deref root (List.replicate k false) = sub →
      stack.length = P.idlen * 8 →
      (∀ j, j < k → stack.getD j [] = List.replicate j false) →
      (∀ j, j < k → deref root (List.replicate j false ++ [true]) ≠ .null) →
      k + spine_depth sub < P.idlen * 8 →
      sweep_trie P t0 nodes sub pc pings = some (sub', pc', pings') →
      ∃ stack', stack'.length = P.idlen * 8 ∧
        (∀ j, j < k → stack'.getD j [] = List.replicate j false) ∧
        process_walk P t0 nodes (fuel + (2 * spine_depth sub + 1))
            { root := root, header := some (List.replicate k false), stack := stack, stackix := k,
              ping_count := pc, pings := pings } =
          process_walk P t0 nodes fuel
            { root := setAt sub' root (List.replicate k false),
              header := if k = 0 then none else some (List.replicate (k - 1) false ++ [true]),
              stack := stack', stackix := if k = 0 then 1 else k - 1,
              ping_count := pc', pings := pings' } := by
  intro sub
  induction sub with
  | null => intro h; exact absurd h id
  | hdr m f b l r l1 r1 ihl _ =>
    intro hinv k root stack pc pings fuel sub' pc' pings' hd hlen hst hsib hbound hsw
    cases b with
    | some b =>
      obtain ⟨hl, hr, _⟩ := TrieInv_leaf.1 hinv
      subst hl hr
      simp only [sweep_trie] at hsw
      cases he : sweep_bucket P t0 nodes b pc pings with
      | none => rw [he] at hsw; simp at hsw
      | some res =>
        obtain ⟨b1, pc1, pings1⟩ := res
        rw [he] at hsw
        simp only [Option.some.injEq, Prod.mk.injEq] at hsw
        obtain ⟨rfl, rfl, rfl⟩ := hsw
        rw [spine_depth_leaf] at hbound ⊢
        have hk : k < P.idlen * 8 := by omega
        refine ⟨stack.set k (List.replicate k false), by simpa using hlen,
          fun j hj => by rw [getD_set_ne _ _ _ (by omega)]; exact hst j hj, ?_⟩
        have hstep := walk_leaf_step stack fuel hd hk he
        rw [show fuel + (2 * 0 + 1) = fuel + 1 from rfl, hstep]
        by_cases hk0 : k = 0
        · subst hk0
          simp
        · have h1 : 1 < k + 1 := by omega
          have hget : (stack.set k (List.replicate k false)).getD (k + 1 - 2) [] =
              List.replicate (k - 1) false := by
            rw [getD_set_ne _ _ _ (by omega)]
            have := hst (k - 1) (by omega)
            rw [show k + 1 - 2 = k - 1 by omega]
            exact this
          have hcp : child_ptr (setAt (.hdr m f (some b1)
              .null .null l1 r1) root (List.replicate k false))
              (List.replicate (k - 1) false ++ [true]) =
              some (List.replicate (k - 1) false ++ [true]) := by
            apply child_ptr_some
            rw [deref_setAt_spine_right _ (k - 1) k root (by omega)]
            exact hsib (k - 1) (by omega)
          simp only [h1, if_true, hget, hcp, hk0, if_false]
          rw [show k + 1 - 2 = k - 1 by omega]
    | none =>
      obtain ⟨hl, hr, _, _, _, _, hrb, _⟩ := TrieInv_node.1 hinv
      simp only [sweep_trie] at hsw
      cases hsl : sweep_trie P t0 nodes l pc pings with
      | none => rw [hsl] at hsw; simp at hsw
      | some resl =>
        obtain ⟨l', pcl, pingsl⟩ := resl
        rw [hsl] at hsw
        simp only at hsw
        cases hsr : sweep_trie P t0 nodes r pcl pingsl with
        | none => rw [hsr] at hsw; simp at hsw
        | some resr =>
          obtain ⟨r', pcr, pingsr⟩ := resr
          rw [hsr] at hsw
          simp only [Option.some.injEq, Prod.mk.injEq] at hsw
          obtain ⟨rfl, rfl, rfl⟩ := hsw
          rw [spine_depth_node hl] at hbound ⊢
          have hk : k < P.idlen * 8 := by omega
          -- the first iteration: the header has no bucket, the walk goes to the left child
          have hb0 : (deref root (List.replicate k false)).bucket = none := by rw [hd]; rfl
          have hdl : deref root (List.replicate (k + 1) false) = l := by
            rw [List.replicate_succ', deref_append, hd]; simp [deref]
          have hdr : deref root (List.replicate k false ++ [true]) = r := by
            rw [deref_append, hd]; simp [deref]
          have hfirst : process_walk P t0 nodes (fuel + 1 + (2 * spine_depth l + 1) + 1)
              { root := root, header := some (List.replicate k false), stack := stack, stackix := k,
                ping_count := pc, pings := pings } =
              process_walk P t0 nodes (fuel + 1 + (2 * spine_depth l + 1))
                { root := root, header := some (List.replicate (k + 1) false),
                  stack := stack.set k (List.replicate k false), stackix := k + 1,
                  ping_count := pc, pings := pings } := by
            simp only [process_walk]
            rw [if_neg (by omega), process_bucket_internal pc pings hb0]
            simp only
            have hcp : child_ptr root (List.replicate k false ++ [false]) =
                some (List.replicate (k + 1) false) := by
              rw [← List.replicate_succ']
              exact child_ptr_some (by rw [hdl]; exact hl.ne_null)
            rw [hcp]
            simp
          obtain ⟨stack2, hlen2, hst2, hwalk2⟩ := ihl hl (k + 1) root
            (stack.set k (List.replicate k false)) pc pings (fuel + 1) l' pcl pingsl hdl
            (by simpa using hlen)
            (fun j hj => by
              by_cases hjk : j = k
              · subst hjk; exact getD_set_self _ _ _ (by omega)
              · rw [getD_set_ne _ _ _ (Ne.symm hjk)]; exact hst j (by omega))
            (fun j hj => by
              by_cases hjk : j = k
              · subst hjk; rw [hdr]; exact hr.ne_null
              · exact hsib j (by omega))
            (by omega) hsl
          simp only [Nat.add_one_ne_zero, if_false, Nat.add_sub_cancel] at hwalk2
          -- the last iteration: the right child, a leaf
          cases r with
          | null => exact absurd hr id
          | hdr m2 f2 b2 l2 r2 c1 c2 =>
            cases b2 with
            | none => simp [ks_dhtrt_bucket_header_t.bucket] at hrb
            | some b2 =>
              obtain ⟨hl2, hr2, _⟩ := TrieInv_leaf.1 hr
              subst hl2 hr2
              simp only [sweep_trie] at hsr
              cases he : sweep_bucket P t0 nodes b2 pcl pingsl with
              | none => rw [he] at hsr; simp at hsr
              | some res =>
                obtain ⟨b3, pc1, pings1⟩ := res
                rw [he] at hsr
                simp only [Option.some.injEq, Prod.mk.injEq] at hsr
                obtain ⟨rfl, rfl, rfl⟩ := hsr
                have hd2 : deref (setAt l' root (List.replicate (k + 1) false))
                    (List.replicate k false ++ [true]) =
                    .hdr m2 f2 (some b2) .null .null c1 c2 := by
                  rw [deref_setAt_spine_right _ k (k + 1) root (by omega), hdr]
                have hstep := walk_leaf_step stack2 fuel hd2 hk he
                have hroot : setAt (.hdr m2 f2 (some b3)
                    .null .null c1 c2) (setAt l' root (List.replicate (k + 1) false))
                    (List.replicate k false ++ [true]) =
                    setAt (.hdr m f none l'
                      (.hdr m2 f2 (some b3)
                        .null .null c1 c2) l1 r1) root (List.replicate k false) := by
                  rw [List.replicate_succ']
                  exact setAt_children _ root m f none l _ l1 r1 l' _ hd
                rw [hroot] at hstep
                refine ⟨stack2.set k (List.replicate k false ++ [true]), by simpa using hlen2,
                  fun j hj => by rw [getD_set_ne _ _ _ (by omega)]; exact hst2 j (by omega), ?_⟩
                rw [show fuel + (2 * (spine_depth l + 1) + 1) =
                  fuel + 1 + (2 * spine_depth l + 1) + 1 by omega, hfirst, hwalk2, hstep]
                by_cases hk0 : k = 0
                · subst hk0
                  simp
                · have h1 : 1 < k + 1 := by omega
                  have hget : (stack2.set k (List.replicate k false ++ [true])).getD (k + 1 - 2) [] =
                      List.replicate (k - 1) false := by
                    rw [getD_set_ne _ _ _ (by omega), show k + 1 - 2 = k - 1 by omega]
                    exact hst2 (k - 1) (by omega)
                  have hcp : child_ptr (setAt (.hdr m f none l'
                      (.hdr m2 f2 (some b3)
                        .null .null c1 c2) l1 r1) root (List.replicate k false))
                      (List.replicate (k - 1) false ++ [true]) =
                      some (List.replicate (k - 1) false ++ [true]) := by
                    apply child_ptr_some
                    rw [deref_setAt_spine_right _ (k - 1) k root (by omega)]
                    exact hsib (k - 1) (by omega)
                  simp only [h1, if_true, hget, hcp, hk0, if_false]
                  rw [show k + 1 - 2 = k - 1 by omega]

/-- The rows of the slot loop for a slot in use whose node is not local. -/
theorem process_entry_rows {P : Params} {t0 : Nat} {nodes : List (Option ks_dht_node_t)}
    {e : ks_dhtrt_bucket_entry_t} {g : Nat} {r : ks_dht_node_t} (ec : Nat) (hi : e.inuse = 1)
    (hg : e.gptr = some g) (hn : nodes.getD g none = some r) (hl : r.type ≠ P.dht_local) :
    process_entry P t0 nodes e ec = some (
      if e.flags = DHTPEER_DUBIOUS then (e, ec, 0, none)
      else if e.flags ≠ DHTPEER_EXPIRED ∧ KS_DHTRT_MAXPING ≤ e.outstanding_pings then
        ({ e with flags := DHTPEER_EXPIRED, outstanding_pings := 0 }, (ec + 1) % 256, 0, none)
      else if 0 < e.outstanding_pings then
        ({ e with outstanding_pings := (e.outstanding_pings + 1) % 256 }, ec, 1, some g)
      else if KS_DHTRT_EXPIREDTIME < t0 - e.tyme then
        ({ e with outstanding_pings := (e.outstanding_pings + 1) % 256, flags := DHTPEER_DUBIOUS },
          ec, 0, some g)
      else if KS_DHTRT_INACTIVETIME < t0 - e.tyme then
        ({ e with outstanding_pings := (e.outstanding_pings + 1) % 256 }, ec, 1, some g)
      else (e, ec, 0, none)) := by
  unfold process_entry
  rw [if_pos hi, hg]
  simp only
  rw [hn]
  simp only
  rw [if_pos hl]
  split
  · rfl
  · split
    · rfl
    · split
      · rfl
      · split
        · rfl
        · split <;> rfl

/-- A slot that is not in use, or whose node is local, is left as it is. -/
theorem process_entry_skip {P : Params} {t0 : Nat} {nodes : List (Option ks_dht_node_t)}
    {e : ks_dhtrt_bucket_entry_t} (ec : Nat)
    (h : e.inuse ≠ 1 ∨ ∃ g r, e.gptr = some g ∧ nodes.getD g none = some r ∧ r.type = P.dht_local) :
    process_entry P t0 nodes e ec = some (e, ec, 0, none) := by
  unfold process_entry
  rcases h with h | ⟨g, r, hg, hn, hl⟩
  · rw [if_neg h]
  · split
    · rw [hg]
      simp only
      rw [hn]
      simp only
      rw [if_neg (by simpa using hl)]
    · rfl

theorem process_entry_some (P : Params) (t0 : Nat) {nodes : List (Option ks_dht_node_t)}
    {queue : List Nat} {e : ks_dhtrt_bucket_entry_t} (h : slot_sound nodes queue e = true)
    (ec : Nat) : ∃ res, process_entry P t0 nodes e ec = some res := by
  by_cases hi : e.inuse = 1
  · simp only [slot_sound, hi, ne_eq, not_true_eq_false, decide_False, Bool.false_or] at h
    cases hg : e.gptr with
    | none => rw [hg] at h; simp at h
    | some g =>
      rw [hg] at h
      simp only [Bool.and_eq_true] at h
      obtain ⟨r, hr⟩ := Option.isSome_iff_exists.1 h.1
      by_cases hl : r.type = P.dht_local
      · exact ⟨_, process_entry_skip ec (Or.inr ⟨g, r, hg, hr, hl⟩)⟩
      · exact ⟨_, process_entry_rows ec hi hg hr hl⟩
  · exact ⟨_, process_entry_skip ec (Or.inl hi)⟩

theorem expires_eq {P : Params} {nodes : List (Option ks_dht_node_t)}
    {e : ks_dhtrt_bucket_entry_t} {g : Nat} {r : ks_dht_node_t} (hg : e.gptr = some g)
    (hn : nodes.getD g none = some r) :
    expires P nodes e = (decide (e.inuse = 1) && decide (r.type ≠ P.dht_local) &&
      decide (e.flags ≠ DHTPEER_DUBIOUS) && decide (e.flags ≠ DHTPEER_EXPIRED) &&
      decide (KS_DHTRT_MAXPING ≤ e.outstanding_pings)) := by
  unfold expires
  rw [hg]
  simp only
  rw [hn]

/-- What the slot loop returns for one slot: the count of expired slots goes up by one
exactly for a slot that `expires`, `ping_count` goes up by at most one. -/
theorem process_entry_count {P : Params} {t0 : Nat} {nodes : List (Option ks_dht_node_t)}
    {e e1 : ks_dhtrt_bucket_entry_t} {ec ec1 inc : Nat} {pg : Option Nat}
    (h : process_entry P t0 nodes e ec = some (e1, ec1, inc, pg)) :
    ec1 = (if expires P nodes e then (ec + 1) % 256 else ec) ∧ inc ≤ 1 ∧
    (∀ g, pg = some g → e.gptr = some g) := by
  by_cases hi : e.inuse = 1
  · cases hg : e.gptr with
    | none => unfold process_entry at h; rw [if_pos hi, hg] at h; simp at h
    | some g =>
      cases hn : nodes.getD g none with
      | none => unfold process_entry at h; rw [if_pos hi, hg] at h; simp only at h; rw [hn] at h; simp at h
      | some r =>
        by_cases hl : r.type = P.dht_local
        · rw [process_entry_skip ec (Or.inr ⟨g, r, hg, hn, hl⟩)] at h
          simp only [Option.some.injEq, Prod.mk.injEq] at h
          obtain ⟨_, rfl, rfl, rfl⟩ := h
          rw [expires_eq hg hn]
          simp [hl]
        · rw [process_entry_rows ec hi hg hn hl] at h
          simp only [Option.some.injEq] at h
          have hex : expires P nodes e = decide (e.flags ≠ DHTPEER_DUBIOUS ∧
              e.flags ≠ DHTPEER_EXPIRED ∧ KS_DHTRT_MAXPING ≤ e.outstanding_pings) := by
            rw [expires_eq hg hn]
            simp [hi, hl, Bool.and_assoc]
          rw [hex]
          split at h
          · rename_i h1
            simp only [Prod.mk.injEq] at h
            obtain ⟨_, rfl, rfl, rfl⟩ := h
            simp [h1]
          · rename_i h1
            split at h
            · rename_i h2
              simp only [Prod.mk.injEq] at h
              obtain ⟨_, rfl, rfl, rfl⟩ := h
              simp [h1, h2]
            · rename_i h2
              have hne : ¬ (e.flags ≠ DHTPEER_DUBIOUS ∧ e.flags ≠ DHTPEER_EXPIRED ∧
                  KS_DHTRT_MAXPING ≤ e.outstanding_pings) := fun hh => h2 ⟨hh.2.1, hh.2.2⟩
              split at h
              · simp only [Prod.mk.injEq] at h
                obtain ⟨_, rfl, rfl, rfl⟩ := h
                simp [hne]
              · split at h
                · simp only [Prod.mk.injEq] at h
                  obtain ⟨_, rfl, rfl, rfl⟩ := h
                  simp [hne]
                · split at h
                  · simp only [Prod.mk.injEq] at h
                    obtain ⟨_, rfl, rfl, rfl⟩ := h
                    simp [hne]
                  · simp only [Prod.mk.injEq] at h
                    obtain ⟨_, rfl, rfl, rfl⟩ := h
                    simp [hne]
  · rw [process_entry_skip ec (Or.inl hi)] at h
    simp only [Option.some.injEq, Prod.mk.injEq] at h
    obtain ⟨_, rfl, rfl, rfl⟩ := h
    simp [expires, hi]

/-- The slot loop on a whole bucket: slot by slot it does what `process_entry` does;
`ping_count` and the list of pings only grow; `expired_count` goes up by the number
of slots that expire (modulo 256). -/
theorem process_entries_spec {P : Params} {t0 : Nat} {nodes : List (Option ks_dht_node_t)} :
    ∀ (es es1 : List ks_dhtrt_bucket_entry_t) (ec pc ec2 pc2 : Nat) (pings pings2 : List Nat),
      process_entries P t0 nodes es ec pc pings = some (es1, ec2, pc2, pings2) →
      pc ≤ pc2 ∧ (∀ g ∈ pings, g ∈ pings2) ∧
      ec2 = (if (es.filter (expires P nodes)).length = 0 then ec
             else (ec + (es.filter (expires P nodes)).length) % 256) ∧
      ∀ i e, es.get? i = some e → ∃ e1 eca ecb inc pg, es1.get? i = some e1 ∧
        process_entry P t0 nodes e eca = some (e1, ecb, inc, pg) ∧ inc ≤ pc2 ∧
        (∀ g, pg = some g → g ∈ pings2) := by
  intro es
  induction es with
  | nil =>
    intro es1 ec pc ec2 pc2 pings pings2 h
    simp only [process_entries, Option.some.injEq, Prod.mk.injEq] at h
    obtain ⟨rfl, rfl, rfl, rfl⟩ := h
    exact ⟨Nat.le_refl _, fun _ hg => hg, by simp, fun i e hi => by simp at hi⟩
  | cons e es ih =>
    intro es1 ec pc ec2 pc2 pings pings2 h
    simp only [process_entries] at h
    cases h1 : process_entry P t0 nodes e ec with
    | none => rw [h1] at h; simp at h
    | some r1 =>
      obtain ⟨e1, ec1, inc, pg⟩ := r1
      rw [h1] at h
      simp only at h
      split at h
      · simp at h
      · rename_i es2 ec3 pc3 pings3 h2
        simp only [Option.some.injEq, Prod.mk.injEq] at h
        obtain ⟨rfl, rfl, rfl, rfl⟩ := h
        obtain ⟨hpc, hpings, hec, hslots⟩ := ih _ _ _ _ _ _ _ h2
        obtain ⟨hec1, _, _⟩ := process_entry_count h1
        have hsub : ∀ g ∈ pings, g ∈ (match pg with | none => pings | some g => g :: pings) := by
          intro g hg
          cases pg with
          | none => exact hg
          | some g' => exact List.mem_cons_of_mem _ hg
        refine ⟨by omega, fun g hg => hpings g (hsub g hg), ?_, ?_⟩
        · rw [hec, hec1]
          by_cases hx : expires P nodes e = true
          · have hN : ((e :: es).filter (expires P nodes)).length =
                (es.filter (expires P nodes)).length + 1 := by simp [List.filter_cons, hx]
            rw [hN]
            simp only [hx, if_true]
            generalize (es.filter (expires P nodes)).length = n
            by_cases hn : n = 0
            · subst hn; simp
            · simp only [hn, if_false, Nat.add_one_ne_zero]; omega
          · have hN : ((e :: es).filter (expires P nodes)).length =
                (es.filter (expires P nodes)).length := by simp [List.filter_cons, hx]
            rw [hN]
            simp only [hx, Bool.false_eq_true, if_false]
        · intro i a hi
          cases i with
          | zero =>
            simp only [List.get?_cons_zero, Option.some.injEq] at hi
            subst hi
            refine ⟨e1, ec, ec1, inc, pg, rfl, h1, by omega, ?_⟩
            intro g hg
            subst hg
            exact hpings g (List.mem_cons_self _ _)
          | succ i =>
            simp only [List.get?_cons_succ] at hi
            obtain ⟨a1, eca, ecb, inc1, pg1, ha1, hp, hinc, hpg⟩ := hslots i a hi
            exact ⟨a1, eca, ecb, inc1, pg1, by simpa using ha1, hp, hinc, hpg⟩

theorem process_entries_some (P : Params) (t0 : Nat) {nodes : List (Option ks_dht_node_t)}
    {queue : List Nat} : ∀ (es : List ks_dhtrt_bucket_entry_t) (ec pc : Nat) (pings : List Nat),
      es.all (slot_sound nodes queue) = true →
      ∃ res, process_entries P t0 nodes es ec pc pings = some res := by
  intro es
  induction es with
  | nil => intro ec pc pings _; exact ⟨_, rfl⟩
  | cons e es ih =>
    intro ec pc pings h
    simp only [List.all_cons, Bool.and_eq_true] at h
    obtain ⟨⟨e1, ec1, inc, pg⟩, h1⟩ := process_entry_some P t0 h.1 ec
    cases pg with
    | none =>
      obtain ⟨⟨es2, ec3, pc3, pings3⟩, h2⟩ := ih ec1 (pc + inc) pings h.2
      exact ⟨(e1 :: es2, ec3, pc3, pings3), by simp only [process_entries, h1, h2]⟩
    | some g =>
      obtain ⟨⟨es2, ec3, pc3, pings3⟩, h2⟩ := ih ec1 (pc + inc) (g :: pings) h.2
      exact ⟨(e1 :: es2, ec3, pc3, pings3), by simp only [process_entries, h1, h2]⟩

/-- What `sweep_bucket` keeps: the lock and the `count` of the bucket and the skeleton of its
slots; `ping_count` and the list of pings only grow. -/
theorem sweep_bucket_spec {P : Params} {t0 : Nat} {nodes : List (Option ks_dht_node_t)}
    {b b1 : ks_dhtrt_bucket_t} {pc pc1 : Nat} {pings pings1 : List Nat}
    (h : sweep_bucket P t0 nodes b pc pings = some (b1, pc1, pings1)) :
    b1.lock = b.lock ∧ b1.count = b.count ∧ b1.entries.map entry_skel = b.entries.map entry_skel ∧
    pc ≤ pc1 ∧ (∀ g ∈ pings, g ∈ pings1) := by
  rcases sweep_bucket_cases h with ⟨_, rfl, rfl, rfl⟩ | ⟨_, es, ec, hpe, rfl⟩
  · exact ⟨rfl, rfl, rfl, Nat.le_refl _, fun _ hg => hg⟩
  · obtain ⟨hpc, hpings, _, _⟩ := process_entries_spec _ _ _ _ _ _ _ _ hpe
    exact ⟨rfl, rfl, process_entries_skel _ _ _ _ _ _ _ _ hpe, hpc, hpings⟩

theorem sweep_bucket_some (P : Params) (t0 : Nat) {nodes : List (Option ks_dht_node_t)}
    {queue : List Nat} (b : ks_dhtrt_bucket_t) (pc : Nat) (pings : List Nat)
    (h : b.entries.all (slot_sound nodes queue) = true) :
    ∃ res, sweep_bucket P t0 nodes b pc pings = some res := by
  by_cases hl : b.lock ≠ 0
  · exact ⟨_, sweep_bucket_locked hl pc pings⟩
  · obtain ⟨⟨es, ec, pc1, pings1⟩, he⟩ := process_entries_some P t0 b.entries b.expired_count pc
      pings h
    exact ⟨_, sweep_bucket_free (by simpa using hl) he⟩

theorem sweep_trie_some (P : Params) (t0 : Nat) {nodes : List (Option ks_dht_node_t)}
    {queue : List Nat} : ∀ (sub : Header) (pc : Nat) (pings : List Nat),
      slots_sound nodes queue sub = true → ∃ res, sweep_trie P t0 nodes sub pc pings = some res := by
  intro sub
  induction sub with
  | null => intro pc pings _; exact ⟨_, rfl⟩
  | hdr m f b l r l1 r1 ihl ihr =>
    intro pc pings h
    simp only [slots_sound, Bool.and_eq_true] at h
    cases b with
    | some b =>
      obtain ⟨⟨b1, pc1, pings1⟩, he⟩ := sweep_bucket_some P t0 b pc pings h.1.1
      exact ⟨(.hdr m f (some b1) l r l1 r1, pc1, pings1), by simp only [sweep_trie, he]⟩
    | none =>
      obtain ⟨⟨l', pcl, pingsl⟩, hl⟩ := ihl pc pings h.1.2
      obtain ⟨⟨r', pcr, pingsr⟩, hr⟩ := ihr pcl pingsl h.2
      exact ⟨(.hdr m f none l' r' l1 r1, pcr, pingsr), by simp only [sweep_trie, hl, hr]⟩

theorem sweep_trie_isNull {P : Params} {t0 : Nat} {nodes : List (Option ks_dht_node_t)}
    {sub sub' : Header} {pc pc' : Nat} {pings pings' : List Nat}
    (h : sweep_trie P t0 nodes sub pc pings = some (sub', pc', pings')) :
    sub'.isNull = sub.isNull := by
  cases sub with
  | null =>
    simp only [sweep_trie, Option.some.injEq, Prod.mk.injEq] at h
    rw [← h.1]
  | hdr m f b l r l1 r1 =>
    cases b with
    | some b =>
      simp only [sweep_trie] at h
      split at h
      · simp at h
      · simp only [Option.some.injEq, Prod.mk.injEq] at h
        rw [← h.1]; rfl
    | none =>
      simp only [sweep_trie] at h
      split at h
      · simp at h
      · split at h
        · simp at h
        · simp only [Option.some.injEq, Prod.mk.injEq] at h
          rw [← h.1]; rfl

/-- What `sweep_trie` does: every bucket is replaced by the result of `sweep_bucket` on
it, the shape of the trie is kept, `ping_count` and the list of pings only grow. -/
theorem sweep_trie_spec {P : Params} {t0 : Nat} {nodes : List (Option ks_dht_node_t)} :
    ∀ (sub sub' : Header) (pc pc' : Nat) (pings pings' : List Nat), TrieInv P sub →
      sweep_trie P t0 nodes sub pc pings = some (sub', pc', pings') →
      pc ≤ pc' ∧ (∀ g ∈ pings, g ∈ pings') ∧ spine_depth sub' = spine_depth sub ∧
      ∀ q b, (deref sub q).bucket = some b →
        ∃ b1 pc1 pc2 pings1 pings2,
          sweep_bucket P t0 nodes b pc1 pings1 = some (b1, pc2, pings2) ∧
          (deref sub' q).bucket = some b1 ∧
          pc2 ≤ pc' ∧ (∀ g ∈ pings2, g ∈ pings') := by
  intro sub
  induction sub with
  | null => intro sub' pc pc' pings pings' hinv; exact absurd hinv id
  | hdr m f b l r l1 r1 ihl ihr =>
    intro sub' pc pc' pings pings' hinv h
    cases b with
    | some b =>
      obtain ⟨hl, hr, _⟩ := TrieInv_leaf.1 hinv
      subst hl hr
      simp only [sweep_trie] at h
      cases he : sweep_bucket P t0 nodes b pc pings with
      | none => rw [he] at h; simp at h
      | some res =>
        obtain ⟨b1, pc1, pings1⟩ := res
        rw [he] at h
        simp only [Option.some.injEq, Prod.mk.injEq] at h
        obtain ⟨rfl, rfl, rfl⟩ := h
        obtain ⟨_, _, _, hpc, hpings⟩ := sweep_bucket_spec he
        refine ⟨hpc, hpings, by simp [spine_depth, ks_dhtrt_bucket_header_t.isNull], ?_⟩
        intro q b0 hb0
        cases q with
        | nil =>
          simp only [deref_nil, ks_dhtrt_bucket_header_t.bucket, Option.some.injEq] at hb0
          subst hb0
          exact ⟨b1, pc, pc1, pings, pings1, he, rfl, Nat.le_refl _, fun _ hg => hg⟩
        | cons d q =>
          cases d <;> simp [deref, deref_null, ks_dhtrt_bucket_header_t.bucket] at hb0
    | none =>
      obtain ⟨hl, hr, _⟩ := TrieInv_node.1 hinv
      simp only [sweep_trie] at h
      cases hsl : sweep_trie P t0 nodes l pc pings with
      | none => rw [hsl] at h; simp at h
      | some resl =>
        obtain ⟨l', pcl, pingsl⟩ := resl
        rw [hsl] at h
        simp only at h
        cases hsr : sweep_trie P t0 nodes r pcl pingsl with
        | none => rw [hsr] at h; simp at h
        | some resr =>
          obtain ⟨r', pcr, pingsr⟩ := resr
          rw [hsr] at h
          simp only [Option.some.injEq, Prod.mk.injEq] at h
          obtain ⟨rfl, rfl, rfl⟩ := h
          obtain ⟨hpcl, hpingsl, hdl, hbl⟩ := ihl _ _ _ _ _ hl hsl
          obtain ⟨hpcr, hpingsr, _, hbr⟩ := ihr _ _ _ _ _ hr hsr
          have hnl : l'.isNull = l.isNull := sweep_trie_isNull hsl
          refine ⟨by omega, fun g hg => hpingsr g (hpingsl g hg), ?_, ?_⟩
          · simp only [spine_depth, hnl, hdl]
          · intro q b0 hb0
            cases q with
            | nil => simp [ks_dhtrt_bucket_header_t.bucket] at hb0
            | cons d q =>
              cases d
              · simp only [deref, Bool.false_eq_true, if_false] at hb0 ⊢
                obtain ⟨b1, pc1, pc2, pings1, pings2, he, hb', h1, h2⟩ := hbl q b0 hb0
                exact ⟨b1, pc1, pc2, pings1, pings2, he, hb', by omega,
                  fun g hg => hpingsr g (h2 g hg)⟩
              · simp only [deref, if_true] at hb0 ⊢
                exact hbr q b0 hb0

theorem slot_sound_frame {nodes nodes' : List (Option ks_dht_node_t)} {queue queue' : List Nat}
    {e e1 : ks_dhtrt_bucket_entry_t} (hs : entry_skel e1 = entry_skel e)
    (h : slot_sound nodes queue e = true)
    (hn : ∀ g, g ∉ queue → nodes'.getD g none = nodes.getD g none)
    (hq : ∀ g ∈ queue', g ∈ queue) : slot_sound nodes' queue' e1 = true := by
  simp only [entry_skel, Prod.mk.injEq] at hs
  obtain ⟨hi, _, hg⟩ := hs
  unfold slot_sound at h ⊢
  rw [hi, hg]
  by_cases hu : e.inuse = 1
  · simp only [hu, ne_eq, not_true_eq_false, decide_False, Bool.false_or] at h ⊢
    cases hgp : e.gptr with
    | none => rw [hgp] at h; simp at h
    | some g =>
      rw [hgp] at h
      simp only [Bool.and_eq_true, Bool.not_eq_true', List.contains_eq_any_beq, List.any_eq_false,
        beq_iff_eq] at h ⊢
      have hgq : g ∉ queue := fun hm => h.2 g hm rfl
      refine ⟨by rw [hn g hgq]; exact h.1, fun x hx hxe => ?_⟩
      subst hxe
      exact hgq (hq _ hx)
  · simp [hu]

theorem slots_sound_sweep {P : Params} {t0 : Nat} {nodes nodes' : List (Option ks_dht_node_t)}
    {queue queue' : List Nat} (hn : ∀ g, g ∉ queue → nodes'.getD g none = nodes.getD g none)
    (hq : ∀ g ∈ queue', g ∈ queue) :
    ∀ (sub sub' : Header) (pc pc' : Nat) (pings pings' : List Nat), TrieInv P sub →
      sweep_trie P t0 nodes sub pc pings = some (sub', pc', pings') →
      slots_sound nodes queue sub = true → slots_sound nodes' queue' sub' = true := by
  intro sub
  induction sub with
  | null => intro sub' pc pc' pings pings' hinv; exact absurd hinv id
  | hdr m f b l r l1 r1 ihl ihr =>
    intro sub' pc pc' pings pings' hinv h hs
    simp only [slots_sound, Bool.and_eq_true] at hs
    cases b with
    | some b =>
      obtain ⟨hl, hr, _⟩ := TrieInv_leaf.1 hinv
      subst hl hr
      simp only [sweep_trie] at h
      cases he : sweep_bucket P t0 nodes b pc pings with
      | none => rw [he] at h; simp at h
      | some res =>
        obtain ⟨b1, pc1, pings1⟩ := res
        rw [he] at h
        simp only [Option.some.injEq, Prod.mk.injEq] at h
        obtain ⟨rfl, rfl, rfl⟩ := h
        obtain ⟨_, _, hsk, _⟩ := sweep_bucket_spec he
        have hall : b1.entries.all (slot_sound nodes' queue') = true := by
          rw [List.all_eq_true]
          intro a ha
          obtain ⟨c, hc, hcs⟩ := skel_mem hsk ha
          exact slot_sound_frame hcs.symm (List.all_eq_true.1 hs.1.1 c hc) hn hq
        simp [slots_sound, hall]
    | none =>
      obtain ⟨hl, hr, _⟩ := TrieInv_node.1 hinv
      simp only [sweep_trie] at h
      cases hsl : sweep_trie P t0 nodes l pc pings with
      | none => rw [hsl] at h; simp at h
      | some resl =>
        obtain ⟨l', pcl, pingsl⟩ := resl
        rw [hsl] at h
        simp only at h
        cases hsr : sweep_trie P t0 nodes r pcl pingsl with
        | none => rw [hsr] at h; simp at h
        | some resr =>
          obtain ⟨r', pcr, pingsr⟩ := resr
          rw [hsr] at h
          simp only [Option.some.injEq, Prod.mk.injEq] at h
          obtain ⟨rfl, rfl, rfl⟩ := h
          simp only [slots_sound, Bool.and_eq_true, true_and]
          exact ⟨ihl _ _ _ _ _ hl hsl hs.1.2, ihr _ _ _ _ _ hr hsr hs.2⟩

/-- The loop of `ks_dhtrt_process_deleted` on a queue of pairwise distinct allocated
records: it returns, the records that stay queued stay allocated, and no record
outside the queue is touched. -/
theorem process_deleted_loop_spec : ∀ (queue : List Nat) (count : Nat)
    (nodes : List (Option ks_dht_node_t)), queue.Nodup →
    (∀ n ∈ queue, (nodes.getD n none).isSome = true) →
    ∃ q' c' nodes', process_deleted_loop queue count nodes = some (q', c', nodes') ∧
      q'.Nodup ∧ (∀ n ∈ q', n ∈ queue) ∧ (∀ n ∈ q', (nodes'.getD n none).isSome = true) ∧
      (∀ g, g ∉ queue → nodes'.getD g none = nodes.getD g none) := by
  intro queue
  induction queue with
  | nil =>
    intro count nodes _ _
    exact ⟨[], count, nodes, rfl, List.nodup_nil, fun _ h => h, fun _ h => by simp at h,
      fun _ _ => rfl⟩
  | cons n rest ih =>
    intro count nodes hnd halloc
    rw [List.nodup_cons] at hnd
    obtain ⟨r, hr⟩ := Option.isSome_iff_exists.1 (halloc n (List.mem_cons_self _ _))
    by_cases hc : KS_DHTRT_RECYCLE_NODE_THRESHOLD < count
    · by_cases hrl : r.reflock = 0
      · have hrest : ∀ m ∈ rest, ((nodes.set n none).getD m none).isSome = true := by
          intro m hm
          have hne : n ≠ m := fun hh => hnd.1 (hh ▸ hm)
          rw [getD_set_ne _ _ _ hne]
          exact halloc m (List.mem_cons_of_mem _ hm)
        obtain ⟨q', c', nodes', hl, hnd', hsub, hal', hfr⟩ :=
          ih (count - 1) (nodes.set n none) hnd.2 hrest
        refine ⟨q', c', nodes', ?_, hnd', fun m hm => List.mem_cons_of_mem _ (hsub m hm), hal', ?_⟩
        · simp only [process_deleted_loop, if_pos hc, hr, if_pos hrl, hl]
        · intro g hg
          simp only [List.mem_cons, not_or] at hg
          rw [hfr g hg.2, getD_set_ne _ _ _ (Ne.symm hg.1)]
      · obtain ⟨q', c', nodes', hl, hnd', hsub, hal', hfr⟩ :=
          ih count nodes hnd.2 (fun m hm => halloc m (List.mem_cons_of_mem _ hm))
        refine ⟨n :: q', c', nodes', ?_, ?_, ?_, ?_, ?_⟩
        · simp only [process_deleted_loop, if_pos hc, hr, if_neg hrl, hl]
        · exact List.nodup_cons.2 ⟨fun hm => hnd.1 (hsub n hm), hnd'⟩
        · intro m hm
          rcases List.mem_cons.1 hm with rfl | hm
          · exact List.mem_cons_self _ _
          · exact List.mem_cons_of_mem _ (hsub m hm)
        · intro m hm
          rcases List.mem_cons.1 hm with rfl | hm
          · rw [hfr m hnd.1]; exact halloc m (List.mem_cons_self _ _)
          · exact hal' m hm
        · intro g hg
          simp only [List.mem_cons, not_or] at hg
          exact hfr g hg.2
    · refine ⟨n :: rest, count, nodes, ?_, List.nodup_cons.2 hnd, fun _ h => h, halloc,
        fun _ _ => rfl⟩
      simp only [process_deleted_loop, if_neg hc]

/-! ## One sweep -/

/-- The walk of `ks_dhtrt_process_table` from the root: with enough iterations and a
stack that is deep enough it returns what `sweep_trie` returns. -/
theorem walk_root {P : Params} {t0 : Nat} {nodes : List (Option ks_dht_node_t)} {root root' : Header}
    {pc : Nat} {pings : List Nat} (hinv : TrieInv P root) (hdepth : spine_depth root < P.idlen * 8)
    (hsw : sweep_trie P t0 nodes root 0 [] = some (root', pc, pings)) {fuel : Nat}
    (hfuel : P.idlen * 16 ≤ fuel) :
    ∃ st, process_walk P t0 nodes fuel
        { root := root, header := child_ptr root [], stack := List.replicate (P.idlen * 8) [],
          stackix := 0, ping_count := 0, pings := [] } = some st ∧
      st.root = root' ∧ st.ping_count = pc ∧ st.pings = pings := by
  obtain ⟨stack', _, _, hw⟩ := walk_spine root hinv 0 root (List.replicate (P.idlen * 8) []) 0 []
    (fuel - (2 * spine_depth root + 1)) root' pc pings (by simp) (by simp)
    (fun j hj => absurd hj (Nat.not_lt_zero _)) (fun j hj => absurd hj (Nat.not_lt_zero _))
    (by omega) hsw
  rw [show fuel - (2 * spine_depth root + 1) + (2 * spine_depth root + 1) = fuel by omega] at hw
  have hcp : child_ptr root [] = some [] := child_ptr_some (by simpa using hinv.ne_null)
  rw [hcp]
  simp only [List.replicate_zero, if_true, setAt_nil] at hw
  rw [hw]
  refine ⟨{ root := root', header := none, stack := stack', stackix := 1, ping_count := pc,
            pings := pings }, ?_, rfl, rfl, rfl⟩
  cases fuel - (2 * spine_depth root + 1) <;> simp [process_walk]

/-- A sweep that passes the interval gate on a table that is ready for it: the call
returns, the trie is the one `sweep_trie` gives, the table is ready for the next
sweep, and no record outside the queue of deleted nodes is touched. -/
theorem sweep_step {P : Params} {t : Table} (hinv : RootInv P t.buckets) (hready : SweepReady P t)
    {t0 fuel : Nat} (hgate : ¬ (t0 - t.last_process_table < t.next_process_table_delta))
    (hfuel : P.idlen * 16 ≤ fuel) :
    ∃ t1 pings pc,
      ks_dhtrt_process_table P fuel t0 t = some (t1, pings) ∧
      sweep_trie P t0 t.nodes t.buckets 0 [] = some (t1.buckets, pc, pings) ∧
      t1.last_process_table = t0 ∧
      t1.next_process_table_delta =
        (if pc = 0 then KS_DHTRT_PROCESSTABLE_INTERVAL else KS_DHTRT_PROCESSTABLE_SHORTINTERVAL) ∧
      SweepReady P t1 ∧
      (∀ g, g ∉ t.deleted_node → node_at t1 g = node_at t g) := by
  obtain ⟨⟨root', pc, pings⟩, hsw⟩ := sweep_trie_some P t0 t.buckets 0 [] hready.slots
  obtain ⟨q', c', nodes', hloop, hnd', hsub, hal', hfr⟩ :=
    process_deleted_loop_spec t.deleted_node t.deleted_count t.nodes hready.nodup hready.alloc
  obtain ⟨st, hwalk, hroot, hpc, hpings⟩ := walk_root hinv.inv hready.depth hsw hfuel
  obtain ⟨_, _, hdepth, _⟩ := sweep_trie_spec _ _ _ _ _ _ hinv.inv hsw
  refine ⟨{ t with last_process_table := t0, buckets := root', deleted_node := q',
                   deleted_count := c', nodes := nodes',
                   next_process_table_delta :=
                     if pc = 0 then KS_DHTRT_PROCESSTABLE_INTERVAL
                     else KS_DHTRT_PROCESSTABLE_SHORTINTERVAL }, pings, pc, ?_, hsw, rfl, rfl,
    ⟨slots_sound_sweep hfr hsub _ _ _ _ _ _ hinv.inv hsw hready.slots, hnd', hal',
      by rw [hdepth]; exact hready.depth⟩, fun g hg => hfr g hg⟩
  unfold ks_dhtrt_process_table
  rw [if_neg hgate]
  simp only
  rw [hwalk]
  simp only
  unfold ks_dhtrt_process_deleted
  simp only
  rw [hloop]
  simp only [hroot, hpc, hpings]

/-- What a sweep does to one slot and to its bucket: a bucket on which a read lock is
held is left as it is, on any other the slot loop runs. -/
theorem sweep_slot {P : Params} {t0 : Nat} {nodes : List (Option ks_dht_node_t)}
    {root root' : Header} {pc : Nat} {pings : List Nat} (hinv : TrieInv P root)
    (h : sweep_trie P t0 nodes root 0 [] = some (root', pc, pings)) {q : HPtr} {i : Nat}
    {e : ks_dhtrt_bucket_entry_t} (hs : SlotAt root q i e) :
    ∃ b b1 e1, (deref root q).bucket = some b ∧ (deref root' q).bucket = some b1 ∧
      b1.count = b.count ∧ b1.lock = b.lock ∧ b1.entries.get? i = some e1 ∧
      (b.lock ≠ 0 → b1 = b ∧ e1 = e) ∧
      (b.lock = 0 → ∃ eca ecb inc pg,
        b1.expired_count = (if (b.entries.filter (expires P nodes)).length = 0 then b.expired_count
          else (b.expired_count + (b.entries.filter (expires P nodes)).length) % 256) ∧
        process_entry P t0 nodes e eca = some (e1, ecb, inc, pg) ∧ inc ≤ pc ∧
        (∀ g, pg = some g → g ∈ pings)) := by
  obtain ⟨b, hb, he⟩ := hs
  obtain ⟨_, _, _, hbk⟩ := sweep_trie_spec _ _ _ _ _ _ hinv h
  obtain ⟨b1, pc1, pc2, pings1, pings2, hsb, hb', hpc2, hpings2⟩ := hbk q b hb
  rcases sweep_bucket_cases hsb with ⟨hl, rfl, _, _⟩ | ⟨hl, es, ec, hpe, rfl⟩
  · exact ⟨b1, b1, e, hb, hb', rfl, rfl, he, fun _ => ⟨rfl, rfl⟩, fun h0 => absurd h0 hl⟩
  · obtain ⟨_, _, hec, hslots⟩ := process_entries_spec _ _ _ _ _ _ _ _ hpe
    obtain ⟨e1, eca, ecb, inc, pg, he1, hp, hinc, hpg⟩ := hslots i e he
    exact ⟨b, _, e1, hb, hb', rfl, rfl, he1, fun h0 => absurd hl h0,
      fun _ => ⟨eca, ecb, inc, pg, hec, hp, by omega, fun g hg => hpings2 g (hpg g hg)⟩⟩

theorem slots_sound_slot {nodes : List (Option ks_dht_node_t)} {queue : List Nat} :
    ∀ (q : HPtr) (root : Header) (i : Nat) (e : ks_dhtrt_bucket_entry_t),
      slots_sound nodes queue root = true → SlotAt root q i e → slot_sound nodes queue e = true := by
  intro q
  induction q with
  | nil =>
    intro root i e h ⟨b, hb, he⟩
    cases root with
    | null => simp [ks_dhtrt_bucket_header_t.bucket] at hb
    | hdr m f b0 l r l1 r1 =>
      simp only [deref_nil, ks_dhtrt_bucket_header_t.bucket] at hb
      subst hb
      simp only [slots_sound, Bool.and_eq_true] at h
      exact List.all_eq_true.1 h.1.1 e (List.get?_mem he)
  | cons d q ih =>
    intro root i e h ⟨b, hb, he⟩
    cases root with
    | null => simp [deref, ks_dhtrt_bucket_header_t.bucket] at hb
    | hdr m f b0 l r l1 r1 =>
      simp only [slots_sound, Bool.and_eq_true] at h
      cases d
      · exact ih l i e h.1.2 ⟨b, by simpa [deref] using hb, he⟩
      · exact ih r i e h.2 ⟨b, by simpa [deref] using hb, he⟩

/-- The node of a sound slot in use is not on the queue of deleted nodes. -/
theorem slot_sound_not_queued {nodes : List (Option ks_dht_node_t)} {queue : List Nat}
    {e : ks_dhtrt_bucket_entry_t} {g : Nat} (h : slot_sound nodes queue e = true)
    (hi : e.inuse = 1) (hg : e.gptr = some g) : g ∉ queue ∧ (nodes.getD g none).isSome = true := by
  unfold slot_sound at h
  rw [hg] at h
  simp only [hi, ne_eq, not_true_eq_false, decide_False, Bool.false_or, Bool.and_eq_true,
    Bool.not_eq_true', List.contains_eq_any_beq, List.any_eq_false, beq_iff_eq] at h
  exact ⟨fun hm => h.2 g hm rfl, h.1⟩

/-- A sweep whose interval gate is closed returns at once. -/
theorem sweep_gate_closed {P : Params} {t : Table} {t0 : Nat} (fuel : Nat)
    (h : t0 - t.last_process_table < t.next_process_table_delta) :
    ks_dhtrt_process_table P fuel t0 t = some (t, []) := by
  unfold ks_dhtrt_process_table
  rw [if_pos h]

/-- C21 (code defect): a full bucket with an expired slot is not always reused.  With ids
of 2 bytes and buckets of 2: after 0x8100, 0x8200, a failed call for 0x8300 (which
splits the root) and `ks_dhtrt_expire_node` for 0x8100, the descent for the fresh id
0x8300 ends in the leaf `[true]`, whose bucket is full and holds the slot of
0x8100, in use with flags expired; `expired_count` is 0, because
`ks_dhtrt_expire_node` does not count, so `ks_dhtrt_insert_node` does not try the expired
slot and `ks_dhtrt_create_node` returns fail, the trie unchanged.  When the full bucket
is that of the root (a left header), the same call splits it and fails.  A slot
expired by the sweep is counted and is reused: the call for 0x0300 on
`sweep_expired_table` succeeds, `count` stays 2, `expired_count` goes from 1 to 0 and
the root is not split. -/
theorem C21_hint_expired_slot_not_reused :
    (Reachable testParams hint_expired_table ∧
      [0x83, 0x00] ∉ ids hint_expired_table.buckets ∧
      ks_dhtrt_find_bucketheader testParams hint_expired_table.buckets [0x83, 0x00] = some [true] ∧
      (bucket_of testParams hint_expired_table.buckets [true]).count = testParams.bucketsize ∧
      (slot_of testParams hint_expired_table.buckets [true] 0).inuse = 1 ∧
      (slot_of testParams hint_expired_table.buckets [true] 0).flags = DHTPEER_EXPIRED ∧
      (bucket_of testParams hint_expired_table.buckets [true]).expired_count = 0 ∧
      (ks_dhtrt_create_node testParams 9 true hint_expired_table [0x83, 0x00] 1 ['1', '.', '1']
          3).map (fun r => (r.1, r.2.2.buckets)) =
        some (KS_STATUS_FAIL, hint_expired_table.buckets)) ∧
    (Reachable testParams hint_expired_root_table ∧
      [0x83, 0x00] ∉ ids hint_expired_root_table.buckets ∧
      ks_dhtrt_find_bucketheader testParams hint_expired_root_table.buckets [0x83, 0x00] =
        some [] ∧
      (bucket_of testParams hint_expired_root_table.buckets []).count = testParams.bucketsize ∧
      (slot_of testParams hint_expired_root_table.buckets [] 0).inuse = 1 ∧
      (slot_of testParams hint_expired_root_table.buckets [] 0).flags = DHTPEER_EXPIRED ∧
      (ks_dhtrt_create_node testParams 9 true hint_expired_root_table [0x83, 0x00] 1
          ['1', '.', '1'] 3).map (fun r => (r.1, r.2.2)) =
        some (KS_STATUS_FAIL, hint_expired_split_table) ∧
      hint_expired_split_table.buckets.bucket = none) ∧
    (Reachable testParams sweep_expired_table ∧
      [0x03, 0x00] ∉ ids sweep_expired_table.buckets ∧
      (bucket_of testParams sweep_expired_table.buckets []).count = testParams.bucketsize ∧
      (slot_of testParams sweep_expired_table.buckets [] 0).inuse = 1 ∧
      (slot_of testParams sweep_expired_table.buckets [] 0).flags = DHTPEER_EXPIRED ∧
      (bucket_of testParams sweep_expired_table.buckets []).expired_count = 1 ∧
      (ks_dhtrt_create_node testParams 1100 true sweep_expired_table [0x03, 0x00] 1
          ['1', '.', '1'] 3).map (fun r => (r.1, r.2.2)) =
        some (KS_STATUS_SUCCESS, sweep_expired_replaced) ∧
      (slot_of testParams sweep_expired_replaced.buckets [] 0).id = [0x03, 0x00] ∧
      (bucket_of testParams sweep_expired_replaced.buckets []).count = 2 ∧
      (bucket_of testParams sweep_expired_replaced.buckets []).expired_count = 0) :=
  ⟨⟨reachable_table_after _ (by decide!), by decide!, by decide!, by decide!, by decide!,
      by decide!, by decide!, by decide!⟩,
    ⟨reachable_table_after _ (by decide!), by decide!, by decide!, by decide!, by decide!,
      by decide!, by decide!, by decide!⟩,
    ⟨reachable_table_after _ (by decide!), by decide!, by decide!, by decide!, by decide!,
      by decide!, by decide!, by decide!, by decide!, by decide!⟩⟩

/-- C23 (code defect): `expired_count` is not the number of expired slots.  With ids of 2
bytes: after the node 0x0100 is created and `ks_dhtrt_expire_node` is called for it, the
root bucket holds one slot in use with flags expired and its `expired_count` is 0;
the following `ks_dhtrt_touch_node` decrements the counter to 255 (it is a `uint8_t`) while
no slot is expired. -/
theorem C23_expired_count_drifts :
    Reachable testParams expire_only_table ∧
    expired_slots (bucket_of testParams expire_only_table.buckets []) = 1 ∧
    (bucket_of testParams expire_only_table.buckets []).expired_count = 0 ∧
    ks_dhtrt_touch_node testParams 5 expire_only_table [0x01, 0x00] =
      some (KS_STATUS_SUCCESS, expire_touch_table) ∧
    Reachable testParams expire_touch_table ∧
    expired_slots (bucket_of testParams expire_touch_table.buckets []) = 0 ∧
    (bucket_of testParams expire_touch_table.buckets []).expired_count = 255 :=
  ⟨reachable_table_after _ (by decide!), by decide!, by decide!, by decide!,
    reachable_table_after _ (by decide!), by decide!, by decide!⟩

/-- C24 (code defect): a record can be on the queue of deleted nodes and in a slot, and in
two slots.  With ids of 2 bytes: the node 0x0100 (record 0) is created and
`ks_dhtrt_delete_node` is called twice for it; the second call finds no slot, returns
fail and queues the record a second time.  The creation of 0x0200 takes record 0
from the queue: slot 0 of the root points to record 0, which is still on the
queue.  The creation of 0x0300 takes record 0 again and wipes it: slots 0 and 1
are both in use and both point to record 0, whose id is now 0x0300. -/
theorem C24_record_queued_twice :
    (run testParams [.create 0 true [0x01, 0x00] 1 ['1', '.', '1'] 1, .delete 0]
        (ks_dhtrt_initroute testParams)).bind
      (fun t => (ks_dhtrt_delete_node testParams t 0).map
        (fun r => (r.1, r.2.deleted_node, r.2.deleted_count))) = some (KS_STATUS_FAIL, [0, 0], 2) ∧
    Reachable testParams double_delete_table ∧
    (slot_of testParams double_delete_table.buckets [] 0).inuse = 1 ∧
    (slot_of testParams double_delete_table.buckets [] 0).gptr = some 0 ∧
    double_delete_table.deleted_node = [0] ∧
    Reachable testParams shared_record_table ∧
    (slot_of testParams shared_record_table.buckets [] 0).inuse = 1 ∧
    (slot_of testParams shared_record_table.buckets [] 0).id = [0x02, 0x00] ∧
    (slot_of testParams shared_record_table.buckets [] 0).gptr = some 0 ∧
    (slot_of testParams shared_record_table.buckets [] 1).inuse = 1 ∧
    (slot_of testParams shared_record_table.buckets [] 1).id = [0x03, 0x00] ∧
    (slot_of testParams shared_record_table.buckets [] 1).gptr = some 0 ∧
    (node_at shared_record_table 0).map (fun r => r.nodeid) = some [0x03, 0x00] :=
  ⟨by decide!, reachable_table_after _ (by decide!), by decide!, by decide!, by decide!,
    reachable_table_after _ (by decide!), by decide!, by decide!, by decide!, by decide!,
    by decide!, by decide!, by decide!⟩

/-- C26 (code defect): a sweep that sends a ping can set the long interval.  With ids of 2
bytes: the node 0x0100 (not local) is created at clock reading 0 and touched at
1; the sweep at 1000 passes the gate, the age of the slot is 999, above
`KS_DHTRT_EXPIREDTIME`: the slot becomes dubious and a ping is sent to the node
(`outstanding_pings` goes from 0 to 1), but this row does not increment
`ping_count`, and the next interval is `KS_DHTRT_PROCESSTABLE_INTERVAL` (300 s), not the
short one. -/
theorem C26_dubious_ping_keeps_long_interval :
    Reachable testParams one_active_table ∧
    ¬ (1000 - one_active_table.last_process_table < one_active_table.next_process_table_delta) ∧
    (slot_of testParams one_active_table.buckets [] 0).inuse = 1 ∧
    (slot_of testParams one_active_table.buckets [] 0).flags = DHTPEER_ACTIVE ∧
    (slot_of testParams one_active_table.buckets [] 0).outstanding_pings = 0 ∧
    KS_DHTRT_EXPIREDTIME < 1000 - (slot_of testParams one_active_table.buckets [] 0).tyme ∧
    (ks_dhtrt_process_table testParams 40 1000 one_active_table).map
      (fun r => (r.2, r.1.next_process_table_delta,
        (slot_of testParams r.1.buckets [] 0).flags,
        (slot_of testParams r.1.buckets [] 0).outstanding_pings)) =
      some ([0], KS_DHTRT_PROCESSTABLE_INTERVAL, DHTPEER_DUBIOUS, 1) ∧
    KS_DHTRT_PROCESSTABLE_INTERVAL = 300 ∧ KS_DHTRT_PROCESSTABLE_SHORTINTERVAL = 120 :=
  ⟨reachable_table_after _ (by decide!), by decide!, by decide!, by decide!, by decide!,
    by decide!, by decide!, by decide, by decide⟩

/-- C22: in every table reachable by the public operations, the `count` of every bucket
is the number of its slots in use, the bucket has `KS_DHT_BUCKETSIZE` slots, so that
number is at most `KS_DHT_BUCKETSIZE`, and `inuse` is 0 or 1 in every slot. -/
theorem C22_count_is_inuse_slots (P : Params) (hP : P.ok) (t : Table) (h : Reachable P t)
    (q : HPtr) (b : ks_dhtrt_bucket_t) (hb : (deref t.buckets q).bucket = some b) :
    b.count = (b.entries.filter (fun e => e.inuse = 1)).length ∧
    (b.entries.filter (fun e => e.inuse = 1)).length ≤ P.bucketsize ∧
    b.count ≤ P.bucketsize ∧ b.entries.length = P.bucketsize ∧
    (∀ e ∈ b.entries, e.inuse = 0 ∨ e.inuse = 1) := by
  have hbi := ((reachable_inv hP h).bucket q hb).1
  have hle : (b.entries.filter (fun e => e.inuse = 1)).length ≤ P.bucketsize := by
    rw [← hbi.len]
    exact List.length_filter_le _ _
  exact ⟨hbi.count, hle, hbi.count ▸ hle, hbi.len, hbi.bool⟩

theorem C22_witness :
    testParams.ok ∧ Reachable testParams s2_table ∧
    (deref s2_table.buckets [true]).bucket = some s2_right_bucket ∧
    s2_right_bucket.count = 2 ∧
    (s2_right_bucket.count = (s2_right_bucket.entries.filter (fun e => e.inuse = 1)).length ∧
      (s2_right_bucket.entries.filter (fun e => e.inuse = 1)).length ≤ testParams.bucketsize ∧
      s2_right_bucket.count ≤ testParams.bucketsize ∧
      s2_right_bucket.entries.length = testParams.bucketsize ∧
      (∀ e ∈ s2_right_bucket.entries, e.inuse = 0 ∨ e.inuse = 1)) :=
  ⟨by decide, reachable_table_after s2_calls (by decide!), by decide!, by decide!,
    C22_count_is_inuse_slots testParams (by decide) s2_table
      (reachable_table_after s2_calls (by decide!)) [true] s2_right_bucket (by decide!)⟩

/-- C30: in every table reachable by the public operations and for every id `x`, the
descent `ks_dhtrt_find_bucketheader` returns a header (never NULL, so the assertions
`header != NULL` of `ks_dhtrt_create_node` and `ks_dhtrt_insert_node` hold); the header is a
leaf (it has a bucket and no children) and `x` satisfies its mask. -/
theorem C30_descent_reaches_leaf (P : Params) (hP : P.ok) (t : Table) (h : Reachable P t)
    (x : List Nat) :
    ks_dhtrt_find_bucketheader P t.buckets x ≠ none ∧
    ∃ p, ks_dhtrt_find_bucketheader P t.buckets x = some p ∧
      (deref t.buckets p).bucket.isSome = true ∧
      (deref t.buckets p).left = .null ∧ (deref t.buckets p).right = .null ∧
      ks_dhtrt_ismasked P x (deref t.buckets p).mask = true := by
  have hinv := reachable_inv hP h
  obtain ⟨p, hp⟩ := find_total x t.buckets hinv.inv
  have hp' : ks_dhtrt_find_bucketheader P t.buckets x = some p := hp
  have hb := (find_spec t.buckets p hinv.inv hp).1
  have hm := find_mask t.buckets p hinv.inv (by rw [hinv.mask]; exact ismasked_ones P x) hp
  have hsub := TrieInv.deref p t.buckets hinv.inv (bucket_isSome_ne_null hb)
  refine ⟨by rw [hp']; exact Option.some_ne_none p, p, hp', hb, ?_, ?_, hm⟩
  · cases hd : deref t.buckets p with
    | null => rfl
    | hdr m f b l r l1 r1 =>
      rw [hd] at hsub hb
      cases b with
      | none => simp [ks_dhtrt_bucket_header_t.bucket] at hb
      | some b => exact (TrieInv_leaf.1 hsub).1
  · cases hd : deref t.buckets p with
    | null => rfl
    | hdr m f b l r l1 r1 =>
      rw [hd] at hsub hb
      cases b with
      | none => simp [ks_dhtrt_bucket_header_t.bucket] at hb
      | some b => exact (TrieInv_leaf.1 hsub).2.1

theorem C30_witness :
    testParams.ok ∧ Reachable testParams s2_table ∧
    ks_dhtrt_find_bucketheader testParams s2_table.buckets [0x60, 0x00] = some [false, true] ∧
    (ks_dhtrt_find_bucketheader testParams s2_table.buckets [0x60, 0x00] ≠ none ∧
      ∃ p, ks_dhtrt_find_bucketheader testParams s2_table.buckets [0x60, 0x00] = some p ∧
        (deref s2_table.buckets p).bucket.isSome = true ∧
        (deref s2_table.buckets p).left = .null ∧ (deref s2_table.buckets p).right = .null ∧
        ks_dhtrt_ismasked testParams [0x60, 0x00] (deref s2_table.buckets p).mask = true) :=
  ⟨by decide, reachable_table_after s2_calls (by decide!), by decide!,
    C30_descent_reaches_leaf testParams (by decide) s2_table
      (reachable_table_after s2_calls (by decide!)) [0x60, 0x00]⟩

theorem process_entry_ping_source {P : Params} {t0 : Nat} {nodes : List (Option ks_dht_node_t)}
    {e e1 : ks_dhtrt_bucket_entry_t} {ec ec1 inc g : Nat}
    (h : process_entry P t0 nodes e ec = some (e1, ec1, inc, some g)) :
    ∃ r, nodes.getD g none = some r ∧ r.type ≠ P.dht_local := by
  unfold process_entry at h
  split at h
  · split at h
    · exact absurd h (by simp)
    · rename_i g' hg'
      split at h
      · exact absurd h (by simp)
      · rename_i node hnode
        split at h
        · rename_i hl
          simp only at h
          split_ifs at h <;> simp only [Option.some.injEq, Prod.mk.injEq] at h <;>
            first
            | exact absurd h.2.2.2 (by simp)
            | (obtain ⟨_, _, _, hgg⟩ := h
               subst hgg
               exact ⟨node, hnode, hl⟩)
        · simp at h
  · simp at h

theorem process_entries_ping_source {P : Params} {t0 : Nat} {nodes : List (Option ks_dht_node_t)} :
    ∀ (es es1 : List ks_dhtrt_bucket_entry_t) (ec pc ec2 pc2 : Nat) (pings pings2 : List Nat),
      process_entries P t0 nodes es ec pc pings = some (es1, ec2, pc2, pings2) →
      ∀ g ∈ pings2, g ∈ pings ∨ ∃ r, nodes.getD g none = some r ∧ r.type ≠ P.dht_local := by
  intro es
  induction es with
  | nil =>
    intro es1 ec pc ec2 pc2 pings pings2 h g hg
    simp only [process_entries, Option.some.injEq, Prod.mk.injEq] at h
    obtain ⟨_, _, _, rfl⟩ := h
    exact Or.inl hg
  | cons e es ih =>
    intro es1 ec pc ec2 pc2 pings pings2 h g hg
    simp only [process_entries] at h
    split at h
    · exact absurd h (by simp)
    · rename_i e1 ec1 inc pinged hpe
      split at h
      · exact absurd h (by simp)
      · rename_i es1' ec2' pc2' pings2' hrec
        simp only [Option.some.injEq, Prod.mk.injEq] at h
        obtain ⟨_, _, _, rfl⟩ := h
        rcases ih _ _ _ _ _ _ _ hrec g hg with hin | hsrc
        · cases pinged with
          | none => exact Or.inl hin
          | some g' =>
            simp only [List.mem_cons] at hin
            rcases hin with rfl | hin
            · exact Or.inr (process_entry_ping_source hpe)
            · exact Or.inl hin
        · exact Or.inr hsrc

theorem sweep_bucket_ping_source {P : Params} {t0 : Nat} {nodes : List (Option ks_dht_node_t)}
    {b b1 : ks_dhtrt_bucket_t} {pc pc1 : Nat} {pings pings1 : List Nat}
    (h : sweep_bucket P t0 nodes b pc pings = some (b1, pc1, pings1)) :
    ∀ g ∈ pings1, g ∈ pings ∨ ∃ r, nodes.getD g none = some r ∧ r.type ≠ P.dht_local := by
  rcases sweep_bucket_cases h with ⟨_, rfl, rfl, rfl⟩ | ⟨_, es, ec, hpe, rfl⟩
  · exact fun _ hg => Or.inl hg
  · exact process_entries_ping_source _ _ _ _ _ _ _ _ hpe

theorem sweep_trie_ping_source {P : Params} {t0 : Nat} {nodes : List (Option ks_dht_node_t)} :
    ∀ (sub sub' : Header) (pc pc' : Nat) (pings pings' : List Nat),
      sweep_trie P t0 nodes sub pc pings = some (sub', pc', pings') →
      ∀ g ∈ pings', g ∈ pings ∨ ∃ r, nodes.getD g none = some r ∧ r.type ≠ P.dht_local := by
  intro sub
  induction sub with
  | null =>
    intro sub' pc pc' pings pings' h g hg
    simp only [sweep_trie, Option.some.injEq, Prod.mk.injEq] at h
    obtain ⟨_, _, rfl⟩ := h
    exact Or.inl hg
  | hdr m f b l r l1 r1 ihl ihr =>
    intro sub' pc pc' pings pings' h g hg
    cases b with
    | some b =>
      simp only [sweep_trie] at h
      split at h
      · exact absurd h (by simp)
      · rename_i b1 pc1 pings1 hsb
        simp only [Option.some.injEq, Prod.mk.injEq] at h
        obtain ⟨_, _, rfl⟩ := h
        exact sweep_bucket_ping_source hsb g hg
    | none =>
      simp only [sweep_trie] at h
      split at h
      · exact absurd h (by simp)
      · rename_i l' pcl pingsl hl
        split at h
        · exact absurd h (by simp)
        · rename_i r' pcr pingsr hr
          simp only [Option.some.injEq, Prod.mk.injEq] at h
          obtain ⟨_, _, rfl⟩ := h
          rcases ihr _ _ _ _ _ hr g hg with hin | hsrc
          · exact ihl _ _ _ _ _ hl g hin
          · exact Or.inr hsrc

/-- What one sweep does to the slot of a local node. -/
theorem sweep_local {P : Params} (hP : P.ok) {t : Table} (hr : Reachable P t)
    (hready : SweepReady P t) (t0 : Nat) {fuel : Nat} (hfuel : P.idlen * 16 ≤ fuel) {q : HPtr}
    {i : Nat} {e : ks_dhtrt_bucket_entry_t} (hs : SlotAt t.buckets q i e) (hi : e.inuse = 1)
    {g : Nat} (hg : e.gptr = some g) {r : ks_dht_node_t} (hn : node_at t g = some r)
    (hl : r.type = P.dht_local) :
    ∃ t1 pings, ks_dhtrt_process_table P fuel t0 t = some (t1, pings) ∧ Reachable P t1 ∧
      SweepReady P t1 ∧ SlotAt t1.buckets q i e ∧ node_at t1 g = some r ∧ g ∉ pings := by
  by_cases hgate : t0 - t.last_process_table < t.next_process_table_delta
  · exact ⟨t, [], sweep_gate_closed fuel hgate, hr, hready, hs, hn, by simp⟩
  · obtain ⟨t1, pings, pc, hpt, hsw, _, _, hready1, hfr⟩ :=
      sweep_step (reachable_inv hP hr) hready hgate hfuel
    obtain ⟨b, b1, e1, _, hb1, _, _, he1, hlocked, hfree⟩ :=
      sweep_slot (reachable_inv hP hr).inv hsw hs
    have hee : e1 = e := by
      by_cases hl0 : b.lock = 0
      · obtain ⟨eca, ecb, inc, pg, _, hp, _, _⟩ := hfree hl0
        rw [process_entry_skip eca (Or.inr ⟨g, r, hg, hn, hl⟩)] at hp
        simp only [Option.some.injEq, Prod.mk.injEq] at hp
        exact hp.1.symm
      · exact (hlocked hl0).2
    rw [hee] at he1
    have hsound := slots_sound_slot q t.buckets i e hready.slots hs
    have hnq := (slot_sound_not_queued hsound hi hg).1
    refine ⟨t1, pings, hpt, Reachable.process_table hr hpt, hready1, ⟨b1, hb1, he1⟩,
      by rw [hfr g hnq]; exact hn, ?_⟩
    intro hmem
    rcases sweep_trie_ping_source _ _ _ _ _ _ hsw g hmem with hin | ⟨r', hr', hne⟩
    · simp at hin
    · have : node_at t g = some r' := hr'
      rw [hn] at this
      simp only [Option.some.injEq] at this
      exact hne (this ▸ hl)

theorem sweeps_local {P : Params} (hP : P.ok) {fuel : Nat} (hfuel : P.idlen * 16 ≤ fuel)
    {q : HPtr} {i : Nat} {e : ks_dhtrt_bucket_entry_t} (hi : e.inuse = 1) {g : Nat}
    (hg : e.gptr = some g) {r : ks_dht_node_t} (hl : r.type = P.dht_local) :
    ∀ (cs : List Nat) (t : Table), Reachable P t → SweepReady P t → SlotAt t.buckets q i e →
      node_at t g = some r →
      ∃ t1, run P (cs.map (fun c => Call.sweep fuel c)) t = some t1 ∧ Reachable P t1 ∧
        SweepReady P t1 ∧ SlotAt t1.buckets q i e ∧ node_at t1 g = some r := by
  intro cs
  induction cs with
  | nil => intro t hr hready hs hn; exact ⟨t, rfl, hr, hready, hs, hn⟩
  | cons c cs ih =>
    intro t hr hready hs hn
    obtain ⟨t1, pings, hpt, hr1, hready1, hs1, hn1, _⟩ :=
      sweep_local hP hr hready c hfuel hs hi hg hn hl
    obtain ⟨t2, h2, hrest⟩ := ih t1 hr1 hready1 hs1 hn1
    refine ⟨t2, ?_, hrest⟩
    simp only [List.map_cons, run, exec, hpt, Option.map_some']
    exact h2

/-- C28 (as stated, refuted): a node whose type holds the local bit together with another
bit is pinged and expired.  With ids of 2 bytes and `KS_DHT_LOCAL = 2`: the node
0x0100 of type 3 is created and touched at clock reading 0; the sweep at 700
pings it and sets `outstanding_pings` to 1; after the sweeps at 700, 820, 940 and
1060 its slot has flags expired and the bucket has `expired_count = 1`. -/
theorem C28_mixed_type_node_is_expired :
    Reachable testParams mixed_type_table ∧
    (slot_of testParams mixed_type_table.buckets [] 0).inuse = 1 ∧
    (slot_of testParams mixed_type_table.buckets [] 0).gptr = some 0 ∧
    (slot_of testParams mixed_type_table.buckets [] 0).flags = DHTPEER_ACTIVE ∧
    (slot_of testParams mixed_type_table.buckets [] 0).outstanding_pings = 0 ∧
    (node_at mixed_type_table 0).map (fun r => r.type) = some 3 ∧
    testParams.dht_local = 2 ∧ 3 &&& testParams.dht_local ≠ 0 ∧
    (ks_dhtrt_process_table testParams 40 700 mixed_type_table).map
      (fun r => (r.2, (slot_of testParams r.1.buckets [] 0).outstanding_pings)) =
      some ([0], 1) ∧
    Reachable testParams mixed_type_swept ∧
    (slot_of testParams mixed_type_swept.buckets [] 0).flags = DHTPEER_EXPIRED ∧
    (bucket_of testParams mixed_type_swept.buckets []).expired_count = 1 :=
  ⟨reachable_table_after _ (by decide!), by decide!, by decide!, by decide!, by decide!,
    by decide!, by decide, by decide, by decide!, reachable_table_after _ (by decide!),
    by decide!, by decide!⟩

/-- C28 (amended): in every table reachable by the public operations that is ready for
a sweep, for every slot in use whose node has the type `KS_DHT_LOCAL` (the type is
compared as a whole, not bit by bit): any sequence of sweeps returns and leaves
the slot as it is, whatever the clock readings, so its flags and
`outstanding_pings` never change; one sweep sends no ping to the node, the body of
the slot loop leaves the slot and the `expired_count` it is given unchanged with
no ping, and the slot is not among those the sweep counts in `expired_count`. -/
theorem C28_local_node_exempt (P : Params) (hP : P.ok) (t : Table) (h : Reachable P t)
    (hready : SweepReady P t) (fuel : Nat) (hfuel : P.idlen * 16 ≤ fuel) (q : HPtr) (i : Nat)
    (e : ks_dhtrt_bucket_entry_t) (hs : SlotAt t.buckets q i e) (hi : e.inuse = 1) (g : Nat)
    (hg : e.gptr = some g) (r : ks_dht_node_t) (hn : node_at t g = some r)
    (hl : r.type = P.dht_local) :
    (∀ cs : List Nat, ∃ t1, run P (cs.map (fun c => Call.sweep fuel c)) t = some t1 ∧
      Reachable P t1 ∧ SweepReady P t1 ∧ SlotAt t1.buckets q i e ∧ node_at t1 g = some r) ∧
    (∀ t0 : Nat, ∃ t1 pings, ks_dhtrt_process_table P fuel t0 t = some (t1, pings) ∧
      SlotAt t1.buckets q i e ∧ g ∉ pings) ∧
    (∀ t0 ec : Nat, process_entry P t0 t.nodes e ec = some (e, ec, 0, none)) ∧
    expires P t.nodes e = false := by
  refine ⟨fun cs => sweeps_local hP hfuel hi hg hl cs t h hready hs hn, ?_, ?_, ?_⟩
  · intro t0
    obtain ⟨t1, pings, hpt, _, _, hs1, _, hnp⟩ := sweep_local hP h hready t0 hfuel hs hi hg hn hl
    exact ⟨t1, pings, hpt, hs1, hnp⟩
  · intro t0 ec
    exact process_entry_skip ec (Or.inr ⟨g, r, hg, hn, hl⟩)
  · rw [expires_eq hg hn]
    simp [hl]

theorem C28_witness :
    testParams.ok ∧ Reachable testParams local_table ∧ SweepReady testParams local_table ∧
    testParams.idlen * 16 ≤ 40 ∧ SlotAt local_table.buckets [] 0 local_slot ∧
    local_slot.inuse = 1 ∧ local_slot.gptr = some 0 ∧ local_slot.flags = DHTPEER_ACTIVE ∧
    node_at local_table 0 = some local_node ∧ local_node.type = testParams.dht_local ∧
    ((∀ cs : List Nat, ∃ t1, run testParams (cs.map (fun c => Call.sweep 40 c)) local_table =
        some t1 ∧ Reachable testParams t1 ∧ SweepReady testParams t1 ∧
        SlotAt t1.buckets [] 0 local_slot ∧ node_at t1 0 = some local_node) ∧
      (∀ t0 : Nat, ∃ t1 pings, ks_dhtrt_process_table testParams 40 t0 local_table =
        some (t1, pings) ∧ SlotAt t1.buckets [] 0 local_slot ∧ 0 ∉ pings) ∧
      (∀ t0 ec : Nat, process_entry testParams t0 local_table.nodes local_slot ec =
        some (local_slot, ec, 0, none)) ∧
      expires testParams local_table.nodes local_slot = false) :=
  ⟨by decide, reachable_table_after local_calls (by decide!),
    ⟨by decide!, by decide!, by decide!, by decide!⟩, by decide, slotAt_of_eval (by decide!),
    by decide!, by decide!, by decide!, by decide!, by decide!,
    C28_local_node_exempt testParams (by decide) local_table
      (reachable_table_after local_calls (by decide!))
      ⟨by decide!, by decide!, by decide!, by decide!⟩ 40 (by decide) [] 0 local_slot
      (slotAt_of_eval (by decide!)) (by decide!) 0 (by decide!) local_node (by decide!)
      (by decide!)⟩

/-! ## The number of nodes a query returns -/

theorem load_query_loop_le (P : Params) (bucket : ks_dhtrt_bucket_t)
    (current : ks_dhtrt_sortedxors_t) (qmax : Nat) :
    ∀ (n ix xorix loaded : Nat) (nodes : List (Option Nat)), loaded ≤ qmax →
      (load_query_loop P bucket current qmax n ix xorix loaded nodes).1 ≤ qmax := by
  intro n
  induction n with
  | zero => intro ix xorix loaded nodes h; simpa [load_query_loop] using h
  | succ n ih =>
    intro ix xorix loaded nodes h
    simp only [load_query_loop]
    split
    · rename_i hc
      apply ih
      have := Nat.mod_le (loaded + 1) 256
      omega
    · exact h

theorem load_query_list_le (P : Params) (qmax : Nat) :
    ∀ (xs : List ks_dhtrt_sortedxors_t) (loaded : Nat) (nodes : List (Option Nat)) (root : Header)
      (r : Nat × List (Option Nat) × Header), loaded ≤ qmax →
      load_query_list P qmax xs loaded nodes root = some r → r.1 ≤ qmax := by
  intro xs
  induction xs with
  | nil =>
    intro loaded nodes root r h hr
    simp only [load_query_list, Option.some.injEq] at hr
    rw [← hr]
    exact h
  | cons current next ih =>
    intro loaded nodes root r h hr
    simp only [load_query_list] at hr
    split at hr
    · exact absurd hr (by simp)
    · rename_i bucket _
      have hle := load_query_loop_le P bucket current qmax current.count 0 current.startix loaded
        nodes h
      split at hr
      · simp only [Option.some.injEq] at hr
        rw [← hr]
        exact hle
      · exact ih _ _ _ r hle hr

theorem load_query_le {P : Params} {root : Header} {query : ks_dhtrt_querynodes_t}
    {xs : List ks_dhtrt_sortedxors_t} {r : Nat × ks_dhtrt_querynodes_t × Header}
    (h : ks_dhtrt_load_query P root query xs = some r) :
    r.1 ≤ query.max ∧ r.2.1.count = r.1 ∧ r.2.1.max = query.max := by
  unfold ks_dhtrt_load_query at h
  split at h
  · exact absurd h (by simp)
  · rename_i r0 hr0
    simp only [Option.some.injEq] at h
    rw [← h]
    exact ⟨load_query_list_le P query.max xs 0 query.nodes root r0 (Nat.zero_le _) hr0, rfl, rfl⟩

theorem findclosest_step3_le {P : Params} {root : Header} {query : ks_dhtrt_querynodes_t}
    {total : Nat} {xort0 xort1 : ks_dhtrt_sortedxors_t}
    {r : Nat × ks_dhtrt_querynodes_t × Header}
    (h : findclosest_step3 P root query total xort0 xort1 = some r) :
    r.1 ≤ query.max ∧ r.2.1.count = r.1 ∧ r.2.1.max = query.max := by
  unfold findclosest_step3 at h
  split at h
  · exact absurd h (by simp)
  · rw [Option.map_eq_some'] at h
    obtain ⟨r0, hr0, rfl⟩ := h
    obtain ⟨h1, h2, h3⟩ := load_query_le hr0
    exact ⟨h2 ▸ h1, rfl, h3⟩

theorem findclosest_step2_le {P : Params} {root : Header} {query : ks_dhtrt_querynodes_t}
    {header : HPtr} {total : Nat} {xort0 : ks_dhtrt_sortedxors_t}
    {r : Nat × ks_dhtrt_querynodes_t × Header}
    (h : findclosest_step2 P root query header total xort0 = some r) :
    r.1 ≤ query.max ∧ r.2.1.count = r.1 ∧ r.2.1.max = query.max := by
  unfold findclosest_step2 at h
  split at h
  · exact absurd h (by simp)
  · split at h
    · exact load_query_le h
    · exact findclosest_step3_le h

theorem findclosest_step1_le {P : Params} {root : Header} {query : ks_dhtrt_querynodes_t}
    {r : Nat × ks_dhtrt_querynodes_t × Header} (h : findclosest_step1 P root query = some r) :
    r.1 ≤ query.max ∧ r.2.1.count = r.1 ∧ r.2.1.max = query.max := by
  unfold findclosest_step1 at h
  split at h
  · exact absurd h (by simp)
  · split at h
    · exact absurd h (by simp)
    · split at h
      · exact load_query_le h
      · exact findclosest_step2_le h

/-- C29: whenever `ks_dhtrt_findclosest_nodes` returns, the count it returns is at most the
requested `max` and at most `KS_DHTRT_MAXQUERYSIZE`; for `max` other than 0 the count is
stored in `query->count` and `query->max` is the requested value clamped to
`KS_DHTRT_MAXQUERYSIZE`; for `max = 0` the call always returns 0 at once (it then leaves
the query, `count` included, and the table as they are). -/
theorem C29_closest_count_bounded (P : Params) (t : Table) (query : ks_dhtrt_querynodes_t)
    (count : Nat) (q1 : ks_dhtrt_querynodes_t) (t1 : Table)
    (h : ks_dhtrt_findclosest_nodes P t query = some (count, q1, t1)) :
    count ≤ min query.max P.maxquery ∧
    (query.max ≠ 0 → q1.count = count ∧ q1.max = min query.max P.maxquery) ∧
    (query.max = 0 → count = 0 ∧ q1 = query ∧ t1 = t) ∧
    (∀ (t' : Table) (query' : ks_dhtrt_querynodes_t), query'.max = 0 →
      ks_dhtrt_findclosest_nodes P t' query' = some (0, query', t')) := by
  have hzero : ∀ (t' : Table) (query' : ks_dhtrt_querynodes_t), query'.max = 0 →
      ks_dhtrt_findclosest_nodes P t' query' = some (0, query', t') := by
    intro t' query' h0
    simp [ks_dhtrt_findclosest_nodes, ks_dhtrt_findclosest_locked_nodes, h0]
  by_cases h0 : query.max = 0
  · rw [hzero t query h0] at h
    simp only [Option.some.injEq, Prod.mk.injEq] at h
    obtain ⟨rfl, rfl, rfl⟩ := h
    exact ⟨Nat.zero_le _, fun hn => absurd h0 hn, fun _ => ⟨rfl, rfl, rfl⟩, hzero⟩
  · unfold ks_dhtrt_findclosest_nodes at h
    rw [Option.map_eq_some'] at h
    obtain ⟨r, hr, heq⟩ := h
    simp only [Prod.mk.injEq] at heq
    obtain ⟨rfl, rfl, rfl⟩ := heq
    unfold ks_dhtrt_findclosest_locked_nodes at hr
    rw [if_neg h0] at hr
    obtain ⟨h1, h2, h3⟩ := findclosest_step1_le hr
    simp only at h1 h3
    have hmin : (if P.maxquery < query.max then P.maxquery else query.max) =
        min query.max P.maxquery := by
      split <;> omega
    rw [hmin] at h1 h3
    exact ⟨h1, fun _ => ⟨h2, h3⟩, fun hz => absurd hz h0, hzero⟩

theorem C29_witness :
    Reachable testParams one_active_table ∧ testParams.maxquery = 8 ∧
    ks_dhtrt_findclosest_nodes testParams one_active_table (query_all testParams [0x00, 0x00] 200) =
      some (1, clamped_query, clamped_table) ∧
    (1 ≤ min (query_all testParams [0x00, 0x00] 200).max testParams.maxquery ∧
      ((query_all testParams [0x00, 0x00] 200).max ≠ 0 →
        clamped_query.count = 1 ∧
        clamped_query.max = min (query_all testParams [0x00, 0x00] 200).max testParams.maxquery) ∧
      ((query_all testParams [0x00, 0x00] 200).max = 0 →
        1 = 0 ∧ clamped_query = query_all testParams [0x00, 0x00] 200 ∧
        clamped_table = one_active_table) ∧
      (∀ (t' : Table) (query' : ks_dhtrt_querynodes_t), query'.max = 0 →
        ks_dhtrt_findclosest_nodes testParams t' query' = some (0, query', t'))) :=
  ⟨reachable_table_after one_active_calls (by decide!), by decide, by decide!,
    C29_closest_count_bounded testParams one_active_table (query_all testParams [0x00, 0x00] 200)
      1 clamped_query clamped_table (by decide!)⟩

/-! ## Byte strings as big-endian integers -/

theorem be_value_append : ∀ (a b : List Nat),
    be_value (a ++ b) = be_value a * 256 ^ b.length + be_value b := by
  intro a
  induction a with
  | nil => intro b; simp [be_value]
  | cons x a ih =>
    intro b
    have h1 : be_value (x :: a ++ b) = x * 256 ^ (a ++ b).length + be_value (a ++ b) := rfl
    rw [h1, ih, List.length_append, pow_add]
    simp only [be_value]
    ring

theorem be_value_replicate_zero (j : Nat) : be_value (List.replicate j 0) = 0 := by
  induction j with
  | zero => rfl
  | succ j ih => simp [List.replicate_succ, be_value, ih]

theorem be_value_replicate_ff (r : Nat) : be_value (List.replicate r 0xff) + 1 = 256 ^ r := by
  induction r with
  | zero => rfl
  | succ r ih =>
    simp only [List.replicate_succ, be_value, List.length_replicate]
    rw [pow_succ]
    omega

theorem be_value_lt : ∀ (l : List Nat), (∀ x ∈ l, x < 256) → be_value l < 256 ^ l.length := by
  intro l
  induction l with
  | nil => intro _; simp [be_value]
  | cons x l ih =>
    intro h
    have hx : x < 256 := h x (List.mem_cons_self _ _)
    have hl := ih (fun y hy => h y (List.mem_cons_of_mem _ hy))
    simp only [be_value, List.length_cons, pow_succ]
    have : x * 256 ^ l.length + 256 ^ l.length ≤ 256 ^ l.length * 256 := by
      have := Nat.mul_le_mul_right (256 ^ l.length) (show x + 1 ≤ 256 by omega)
      rw [Nat.add_mul, Nat.one_mul] at this
      rw [Nat.mul_comm (256 ^ l.length) 256]
      exact this
    omega

theorem be_value_eq_zero : ∀ (l : List Nat), be_value l = 0 ↔ ∀ x ∈ l, x = 0 := by
  intro l
  induction l with
  | nil => simp [be_value]
  | cons x l ih =>
    simp only [be_value, List.mem_cons, forall_eq_or_imp]
    rw [← ih]
    have hpos : 0 < 256 ^ l.length := Nat.pow_pos (by norm_num)
    constructor
    · intro h
      have h1 : x * 256 ^ l.length = 0 := by omega
      have h2 : be_value l = 0 := by omega
      rcases Nat.mul_eq_zero.1 h1 with h3 | h3
      · exact ⟨h3, h2⟩
      · omega
    · rintro ⟨rfl, h2⟩
      simp [h2]

theorem be_value_inj : ∀ (a b : List Nat), a.length = b.length → (∀ x ∈ a, x < 256) →
    (∀ x ∈ b, x < 256) → be_value a = be_value b → a = b := by
  intro a
  induction a with
  | nil =>
    intro b hl _ _ _
    exact (List.length_eq_zero.1 hl.symm).symm
  | cons x a ih =>
    intro b hl ha hb hv
    cases b with
    | nil => simp at hl
    | cons y b =>
      simp only [List.length_cons, Nat.add_right_cancel_iff] at hl
      have hla := be_value_lt a (fun z hz => ha z (List.mem_cons_of_mem _ hz))
      have hlb := be_value_lt b (fun z hz => hb z (List.mem_cons_of_mem _ hz))
      simp only [be_value] at hv
      rw [hl] at hv hla
      have hxy : x = y := by
        rcases Nat.lt_trichotomy x y with h | h | h
        · exfalso
          have := Nat.mul_le_mul_right (256 ^ b.length) (show x + 1 ≤ y by omega)
          rw [Nat.add_mul, Nat.one_mul] at this
          omega
        · exact h
        · exfalso
          have := Nat.mul_le_mul_right (256 ^ b.length) (show y + 1 ≤ x by omega)
          rw [Nat.add_mul, Nat.one_mul] at this
          omega
      subst hxy
      have hv2 : be_value a = be_value b := by omega
      rw [ih b hl (fun z hz => ha z (List.mem_cons_of_mem _ hz))
        (fun z hz => hb z (List.mem_cons_of_mem _ hz)) hv2]

theorem mask_bytes_length (j m r : Nat) :
    (mask_bytes j m r).length = j + (if m = 0 then 0 else 1) + r := by
  unfold mask_bytes
  split
  · simp
  · simp
    omega

theorem trie_mask_length {n k : Nat} (hk : k ≤ 8 * n) : (trie_mask n k).length = n := by
  unfold trie_mask
  rw [mask_bytes_length]
  split <;> omega

theorem mask_bytes_lt (j m r : Nat) (hm : m < 8) : ∀ x ∈ mask_bytes j m r, x < 256 := by
  intro x hx
  unfold mask_bytes at hx
  simp only [List.mem_append, List.mem_replicate] at hx
  rcases hx with ⟨_, rfl⟩ | hx | ⟨_, rfl⟩
  · omega
  · split at hx
    · simp at hx
    · simp only [List.mem_singleton] at hx
      subst hx
      have : 2 ^ m ≤ 2 ^ 7 := Nat.pow_le_pow_right (by norm_num) (by omega)
      omega
  · omega

theorem be_value_mask_bytes (j m r : Nat) :
    be_value (mask_bytes j m r) + 1 = 2 ^ (8 * r + m) := by
  unfold mask_bytes
  rw [be_value_append, be_value_replicate_zero, Nat.zero_mul, Nat.zero_add]
  have hff := be_value_replicate_ff r
  have h256 : (256 : Nat) ^ r = 2 ^ (8 * r) := by
    rw [show (256 : Nat) = 2 ^ 8 by norm_num, ← pow_mul]
  split
  · rename_i hm
    subst hm
    simp only [List.nil_append, Nat.add_zero]
    rw [hff, h256]
  · rw [be_value_append]
    simp only [be_value, List.length_nil, pow_zero, Nat.mul_one, Nat.add_zero, List.length_replicate]
    have hpos : 0 < 2 ^ m := Nat.pow_pos (by norm_num)
    rw [pow_add, ← h256]
    have : (2 ^ m - 1) * 256 ^ r + 256 ^ r = 256 ^ r * 2 ^ m := by
      have h1 : (2 ^ m - 1 + 1) * 256 ^ r = 2 ^ m * 256 ^ r := by rw [Nat.sub_add_cancel hpos]
      rw [Nat.add_mul, Nat.one_mul] at h1
      rw [Nat.mul_comm (256 ^ r)]
      exact h1
    omega

/-- The big-endian value of the trie mask with `k` one-bits is `2^k - 1`. -/
theorem be_value_trie_mask (n k : Nat) : be_value (trie_mask n k) + 1 = 2 ^ k := by
  unfold trie_mask
  rw [be_value_mask_bytes]
  congr 1
  omega

theorem trie_mask_lt (n k : Nat) : ∀ x ∈ trie_mask n k, x < 256 :=
  mask_bytes_lt _ _ _ (Nat.mod_lt _ (by norm_num))

/-- A byte string of `n` bytes with big-endian value `2^k - 1` is the trie mask with `k`
one-bits. -/
theorem trie_mask_unique {n k : Nat} (hk : k ≤ 8 * n) {mask : List Nat} (hl : mask.length = n)
    (hb : ∀ x ∈ mask, x < 256) (hv : be_value mask = 2 ^ k - 1) : mask = trie_mask n k := by
  apply be_value_inj _ _ (by rw [hl, trie_mask_length hk]) hb (trie_mask_lt n k)
  have := be_value_trie_mask n k
  omega

/-! ## `ks_dhtrt_ismasked` on trie masks -/

theorem ismasked_loop_zeros : ∀ (j n' : Nat) (a rest m' : List Nat), a.length = j →
    (ismasked_loop (j + n') (a ++ rest) (List.replicate j 0 ++ m') = true ↔
      (∀ x ∈ a, x = 0) ∧ ismasked_loop n' rest m' = true) := by
  intro j
  induction j with
  | zero =>
    intro n' a rest m' ha
    rw [List.length_eq_zero] at ha
    subst ha
    simp
  | succ j ih =>
    intro n' a rest m' ha
    cases a with
    | nil => simp at ha
    | cons x a =>
      simp only [List.length_cons, Nat.add_right_cancel_iff] at ha
      rw [show j + 1 + n' = (j + n') + 1 by omega]
      simp only [List.replicate_succ, List.cons_append, ismasked_loop, List.headD_cons,
        List.tail_cons, true_and]
      by_cases hx : x = 0
      · subst hx
        simp only [ne_eq, not_true_eq_false, ↓reduceIte, Nat.lt_irrefl,
          List.mem_cons, forall_eq_or_imp, true_and]
        rw [if_neg (by norm_num)]
        exact ih n' a rest m' ha
      · simp [hx]

theorem ismasked_loop_ff (n : Nat) (id : List Nat) (r : Nat) (h : n = 0 ∨ 0 < r) :
    ismasked_loop n id (List.replicate r 0xff) = true := by
  cases n with
  | zero => rfl
  | succ n =>
    cases r with
    | zero => simp at h
    | succ r => simp [ismasked_loop, List.replicate_succ]

theorem ismasked_loop_tail {m r : Nat} (hm : m < 8) (rest : List Nat)
    (hl : rest.length = (if m = 0 then 0 else 1) + r) :
    (ismasked_loop rest.length rest ((if m = 0 then [] else [2 ^ m - 1]) ++ List.replicate r 0xff) =
      true ↔ (m = 0 ∨ rest.headD 0 ≤ 2 ^ m - 1)) := by
  by_cases h0 : m = 0
  · subst h0
    simp only [↓reduceIte, List.nil_append, true_or, iff_true]
    simp only [↓reduceIte, Nat.zero_add] at hl
    apply ismasked_loop_ff
    omega
  · simp only [h0, ↓reduceIte, false_or, List.singleton_append] at hl ⊢
    cases rest with
    | nil => simp only [List.length_nil] at hl; omega
    | cons b tl =>
      simp only [List.length_cons] at hl
      have hp1 : 1 ≤ 2 ^ m - 1 := by
        have : 2 ^ 1 ≤ 2 ^ m := Nat.pow_le_pow_right (by norm_num) (by omega)
        omega
      have hp2 : 2 ^ m - 1 < 255 := by
        have : 2 ^ m ≤ 2 ^ 7 := Nat.pow_le_pow_right (by norm_num) (by omega)
        omega
      simp only [List.length_cons, ismasked_loop, List.headD_cons, List.tail_cons]
      rw [if_neg (by omega), if_neg (by omega)]
      by_cases hb : 2 ^ m - 1 < b
      · simp only [hb, ↓reduceIte, Bool.false_eq_true, false_iff]
        omega
      · rw [if_neg hb]
        simp only [not_lt] at hb
        simp only [hb, iff_true]
        apply ismasked_loop_ff
        omega

/-- `ks_dhtrt_ismasked` on the byte string `mask_bytes j m r`: the first `j` bytes of the id are 0
and the next one is at most `2^m - 1`. -/
theorem ismasked_mask_bytes {j m r : Nat} (hm : m < 8) (id : List Nat)
    (hl : id.length = j + (if m = 0 then 0 else 1) + r) :
    (ismasked_loop id.length id (mask_bytes j m r) = true ↔
      (∀ x ∈ id.take j, x = 0) ∧ (m = 0 ∨ (id.drop j).headD 0 ≤ 2 ^ m - 1)) := by
  have hsplit : id = id.take j ++ id.drop j := (List.take_append_drop j id).symm
  have htl : (id.take j).length = j := by rw [List.length_take]; omega
  have hdl : (id.drop j).length = (if m = 0 then 0 else 1) + r := by rw [List.length_drop]; omega
  have hlen : id.length = j + (id.drop j).length := by rw [hdl]; omega
  unfold mask_bytes
  rw [hlen]
  conv => lhs; arg 1; arg 2; rw [hsplit]
  rw [ismasked_loop_zeros j _ _ _ _ htl, ismasked_loop_tail hm _ hdl]

theorem ismasked_trie_mask_iff {n k : Nat} (hk : k ≤ 8 * n) (id : List Nat) (hl : id.length = n)
    (hb : ∀ x ∈ id, x < 256) :
    (ismasked_loop n id (trie_mask n k) = true ↔ be_value id + 1 ≤ 2 ^ k) := by
  have hm : k % 8 < 8 := Nat.mod_lt _ (by norm_num)
  have hl2 : id.length = (n - (k + 7) / 8) + (if k % 8 = 0 then 0 else 1) + k / 8 := by
    rw [hl]; split <;> omega
  have h1 := ismasked_mask_bytes hm id hl2
  rw [hl] at h1
  unfold trie_mask
  rw [h1]
  have hsplit : id = id.take (n - (k + 7) / 8) ++ id.drop (n - (k + 7) / 8) :=
    (List.take_append_drop _ id).symm
  have hdl : (id.drop (n - (k + 7) / 8)).length = (if k % 8 = 0 then 0 else 1) + k / 8 := by
    rw [List.length_drop]; omega
  have hk2 : 2 ^ k = 2 ^ (k % 8) * 256 ^ (k / 8) := by
    rw [show (256 : Nat) = 2 ^ 8 by norm_num, ← pow_mul, ← pow_add]
    congr 1
    omega
  have hdb : ∀ x ∈ id.drop (n - (k + 7) / 8), x < 256 :=
    fun x hx => hb x (List.mem_of_mem_drop hx)
  have hdlt := be_value_lt _ hdb
  have hpos : 0 < 256 ^ (k / 8) := Nat.pow_pos (by norm_num)
  conv => rhs; rw [hsplit, be_value_append]
  rw [← be_value_eq_zero]
  by_cases h0 : k % 8 = 0
  · simp only [h0, ↓reduceIte, Nat.zero_add, true_or, and_true, pow_zero, Nat.one_mul] at hdl hk2 ⊢
    rw [hdl] at hdlt ⊢
    rw [hk2]
    constructor
    · intro hz
      rw [hz]
      omega
    · intro hle
      by_contra hne
      have h2 : 1 * 256 ^ (k / 8) ≤ be_value (List.take (n - (k + 7) / 8) id) * 256 ^ (k / 8) :=
        Nat.mul_le_mul_right _ (by omega)
      omega
  · simp only [h0, ↓reduceIte, false_or] at hdl ⊢
    cases hd : id.drop (n - (k + 7) / 8) with
    | nil => rw [hd] at hdl; simp only [List.length_nil] at hdl; omega
    | cons b tl =>
      rw [hd] at hdl hdlt hdb
      simp only [List.length_cons] at hdl
      have htl : tl.length = k / 8 := by omega
      have htlt := be_value_lt tl (fun x hx => hdb x (List.mem_cons_of_mem _ hx))
      rw [htl] at htlt
      simp only [List.headD_cons, be_value, List.length_cons, htl]
      have hp : 0 < 2 ^ (k % 8) := Nat.pow_pos (by norm_num)
      have hp8 : 2 ^ (k % 8) ≤ 2 ^ 7 := Nat.pow_le_pow_right (by norm_num) (by omega)
      rw [hk2, pow_succ]
      constructor
      · rintro ⟨hz, hble⟩
        rw [hz]
        have h2 : (b + 1) * 256 ^ (k / 8) ≤ 2 ^ (k % 8) * 256 ^ (k / 8) :=
          Nat.mul_le_mul_right _ (by omega)
        rw [Nat.add_mul, Nat.one_mul] at h2
        omega
      · intro hle
        constructor
        · by_contra hne
          have h2 : 1 * (256 ^ (k / 8) * 256) ≤
              be_value (List.take (n - (k + 7) / 8) id) * (256 ^ (k / 8) * 256) :=
            Nat.mul_le_mul_right _ (by omega)
          have h3 : 2 ^ (k % 8) * 256 ^ (k / 8) ≤ 128 * 256 ^ (k / 8) :=
            Nat.mul_le_mul_right _ (by omega)
          omega
        · by_contra hgt
          have h2 : 2 ^ (k % 8) * 256 ^ (k / 8) ≤ b * 256 ^ (k / 8) :=
            Nat.mul_le_mul_right _ (by omega)
          omega

/-- C32: for every trie mask (a byte string of `KS_DHT_NODEID_SIZE` bytes whose big-endian value
is `2^k - 1`, `0 <= k <= 8 * KS_DHT_NODEID_SIZE`) and every id of `KS_DHT_NODEID_SIZE` bytes,
`ks_dhtrt_ismasked(id, mask)` is 1 exactly when `id <= mask` as big-endian unsigned
integers. -/
theorem C32_ismasked_is_le (P : Params) (k : Nat) (hk : k ≤ 8 * P.idlen) (mask id : List Nat)
    (hmask : wf_id P mask) (hv : be_value mask = 2 ^ k - 1) (hid : wf_id P id) :
    ks_dhtrt_ismasked P id mask = true ↔ be_value id ≤ be_value mask := by
  have hm := trie_mask_unique hk hmask.1 hmask.2 hv
  subst hm
  unfold ks_dhtrt_ismasked
  rw [ismasked_trie_mask_iff hk id hid.1 hid.2]
  have := be_value_trie_mask P.idlen k
  omega

theorem C32_witness :
    (13 ≤ 8 * testParams.idlen ∧ wf_id testParams [0x1f, 0xff] ∧
      be_value [0x1f, 0xff] = 2 ^ 13 - 1 ∧ wf_id testParams [0x1f, 0x00] ∧
      wf_id testParams [0x20, 0x00]) ∧
    (ks_dhtrt_ismasked testParams [0x1f, 0x00] [0x1f, 0xff] = true ↔
      be_value [0x1f, 0x00] ≤ be_value [0x1f, 0xff]) ∧
    (ks_dhtrt_ismasked testParams [0x20, 0x00] [0x1f, 0xff] = true ↔
      be_value [0x20, 0x00] ≤ be_value [0x1f, 0xff]) ∧
    ks_dhtrt_ismasked testParams [0x1f, 0x00] [0x1f, 0xff] = true ∧
    ks_dhtrt_ismasked testParams [0x20, 0x00] [0x1f, 0xff] = false :=
  ⟨⟨by decide, by decide, by decide, by decide, by decide⟩,
    C32_ismasked_is_le testParams 13 (by decide) [0x1f, 0xff] [0x1f, 0x00] (by decide) (by decide)
      (by decide),
    C32_ismasked_is_le testParams 13 (by decide) [0x1f, 0xff] [0x20, 0x00] (by decide) (by decide)
      (by decide), by decide, by decide⟩

/-! ## The shifts on trie masks -/

theorem shiftright_loop_stop (n j b : Nat) (rest : List Nat) :
    shiftright_loop n j b (List.replicate j 0 ++ rest) = List.replicate j 0 ++ rest := by
  cases j with
  | zero => rfl
  | succ j =>
    rw [shiftright_loop]
    have : (List.replicate (j + 1) 0 ++ rest).getD j 0 = 0 := by
      rw [List.replicate_succ', List.append_assoc]
      have := getD_append_length (List.replicate j 0) rest 0 0
      simpa using this
    rw [if_pos this]

theorem shiftright_loop_last (n b0 b : Nat) (pre : List Nat) (hb : b ≠ 0)
    (hn : pre.length = n - 1) :
    shiftright_loop n (pre.length + 1) b0 (pre ++ [b]) =
      shiftright_loop n pre.length (b &&& 1) (pre ++ [b >>> 1]) := by
  rw [shiftright_loop]
  have hg : (pre ++ [b]).getD pre.length 0 = b := getD_append_length pre [] b 0
  rw [hg, if_neg hb]
  simp only [ne_eq, hn, not_true_eq_false, ↓reduceIte]
  rw [← hn, set_append_length]

theorem shiftright_loop_mid (n b0 b c : Nat) (pre post : List Nat) (hb : b ≠ 0)
    (hn : pre.length ≠ n - 1) :
    shiftright_loop n (pre.length + 1) b0 (pre ++ b :: c :: post) =
      shiftright_loop n pre.length (b &&& 1)
        (pre ++ (b >>> 1) :: ((c ||| (b0 <<< 7)) % 256) :: post) := by
  rw [shiftright_loop]
  have hg : (pre ++ b :: c :: post).getD pre.length 0 = b := getD_append_length pre _ b 0
  rw [hg, if_neg hb]
  simp only [ne_eq, hn, not_false_eq_true, ↓reduceIte]
  rw [set_append_length]
  have h1 : pre ++ (b >>> 1) :: c :: post = (pre ++ [b >>> 1]) ++ c :: post := by simp
  have h2 : pre.length + 1 = (pre ++ [b >>> 1]).length := by simp
  rw [h1, h2, getD_append_length, set_append_length]
  simp

theorem shiftright_loop_run (n : Nat) (pre0 : List Nat) : ∀ (s t : Nat),
    n = pre0.length + s + 1 + t →
    shiftright_loop n (pre0.length + s) 1
        (pre0 ++ (List.replicate s 0xff ++ 0x7f :: List.replicate t 0xff)) =
      shiftright_loop n pre0.length 1 (pre0 ++ 0x7f :: List.replicate (s + t) 0xff) := by
  intro s
  induction s with
  | zero => intro t _; simp
  | succ s ih =>
    intro t hn
    have h1 : pre0 ++ (List.replicate (s + 1) 0xff ++ 0x7f :: List.replicate t 0xff) =
        (pre0 ++ List.replicate s 0xff) ++ 0xff :: 0x7f :: List.replicate t 0xff := by
      rw [List.replicate_succ']
      simp
    have h2 : pre0.length + (s + 1) = (pre0 ++ List.replicate s 0xff).length + 1 := by
      simp only [List.length_append, List.length_replicate]; omega
    rw [h1, h2, shiftright_loop_mid n 1 0xff 0x7f (pre0 ++ List.replicate s 0xff) _ (by norm_num) (by simp only [List.length_append, List.length_replicate, List.length_cons, List.length_nil]; omega)]
    have h3 : (pre0 ++ List.replicate s 0xff) ++
        (0xff >>> 1) :: ((0x7f ||| (1 <<< 7)) % 256) :: List.replicate t 0xff =
        pre0 ++ (List.replicate s 0xff ++ 0x7f :: List.replicate (t + 1) 0xff) := by
      simp [List.replicate_succ]
    have h4 : (0xff : Nat) &&& 1 = 1 := by decide
    have h5 : (pre0 ++ List.replicate s 0xff).length = pre0.length + s := by
      simp only [List.length_append, List.length_replicate]
    rw [h3, h4, h5, ih (t + 1) (by omega)]
    rw [show s + (t + 1) = s + 1 + t by omega]

theorem low_bits_shift {m : Nat} (h1 : 1 ≤ m) (h7 : m < 8) :
    (2 ^ m - 1) >>> 1 = 2 ^ (m - 1) - 1 ∧ (2 ^ m - 1) ≠ 0 ∧ (2 ^ m - 1) ≠ 0xff ∧
    (((2 ^ m - 1) <<< 1) % 256) ||| 1 = 2 ^ (m + 1) - 1 := by
  interval_cases m <;> decide

/-- The function `ks_dhtrt_shiftright` on the byte string `mask_bytes j m r`. -/
theorem shiftright_mask_bytes (j m r : Nat) (hm : m < 8) :
    shiftright_loop (j + (if m = 0 then 0 else 1) + r) (j + (if m = 0 then 0 else 1) + r) 0
        (mask_bytes j m r) =
      (if m = 0 then (if r = 0 then mask_bytes j 0 0 else mask_bytes j 7 (r - 1))
       else if m = 1 then mask_bytes (j + 1) 0 r else mask_bytes j (m - 1) r) := by
  by_cases h0 : m = 0
  · subst h0
    simp only [↓reduceIte, Nat.add_zero]
    cases r with
    | zero =>
      simp only [↓reduceIte, Nat.add_zero]
      unfold mask_bytes
      simp only [↓reduceIte, List.replicate_zero, List.append_nil]
      have := shiftright_loop_stop j j 0 []
      simpa using this
    | succ r =>
      simp only [Nat.add_one_ne_zero, ↓reduceIte, Nat.add_sub_cancel]
      unfold mask_bytes
      simp only [↓reduceIte, List.nil_append, Nat.reducePow, Nat.add_one_sub_one,
        OfNat.ofNat_ne_zero, List.singleton_append]
      have h1 : List.replicate j 0 ++ List.replicate (r + 1) 0xff =
          (List.replicate j 0 ++ List.replicate r 0xff) ++ [0xff] := by
        rw [List.replicate_succ']; simp
      have h2 : j + (r + 1) = (List.replicate j 0 ++ List.replicate r 0xff).length + 1 := by
        simp only [List.length_append, List.length_replicate]; omega
      rw [h1]
      conv => lhs; arg 2; rw [h2]
      rw [shiftright_loop_last _ 0 0xff _ (by norm_num) (by simp only [List.length_append, List.length_replicate, List.length_cons, List.length_nil]; omega)]
      have h3 : (List.replicate j 0 ++ List.replicate r 0xff) ++ [0xff >>> 1] =
          List.replicate j 0 ++ (List.replicate r 0xff ++ 0x7f :: List.replicate 0 0xff) := by
        simp
      have h4 : (List.replicate j 0 ++ List.replicate r 0xff).length =
          (List.replicate j (0 : Nat)).length + r := by
        simp only [List.length_append, List.length_replicate]
      have h5 : (0xff : Nat) &&& 1 = 1 := by decide
      rw [h3, h4, h5, shiftright_loop_run _ _ r 0 (by simp only [List.length_append, List.length_replicate, List.length_cons, List.length_nil]; omega)]
      simp only [List.length_replicate, Nat.add_zero]
      exact shiftright_loop_stop _ j 1 _
  · have hm1 : 1 ≤ m := by omega
    obtain ⟨hs, hne0, _, _⟩ := low_bits_shift hm1 hm
    have hodd : (2 ^ m - 1) &&& 1 = 1 := by
      interval_cases m <;> decide
    have hres : (if m = 1 then mask_bytes (j + 1) 0 r else mask_bytes j (m - 1) r) =
        List.replicate j 0 ++ (2 ^ (m - 1) - 1) :: List.replicate r 0xff := by
      unfold mask_bytes
      by_cases h1 : m = 1
      · subst h1
        simp [List.replicate_succ']
      · have : m - 1 ≠ 0 := by omega
        simp [h1, this]
    simp only [h0, ↓reduceIte]
    rw [hres]
    unfold mask_bytes
    simp only [h0, ↓reduceIte, List.singleton_append]
    cases r with
    | zero =>
      simp only [List.replicate_zero, Nat.add_zero]
      have h2 : j + 1 = (List.replicate j (0 : Nat)).length + 1 := by simp
      conv => lhs; arg 2; rw [h2]
      rw [shiftright_loop_last _ 0 _ _ hne0 (by simp only [List.length_append, List.length_replicate, List.length_cons, List.length_nil]; omega), hs]
      simp only [List.length_replicate]
      exact shiftright_loop_stop _ j _ _
    | succ r =>
      have h1 : List.replicate j 0 ++ (2 ^ m - 1) :: List.replicate (r + 1) 0xff =
          ((List.replicate j 0 ++ [2 ^ m - 1]) ++ List.replicate r 0xff) ++ [0xff] := by
        rw [List.replicate_succ']; simp
      have h2 : j + 1 + (r + 1) =
          ((List.replicate j 0 ++ [2 ^ m - 1]) ++ List.replicate r 0xff).length + 1 := by
        simp only [List.length_append, List.length_replicate, List.length_cons, List.length_nil]
        omega
      rw [h1]
      conv => lhs; arg 2; rw [h2]
      rw [shiftright_loop_last _ 0 0xff _ (by norm_num) (by simp only [List.length_append, List.length_replicate, List.length_cons, List.length_nil]; omega)]
      have h3 : ((List.replicate j 0 ++ [2 ^ m - 1]) ++ List.replicate r 0xff) ++ [0xff >>> 1] =
          (List.replicate j 0 ++ [2 ^ m - 1]) ++
            (List.replicate r 0xff ++ 0x7f :: List.replicate 0 0xff) := by
        simp
      have h4 : ((List.replicate j 0 ++ [2 ^ m - 1]) ++ List.replicate r 0xff).length =
          (List.replicate j 0 ++ [2 ^ m - 1]).length + r := by
        simp only [List.length_append, List.length_replicate, List.length_cons, List.length_nil]
      have h5 : (0xff : Nat) &&& 1 = 1 := by decide
      rw [h3, h4, h5, shiftright_loop_run _ _ r 0 (by simp only [List.length_append, List.length_replicate, List.length_cons, List.length_nil]; omega)]
      have h6 : (List.replicate j 0 ++ [2 ^ m - 1]) ++ 0x7f :: List.replicate (r + 0) 0xff =
          List.replicate j 0 ++ (2 ^ m - 1) :: 0x7f :: List.replicate r 0xff := by simp
      have h7 : (List.replicate j 0 ++ [2 ^ m - 1]).length =
          (List.replicate j (0 : Nat)).length + 1 := by
        simp only [List.length_append, List.length_replicate, List.length_cons, List.length_nil]
      rw [h6, h7, shiftright_loop_mid _ 1 _ 0x7f _ _ hne0 (by simp only [List.length_append, List.length_replicate, List.length_cons, List.length_nil]; omega), hs, hodd]
      have h8 : ((0x7f : Nat) ||| (1 <<< 7)) % 256 = 0xff := by decide
      rw [h8]
      simp only [List.length_replicate]
      have := shiftright_loop_stop (j + 1 + (r + 1)) j 1
        ((2 ^ (m - 1) - 1) :: 0xff :: List.replicate r 0xff)
      rw [this, List.replicate_succ]

/-- The function `ks_dhtrt_shiftright` takes the trie mask with `k` one-bits to the one with
`k - 1`. -/
theorem shiftright_trie_mask (P : Params) {k : Nat} (hk : k ≤ 8 * P.idlen) :
    ks_dhtrt_shiftright P (trie_mask P.idlen k) = trie_mask P.idlen (k - 1) := by
  unfold ks_dhtrt_shiftright trie_mask
  have hm : k % 8 < 8 := Nat.mod_lt _ (by norm_num)
  have hn : P.idlen = (P.idlen - (k + 7) / 8) + (if k % 8 = 0 then 0 else 1) + k / 8 := by
    split <;> omega
  conv => lhs; arg 1; rw [hn]
  conv => lhs; arg 2; rw [hn]
  rw [shiftright_mask_bytes _ _ _ hm]
  by_cases h0 : k % 8 = 0
  · simp only [h0, ↓reduceIte]
    by_cases hr : k / 8 = 0
    · have hk0 : k = 0 := by omega
      subst hk0
      simp
    · simp only [hr, ↓reduceIte]
      have e1 : (k - 1) % 8 = 7 := by omega
      have e2 : (k - 1) / 8 = k / 8 - 1 := by omega
      have e3 : (k - 1 + 7) / 8 = (k + 7) / 8 := by omega
      rw [e1, e2, e3]
  · simp only [h0, ↓reduceIte]
    by_cases h1 : k % 8 = 1
    · simp only [h1, ↓reduceIte]
      have e1 : (k - 1) % 8 = 0 := by omega
      have e2 : (k - 1) / 8 = k / 8 := by omega
      have e3 : P.idlen - (k - 1 + 7) / 8 = P.idlen - (k + 7) / 8 + 1 := by omega
      rw [e1, e2, e3]
    · simp only [h1, ↓reduceIte]
      have e1 : (k - 1) % 8 = k % 8 - 1 := by omega
      have e2 : (k - 1) / 8 = k / 8 := by omega
      have e3 : (k - 1 + 7) / 8 = (k + 7) / 8 := by omega
      rw [e1, e2, e3]

theorem shiftleft_loop_skip (pre : List Nat) (r : Nat) : ∀ s, s ≤ r →
    shiftleft_loop (pre.length + s) (pre ++ List.replicate r 0xff) =
      shiftleft_loop pre.length (pre ++ List.replicate r 0xff) := by
  intro s
  induction s with
  | zero => intro _; rfl
  | succ s ih =>
    intro hs
    rw [show pre.length + (s + 1) = (pre.length + s) + 1 by omega, shiftleft_loop]
    have hg : (pre ++ List.replicate r 0xff).getD (pre.length + s) 0 = 0xff := by
      have h1 : pre ++ List.replicate r 0xff =
          (pre ++ List.replicate s 0xff) ++ 0xff :: List.replicate (r - s - 1) 0xff := by
        rw [List.append_assoc, ← List.replicate_succ, List.append_replicate_replicate]
        congr 2
        omega
      have h2 : pre.length + s = (pre ++ List.replicate s 0xff).length := by
        simp only [List.length_append, List.length_replicate]
      rw [h1, h2, getD_append_length]
    rw [if_pos hg]
    exact ih (by omega)

theorem shiftleft_loop_set (pre : List Nat) (b : Nat) (post : List Nat) (hb : b ≠ 0xff) :
    shiftleft_loop (pre.length + 1) (pre ++ b :: post) =
      pre ++ (((b <<< 1) % 256) ||| 1) :: post := by
  rw [shiftleft_loop, getD_append_length, if_neg hb, set_append_length]

/-- The function `ks_dhtrt_shiftleft` on the byte string `mask_bytes j m r`. -/
theorem shiftleft_mask_bytes (j m r : Nat) (hm : m < 8) :
    shiftleft_loop (j + (if m = 0 then 0 else 1) + r) (mask_bytes j m r) =
      (if m = 0 then (if j = 0 then mask_bytes 0 0 r else mask_bytes (j - 1) 1 r)
       else if m = 7 then mask_bytes j 0 (r + 1) else mask_bytes j (m + 1) r) := by
  by_cases h0 : m = 0
  · subst h0
    simp only [↓reduceIte, Nat.add_zero]
    unfold mask_bytes
    simp only [↓reduceIte, List.nil_append]
    cases j with
    | zero =>
      simp only [List.replicate_zero, List.nil_append, Nat.zero_add, ↓reduceIte]
      have := shiftleft_loop_skip [] r r (Nat.le_refl _)
      simpa [shiftleft_loop] using this
    | succ j =>
      simp only [Nat.add_one_ne_zero, ↓reduceIte, Nat.add_sub_cancel, one_ne_zero, pow_one,
        Nat.add_one_sub_one, List.singleton_append]
      have h1 : List.replicate (j + 1) 0 ++ List.replicate r 0xff =
          (List.replicate j 0 ++ [0]) ++ List.replicate r 0xff := by
        rw [List.replicate_succ']
      have h2 : j + 1 + r = (List.replicate j 0 ++ [0]).length + r := by
        simp only [List.length_append, List.length_replicate, List.length_cons, List.length_nil]
      rw [h1, h2, shiftleft_loop_skip _ r r (Nat.le_refl _)]
      have h3 : (List.replicate j 0 ++ [0]) ++ List.replicate r 0xff =
          List.replicate j 0 ++ 0 :: List.replicate r 0xff := by simp
      have h4 : (List.replicate j 0 ++ [0]).length = (List.replicate j (0 : Nat)).length + 1 := by
        simp only [List.length_append, List.length_replicate, List.length_cons, List.length_nil]
      rw [h3, h4, shiftleft_loop_set _ _ _ (by norm_num)]
      rfl
  · have hm1 : 1 ≤ m := by omega
    obtain ⟨_, _, hneff, hsl⟩ := low_bits_shift hm1 hm
    have hres : (if m = 7 then mask_bytes j 0 (r + 1) else mask_bytes j (m + 1) r) =
        List.replicate j 0 ++ (2 ^ (m + 1) - 1) :: List.replicate r 0xff := by
      unfold mask_bytes
      by_cases h7 : m = 7
      · subst h7
        simp [List.replicate_succ]
      · simp [h7]
    simp only [h0, ↓reduceIte]
    rw [hres]
    unfold mask_bytes
    simp only [h0, ↓reduceIte, List.singleton_append]
    have h1 : List.replicate j 0 ++ (2 ^ m - 1) :: List.replicate r 0xff =
        (List.replicate j 0 ++ [2 ^ m - 1]) ++ List.replicate r 0xff := by simp
    have h2 : j + 1 + r = (List.replicate j 0 ++ [2 ^ m - 1]).length + r := by
      simp only [List.length_append, List.length_replicate, List.length_cons, List.length_nil]
    rw [h1, h2, shiftleft_loop_skip _ r r (Nat.le_refl _)]
    have h3 : (List.replicate j 0 ++ [2 ^ m - 1]) ++ List.replicate r 0xff =
        List.replicate j 0 ++ (2 ^ m - 1) :: List.replicate r 0xff := by simp
    have h4 : (List.replicate j 0 ++ [2 ^ m - 1]).length =
        (List.replicate j (0 : Nat)).length + 1 := by
      simp only [List.length_append, List.length_replicate, List.length_cons, List.length_nil]
    rw [h3, h4, shiftleft_loop_set _ _ _ hneff, hsl]

/-- The function `ks_dhtrt_shiftleft` takes the trie mask with `k` one-bits to the one with
`k + 1`, and leaves the all-ones mask as it is. -/
theorem shiftleft_trie_mask (P : Params) {k : Nat} (hk : k ≤ 8 * P.idlen) :
    ks_dhtrt_shiftleft P (trie_mask P.idlen k) =
      trie_mask P.idlen (if k = 8 * P.idlen then k else k + 1) := by
  unfold ks_dhtrt_shiftleft trie_mask
  have hm : k % 8 < 8 := Nat.mod_lt _ (by norm_num)
  have hn : P.idlen = (P.idlen - (k + 7) / 8) + (if k % 8 = 0 then 0 else 1) + k / 8 := by
    split <;> omega
  conv => lhs; arg 1; rw [hn]
  rw [shiftleft_mask_bytes _ _ _ hm]
  by_cases h0 : k % 8 = 0
  · simp only [h0, ↓reduceIte]
    by_cases hj : P.idlen - (k + 7) / 8 = 0
    · have hk8 : k = 8 * P.idlen := by omega
      simp only [hj, ↓reduceIte, hk8]
      have e1 : 8 * P.idlen % 8 = 0 := by omega
      have e2 : P.idlen - (8 * P.idlen + 7) / 8 = 0 := by omega
      rw [e1, e2]
      simp only [↓reduceIte]
    · have hk8 : k ≠ 8 * P.idlen := by omega
      simp only [hj, ↓reduceIte, hk8]
      have e1 : (k + 1) % 8 = 1 := by omega
      have e2 : (k + 1) / 8 = k / 8 := by omega
      have e3 : P.idlen - (k + 1 + 7) / 8 = P.idlen - (k + 7) / 8 - 1 := by omega
      rw [e1, e2, e3]
  · have hk8 : k ≠ 8 * P.idlen := by omega
    simp only [h0, ↓reduceIte, hk8]
    by_cases h7 : k % 8 = 7
    · simp only [h7, ↓reduceIte]
      have e1 : (k + 1) % 8 = 0 := by omega
      have e2 : (k + 1) / 8 = k / 8 + 1 := by omega
      have e3 : (k + 1 + 7) / 8 = (k + 7) / 8 := by omega
      rw [e1, e2, e3]
    · simp only [h7, ↓reduceIte]
      have e1 : (k + 1) % 8 = k % 8 + 1 := by omega
      have e2 : (k + 1) / 8 = k / 8 := by omega
      have e3 : (k + 1 + 7) / 8 = (k + 7) / 8 := by omega
      rw [e1, e2, e3]

/-- C33: on every trie mask (a byte string of `KS_DHT_NODEID_SIZE` bytes with big-endian value
`2^k - 1`, `0 <= k <= 8 * KS_DHT_NODEID_SIZE`) `ks_dhtrt_shiftright` gives the trie mask with
one bit less, of value `2^(k-1) - 1`, which is the value of the mask shifted right by one
bit (halved); on the all-zero mask (`k = 0`) it changes nothing. -/
theorem C33_shiftright_trie_mask (P : Params) (k : Nat) (hk : k ≤ 8 * P.idlen) (mask : List Nat)
    (hmask : wf_id P mask) (hv : be_value mask = 2 ^ k - 1) :
    wf_id P (ks_dhtrt_shiftright P mask) ∧
    be_value (ks_dhtrt_shiftright P mask) = 2 ^ (k - 1) - 1 ∧
    be_value (ks_dhtrt_shiftright P mask) = be_value mask / 2 ∧
    (k = 0 → ks_dhtrt_shiftright P mask = mask) := by
  have hm := trie_mask_unique hk hmask.1 hmask.2 hv
  subst hm
  rw [shiftright_trie_mask P hk]
  have h1 := be_value_trie_mask P.idlen (k - 1)
  have h2 := be_value_trie_mask P.idlen k
  refine ⟨⟨trie_mask_length (by omega), trie_mask_lt _ _⟩, by omega, ?_, ?_⟩
  · cases k with
    | zero => simp only [Nat.zero_sub, pow_zero] at h1 h2 ⊢; omega
    | succ k =>
      simp only [Nat.add_sub_cancel] at h1 ⊢
      rw [pow_succ] at h2
      omega
  · intro h0
    subst h0
    rfl

theorem C33_witness :
    (9 ≤ 8 * testParams.idlen ∧ wf_id testParams [0x01, 0xff] ∧ be_value [0x01, 0xff] = 2 ^ 9 - 1) ∧
    ks_dhtrt_shiftright testParams [0x01, 0xff] = [0x00, 0xff] ∧
    (wf_id testParams (ks_dhtrt_shiftright testParams [0x01, 0xff]) ∧
      be_value (ks_dhtrt_shiftright testParams [0x01, 0xff]) = 2 ^ (9 - 1) - 1 ∧
      be_value (ks_dhtrt_shiftright testParams [0x01, 0xff]) = be_value [0x01, 0xff] / 2 ∧
      (9 = 0 → ks_dhtrt_shiftright testParams [0x01, 0xff] = [0x01, 0xff])) :=
  ⟨⟨by decide, by decide, by decide⟩, by decide,
    C33_shiftright_trie_mask testParams 9 (by decide) [0x01, 0xff] (by decide) (by decide)⟩

/-- C40: on every trie mask with at least one one-bit (`1 <= k`),
`ks_dhtrt_shiftleft(ks_dhtrt_shiftright(mask))` is the mask again, and on every trie mask with
`k < 8 * KS_DHT_NODEID_SIZE`, `ks_dhtrt_shiftright(ks_dhtrt_shiftleft(mask))` is the mask again. -/
theorem C40_shifts_inverse (P : Params) (k : Nat) (hk : k ≤ 8 * P.idlen) (mask : List Nat)
    (hmask : wf_id P mask) (hv : be_value mask = 2 ^ k - 1) :
    (1 ≤ k → ks_dhtrt_shiftleft P (ks_dhtrt_shiftright P mask) = mask) ∧
    (k < 8 * P.idlen → ks_dhtrt_shiftright P (ks_dhtrt_shiftleft P mask) = mask) := by
  have hm := trie_mask_unique hk hmask.1 hmask.2 hv
  subst hm
  constructor
  · intro h1
    rw [shiftright_trie_mask P hk, shiftleft_trie_mask P (by omega)]
    rw [if_neg (by omega)]
    congr 1
    omega
  · intro hlt
    rw [shiftleft_trie_mask P hk, if_neg (by omega), shiftright_trie_mask P (by omega)]
    rfl

theorem C40_witness :
    (8 ≤ 8 * testParams.idlen ∧ wf_id testParams [0x00, 0xff] ∧ be_value [0x00, 0xff] = 2 ^ 8 - 1 ∧
      1 ≤ 8 ∧ 8 < 8 * testParams.idlen) ∧
    ks_dhtrt_shiftright testParams [0x00, 0xff] = [0x00, 0x7f] ∧
    ks_dhtrt_shiftleft testParams [0x00, 0xff] = [0x01, 0xff] ∧
    ((1 ≤ 8 → ks_dhtrt_shiftleft testParams (ks_dhtrt_shiftright testParams [0x00, 0xff]) =
        [0x00, 0xff]) ∧
      (8 < 8 * testParams.idlen →
        ks_dhtrt_shiftright testParams (ks_dhtrt_shiftleft testParams [0x00, 0xff]) =
          [0x00, 0xff])) :=
  ⟨⟨by decide, by decide, by decide, by decide, by decide⟩, by decide, by decide,
    C40_shifts_inverse testParams 8 (by decide) [0x00, 0xff] (by decide) (by decide)⟩

/-! ## The shape of the trie -/

theorem ShapeInv_hdr {P : Params} {j : Nat} {m : List Nat} {f : Nat}
    {b : Option ks_dhtrt_bucket_t} {l r : Header} {l1 r1 : Option HPtr} {k : Nat} :
    ShapeInv P j (.hdr m f b l r l1 r1) k ↔
      m = trie_mask P.idlen k ∧ k ≤ 8 * P.idlen ∧ (b = none → j ≤ k) ∧
        ShapeInv P j l (k - 1) ∧ ShapeInv P j r k :=
  Iff.rfl

/-- A store through a pointer keeps the shape when the new header has the shape of the
header it replaces. -/
theorem ShapeInv.store {P : Params} {j : Nat} (h1 : Header) : ∀ (p : HPtr) (root : Header) (k : Nat),
    ShapeInv P j root k → (∀ k1, ShapeInv P j (deref root p) k1 → ShapeInv P j h1 k1) →
    ShapeInv P j (KsDht.setAt h1 root p) k := by
  intro p
  induction p with
  | nil => intro root k h hs; simpa using hs k (by simpa using h)
  | cons d p ih =>
    intro root k h hs
    cases root with
    | null => exact trivial
    | hdr m f b l r l1 r1 =>
      obtain ⟨hm, hk, hb, hl, hr⟩ := ShapeInv_hdr.1 h
      cases d
      · simp only [KsDht.setAt, Bool.false_eq_true, if_false]
        exact ShapeInv_hdr.2 ⟨hm, hk, hb, ih l _ hl (by simpa [deref] using hs), hr⟩
      · simp only [KsDht.setAt, if_true]
        exact ShapeInv_hdr.2 ⟨hm, hk, hb, hl, ih r _ hr (by simpa [deref] using hs)⟩

theorem ShapeInv.store_bucket {P : Params} {j : Nat} {root : Header} {k : Nat}
    (h : ShapeInv P j root k) (p : HPtr) (b : ks_dhtrt_bucket_t) :
    ShapeInv P j (KsDht.setAt (KsDht.set_bucket b (deref root p)) root p) k := by
  refine ShapeInv.store _ p root k h (fun k1 h1 => ?_)
  cases hd : deref root p with
  | null => exact trivial
  | hdr m f b0 l r l1 r1 =>
    rw [hd] at h1
    obtain ⟨hm, hk, _, hl, hr⟩ := ShapeInv_hdr.1 h1
    exact ShapeInv_hdr.2 ⟨hm, hk, (fun hc => by cases hc), hl, hr⟩

theorem ShapeInv.store_left1bit {P : Params} {j : Nat} {root : Header} {k : Nat}
    (h : ShapeInv P j root k) (p : HPtr) (v : Option HPtr) :
    ShapeInv P j (KsDht.setAt (KsDht.set_left1bit v (deref root p)) root p) k := by
  refine ShapeInv.store _ p root k h (fun k1 h1 => ?_)
  cases hd : deref root p with
  | null => exact trivial
  | hdr m f b0 l r l1 r1 => rw [hd] at h1; exact h1

theorem ShapeInv.store_right1bit {P : Params} {j : Nat} {root : Header} {k : Nat}
    (h : ShapeInv P j root k) (p : HPtr) (v : Option HPtr) :
    ShapeInv P j (KsDht.setAt (KsDht.set_right1bit v (deref root p)) root p) k := by
  refine ShapeInv.store _ p root k h (fun k1 h1 => ?_)
  cases hd : deref root p with
  | null => exact trivial
  | hdr m f b0 l r l1 r1 => rw [hd] at h1; exact h1

/-- The shape below a header of the trie: the header at the path `p` has the shape with
as many bits less as the path has steps to the left. -/
theorem ShapeInv.below {P : Params} {j : Nat} : ∀ (p : HPtr) (root : Header) (k : Nat),
    ShapeInv P j root k → ∃ k1, k1 ≤ k ∧ ShapeInv P j (KsDht.deref root p) k1 := by
  intro p
  induction p with
  | nil => intro root k h; exact ⟨k, Nat.le_refl _, by simpa using h⟩
  | cons d p ih =>
    intro root k h
    cases root with
    | null => exact ⟨k, Nat.le_refl _, by simp [KsDht.deref]; exact trivial⟩
    | hdr m f b l r l1 r1 =>
      obtain ⟨_, _, _, hl, hr⟩ := ShapeInv_hdr.1 h
      cases d
      · obtain ⟨k1, hk1, h1⟩ := ih l _ hl
        exact ⟨k1, by omega, by simpa [KsDht.deref] using h1⟩
      · obtain ⟨k1, hk1, h1⟩ := ih r _ hr
        exact ⟨k1, hk1, by simpa [KsDht.deref] using h1⟩

/-! ### Operations that write buckets and cached pointers only -/

theorem touch_node_keeps {Q : Header → Prop}
    (hQ : ∀ root p b, Q root → Q (setAt (set_bucket b (deref root p)) root p))
    {P : Params} (now : Nat) (t : Table) (x : List Nat) (hq : Q t.buckets) :
    Q (touch_node_locked P now t x).2.buckets := by
  unfold touch_node_locked
  cases hf : ks_dhtrt_find_bucketheader P t.buckets x with
  | none => exact hq
  | some p =>
    simp only
    cases hb : (deref t.buckets p).bucket with
    | none => exact hq
    | some b =>
      cases he : ks_dhtrt_find_bucketentry P (deref t.buckets p) x with
      | none => exact hq
      | some ix => exact hQ _ p _ hq

theorem expire_node_keeps {Q : Header → Prop}
    (hQ : ∀ root p b, Q root → Q (setAt (set_bucket b (deref root p)) root p))
    {P : Params} (t : Table) (x : List Nat) (hq : Q t.buckets) :
    Q (expire_node_locked P t x).2.buckets := by
  unfold expire_node_locked
  cases hf : ks_dhtrt_find_bucketheader P t.buckets x with
  | none => exact hq
  | some p =>
    simp only
    cases hb : (deref t.buckets p).bucket with
    | none => exact hq
    | some b =>
      cases he : ks_dhtrt_find_bucketentry P (deref t.buckets p) x with
      | none => exact hq
      | some ix => exact hQ _ p _ hq

theorem delete_node_keeps {Q : Header → Prop}
    (hQ : ∀ root p b, Q root → Q (setAt (set_bucket b (deref root p)) root p))
    {P : Params} {t t1 : Table} {n : Nat} {s : ks_status_t} (hq : Q t.buckets)
    (h : delete_node_locked P t n = some (s, t1)) : Q t1.buckets := by
  unfold delete_node_locked at h
  cases hn : node_at t n with
  | none => rw [hn] at h; simp at h
  | some r =>
    rw [hn] at h
    simp only at h
    cases hf : ks_dhtrt_find_bucketheader P t.buckets r.nodeid with
    | none =>
      rw [hf] at h
      simp only [Option.some.injEq, Prod.mk.injEq] at h
      rw [← h.2]; exact hq
    | some p =>
      rw [hf] at h
      simp only at h
      cases hb : (deref t.buckets p).bucket with
      | none =>
        rw [hb] at h
        simp only [Option.some.injEq, Prod.mk.injEq] at h
        rw [← h.2]; exact hq
      | some b =>
        rw [hb] at h
        simp only [Option.some.injEq, Prod.mk.injEq] at h
        rw [← h.2, queue_buckets]
        exact hQ _ p _ hq

theorem process_bucket_keeps {Q : Header → Prop}
    (hQ : ∀ root p b, Q root → Q (setAt (set_bucket b (deref root p)) root p))
    {P : Params} {t0 : Nat} {nodes : List (Option ks_dht_node_t)}
    {root root1 : Header} {header : HPtr} {pc pc1 : Nat} {pings pings1 : List Nat}
    (hq : Q root)
    (h : process_bucket P t0 nodes root header pc pings = some (root1, pc1, pings1)) :
    Q root1 := by
  unfold process_bucket at h
  cases hb : (deref root header).bucket with
  | none =>
    rw [hb] at h
    simp only [Option.some.injEq, Prod.mk.injEq] at h
    rw [← h.1]; exact hq
  | some b =>
    rw [hb] at h
    simp only at h
    split at h
    · simp only [Option.some.injEq, Prod.mk.injEq] at h
      rw [← h.1]; exact hq
    · split at h
      · simp at h
      · simp only [Option.some.injEq, Prod.mk.injEq] at h
        rw [← h.1]
        exact hQ _ header _ hq

theorem process_walk_keeps {Q : Header → Prop}
    (hQ : ∀ root p b, Q root → Q (setAt (set_bucket b (deref root p)) root p))
    {P : Params} {t0 : Nat} {nodes : List (Option ks_dht_node_t)} :
    ∀ (fuel : Nat) (st st1 : sweep_state), Q st.root →
      process_walk P t0 nodes fuel st = some st1 → Q st1.root := by
  intro fuel
  induction fuel with
  | zero =>
    intro st st1 hq h
    simp only [process_walk] at h
    split at h
    · simp only [Option.some.injEq] at h; rw [← h]; exact hq
    · simp at h
  | succ fuel ih =>
    intro st st1 hq h
    simp only [process_walk] at h
    cases hh : st.header with
    | none => rw [hh] at h; simp only [Option.some.injEq] at h; rw [← h]; exact hq
    | some header =>
      rw [hh] at h
      simp only at h
      split at h
      · simp at h
      · cases hb : process_bucket P t0 nodes st.root header st.ping_count st.pings with
        | none => rw [hb] at h; simp at h
        | some r =>
          obtain ⟨root1, pc1, pings1⟩ := r
          rw [hb] at h
          simp only at h
          have h1 := process_bucket_keeps hQ hq hb
          split at h
          · exact ih _ st1 h1 h
          · exact ih _ st1 h1 h

/-- A sweep writes only the buckets of the headers. -/
theorem process_table_keeps {Q : Header → Prop}
    (hQ : ∀ root p b, Q root → Q (setAt (set_bucket b (deref root p)) root p))
    {P : Params} {fuel t0 : Nat} {t t1 : Table} {pings : List Nat}
    (hq : Q t.buckets) (h : ks_dhtrt_process_table P fuel t0 t = some (t1, pings)) :
    Q t1.buckets := by
  unfold ks_dhtrt_process_table at h
  split at h
  · simp only [Option.some.injEq, Prod.mk.injEq] at h; rw [← h.1]; exact hq
  · simp only at h
    split at h
    · simp at h
    · rename_i st hst
      have h1 := process_walk_keeps hQ fuel _ st hq hst
      unfold ks_dhtrt_process_deleted at h
      simp only at h
      split at h
      · simp at h
      · rename_i t2 ht2
        split at ht2
        · simp at ht2
        · simp only [Option.some.injEq] at ht2
          simp only [Option.some.injEq, Prod.mk.injEq] at h
          rw [← h.1, ← ht2]
          exact h1

/-! ## Splits in the loop of the insertion -/

theorem trie_mask_zero (n : Nat) : trie_mask n 0 = List.replicate n 0 := by
  simp [trie_mask, mask_bytes]

theorem trie_mask_full (n : Nat) : trie_mask n (8 * n) = List.replicate n 0xff := by
  unfold trie_mask mask_bytes
  have e1 : n - (8 * n + 7) / 8 = 0 := by omega
  have e2 : 8 * n % 8 = 0 := by omega
  have e3 : 8 * n / 8 = n := by omega
  rw [e1, e2, e3]
  simp

theorem trie_mask_one (n : Nat) : trie_mask n 1 = List.replicate (n - 1) 0 ++ [1] := by
  simp [trie_mask, mask_bytes]

theorem getD_replicate_zero (n i : Nat) : (List.replicate n 0).getD i 0 = 0 := by
  rw [List.getD_eq_getElem?_getD]
  by_cases h : i < n
  · simp [List.getElem?_replicate, h]
  · simp [List.getElem?_replicate, h]

/-- The ids that satisfy the mask with one one-bit are the all-zero id and the id `0..01`. -/
theorem ismasked_loop_one : ∀ (j : Nat) (id : List Nat), id.length = j + 1 →
    ismasked_loop (j + 1) id (List.replicate j 0 ++ [1]) = true →
    id = List.replicate j 0 ++ [0] ∨ id = List.replicate j 0 ++ [1] := by
  intro j
  induction j with
  | zero =>
    intro id hl h
    match id, hl with
    | [a], _ =>
      simp only [List.replicate_zero, List.nil_append, ismasked_loop, List.headD_cons] at h
      have ha : a ≤ 1 := by
        by_contra hc
        simp [show 1 < a by omega] at h
      rcases Nat.le_one_iff_eq_zero_or_eq_one.1 ha with h0 | h1
      · left; rw [h0]; rfl
      · right; rw [h1]; rfl
  | succ j ih =>
    intro id hl h
    match id, hl with
    | a :: rest, hl =>
      have hm : List.replicate (j + 1) 0 ++ [1] = 0 :: (List.replicate j 0 ++ [1]) := rfl
      rw [hm, ismasked_loop] at h
      simp only [List.headD_cons, List.tail_cons, true_and] at h
      by_cases ha : a = 0
      · subst ha
        simp only [ne_eq, not_true_eq_false, if_false, OfNat.zero_ne_ofNat, lt_self_iff_false] at h
        rcases ih rest (by simpa using hl) h with h1 | h1
        · left; rw [h1]; rfl
        · right; rw [h1]; rfl
      · simp [ha] at h

/-- A full bucket of at least two slots whose ids satisfy the mask with one one-bit holds
every id that satisfies that mask. -/
theorem full_width_one {P : Params} (hK : 2 ≤ P.bucketsize) (hn : 0 < P.idlen)
    {b : ks_dhtrt_bucket_t} (hb : BucketInv P b) (hfull : b.count = P.bucketsize)
    (hm : ∀ y ∈ inuse_ids b, ks_dhtrt_ismasked P y (trie_mask P.idlen 1) = true)
    {x : List Nat} (hx : x.length = P.idlen)
    (hxm : ks_dhtrt_ismasked P x (trie_mask P.idlen 1) = true) : x ∈ inuse_ids b := by
  by_contra hnot
  have hone : ∀ y : List Nat, y.length = P.idlen →
      ks_dhtrt_ismasked P y (trie_mask P.idlen 1) = true →
      y ∈ [List.replicate (P.idlen - 1) 0 ++ [0], List.replicate (P.idlen - 1) 0 ++ [1]] := by
    intro y hy hym
    unfold ks_dhtrt_ismasked at hym
    rw [trie_mask_one] at hym
    have h1 := ismasked_loop_one (P.idlen - 1) y (by omega)
      (by rw [show P.idlen - 1 + 1 = P.idlen by omega]; exact hym)
    simp only [List.mem_cons, List.mem_singleton, List.not_mem_nil, or_false]
    exact h1
  have hnd : (x :: inuse_ids b).Nodup := List.nodup_cons.2 ⟨hnot, hb.nodup⟩
  have hsub : (x :: inuse_ids b) ⊆
      [List.replicate (P.idlen - 1) 0 ++ [0], List.replicate (P.idlen - 1) 0 ++ [1]] := by
    intro y hy
    rcases List.mem_cons.1 hy with h | h
    · rw [h]; exact hone x hx hxm
    · obtain ⟨e, he, hi, hid⟩ := mem_inuse_ids.1 h
      exact hone y (by rw [← hid]; exact (hb.wf e he hi).1) (hm y h)
  have hle := (List.Nodup.subperm hnd hsub).length_le
  have hlen : (inuse_ids b).length = P.bucketsize := by
    rw [← hfull, hb.count]
    simp [inuse_ids]
  simp only [List.length_cons, hlen, List.length_nil] at hle
  omega

theorem shape_leaf_result {P : Params} {j : Nat} {m : List Nat} {f : Nat}
    {b : ks_dhtrt_bucket_t} (b1 : ks_dhtrt_bucket_t) {l1 r1 : Option HPtr} {k : Nat}
    (hs : ShapeInv P j (.hdr m f (some b) .null .null l1 r1) k) :
    ShapeInv P j (.hdr m f (some b1) .null .null l1 r1) k ∧
    internal_count (.hdr m f (some b1) .null .null l1 r1) ≤ k ∧
    ((ks_dhtrt_bucket_header_t.hdr m f (some b) .null .null l1 r1).flags = 0 →
      internal_count (.hdr m f (some b1) .null .null l1 r1) = 0) := by
  obtain ⟨hm, hk, _, _, _⟩ := ShapeInv_hdr.1 hs
  refine ⟨ShapeInv_hdr.2 ⟨hm, hk, (fun hc => by cases hc), trivial, trivial⟩, ?_, fun _ => ?_⟩
  · simp [internal_count]
  · simp [internal_count]

/-- The loop of `ks_dhtrt_insert_node` on a leaf whose mask has `k` one-bits: the header it
leaves has the shape of the trie, every split it makes takes one bit off the mask, so it
makes at most `k` of them and none on a header without `BHF_LEFT`; and it returns when more
than `k` rounds are allowed. -/
theorem insert_loop_shape {P : Params} (hP : P.ok) {j : Nat}
    (hj : j = 1 ∨ (j = 2 ∧ 2 ≤ P.bucketsize)) (now nptr : Nat) (node : ks_dht_node_t)
    (hlen : node.nodeid.length = P.idlen) :
    ∀ (fuel : Nat) (h : Header) (k : Nat), TrieInv P h → h.bucket.isSome = true →
      node.nodeid ∉ ids h → ks_dhtrt_ismasked P node.nodeid h.mask = true →
      ShapeInv P j h k →
      (∀ s h1, insert_node_loop P now nptr node fuel h = some (s, h1) →
        ShapeInv P j h1 k ∧ internal_count h1 ≤ k ∧ (h.flags = 0 → internal_count h1 = 0)) ∧
      ((k < fuel ∨ (h.flags = 0 ∧ 0 < fuel)) →
        ∃ s h1, insert_node_loop P now nptr node fuel h = some (s, h1)) := by
  intro fuel
  induction fuel with
  | zero =>
    intro h k hinv hbk hx hm hs
    cases h with
    | null => exact absurd hinv id
    | hdr m f b l r l1 r1 =>
      cases b with
      | none => simp [ks_dhtrt_bucket_header_t.bucket] at hbk
      | some b =>
        obtain ⟨hl, hr0, hb, hmask, hfl⟩ := TrieInv_leaf.1 hinv
        subst hl hr0
        rw [ids_leaf] at hx
        by_cases hfull : b.count = P.bucketsize
        · have hv : insert_node_loop P now nptr node 0 (.hdr m f (some b) .null .null l1 r1) =
              none := by
            simp [insert_node_loop, hfull]
          rw [hv]
          refine ⟨(fun s h1 hr => by cases hr), fun hf => ?_⟩
          rcases hf with h0 | ⟨_, h0⟩ <;> omega
        · have hcount : b.count ≤ P.bucketsize := by
            rw [hb.count, ← hb.len]; exact List.length_filter_le _ _
          obtain ⟨b1, hv⟩ := @insert_loop_room P hP now nptr node hlen m f b .null .null l1 r1 hb hx
            (by omega) 0
          rw [hv]
          refine ⟨fun s h1 hr => ?_, fun _ => ⟨_, _, rfl⟩⟩
          simp only [Option.some.injEq, Prod.mk.injEq] at hr
          rw [← hr.2]
          exact shape_leaf_result b1 hs
  | succ fuel ih =>
    intro h k hinv hbk hx hm hs
    cases h with
    | null => exact absurd hinv id
    | hdr m f b l r l1 r1 =>
      cases b with
      | none => simp [ks_dhtrt_bucket_header_t.bucket] at hbk
      | some b =>
        obtain ⟨hl, hr0, hb, hmask, hfl⟩ := TrieInv_leaf.1 hinv
        subst hl hr0
        rw [ids_leaf] at hx
        simp only [ks_dhtrt_bucket_header_t.mask] at hm
        by_cases hfull : b.count = P.bucketsize
        · have hcase : (∃ b1, (if b.expired_count ≠ 0 then ks_dhtrt_insert_id P now b nptr node
                  else some (KS_STATUS_FAIL, b)) = some (KS_STATUS_SUCCESS, b1)) ∨
              (if b.expired_count ≠ 0 then ks_dhtrt_insert_id P now b nptr node
                  else some (KS_STATUS_FAIL, b)) = some (KS_STATUS_FAIL, b) := by
            by_cases hec : b.expired_count ≠ 0
            · rw [if_pos hec]
              rcases insert_id_spec hP now nptr node hb hx hlen with
                ⟨k1, e, k2, he, ⟨_, hc, _⟩ | ⟨h0, _, _, hins⟩⟩ | ⟨hins, _, _⟩
              · omega
              · exact Or.inl ⟨_, hins⟩
              · exact Or.inr hins
            · rw [if_neg hec]; exact Or.inr rfl
          rcases hcase with ⟨b1, hins⟩ | hins
          · have hv : insert_node_loop P now nptr node (fuel + 1)
                (.hdr m f (some b) .null .null l1 r1) =
                some (KS_STATUS_SUCCESS, .hdr m f (some b1) .null .null l1 r1) := by
              simp only [insert_node_loop]
              rw [if_pos hfull, hins]
            rw [hv]
            refine ⟨fun s h1 hr => ?_, fun _ => ⟨_, _, rfl⟩⟩
            simp only [Option.some.injEq, Prod.mk.injEq] at hr
            rw [← hr.2]
            exact shape_leaf_result b1 hs
          · by_cases hstop : f &&& BHF_LEFT = 0 ∨ m.getD (P.idlen - 1) 0 = 0
            · have hv : insert_node_loop P now nptr node (fuel + 1)
                  (.hdr m f (some b) .null .null l1 r1) =
                  some (KS_STATUS_FAIL, .hdr m f (some b) .null .null l1 r1) := by
                simp only [insert_node_loop]
                rw [if_pos hfull, hins]
                simp only
                by_cases hleft : f &&& BHF_LEFT = 0
                · rw [if_pos hleft]
                · rw [if_neg hleft, if_pos (hstop.resolve_left hleft)]
              rw [hv]
              refine ⟨fun s h1 hr => ?_, fun _ => ⟨_, _, rfl⟩⟩
              simp only [Option.some.injEq, Prod.mk.injEq] at hr
              rw [← hr.2]
              exact shape_leaf_result b hs
            · have hleft : ¬ f &&& BHF_LEFT = 0 := fun hc => hstop (Or.inl hc)
              have hex : ¬ m.getD (P.idlen - 1) 0 = 0 := fun hc => hstop (Or.inr hc)
              have hf : f = BHF_LEFT := by
                rcases hfl with h | h
                · subst h; simp at hleft
                · exact h
              obtain ⟨hmk, hk, _, _, _⟩ := ShapeInv_hdr.1 hs
              have hk1 : 1 ≤ k := by
                by_contra hc
                have hk0 : k = 0 := by omega
                rw [hmk, hk0, trie_mask_zero, getD_replicate_zero] at hex
                exact hex rfl
              have hjk : j ≤ k := by
                rcases hj with h1 | ⟨h2, hK⟩
                · omega
                · by_contra hc
                  have hk2 : k = 1 := by omega
                  have hn : 0 < P.idlen := by omega
                  rw [hk2] at hmk
                  exact hx (full_width_one hK hn hb hfull (fun y hy => by rw [← hmk]; exact hmask y hy)
                    hlen (by rw [← hmk]; exact hm))
              have hsr : ks_dhtrt_shiftright P m = trie_mask P.idlen (k - 1) := by
                rw [hmk]; exact shiftright_trie_mask P hk
              obtain ⟨hL, hR, hN⟩ := split_inv hP (ks_dhtrt_shiftright P m) hinv hfull hf
              have hsplit := mem_split_ids hP (ks_dhtrt_shiftright P m) hb hfull
              have hsL : ShapeInv P j (.hdr (ks_dhtrt_shiftright P m) BHF_LEFT
                  (some (split_left P (ks_dhtrt_shiftright P m) b)) .null .null none none) (k - 1) :=
                ShapeInv_hdr.2 ⟨hsr, by omega, (fun hc => by cases hc), trivial, trivial⟩
              have hsR : ShapeInv P j (.hdr m 0
                  (some (split_right P (ks_dhtrt_shiftright P m) b)) .null .null none none) k :=
                ShapeInv_hdr.2 ⟨hmk, hk, (fun hc => by cases hc), trivial, trivial⟩
              have hv : insert_node_loop P now nptr node (fuel + 1)
                  (.hdr m f (some b) .null .null l1 r1) =
                  (if ks_dhtrt_ismasked P node.nodeid (ks_dhtrt_shiftright P m) then
                    match insert_node_loop P now nptr node fuel
                      (.hdr (ks_dhtrt_shiftright P m) BHF_LEFT
                        (some (split_left P (ks_dhtrt_shiftright P m) b)) .null .null none none) with
                    | none => none
                    | some (s, nl1) => some (s, .hdr m f none nl1
                        (.hdr m 0 (some (split_right P (ks_dhtrt_shiftright P m) b))
                          .null .null none none) l1 r1)
                  else
                    match insert_node_loop P now nptr node fuel
                      (.hdr m 0 (some (split_right P (ks_dhtrt_shiftright P m) b))
                          .null .null none none) with
                    | none => none
                    | some (s, nr1) => some (s, .hdr m f none
                        (.hdr (ks_dhtrt_shiftright P m) BHF_LEFT
                          (some (split_left P (ks_dhtrt_shiftright P m) b)) .null .null none none)
                        nr1 l1 r1)) := by
                simp only [insert_node_loop]
                rw [if_pos hfull, hins]
                simp only
                rw [if_neg hleft, if_neg hex, split_bucket_eq]
                simp only [ks_dhtrt_bucket_header_t.mask]
              rw [hv]
              have hfne : (ks_dhtrt_bucket_header_t.hdr m f (some b) .null .null l1 r1).flags ≠ 0 := by
                simp [ks_dhtrt_bucket_header_t.flags, hf, BHF_LEFT]
              by_cases hgo : ks_dhtrt_ismasked P node.nodeid (ks_dhtrt_shiftright P m) = true
              · rw [if_pos hgo]
                obtain ⟨ih1, ih2⟩ := ih _ (k - 1) hL rfl
                  (by rw [ids_leaf]; exact fun hc => hx ((hsplit _).1.1 hc).1) hgo hsL
                constructor
                · intro s h1 hr
                  cases hrec : insert_node_loop P now nptr node fuel
                      (.hdr (ks_dhtrt_shiftright P m) BHF_LEFT
                        (some (split_left P (ks_dhtrt_shiftright P m) b)) .null .null none none) with
                  | none => rw [hrec] at hr; simp at hr
                  | some res =>
                    obtain ⟨s1, nl1⟩ := res
                    rw [hrec] at hr
                    simp only [Option.some.injEq, Prod.mk.injEq] at hr
                    obtain ⟨a1, a2, _⟩ := ih1 s1 nl1 hrec
                    rw [← hr.2]
                    refine ⟨ShapeInv_hdr.2 ⟨hmk, hk, fun _ => hjk, a1, hsR⟩, ?_,
                      fun h0 => absurd h0 hfne⟩
                    simp only [internal_count, Option.isSome_none, Bool.false_eq_true, if_false,
                      Option.isSome_some, if_true]
                    omega
                · intro hfu
                  have hlt : k - 1 < fuel := by
                    rcases hfu with h0 | ⟨h0, _⟩
                    · omega
                    · exact absurd h0 hfne
                  obtain ⟨s1, nl1, hrec⟩ := ih2 (Or.inl hlt)
                  rw [hrec]
                  exact ⟨_, _, rfl⟩
              · rw [if_neg hgo]
                obtain ⟨ih1, ih2⟩ := ih _ k hR rfl
                  (by rw [ids_leaf]; exact fun hc => hx ((hsplit _).2.1 hc).1) hm hsR
                constructor
                · intro s h1 hr
                  cases hrec : insert_node_loop P now nptr node fuel
                      (.hdr m 0 (some (split_right P (ks_dhtrt_shiftright P m) b))
                          .null .null none none) with
                  | none => rw [hrec] at hr; simp at hr
                  | some res =>
                    obtain ⟨s1, nr1⟩ := res
                    rw [hrec] at hr
                    simp only [Option.some.injEq, Prod.mk.injEq] at hr
                    obtain ⟨a1, _, a3⟩ := ih1 s1 nr1 hrec
                    rw [← hr.2]
                    refine ⟨ShapeInv_hdr.2 ⟨hmk, hk, fun _ => hjk, hsL, a1⟩, ?_,
                      fun h0 => absurd h0 hfne⟩
                    have a4 := a3 rfl
                    simp only [internal_count, Option.isSome_none, Bool.false_eq_true, if_false,
                      Option.isSome_some, if_true, a4]
                    omega
                · intro hfu
                  have hlt : 0 < fuel := by
                    rcases hfu with h0 | ⟨h0, _⟩
                    · omega
                    · exact absurd h0 hfne
                  obtain ⟨s1, nr1, hrec⟩ := ih2 (Or.inr ⟨rfl, hlt⟩)
                  rw [hrec]
                  exact ⟨_, _, rfl⟩
        · have hcount : b.count ≤ P.bucketsize := by
            rw [hb.count, ← hb.len]; exact List.length_filter_le _ _
          obtain ⟨b1, hv⟩ := @insert_loop_room P hP now nptr node hlen m f b .null .null l1 r1 hb hx
            (by omega) (fuel + 1)
          rw [hv]
          refine ⟨fun s h1 hr => ?_, fun _ => ⟨_, _, rfl⟩⟩
          simp only [Option.some.injEq, Prod.mk.injEq] at hr
          rw [← hr.2]
          exact shape_leaf_result b1 hs

/-! ## The public operations keep the shape of the trie -/

theorem ids_deref_subset : ∀ (p : HPtr) (root : Header) (y : List Nat),
    y ∈ ids (deref root p) → y ∈ ids root := by
  intro p
  induction p with
  | nil => intro root y h; simpa using h
  | cons d p ih =>
    intro root y h
    cases root with
    | null => simp [deref, ids] at h
    | hdr m f b l r l1 r1 =>
      cases d
      · have := ih l y (by simpa [deref] using h)
        simp only [ids, List.mem_append]
        exact Or.inr (Or.inl this)
      · have := ih r y (by simpa [deref] using h)
        simp only [ids, List.mem_append]
        exact Or.inr (Or.inr this)

theorem internal_count_setAt (h1 : Header) : ∀ (p : HPtr) (root : Header),
    deref root p ≠ .null → internal_count (deref root p) = 0 →
    internal_count (setAt h1 root p) = internal_count root + internal_count h1 := by
  intro p
  induction p with
  | nil => intro root _ h0; simp only [deref_nil] at h0; simp [h0]
  | cons d p ih =>
    intro root hne h0
    cases root with
    | null => exact absurd rfl hne
    | hdr m f b l r l1 r1 =>
      cases d
      · have := ih l (by simpa [deref] using hne) (by simpa [deref] using h0)
        simp only [setAt, Bool.false_eq_true, if_false, internal_count, this]
        omega
      · have := ih r (by simpa [deref] using hne) (by simpa [deref] using h0)
        simp only [setAt, if_true, internal_count, this]
        omega

theorem internal_count_leaf {P : Params} {h : Header} (hinv : TrieInv P h)
    (hb : h.bucket.isSome = true) : internal_count h = 0 := by
  cases h with
  | null => exact absurd hinv id
  | hdr m f b l r l1 r1 =>
    cases b with
    | none => simp [ks_dhtrt_bucket_header_t.bucket] at hb
    | some b =>
      obtain ⟨hl, hr, _⟩ := TrieInv_leaf.1 hinv
      subst hl hr
      simp [internal_count]

/-- The function `ks_dhtrt_insert_node` keeps the shape of the trie. -/
theorem insert_node_shape {P : Params} (hP : P.ok) {j : Nat}
    (hj : j = 1 ∨ (j = 2 ∧ 2 ≤ P.bucketsize)) (now nptr : Nat) (node : ks_dht_node_t)
    (hlen : node.nodeid.length = P.idlen) {root root1 : Header} {s : ks_status_t}
    (hinv : RootInv P root)
    (hx : ∀ p, ks_dhtrt_find_bucketheader P root node.nodeid = some p →
      node.nodeid ∉ ids (deref root p)) {k : Nat} (hs : ShapeInv P j root k)
    (h : insert_node_locked P now root nptr node = some (s, root1)) :
    ShapeInv P j root1 k := by
  unfold insert_node_locked at h
  cases hf : ks_dhtrt_find_bucketheader P root node.nodeid with
  | none => rw [hf] at h; simp at h
  | some p =>
    rw [hf] at h
    simp only at h
    cases hl : insert_node_loop P now nptr node 3201 (deref root p) with
    | none => rw [hl] at h; simp at h
    | some res =>
      obtain ⟨s1, h1⟩ := res
      rw [hl] at h
      simp only [Option.some.injEq, Prod.mk.injEq] at h
      obtain ⟨rfl, rfl⟩ := h
      obtain ⟨hbk, _⟩ := find_spec root p hinv.inv hf
      have hne := bucket_isSome_ne_null hbk
      have hmask := find_mask root p hinv.inv (by rw [hinv.mask]; exact ismasked_ones P _) hf
      refine ShapeInv.store h1 p root k hs (fun k1 hk1 => ?_)
      exact ((insert_loop_shape hP hj now nptr node hlen 3201 (deref root p) k1
        (hinv.inv.deref p root hne) hbk (hx p hf) hmask hk1).1 s1 h1 hl).1

/-- The function `ks_dhtrt_create_node` keeps the shape of the trie. -/
theorem create_node_shape {P : Params} (hP : P.ok) {j : Nat}
    (hj : j = 1 ∨ (j = 2 ∧ 2 ≤ P.bucketsize)) {now : Nat} {addr_ok : Bool} {t t1 : Table}
    {x : List Nat} {type : Nat} {ip : List Char} {port : Nat} {s : ks_status_t} {node : Option Nat}
    (hinv : RootInv P t.buckets) (hx : x.length = P.idlen) {k : Nat}
    (hs : ShapeInv P j t.buckets k)
    (h : ks_dhtrt_create_node P now addr_ok t x type ip port = some (s, node, t1)) :
    ShapeInv P j t1.buckets k := by
  unfold ks_dhtrt_create_node at h
  cases hf : ks_dhtrt_find_bucketheader P t.buckets x with
  | none => rw [hf] at h; simp at h
  | some p =>
    rw [hf] at h
    simp only at h
    obtain ⟨hbk, _⟩ := find_spec t.buckets p hinv.inv hf
    have hne := bucket_isSome_ne_null hbk
    obtain ⟨b, hb⟩ := Option.isSome_iff_exists.1 hbk
    obtain ⟨hbi, _⟩ := hinv.bucket p hb
    rw [hb] at h
    cases he : ks_dhtrt_find_bucketentry P (deref t.buckets p) x with
    | some ix =>
      rw [he] at h
      simp only at h
      split at h
      · simp at h
      · split at h
        · simp at h
        · rename_i t2 hlock
          simp only [Option.some.injEq, Prod.mk.injEq] at h
          obtain ⟨_, _, rfl⟩ := h
          rw [read_lock_buckets hlock]
          exact hs.store_bucket p _
    | none =>
      rw [he] at h
      simp only at h
      unfold ks_dhtrt_find_bucketentry at he
      rw [hb] at he
      simp only at he
      have hfresh : x ∉ inuse_ids b := not_mem_of_find_none hbi hx he
      cases hmk : ks_dhtrt_make_node P t with
      | none => rw [hmk] at h; simp at h
      | some res =>
        obtain ⟨tnode, t2⟩ := res
        rw [hmk] at h
        simp only at h
        have hb2 := make_node_buckets hmk
        cases addr_ok with
        | false =>
          simp only [Bool.not_false, if_true, Option.some.injEq, Prod.mk.injEq] at h
          obtain ⟨_, _, rfl⟩ := h
          rw [set_node_buckets, hb2]
          exact hs
        | true =>
          simp only [Bool.not_true, Bool.false_eq_true, if_false, set_node_buckets] at h
          rw [hb2] at h
          have hfr : ∀ p1, ks_dhtrt_find_bucketheader P t.buckets
              (new_node_record P t2 tnode x type ip port).nodeid = some p1 →
              (new_node_record P t2 tnode x type ip port).nodeid ∉ ids (deref t.buckets p1) := by
            intro p1 hp1
            have hp2 : ks_dhtrt_find_bucketheader P t.buckets x = some p1 := hp1
            rw [hf] at hp2
            simp only [Option.some.injEq] at hp2
            subst hp2
            show x ∉ ids (deref t.buckets p)
            rw [ids_leaf_bucket (hinv.inv.deref p _ hne) hb]
            exact hfresh
          split at h
          · simp at h
          · rename_i root1 hins
            obtain ⟨t3, hlock, h3⟩ := Option.map_eq_some'.1 h
            simp only [Prod.mk.injEq] at h3
            obtain ⟨_, _, rfl⟩ := h3
            rw [read_lock_buckets hlock]
            exact insert_node_shape hP hj now tnode _ hx hinv hfr hs (insert_node_some hins).2
          · rename_i root1 hins
            simp only [Option.some.injEq, Prod.mk.injEq] at h
            obtain ⟨_, _, rfl⟩ := h
            exact insert_node_shape hP hj now tnode _ hx hinv hfr hs (insert_node_some hins).2

/-- Every table reachable by the public operations has the shape of the trie: the root
keeps the all-ones mask, every step to the left takes one bit off the mask, every
step to the right keeps it. -/
theorem reachable_shape {P : Params} (hP : P.ok) {j : Nat}
    (hj : j = 1 ∨ (j = 2 ∧ 2 ≤ P.bucketsize)) {t : Table} (h : Reachable P t) :
    ShapeInv P j t.buckets (8 * P.idlen) := by
  have hB : ∀ (root : Header) (p : HPtr) (b : ks_dhtrt_bucket_t),
      ShapeInv P j root (8 * P.idlen) →
      ShapeInv P j (setAt (set_bucket b (deref root p)) root p) (8 * P.idlen) :=
    fun _ p b hq => hq.store_bucket p b
  have hL : ∀ (root : Header) (p : HPtr) (v : Option HPtr),
      ShapeInv P j root (8 * P.idlen) →
      ShapeInv P j (setAt (set_left1bit v (deref root p)) root p) (8 * P.idlen) :=
    fun _ p v hq => hq.store_left1bit p v
  have hR : ∀ (root : Header) (p : HPtr) (v : Option HPtr),
      ShapeInv P j root (8 * P.idlen) →
      ShapeInv P j (setAt (set_right1bit v (deref root p)) root p) (8 * P.idlen) :=
    fun _ p v hq => hq.store_right1bit p v
  induction h with
  | init =>
    exact ShapeInv_hdr.2 ⟨(trie_mask_full P.idlen).symm, Nat.le_refl _, (fun hc => by cases hc),
      trivial, trivial⟩
  | create_node hr hx h ih => exact create_node_shape hP hj (reachable_inv hP hr) hx.1 ih h
  | delete_node _ h ih => exact delete_node_keeps hB ih (delete_node_some h).1
  | find_node _ _ h ih => rw [find_node_buckets h]; exact ih
  | touch_node _ _ h ih => rw [touch_node_snd h]; exact touch_node_keeps hB _ _ _ ih
  | expire_node _ _ h ih => rw [expire_node_snd h]; exact expire_node_keeps hB _ _ ih
  | findclosest_nodes _ _ h ih =>
    exact findclosest_nodes_keeps hL hR (fun root p b n _ hq => hB root p { b with lock := n } hq) ih h
  | release_node _ h ih =>
    rw [read_unlock_buckets (by simpa [ks_dhtrt_release_node] using h)]; exact ih
  | sharelock_node _ h ih =>
    rw [read_lock_buckets (by simpa [ks_dhtrt_sharelock_node] using h)]; exact ih
  | release_querynodes _ h ih =>
    rw [release_querynodes_buckets _ _ _ (by simpa [ks_dhtrt_release_querynodes] using h)]; exact ih
  | process_table _ h ih => exact process_table_keeps hB ih h

/-- C34: in every table reachable by the public operations, the mask of every header is
a run of one-bits at the low-order end (its big-endian value is `2^k - 1` for some
`k <= 8 * KS_DHT_NODEID_SIZE`, and it has `KS_DHT_NODEID_SIZE` bytes), a right child has
the mask of its parent, and a left child has the mask of its parent after
`ks_dhtrt_shiftright`. -/
theorem C34_masks_right_filled (P : Params) (hP : P.ok) (t : Table) (h : Reachable P t)
    (p : HPtr) (hne : deref t.buckets p ≠ .null) :
    (∃ k, k ≤ 8 * P.idlen ∧ wf_id P (deref t.buckets p).mask ∧
      be_value (deref t.buckets p).mask = 2 ^ k - 1) ∧
    (deref t.buckets (p ++ [true]) ≠ .null →
      (deref t.buckets (p ++ [true])).mask = (deref t.buckets p).mask) ∧
    (deref t.buckets (p ++ [false]) ≠ .null →
      (deref t.buckets (p ++ [false])).mask =
        ks_dhtrt_shiftright P (deref t.buckets p).mask) := by
  obtain ⟨k, hk, hs⟩ := (reachable_shape hP (Or.inl rfl) h).below p t.buckets (8 * P.idlen)
  rw [deref_append, deref_append]
  cases hd : deref t.buckets p with
  | null => exact absurd hd hne
  | hdr m f b l r l1 r1 =>
    rw [hd] at hs
    obtain ⟨hm, hk1, _, hl, hr⟩ := ShapeInv_hdr.1 hs
    have hv := be_value_trie_mask P.idlen k
    refine ⟨⟨k, hk1, ?_, ?_⟩, ?_, ?_⟩
    · simp only [ks_dhtrt_bucket_header_t.mask, hm]
      exact ⟨trie_mask_length hk1, trie_mask_lt _ _⟩
    · simp only [ks_dhtrt_bucket_header_t.mask, hm]
      omega
    · intro hr0
      simp only [deref, if_true, deref_nil] at hr0 ⊢
      cases r with
      | null => exact absurd rfl hr0
      | hdr m2 f2 b2 l2 r2 c1 c2 =>
        obtain ⟨hm2, _⟩ := ShapeInv_hdr.1 hr
        simp only [ks_dhtrt_bucket_header_t.mask, hm, hm2]
    · intro hl0
      simp only [deref, Bool.false_eq_true, if_false, deref_nil] at hl0 ⊢
      cases l with
      | null => exact absurd rfl hl0
      | hdr m2 f2 b2 l2 r2 c1 c2 =>
        obtain ⟨hm2, _⟩ := ShapeInv_hdr.1 hl
        simp only [ks_dhtrt_bucket_header_t.mask, hm, hm2]
        exact (shiftright_trie_mask P hk1).symm

theorem C34_witness :
    (testParams.ok ∧ Reachable testParams s1_table ∧ deref s1_table.buckets [false] ≠ .null) ∧
    (deref s1_table.buckets []).mask = [0xff, 0xff] ∧
    (deref s1_table.buckets [false]).mask = [0x7f, 0xff] ∧
    (deref s1_table.buckets [false, true]).mask = [0x7f, 0xff] ∧
    (deref s1_table.buckets [false, false]).mask = [0x3f, 0xff] ∧
    ((∃ k, k ≤ 8 * testParams.idlen ∧ wf_id testParams (deref s1_table.buckets [false]).mask ∧
      be_value (deref s1_table.buckets [false]).mask = 2 ^ k - 1) ∧
    (deref s1_table.buckets ([false] ++ [true]) ≠ .null →
      (deref s1_table.buckets ([false] ++ [true])).mask = (deref s1_table.buckets [false]).mask) ∧
    (deref s1_table.buckets ([false] ++ [false]) ≠ .null →
      (deref s1_table.buckets ([false] ++ [false])).mask =
        ks_dhtrt_shiftright testParams (deref s1_table.buckets [false]).mask)) :=
  ⟨⟨by decide, reachable_table_after s1_calls (by decide!), by decide!⟩, by decide!, by decide!,
    by decide!, by decide!,
    C34_masks_right_filled testParams (by decide) s1_table
      (reachable_table_after s1_calls (by decide!)) [false] (by decide!)⟩

/-- C35: in every table reachable by the public operations, for every fresh id, when the
mask of the leaf the descent ends at has the value `2^k - 1`, the code of
`ks_dhtrt_insert_node` that follows `ks_rwl_write_lock(bucket->lock)`, with its loop of
splits and retries (`insert_node_locked`), returns (success or fail, so the assertion
`insanity < 3200` does not fire, given `8 * KS_DHT_NODEID_SIZE <= 3200`) and it makes at
most `k <= 8 * KS_DHT_NODEID_SIZE` splits: the trie after it has at most `k` more headers
without a bucket.  When no read lock is held on the bucket of that leaf, the call
`ks_dhtrt_insert_node` returns that status and that trie. -/
theorem C35_insert_splits_bounded (P : Params) (hP : P.ok) (hlen : 8 * P.idlen ≤ 3200)
    (t : Table) (h : Reachable P t) (now nptr : Nat) (node : ks_dht_node_t)
    (hx : wf_id P node.nodeid) (hfresh : node.nodeid ∉ ids t.buckets) :
    ∃ p k s root1, ks_dhtrt_find_bucketheader P t.buckets node.nodeid = some p ∧
      be_value (deref t.buckets p).mask = 2 ^ k - 1 ∧ k ≤ 8 * P.idlen ∧
      insert_node_locked P now t.buckets nptr node = some (s, root1) ∧
      (write_blocked P t.buckets node.nodeid = false →
        ks_dhtrt_insert_node P now t.buckets nptr node = some (s, root1)) ∧
      (s = KS_STATUS_SUCCESS ∨ s = KS_STATUS_FAIL) ∧
      internal_count root1 ≤ internal_count t.buckets + k := by
  have hinv := reachable_inv hP h
  obtain ⟨p, hf⟩ := find_total node.nodeid t.buckets hinv.inv
  have hf1 : ks_dhtrt_find_bucketheader P t.buckets node.nodeid = some p := hf
  obtain ⟨hbk, _⟩ := find_spec t.buckets p hinv.inv hf
  have hne := bucket_isSome_ne_null hbk
  have hmask := find_mask t.buckets p hinv.inv (by rw [hinv.mask]; exact ismasked_ones P _) hf
  obtain ⟨k, hk, hs⟩ := (reachable_shape hP (Or.inl rfl) h).below p t.buckets (8 * P.idlen)
  have hsub := hinv.inv.deref p t.buckets hne
  obtain ⟨hpart, htot⟩ := insert_loop_shape hP (Or.inl rfl) now nptr node hx.1 3201
    (deref t.buckets p) k hsub hbk (fun hc => hfresh (ids_deref_subset p _ _ hc)) hmask hs
  obtain ⟨s, h1, hl⟩ := htot (Or.inl (by omega))
  obtain ⟨_, hcnt, _⟩ := hpart s h1 hl
  have hmk : (deref t.buckets p).mask = trie_mask P.idlen k := by
    cases hd : deref t.buckets p with
    | null => exact absurd hd hne
    | hdr m f b l r l1 r1 =>
      rw [hd] at hs
      exact (ShapeInv_hdr.1 hs).1
  have hv := be_value_trie_mask P.idlen k
  have hins : insert_node_locked P now t.buckets nptr node = some (s, setAt h1 t.buckets p) := by
    unfold insert_node_locked
    rw [hf1]
    simp only
    rw [hl]
  refine ⟨p, k, s, setAt h1 t.buckets p, hf1, by rw [hmk]; omega, hk, hins, ?_, ?_, ?_⟩
  · intro hw
    rw [insert_node_free now nptr hw, hins]
  · cases s
    · exact Or.inl rfl
    · exact Or.inr rfl
  · rw [internal_count_setAt h1 p t.buckets hne (internal_count_leaf hsub hbk)]
    omega

theorem C35_witness :
    (testParams.ok ∧ 8 * testParams.idlen ≤ 3200 ∧ Reachable testParams pair_table ∧
      wf_id testParams third_node.nodeid ∧ third_node.nodeid ∉ ids pair_table.buckets) ∧
    internal_count pair_table.buckets = 0 ∧
    write_blocked testParams pair_table.buckets third_node.nodeid = false ∧
    (ks_dhtrt_insert_node testParams 0 pair_table.buckets 2 third_node).map
      (fun r => (r.1, internal_count r.2)) = some (KS_STATUS_SUCCESS, 2) ∧
    ∃ p k s root1, ks_dhtrt_find_bucketheader testParams pair_table.buckets third_node.nodeid =
        some p ∧
      be_value (deref pair_table.buckets p).mask = 2 ^ k - 1 ∧ k ≤ 8 * testParams.idlen ∧
      insert_node_locked testParams 0 pair_table.buckets 2 third_node = some (s, root1) ∧
      (write_blocked testParams pair_table.buckets third_node.nodeid = false →
        ks_dhtrt_insert_node testParams 0 pair_table.buckets 2 third_node = some (s, root1)) ∧
      (s = KS_STATUS_SUCCESS ∨ s = KS_STATUS_FAIL) ∧
      internal_count root1 ≤ internal_count pair_table.buckets + k :=
  ⟨⟨by decide, by decide, reachable_table_after pair_calls (by decide!), by decide, by decide!⟩,
    by decide!, by decide!, by decide!,
    C35_insert_splits_bounded testParams (by decide) (by decide) pair_table
      (reachable_table_after pair_calls (by decide!)) 0 2 third_node (by decide) (by decide!)⟩

/-- C31 (counterexample): in scenario S1 (ids of 2 bytes, buckets of 2, the ids 0x0100,
0x0200 and 0x4000 created on a fresh table, all three held by slots in use), the query
for the 2 nodes closest to 0x0300 with all types and either family returns count 0
and no node, not the list [0x0200, 0x0100]: the three slots are dubious and the query
takes active slots only. -/
theorem C31_fresh_nodes_not_returned :
    Reachable testParams s1_table ∧
    ids s1_table.buckets = [[0x01, 0x00], [0x02, 0x00], [0x40, 0x00]] ∧
    ((slot_of testParams s1_table.buckets [false, false] 0).flags = DHTPEER_DUBIOUS ∧
      (slot_of testParams s1_table.buckets [false, false] 1).flags = DHTPEER_DUBIOUS ∧
      (slot_of testParams s1_table.buckets [false, true] 0).flags = DHTPEER_DUBIOUS) ∧
    (ks_dhtrt_findclosest_nodes testParams s1_table (query_all testParams [0x03, 0x00] 2)).map
      (fun r => (r.1, r.2.1.count)) = some (0, 0) ∧
    closest_result testParams s1_table (query_all testParams [0x03, 0x00] 2) = some [] :=
  ⟨reachable_table_after s1_calls (by decide!), by decide!, ⟨by decide!, by decide!, by decide!⟩,
    by decide!, by decide!⟩

/-- C31 (amended): in scenario S1 the query for the 2 nodes closest to 0x0300 returns no
node while the three slots are dubious; once `ks_dhtrt_touch_node` has made the three
nodes active, it returns count 2, and the two entries of its result are the nodes
0x0100 and 0x0200, the two active nodes closest to 0x0300; the node 0x4000 is not
among them.  Nothing is said here about the order of the two entries. -/
theorem C31_touched_nodes_returned :
    Reachable testParams s1_table ∧ Reachable testParams s1_touched_table ∧
    closest_result testParams s1_table (query_all testParams [0x03, 0x00] 2) = some [] ∧
    (ks_dhtrt_findclosest_nodes testParams s1_touched_table
        (query_all testParams [0x03, 0x00] 2)).map (fun r => (r.1, r.2.1.count)) = some (2, 2) ∧
    (closest_result testParams s1_touched_table (query_all testParams [0x03, 0x00] 2)).map
      (fun l => (l.length, decide (some [0x01, 0x00] ∈ l), decide (some [0x02, 0x00] ∈ l),
        decide (some [0x40, 0x00] ∈ l))) = some (2, true, true, false) :=
  ⟨reachable_table_after s1_calls (by decide!), reachable_table_after s1_touched_calls (by decide!),
    by decide!, by decide!, by decide!⟩

/-- C36 (code defect): with ids of 2 bytes and buckets of 2, the nodes 0x0100 and 0x0200
fill the root bucket and are touched at clock reading 7 (flags active, `touched` 1,
`tyme` 7); the call for 0x4000 splits the bucket and moves both slots to the left,
in their order from index 0 on, with id, node, family and type, but with flags
dubious, `tyme` 0 and `touched` 0: the liveness fields are not moved. -/
theorem C36_split_drops_liveness :
    Reachable testParams pair_touched_table ∧ Reachable testParams pair_split_table ∧
    (slot_of testParams pair_touched_table.buckets [] 0 =
      { tyme := 7, id := [0x01, 0x00], gptr := some 0, type := 1, family := 2, inuse := 1,
        outstanding_pings := 0, flags := DHTPEER_ACTIVE, touched := 1 } ∧
     slot_of testParams pair_touched_table.buckets [] 1 =
      { tyme := 7, id := [0x02, 0x00], gptr := some 1, type := 1, family := 2, inuse := 1,
        outstanding_pings := 0, flags := DHTPEER_ACTIVE, touched := 1 }) ∧
    (slot_of testParams pair_split_table.buckets [false, false] 0 =
      { tyme := 0, id := [0x01, 0x00], gptr := some 0, type := 1, family := 2, inuse := 1,
        outstanding_pings := 0, flags := DHTPEER_DUBIOUS, touched := 0 } ∧
     slot_of testParams pair_split_table.buckets [false, false] 1 =
      { tyme := 0, id := [0x02, 0x00], gptr := some 1, type := 1, family := 2, inuse := 1,
        outstanding_pings := 0, flags := DHTPEER_DUBIOUS, touched := 0 }) ∧
    closest_result testParams pair_touched_table (query_all testParams [0x03, 0x00] 2) =
      some [some [0x01, 0x00], some [0x02, 0x00]] ∧
    closest_result testParams pair_split_table (query_all testParams [0x03, 0x00] 2) = some [] :=
  ⟨reachable_table_after pair_touched_calls (by decide!),
    reachable_table_after pair_split_calls (by decide!),
    ⟨by decide!, by decide!⟩, ⟨by decide!, by decide!⟩, by decide!, by decide!⟩

/-- C37 (code defect): on the table of scenario S1 with its three nodes touched (three
active nodes, the records 0, 1 and 2), the query for the 3 nodes closest to 0x0300
returns count 3 with `nodes[2]` still NULL, and the query for 8 nodes returns count 8
with `nodes[2..8)` still NULL: more entries are counted than the table has nodes, and
the counted entries are not all written. -/
theorem C37_closest_counts_unwritten_entries :
    Reachable testParams s1_touched_table ∧
    (s1_touched_table.nodes.map (fun n => n.map (fun r => r.nodeid)) =
      [some [0x01, 0x00], some [0x02, 0x00], some [0x40, 0x00]]) ∧
    (active_slots s1_touched_table.buckets).length = 3 ∧
    (ks_dhtrt_findclosest_nodes testParams s1_touched_table
        (query_all testParams [0x03, 0x00] 3)).map (fun r => (r.1, r.2.1.count, r.2.1.nodes.take r.1)) =
      some (3, 3, [some 2, some 1, none]) ∧
    (ks_dhtrt_findclosest_nodes testParams s1_touched_table
        (query_all testParams [0x03, 0x00] 8)).map (fun r => (r.1, r.2.1.count, r.2.1.nodes.take r.1)) =
      some (8, 8, [some 0, some 1, none, none, none, none, none, none]) :=
  ⟨reachable_table_after s1_touched_calls (by decide!), by decide!, by decide!, by decide!,
    by decide!⟩

end KsDht
